import Mathlib

/-! # KaHyPar: k-way max-gain-node FM refinement

A shallow embedding of `MaxGainNodeKWayFMRefiner.h` (release build: `ASSERT`s and
`DBG` output compiled out), together with models of the hypergraph store and of
the heap priority queue, which the refiner uses but which are not part of the
available sources.

Machine integers: `PartitionID`, `HyperedgeWeight` (= `Gain`) and `HypernodeWeight`
are signed 32-bit in the program and are embedded as `Int`; the two sentinels that
the refiner takes from `std::numeric_limits` are the constants `gainMin` and
`lockedSentinel`.  Ids of hypernodes and hyperedges are `Nat`.
-/

namespace KaHyPar

abbrev HypernodeID := Nat
abbrev HyperedgeID := Nat
abbrev PartitionID := Int
abbrev HyperedgeWeight := Int
abbrev HypernodeWeight := Int
abbrev Gain := Int

/-- The value of `Hypergraph::kInvalidPartition`. -/
def kInvalidPartition : PartitionID := -1

/-- The value of `std::numeric_limits<Gain>::min()` for the 32-bit `Gain`. -/
def gainMin : Gain := -2147483648

/-- The value of `std::numeric_limits<PartitionID>::max()`, the lock state "locked". -/
def lockedSentinel : PartitionID := 2147483647

/-! ## Hypergraph store -/

/-- Modelled from the spec: the hypergraph store (`lib/datastructure/Hypergraph.h` is
not among the sources).  Section 3 of the spec: per hyperedge a pin list and a
weight, per hypernode a weight and a partition id, `k` parts.  The spec defines the
pin count of `(e, p)` as the number of pins of `e` with partition id `p`, the
connectivity set as the parts with a positive pin count, and the per-part
aggregates as sums over the block; the model computes all of them from the pin
lists and the partition ids, so the consistency invariants of the spec hold by
construction. -/
structure Hypergraph where
  k : Nat
  edge_pins : List (List HypernodeID)
  edge_weights : List HyperedgeWeight
  node_weights : List HypernodeWeight
  part : List PartitionID
deriving DecidableEq, Repr

namespace Hypergraph

def initialNumNodes (hg : Hypergraph) : Nat := hg.part.length

def initialNumEdges (hg : Hypergraph) : Nat := hg.edge_pins.length

def nodes (hg : Hypergraph) : List HypernodeID := List.range hg.initialNumNodes

def edges (hg : Hypergraph) : List HyperedgeID := List.range hg.initialNumEdges

def pins (hg : Hypergraph) (he : HyperedgeID) : List HypernodeID := hg.edge_pins.getD he []

/-- Modelled from the spec: the incident-edges list of a hypernode, "edges in
which v is a pin", in increasing order of hyperedge id. -/
def incidentEdges (hg : Hypergraph) (hn : HypernodeID) : List HyperedgeID :=
  hg.edges.filter (fun he => decide (hn ∈ hg.pins he))

def edgeSize (hg : Hypergraph) (he : HyperedgeID) : Nat := (hg.pins he).length

def edgeWeight (hg : Hypergraph) (he : HyperedgeID) : HyperedgeWeight :=
  hg.edge_weights.getD he 0

def nodeWeight (hg : Hypergraph) (hn : HypernodeID) : HypernodeWeight :=
  hg.node_weights.getD hn 0

def partID (hg : Hypergraph) (hn : HypernodeID) : PartitionID := hg.part.getD hn kInvalidPartition

/-- Modelled from the spec: "pin-count-in-part[e][p], number of pins of e with π=p". -/
def pinCountInPart (hg : Hypergraph) (he : HyperedgeID) (p : PartitionID) : Nat :=
  (hg.pins he).countP (fun v => decide (hg.partID v = p))

/-- Modelled from the spec: "connectivity set λ(e) = { p : pin-count-in-part[e][p] > 0 }",
listed in increasing order of the part id. -/
def connectivitySet (hg : Hypergraph) (he : HyperedgeID) : List PartitionID :=
  ((List.range hg.k).map (fun i : Nat => (i : Int))).filter (fun p => decide (0 < hg.pinCountInPart he p))

/-- Modelled from the spec: "|λ(e)| is the connectivity". -/
def connectivity (hg : Hypergraph) (he : HyperedgeID) : Nat := (hg.connectivitySet he).length

/-- Modelled from the spec: "w(V_p) (total vertex weight in block p)". -/
def partWeight (hg : Hypergraph) (p : PartitionID) : HypernodeWeight :=
  ((hg.nodes.filter (fun v => decide (hg.partID v = p))).map hg.nodeWeight).sum

/-- Modelled from the spec: "|V_p| (count)". -/
def partSize (hg : Hypergraph) (p : PartitionID) : Nat :=
  hg.nodes.countP (fun v => decide (hg.partID v = p))

/-- Modelled from the spec: `changeNodePart(v, from, to)`, "Requires π(v)=from ...
Sets π(v)=to"; the pin counts, connectivity sets and per-part aggregates follow
the partition ids (see `Hypergraph`). -/
def changeNodePart (hg : Hypergraph) (hn : HypernodeID) (_from_part to_part : PartitionID) :
    Hypergraph :=
  { hg with part := hg.part.set hn to_part }

/-- Well-formed, completely partitioned hypergraph: one weight per hyperedge and per
hypernode, pins are hypernodes and occur once per hyperedge, hyperedge weights are
non-negative and their total fits the 32-bit `HyperedgeWeight`, and every
hypernode is in one of the `k` parts. -/
def WellFormed (hg : Hypergraph) : Prop :=
  hg.edge_weights.length = hg.edge_pins.length ∧
  hg.node_weights.length = hg.part.length ∧
  (∀ ps ∈ hg.edge_pins, ps.Nodup ∧ ∀ v ∈ ps, v < hg.part.length) ∧
  (∀ w ∈ hg.edge_weights, 0 ≤ w) ∧
  hg.edge_weights.sum < 2147483648 ∧
  (∀ p ∈ hg.part, 0 ≤ p ∧ p < (hg.k : Int))

instance (hg : Hypergraph) : Decidable hg.WellFormed := by
  unfold WellFormed; infer_instance

end Hypergraph

/-- Modelled from the spec: `metrics::hyperedgeCut` (`partition/Metrics.h` is not among
the sources), "Cut / hyperedge-cut: Σ w(e) over edges with connectivity ≥ 2". -/
def hyperedgeCut (hg : Hypergraph) : HyperedgeWeight :=
  ((hg.edges.filter (fun he => decide (1 < hg.connectivity he))).map hg.edgeWeight).sum

/-- Modelled from the spec: `FMRefinerBase::isBorderNode` (`FMRefinerBase.h` is not
among the sources), "A vertex v is a border node iff some incident edge has
connectivity ≥ 2". -/
def isBorderNode (hg : Hypergraph) (hn : HypernodeID) : Bool :=
  (hg.incidentEdges hn).any (fun he => decide (1 < hg.connectivity he))

/-- The members of `config.fm_local_search` that the stopping policies read; the `double`
`alpha` is embedded as a rational number. -/
structure FMLocalSearchParameters where
  max_number_of_fruitless_moves : Int := 0
  alpha : ℚ := 0
deriving DecidableEq, Repr

/-- The members of `config.initial_partitioning` that the initial partitioner reads. -/
structure InitialPartitioningParameters where
  k : Nat := 0
  lower_allowed_partition_weight : List HypernodeWeight := []
  upper_allowed_partition_weight : List HypernodeWeight := []
deriving DecidableEq, Repr

/-- The part of `Configuration` that the refiner, the stopping policies and the initial
partitioner read; `k`, `max_part_weight` and `total_graph_weight` are the members of
`config.partition`. -/
structure Configuration where
  k : Nat
  max_part_weight : HypernodeWeight
  total_graph_weight : HypernodeWeight := 0
  fm_local_search : FMLocalSearchParameters := {}
  initial_partitioning : InitialPartitioningParameters := {}
deriving DecidableEq, Repr

/-! ## Priority queue -/

/-- One element of the heap: the hypernode id, its key and its data slot. -/
structure PQEntry where
  id : HypernodeID
  key : Gain
  data : PartitionID
deriving DecidableEq, Repr

/-- Modelled from the spec: the heap-backed priority queue with side channel
(`lib/datastructure/PriorityQueue.h` and `external/binary_heap/BinaryHeap.hpp` are
not among the sources), "Max-heap over (key, id) with an auxiliary mapping id→heap
position and id→data slot".  The model keeps the elements in insertion order;
`max` is an element of maximal key, the earliest inserted among equal keys. -/
abbrev KWayRefinementPQ := List PQEntry

namespace KWayRefinementPQ

def contains (pq : KWayRefinementPQ) (id : HypernodeID) : Bool :=
  pq.any (fun e => decide (e.id = id))

def key (pq : KWayRefinementPQ) (id : HypernodeID) : Gain :=
  match pq.find? (fun e => decide (e.id = id)) with
  | some e => e.key
  | none => 0

def data (pq : KWayRefinementPQ) (id : HypernodeID) : PartitionID :=
  match pq.find? (fun e => decide (e.id = id)) with
  | some e => e.data
  | none => kInvalidPartition

def remove (pq : KWayRefinementPQ) (id : HypernodeID) : KWayRefinementPQ :=
  pq.filter (fun e => decide (e.id ≠ id))

def reInsert (pq : KWayRefinementPQ) (id : HypernodeID) (key : Gain) (data : PartitionID) :
    KWayRefinementPQ :=
  remove pq id ++ [{ id := id, key := key, data := data }]

def updateKey (pq : KWayRefinementPQ) (id : HypernodeID) (key : Gain) : KWayRefinementPQ :=
  pq.map (fun e => if e.id = id then { e with key := key } else e)

/-- Assignment through the reference returned by `data(id)`. -/
def setData (pq : KWayRefinementPQ) (id : HypernodeID) (data : PartitionID) : KWayRefinementPQ :=
  pq.map (fun e => if e.id = id then { e with data := data } else e)

def maxEntry : KWayRefinementPQ → Option PQEntry
  | [] => none
  | e :: es =>
    match maxEntry es with
    | none => some e
    | some m => if e.key < m.key then some m else some e

def max (pq : KWayRefinementPQ) : HypernodeID :=
  match maxEntry pq with
  | some e => e.id
  | none => 0

def maxKey (pq : KWayRefinementPQ) : Gain :=
  match maxEntry pq with
  | some e => e.key
  | none => 0

def deleteMax (pq : KWayRefinementPQ) : KWayRefinementPQ := remove pq (max pq)

def clear (_pq : KWayRefinementPQ) : KWayRefinementPQ := []

def empty (pq : KWayRefinementPQ) : Bool := pq.isEmpty

end KWayRefinementPQ

/-! ## The refiner -/

structure RollbackInfo where
  hn : HypernodeID
  from_part : PartitionID
  to_part : PartitionID
deriving DecidableEq, Repr, Inhabited

/-- The members of `MaxGainNodeKWayFMRefiner`.  The vectors indexed by a part id
(`tmp_gains`, `tmp_connectivity_decrease`) have `k` entries, the bitsets one entry per
hypernode, `locked_hes` one entry per hyperedge; `tmp_target_parts` is the
`dense_hash_set`, kept as the list of its elements in the order of its iteration
(increasing part id, see `insertPart`);
`performed_moves` is the storage reserved for the move log; `current_locked_hes` is
the stack, top first. -/
structure MaxGainNodeKWayFMRefiner where
  hg : Hypergraph
  config : Configuration
  tmp_gains : List Gain
  tmp_connectivity_decrease : List PartitionID
  tmp_target_parts : List PartitionID
  pq : KWayRefinementPQ
  marked : List Bool
  just_updated : List Bool
  performed_moves : List RollbackInfo
  locked_hes : List PartitionID
  current_locked_hes : List HyperedgeID
deriving DecidableEq, Repr

/-- Read of `v[p]` for a vector indexed by a part id. -/
def getAt (v : List Int) (p : PartitionID) : Int :=
  if 0 ≤ p then v.getD p.toNat 0 else 0

/-- Write `v[p] = x` for a vector indexed by a part id. -/
def setAt (v : List Int) (p : PartitionID) (x : Int) : List Int :=
  if 0 ≤ p then v.set p.toNat x else v

/-- The `insert` of the target-part set `_tmp_target_parts`, a `google::dense_hash_set` with
the identity hash `HashParts`.  The table has more buckets than there are parts and the
bucket of a part id is the id itself, and the iteration of the set goes through the buckets
in order: the set is the list of its elements in increasing order of the part id, which is
the order of `for (PartitionID target_part : _tmp_target_parts)`. -/
def insertPart : List PartitionID → PartitionID → List PartitionID
  | [], p => [p]
  | q :: s, p =>
    if p < q then p :: q :: s
    else if p = q then q :: s
    else q :: insertPart s p

namespace MaxGainNodeKWayFMRefiner

/-- The constructor. -/
def init (hypergraph : Hypergraph) (config : Configuration) : MaxGainNodeKWayFMRefiner :=
  { hg := hypergraph
    config := config
    tmp_gains := List.replicate config.k 0
    tmp_connectivity_decrease := List.replicate config.k 0
    tmp_target_parts := []
    pq := []
    marked := List.replicate hypergraph.initialNumNodes false
    just_updated := List.replicate hypergraph.initialNumNodes false
    performed_moves := List.replicate hypergraph.initialNumNodes default
    locked_hes := List.replicate hypergraph.initialNumEdges (-1)
    current_locked_hes := [] }

/-- The locals of `computeMaxGain` that its first loop changes. -/
structure GainScan where
  internal_weight : HyperedgeWeight
  tmp_gains : List Gain
  tmp_connectivity_decrease : List PartitionID
  tmp_target_parts : List PartitionID
deriving DecidableEq, Repr

/-- Body of `for (PartitionID target_part : _hg.connectivitySet(he))` in `computeMaxGain`. -/
def scanTarget (hg : Hypergraph) (he : HyperedgeID) (pins_in_source_part : Nat)
    (a : GainScan) (target_part : PartitionID) : GainScan :=
  let pins_in_target_part := hg.pinCountInPart he target_part
  let gains :=
    if pins_in_source_part = 1 ∧ pins_in_target_part = hg.edgeSize he - 1 then
      setAt a.tmp_gains target_part (getAt a.tmp_gains target_part + hg.edgeWeight he)
    else a.tmp_gains
  let decrease :=
    if pins_in_source_part = 1 then
      setAt a.tmp_connectivity_decrease target_part
        (getAt a.tmp_connectivity_decrease target_part + 1)
    else a.tmp_connectivity_decrease
  { a with
    tmp_target_parts := insertPart a.tmp_target_parts target_part
    tmp_gains := gains
    tmp_connectivity_decrease := decrease }

/-- Body of `for (auto && he : _hg.incidentEdges(hn))` in `computeMaxGain`. -/
def scanEdge (hg : Hypergraph) (source_part : PartitionID) (a : GainScan) (he : HyperedgeID) :
    GainScan :=
  if hg.connectivity he = 1 then
    { a with internal_weight := a.internal_weight + hg.edgeWeight he }
  else
    (hg.connectivitySet he).foldl (scanTarget hg he (hg.pinCountInPart he source_part)) a

/-- The locals of `computeMaxGain` that its second loop changes. -/
structure GainPick where
  max_gain : Gain
  max_gain_part : PartitionID
  max_connectivity_decrease : PartitionID
  tmp_gains : List Gain
  tmp_connectivity_decrease : List PartitionID
deriving DecidableEq, Repr

/-- Body of `for (PartitionID target_part : _tmp_target_parts)` in `computeMaxGain`. -/
def pickTarget (hg : Hypergraph) (config : Configuration) (hn : HypernodeID)
    (source_part : PartitionID) (internal_weight : HyperedgeWeight)
    (b : GainPick) (target_part : PartitionID) : GainPick :=
  let target_part_gain := getAt b.tmp_gains target_part - internal_weight
  let target_part_connectivity_decrease := getAt b.tmp_connectivity_decrease target_part
  let node_weight := hg.nodeWeight hn
  let source_part_weight := hg.partWeight source_part
  let target_part_weight := hg.partWeight target_part
  let better : Bool :=
    decide (target_part_gain > b.max_gain) ||
    (decide (target_part_gain = b.max_gain) &&
      decide (target_part_connectivity_decrease > b.max_connectivity_decrease)) ||
    (decide (target_part_gain = b.max_gain) &&
      decide (source_part_weight ≥ config.max_part_weight) &&
      decide (target_part_weight + node_weight < config.max_part_weight) &&
      decide (target_part_weight + node_weight < hg.partWeight b.max_gain_part + node_weight))
  { max_gain := if better then target_part_gain else b.max_gain
    max_gain_part := if better then target_part else b.max_gain_part
    max_connectivity_decrease :=
      if better then target_part_connectivity_decrease else b.max_connectivity_decrease
    tmp_gains := setAt b.tmp_gains target_part 0
    tmp_connectivity_decrease := setAt b.tmp_connectivity_decrease target_part 0 }

/-- The function `computeMaxGain`: the pair `(max_gain, max_gain_part)` and the refiner with
the scratch members as the call leaves them. -/
def computeMaxGain (r : MaxGainNodeKWayFMRefiner) (hn : HypernodeID) :
    (Gain × PartitionID) × MaxGainNodeKWayFMRefiner :=
  let source_part := r.hg.partID hn
  let a := (r.hg.incidentEdges hn).foldl (scanEdge r.hg source_part)
    { internal_weight := 0
      tmp_gains := r.tmp_gains
      tmp_connectivity_decrease := r.tmp_connectivity_decrease
      tmp_target_parts := [] }
  -- own partition does not count
  let targets := a.tmp_target_parts.erase source_part
  let gains := setAt a.tmp_gains source_part 0
  let b := targets.foldl (pickTarget r.hg r.config hn source_part a.internal_weight)
    { max_gain_part := kInvalidPartition
      max_gain := gainMin
      max_connectivity_decrease := 0
      tmp_gains := gains
      tmp_connectivity_decrease := a.tmp_connectivity_decrease }
  ((b.max_gain, b.max_gain_part),
   { r with
     tmp_gains := b.tmp_gains
     tmp_connectivity_decrease := b.tmp_connectivity_decrease
     tmp_target_parts := targets })

/-- The function `activate`. -/
def activate (r : MaxGainNodeKWayFMRefiner) (hn : HypernodeID) : MaxGainNodeKWayFMRefiner :=
  if isBorderNode r.hg hn then
    let res := computeMaxGain r hn
    { res.2 with pq := res.2.pq.reInsert hn res.1.1 res.1.2 }
  else r

/-- The function `updatePin`. -/
def updatePin (r : MaxGainNodeKWayFMRefiner) (pin : HypernodeID) : MaxGainNodeKWayFMRefiner :=
  if r.pq.contains pin then
    if isBorderNode r.hg pin then
      if !(r.just_updated.getD pin false) then
        let res := computeMaxGain r pin
        { res.2 with
          pq := (res.2.pq.updateKey pin res.1.1).setData pin res.1.2
          just_updated := res.2.just_updated.set pin true }
      else r
    else { r with pq := r.pq.remove pin }
  else
    if !(r.marked.getD pin false) then
      -- border node check is performed in activate
      let r1 := activate r pin
      { r1 with just_updated := r1.just_updated.set pin true }
    else r

/-- The function `moveHypernode`: the returned flag and the refiner afterwards.  The
part size is unsigned in the program; `partSize - 1 == 0` holds exactly for size 1
there and here. -/
def moveHypernode (r : MaxGainNodeKWayFMRefiner) (hn : HypernodeID)
    (from_part to_part : PartitionID) : Bool × MaxGainNodeKWayFMRefiner :=
  let r1 := { r with marked := r.marked.set hn true }
  if r1.hg.partWeight to_part + r1.hg.nodeWeight hn ≥ r1.config.max_part_weight ∨
      (r1.hg.partSize from_part : Int) - 1 = 0 then
    (false, r1)
  else
    (true, { r1 with hg := r1.hg.changeNodePart hn from_part to_part })

/-- The function `moveAffectsGainUpdate`.  The pin counts are unsigned in the program and
only compared with 0 and 1; a count that the caller computes as `0 - 1` is `-1` here
and the largest unsigned value there, neither of which is 0 or 1. -/
def moveAffectsGainUpdate (pin_count_source_part_before_move pin_count_dest_part_before_move
    pin_count_source_part_after_move : Int) : Bool :=
  decide (pin_count_dest_part_before_move = 0) || decide (pin_count_dest_part_before_move = 1) ||
  decide (pin_count_source_part_before_move = 1) || decide (pin_count_source_part_after_move = 1)

/-- The loop `for (auto && pin : _hg.pins(he)) updatePin(pin);`. -/
def updatePins (r : MaxGainNodeKWayFMRefiner) (he : HyperedgeID) : MaxGainNodeKWayFMRefiner :=
  (r.hg.pins he).foldl updatePin r

/-- The test of `moveAffectsGainUpdate` on the pin counts of `he`, as both loose branches of
`updateNeighbours` compute them after the move. -/
def looseUpdateNeeded (r : MaxGainNodeKWayFMRefiner) (he : HyperedgeID)
    (from_part to_part : PartitionID) : Bool :=
  let pin_count_source_part_before_move : Int := (r.hg.pinCountInPart he from_part : Int) + 1
  let pin_count_dest_part_before_move : Int := (r.hg.pinCountInPart he to_part : Int) - 1
  let pin_count_source_part_after_move : Int := pin_count_source_part_before_move - 1
  moveAffectsGainUpdate pin_count_source_part_before_move pin_count_dest_part_before_move
    pin_count_source_part_after_move

/-- Body of `for (auto && he : _hg.incidentEdges(hn))` in `updateNeighbours`. -/
def updateNeighboursEdge (from_part to_part : PartitionID) (r : MaxGainNodeKWayFMRefiner)
    (he : HyperedgeID) : MaxGainNodeKWayFMRefiner :=
  if r.locked_hes.getD he (-1) ≠ lockedSentinel then
    if r.locked_hes.getD he (-1) = to_part then
      -- he is loose
      if looseUpdateNeeded r he from_part to_part then updatePins r he else r
    else if r.locked_hes.getD he (-1) = -1 then
      -- he is free
      updatePins
        { r with
          locked_hes := r.locked_hes.set he to_part
          current_locked_hes := he :: r.current_locked_hes } he
    else
      -- he is loose and becomes locked after the move
      let r1 := if looseUpdateNeeded r he from_part to_part then updatePins r he else r
      { r1 with locked_hes := r1.locked_hes.set he lockedSentinel }
  else
    -- he is locked
    r

/-- The function `updateNeighbours`. -/
def updateNeighbours (r : MaxGainNodeKWayFMRefiner) (hn : HypernodeID)
    (from_part to_part : PartitionID) : MaxGainNodeKWayFMRefiner :=
  (r.hg.incidentEdges hn).foldl (updateNeighboursEdge from_part to_part)
    { r with just_updated := List.replicate r.just_updated.length false }

/-- The function `rollback`.  The `while` loop runs on `fuel`; `none` when the fuel runs
out or `_performed_moves` is read outside its storage. -/
def rollback : Nat → MaxGainNodeKWayFMRefiner → Int → Int → Option MaxGainNodeKWayFMRefiner
  | 0, r, last_index, min_cut_index => if last_index = min_cut_index then some r else none
  | fuel + 1, r, last_index, min_cut_index =>
    if last_index = min_cut_index then some r
    else
      match (if 0 ≤ last_index then r.performed_moves[last_index.toNat]? else none) with
      | none => none
      | some m =>
        rollback fuel { r with hg := r.hg.changeNodePart m.hn m.to_part m.from_part }
          (last_index - 1) min_cut_index

/-- The template parameter `StoppingPolicy` with its state `σ`; `searchShouldStop` takes the
arguments in the order in which `refineImpl` passes them:
`(min_cut_index, num_moves, _config, best_cut, cut)`. -/
structure StoppingPolicy (σ : Type) where
  resetStatistics : σ → σ
  updateStatistics : σ → Gain → σ
  searchShouldStop : σ → Int → Int → Configuration → HyperedgeWeight → HyperedgeWeight → Bool

/-- Modelled from the spec: the pseudo-random source `Randomize` (`tools/RandomFunctions.h`
is not among the sources), "an injected PRNG handle": the result of shuffling the first
`n` entries of a vector, and the outcome of the coin flipped in loop iteration `step`. -/
structure Randomize where
  shuffleVector : List HypernodeID → Nat → List HypernodeID
  flipCoin : Nat → Bool

/-- The locals of `refineImpl` that its main loop changes, with the refiner and the state of
the stopping policy. -/
structure Search (σ : Type) where
  r : MaxGainNodeKWayFMRefiner
  policy : σ
  best_cut : HyperedgeWeight
  cut : HyperedgeWeight
  min_cut_index : Int
  step : Nat
  num_moves : Nat

/-- The condition under which the main loop of `refineImpl` is left. -/
def searchDone {σ : Type} (P : StoppingPolicy σ) (s : Search σ) : Bool :=
  s.r.pq.empty ||
    P.searchShouldStop s.policy s.min_cut_index s.num_moves s.r.config s.best_cut s.cut

/-- Body of the main loop of `refineImpl`; `none` when `_performed_moves[num_moves]` is
outside the reserved storage. -/
def searchBody {σ : Type} (P : StoppingPolicy σ) (rnd : Randomize) (s : Search σ) :
    Option (Search σ) :=
  let max_gain := s.r.pq.maxKey
  let max_gain_node := s.r.pq.max
  let from_part := s.r.hg.partID max_gain_node
  let to_part := s.r.pq.data max_gain_node
  let r1 := { s.r with pq := s.r.pq.deleteMax }
  let mv := moveHypernode r1 max_gain_node from_part to_part
  if mv.1 then
    let cut := s.cut - max_gain
    let policy1 := P.updateStatistics s.policy max_gain
    let r2 := updateNeighbours mv.2 max_gain_node from_part to_part
    let improved : Bool :=
      decide (cut < s.best_cut) || (decide (cut = s.best_cut) && rnd.flipCoin s.step)
    let policy2 := if improved && decide (cut < s.best_cut) then P.resetStatistics policy1
      else policy1
    if s.num_moves < r2.performed_moves.length then
      some
        { r := { r2 with
                 performed_moves := r2.performed_moves.set s.num_moves
                   { hn := max_gain_node, from_part := from_part, to_part := to_part } }
          policy := policy2
          best_cut := if improved then cut else s.best_cut
          cut := cut
          min_cut_index := if improved then (s.num_moves : Int) else s.min_cut_index
          step := s.step + 1
          num_moves := s.num_moves + 1 }
    else none
  else
    some { s with r := mv.2, step := s.step + 1 }

/-- The main loop of `refineImpl`, run on `fuel`. -/
def searchLoop {σ : Type} (P : StoppingPolicy σ) (rnd : Randomize) :
    Nat → Search σ → Option (Search σ)
  | 0, s => if searchDone P s then some s else none
  | fuel + 1, s =>
    if searchDone P s then some s
    else
      match searchBody P rnd s with
      | none => none
      | some s1 => searchLoop P rnd fuel s1

/-- The loop `while (!_current_locked_hes.empty())` at the start of `refineImpl`. -/
def resetLockedHes (r : MaxGainNodeKWayFMRefiner) : MaxGainNodeKWayFMRefiner :=
  { r with
    locked_hes := r.current_locked_hes.foldl (fun l he => l.set he (-1)) r.locked_hes
    current_locked_hes := [] }

/-- The part of `refineImpl` before the main loop. -/
def refineStart {σ : Type} (P : StoppingPolicy σ) (rnd : Randomize)
    (r : MaxGainNodeKWayFMRefiner) (policy : σ) (refinement_nodes : List HypernodeID)
    (num_refinement_nodes : Nat) (best_cut : HyperedgeWeight) : Search σ :=
  let r1 := resetLockedHes
    { r with pq := r.pq.clear, marked := List.replicate r.marked.length false }
  let shuffled := rnd.shuffleVector refinement_nodes num_refinement_nodes
  { r := (shuffled.take num_refinement_nodes).foldl activate r1
    policy := P.resetStatistics policy
    best_cut := best_cut
    cut := best_cut
    min_cut_index := -1
    step := 0
    num_moves := 0 }

/-- What `refineImpl` leaves behind: its return value, the value of the reference parameter
`best_cut`, the refiner and the state of the stopping policy. -/
structure RefineResult (σ : Type) where
  improved : Bool
  best_cut : HyperedgeWeight
  r : MaxGainNodeKWayFMRefiner
  policy : σ

/-- The function `refineImpl`; both loops run on `fuel`. -/
def refineImpl {σ : Type} (P : StoppingPolicy σ) (rnd : Randomize) (fuel : Nat)
    (r : MaxGainNodeKWayFMRefiner) (policy : σ) (refinement_nodes : List HypernodeID)
    (num_refinement_nodes : Nat) (best_cut : HyperedgeWeight) : Option (RefineResult σ) :=
  let initial_cut := best_cut
  match searchLoop P rnd fuel
      (refineStart P rnd r policy refinement_nodes num_refinement_nodes best_cut) with
  | none => none
  | some s =>
    match rollback fuel s.r ((s.num_moves : Int) - 1) s.min_cut_index with
    | none => none
    | some r1 =>
      some { improved := decide (s.best_cut < initial_cut), best_cut := s.best_cut,
             r := r1, policy := s.policy }

end MaxGainNodeKWayFMRefiner

/-! ## Reference definitions, in the words of the specification -/

/-- The quantity `internal_weight` of the spec: "Σ w(e) over edges with connectivity 1",
over the hyperedges incident to `hn`. -/
def internalWeight (hg : Hypergraph) (hn : HypernodeID) : HyperedgeWeight :=
  (((hg.incidentEdges hn).filter (fun he => decide (hg.connectivity he = 1))).map
    hg.edgeWeight).sum

/-- The quantity `gain(t)` of the spec for the hypernode `hn` with source part `s = π(hn)`:
"(Σ_{e : pin-count(e,s)=1 ∧ pin-count(e,t)=size(e)−1} w(e)) − internal_weight". -/
def gainTo (hg : Hypergraph) (hn : HypernodeID) (t : PartitionID) : Gain :=
  (((hg.incidentEdges hn).filter (fun he =>
      decide (hg.pinCountInPart he (hg.partID hn) = 1 ∧
        hg.pinCountInPart he t = hg.edgeSize he - 1))).map hg.edgeWeight).sum
    - internalWeight hg hn

/-- The total weight of the single-pin hyperedges incident to `hn`, which `computeMaxGain`
excludes by `ASSERT(_hg.edgeSize(he) > 1)`. -/
def singlePinWeight (hg : Hypergraph) (hn : HypernodeID) : HyperedgeWeight :=
  (((hg.incidentEdges hn).filter (fun he => decide (hg.edgeSize he = 1))).map hg.edgeWeight).sum

/-- The candidate target parts of `hn`: the parts other than its own that occur in the
connectivity set of a hyperedge incident to `hn`. -/
def candidateParts (hg : Hypergraph) (hn : HypernodeID) : List PartitionID :=
  ((List.range hg.k).map (fun i : Nat => (i : Int))).filter (fun t =>
    decide (t ≠ hg.partID hn) &&
      (hg.incidentEdges hn).any (fun he => decide (t ∈ hg.connectivitySet he)))

/-- The quantity `connectivity_decrease(t)`: the number of cut hyperedges `e` incident to
`hn` with `t` in the connectivity set of `e` and exactly one pin in the source part. -/
def connectivityDecrease (hg : Hypergraph) (hn : HypernodeID) (t : PartitionID) : Int :=
  (((hg.incidentEdges hn).filter (fun he =>
      decide (1 < hg.connectivity he) && decide (t ∈ hg.connectivitySet he) &&
        decide (hg.pinCountInPart he (hg.partID hn) = 1))).length : Int)

/-- The hypergraph after the moves of a log, performed in order with `changeNodePart`. -/
def applyMoves (hg : Hypergraph) (log : List RollbackInfo) : Hypergraph :=
  log.foldl (fun h m => h.changeNodePart m.hn m.from_part m.to_part) hg

/-- A move log as `refineImpl` writes it: every entry records as `from_part` the part its
hypernode was in when the move was performed. -/
def IsMoveLog : Hypergraph → List RollbackInfo → Prop
  | _, [] => True
  | hg, m :: ms =>
    hg.partID m.hn = m.from_part ∧ IsMoveLog (hg.changeNodePart m.hn m.from_part m.to_part) ms

/-- The members that `computeMaxGain`, `activate` and `updatePin` leave alone are equal in
the two refiners, and the scratch vectors and bitsets have kept their sizes. -/
def SameFrame (r r1 : MaxGainNodeKWayFMRefiner) : Prop :=
  r1.hg = r.hg ∧ r1.config = r.config ∧ r1.marked = r.marked ∧
  r1.performed_moves = r.performed_moves ∧ r1.locked_hes = r.locked_hes ∧
  r1.current_locked_hes = r.current_locked_hes ∧
  r1.tmp_gains.length = r.tmp_gains.length ∧
  r1.tmp_connectivity_decrease.length = r.tmp_connectivity_decrease.length ∧
  r1.just_updated.length = r.just_updated.length

/-- The lock state that `updateNeighbours` leaves on a hyperedge incident to the moved
hypernode, from the lock state before: free and loose towards `to_part` give loose towards
`to_part`, every other state gives locked. -/
def lockAfterMove (to_part lock : PartitionID) : PartitionID :=
  if lock = lockedSentinel then lockedSentinel
  else if lock = to_part then to_part
  else if lock = -1 then to_part
  else lockedSentinel

/-- The invariant of the lock stack: every hyperedge that is not free is on
`_current_locked_hes`. -/
def LockedOnStack (r : MaxGainNodeKWayFMRefiner) : Prop :=
  ∀ he : HyperedgeID, r.locked_hes.getD he (-1) ≠ -1 → he ∈ r.current_locked_hes

/-- The refiner states that occur when a freshly constructed refiner is used for any number
of `refineImpl` calls, with any stopping policy and random source: between the calls the
caller may change the hypergraph (uncontraction); within a call the states after the part
before the main loop, after every iteration of the main loop, and after the rollback. -/
inductive Reachable : MaxGainNodeKWayFMRefiner → Prop
  | init (hypergraph : Hypergraph) (config : Configuration) :
      Reachable (MaxGainNodeKWayFMRefiner.init hypergraph config)
  | caller (r : MaxGainNodeKWayFMRefiner) (hypergraph : Hypergraph) :
      Reachable r → Reachable { r with hg := hypergraph }
  | start {σ : Type} (P : MaxGainNodeKWayFMRefiner.StoppingPolicy σ)
      (rnd : MaxGainNodeKWayFMRefiner.Randomize) (r : MaxGainNodeKWayFMRefiner) (policy : σ)
      (refinement_nodes : List HypernodeID) (num_refinement_nodes : Nat)
      (best_cut : HyperedgeWeight) :
      Reachable r →
      Reachable (MaxGainNodeKWayFMRefiner.refineStart P rnd r policy refinement_nodes
        num_refinement_nodes best_cut).r
  | body {σ : Type} (P : MaxGainNodeKWayFMRefiner.StoppingPolicy σ)
      (rnd : MaxGainNodeKWayFMRefiner.Randomize) (s s1 : MaxGainNodeKWayFMRefiner.Search σ) :
      Reachable s.r → MaxGainNodeKWayFMRefiner.searchBody P rnd s = some s1 → Reachable s1.r
  | rollback (fuel : Nat) (r r1 : MaxGainNodeKWayFMRefiner) (last_index min_cut_index : Int) :
      Reachable r →
      MaxGainNodeKWayFMRefiner.rollback fuel r last_index min_cut_index = some r1 →
      Reachable r1

/-- A queue entry agrees with the hypergraph: its id is a hypernode, its data slot is a part
other than the part of that hypernode, its key is the gain of moving the hypernode there,
less the weight of the single-pin hyperedges at the hypernode (which `computeMaxGain` counts
as internal), the hypernode is a border node, and no other part gives a higher gain. -/
def GoodEntry (hg : Hypergraph) (e : PQEntry) : Prop :=
  e.id < hg.part.length ∧ 0 ≤ e.data ∧ e.data < (hg.k : Int) ∧ e.data ≠ hg.partID e.id ∧
  e.key = gainTo hg e.id e.data - singlePinWeight hg e.id ∧
  isBorderNode hg e.id = true ∧
  ∀ t : PartitionID, 0 ≤ t → t < (hg.k : Int) → t ≠ hg.partID e.id →
    gainTo hg e.id t ≤ gainTo hg e.id e.data

/-- The state in which `computeMaxGain` may be called and the queue is in order: the hypergraph
is well formed, the scratch vectors have an entry per part, `_tmp_gains` is all zero, no
hypernode is twice in the queue, no hypernode in the queue is marked, and the entries that
were updated since the last move agree with the hypergraph. -/
def PinInv (r : MaxGainNodeKWayFMRefiner) : Prop :=
  r.hg.WellFormed ∧ r.hg.k ≤ r.tmp_gains.length ∧
  r.hg.k ≤ r.tmp_connectivity_decrease.length ∧ (∀ x ∈ r.tmp_gains, x = 0) ∧
  (r.pq.map (fun e => e.id)).Nodup ∧
  (∀ e ∈ r.pq, r.marked.getD e.id false = false) ∧
  (∀ e ∈ r.pq, r.just_updated.getD e.id false = true → GoodEntry r.hg e)

/-- The hyperedge `e` with lock state `lock` before `updateNeighbours` is one through which
`updateNeighbours` calls `updatePin`: it is free, or it is loose and `moveAffectsGainUpdate`
holds. -/
def UpdatesThrough (r : MaxGainNodeKWayFMRefiner) (from_part to_part : PartitionID)
    (lock : PartitionID) (e : HyperedgeID) : Prop :=
  lock ≠ lockedSentinel ∧
    (lock = -1 ∨ MaxGainNodeKWayFMRefiner.looseUpdateNeeded r e from_part to_part = true)

/-- The state of the queue while `updateNeighbours` runs, `es` being the hyperedges still to
be visited and `L` the lock states before the call: every entry agrees with the hypergraph,
or it has not been updated in this call and its hypernode is a pin of a hyperedge still to be
visited through which `updatePin` will be called. -/
def EdgeInv (L : HyperedgeID → PartitionID) (from_part to_part : PartitionID)
    (es : List HyperedgeID) (r : MaxGainNodeKWayFMRefiner) : Prop :=
  PinInv r ∧
  ∀ en ∈ r.pq, GoodEntry r.hg en ∨
    (r.just_updated.getD en.id false = false ∧
      ∃ e ∈ es, en.id ∈ r.hg.pins e ∧ UpdatesThrough r from_part to_part (L e) e)

/-- The hyperedge `e` has a marked pin in part `p`. -/
def MarkedPinIn (r : MaxGainNodeKWayFMRefiner) (e : HyperedgeID) (p : PartitionID) : Prop :=
  ∃ m ∈ r.hg.pins e, r.marked.getD m false = true ∧ r.hg.partID m = p

/-- What the lock states stand for: a hyperedge that is loose towards `p` has a marked pin in
`p`, and a locked hyperedge has marked pins in two different parts. -/
def LockWitness (r : MaxGainNodeKWayFMRefiner) : Prop :=
  ∀ e : HyperedgeID,
    (r.locked_hes.getD e (-1) ≠ -1 → r.locked_hes.getD e (-1) ≠ lockedSentinel →
      MarkedPinIn r e (r.locked_hes.getD e (-1))) ∧
    (r.locked_hes.getD e (-1) = lockedSentinel →
      ∃ p1 p2, p1 ≠ p2 ∧ MarkedPinIn r e p1 ∧ MarkedPinIn r e p2)

/-- The queue is in order and every entry agrees with the hypergraph. -/
def QueueGood (r : MaxGainNodeKWayFMRefiner) : Prop :=
  PinInv r ∧ ∀ en ∈ r.pq, GoodEntry r.hg en

/-- No hyperedge of the hypergraph has fewer than two pins. -/
def NoSinglePin (hg : Hypergraph) : Prop := ∀ e ∈ hg.edges, 2 ≤ hg.edgeSize e

instance (hg : Hypergraph) : Decidable (NoSinglePin hg) := by
  unfold NoSinglePin; infer_instance

/-- The state in which `refineImpl` may be called: the hypergraph is well formed, the scratch
vectors have an entry per part, `_tmp_gains` is all zero, the bitsets and the storage of
the move log have an entry per hypernode, `_locked_hes` has an entry per hyperedge, the
part ids stay below the sentinel "locked", and every hyperedge that is not free is on the
lock stack. -/
def Ready (r : MaxGainNodeKWayFMRefiner) : Prop :=
  r.hg.WellFormed ∧ r.hg.k ≤ r.tmp_gains.length ∧
  r.hg.k ≤ r.tmp_connectivity_decrease.length ∧ (∀ x ∈ r.tmp_gains, x = 0) ∧
  r.marked.length = r.hg.part.length ∧ r.performed_moves.length = r.hg.part.length ∧
  r.locked_hes.length = r.hg.initialNumEdges ∧ (r.hg.k : Int) < lockedSentinel ∧
  (∀ e ∈ List.range r.locked_hes.length,
    r.locked_hes.getD e (-1) ≠ -1 → e ∈ r.current_locked_hes)

instance (r : MaxGainNodeKWayFMRefiner) : Decidable (Ready r) := by
  unfold Ready; infer_instance

/-- The invariant of the main loop of `refineImpl`, for the hypergraph `hg0` at the start of
the loop and the cut `c0` passed in as `best_cut`. -/
structure SearchInv {σ : Type} (hg0 : Hypergraph) (c0 : HyperedgeWeight)
    (s : MaxGainNodeKWayFMRefiner.Search σ) : Prop where
  queue : QueueGood s.r
  locks : LockWitness s.r
  marked_length : s.r.marked.length = s.r.hg.part.length
  moves_length : s.r.performed_moves.length = s.r.hg.part.length
  locked_length : s.r.locked_hes.length = s.r.hg.initialNumEdges
  parts_fit : (s.r.hg.k : Int) < lockedSentinel
  measure : s.num_moves + s.r.marked.count false ≤ s.r.marked.length
  log : IsMoveLog hg0 (s.r.performed_moves.take s.num_moves)
  current : s.r.hg = applyMoves hg0 (s.r.performed_moves.take s.num_moves)
  cut_le : hyperedgeCut s.r.hg ≤ s.cut
  best_le_cut : s.best_cut ≤ s.cut
  best_le_initial : s.best_cut ≤ c0
  index_lower : -1 ≤ s.min_cut_index
  index_upper : s.min_cut_index < (s.num_moves : Int)
  best_state : hyperedgeCut (applyMoves hg0
    ((s.r.performed_moves.take s.num_moves).take (s.min_cut_index + 1).toNat)) ≤ s.best_cut
  best_wf : (applyMoves hg0
    ((s.r.performed_moves.take s.num_moves).take (s.min_cut_index + 1).toNat)).WellFormed
  exact : NoSinglePin s.r.hg →
    hyperedgeCut s.r.hg = s.cut ∧
    hyperedgeCut (applyMoves hg0
      ((s.r.performed_moves.take s.num_moves).take (s.min_cut_index + 1).toNat)) = s.best_cut ∧
    ∀ i, i ≤ s.num_moves →
      s.best_cut ≤ hyperedgeCut (applyMoves hg0 ((s.r.performed_moves.take s.num_moves).take i))

/-! ## Example hypergraphs -/

/-- Four hypernodes in two parts, four hyperedges of size two. -/
def exampleHg : Hypergraph :=
  { k := 2, edge_pins := [[0, 1], [1, 2], [2, 3], [0, 2]], edge_weights := [1, 1, 1, 2],
    node_weights := [1, 1, 1, 1], part := [0, 0, 1, 1] }

/-- A hypergraph with a single-pin hyperedge at hypernode 0. -/
def singlePinHg : Hypergraph :=
  { k := 2, edge_pins := [[0], [0, 1]], edge_weights := [1, 1], node_weights := [1, 1, 1],
    part := [0, 1, 0] }

/-- Hypernode 0 in the overweight part 0, with two hyperedges to part 1 (weight 1 each) and one
hyperedge of weight 2 to the lighter part 2. -/
def tieHg : Hypergraph :=
  { k := 3, edge_pins := [[0, 1], [0, 2], [0, 3]], edge_weights := [1, 1, 2],
    node_weights := [1, 1, 1, 1, 10], part := [0, 1, 1, 2, 0] }

/-- Hypernode 0 in part 1, with one hyperedge of weight 2 to hypernode 1 in part 0 and two
hyperedges of weight 1 to the hypernodes 2 and 3 in part 2. -/
def staleTieHg : Hypergraph :=
  { k := 3, edge_pins := [[0, 1], [0, 2], [0, 3]], edge_weights := [2, 1, 1],
    node_weights := [1, 1, 1, 1], part := [1, 0, 2, 2] }

/-- A stopping policy that never signals stop. -/
def neverStop : MaxGainNodeKWayFMRefiner.StoppingPolicy Unit :=
  { resetStatistics := fun u => u
    updateStatistics := fun u _ => u
    searchShouldStop := fun _ _ _ _ _ _ => false }

/-- A random source that leaves the order of the refinement nodes and lets every coin show
heads. -/
def headsOnly : MaxGainNodeKWayFMRefiner.Randomize :=
  { shuffleVector := fun l _ => l
    flipCoin := fun _ => true }

/-- The refiner after one `refineImpl` call on `exampleHg` with all four hypernodes as
refinement nodes. -/
def exampleAfterRefine : MaxGainNodeKWayFMRefiner :=
  match MaxGainNodeKWayFMRefiner.refineImpl neverStop headsOnly 10
      (MaxGainNodeKWayFMRefiner.init exampleHg { k := 2, max_part_weight := 100 }) ()
      [0, 1, 2, 3] 4 3 with
  | some res => res.r
  | none => MaxGainNodeKWayFMRefiner.init exampleHg { k := 2, max_part_weight := 100 }

/-! ## Stopping policies (`FMStopPolicies.h`)

The policies compute in `double` and `int`; as in the statements about them, the arithmetic
is exact here: `double` is embedded as `ℚ`, `int` as `Int`. -/

/-- The class `NumberOfFruitlessMovesStopsSearch`. -/
structure NumberOfFruitlessMovesStopsSearch where
  num_moves : Int := 0
deriving DecidableEq, Repr

namespace NumberOfFruitlessMovesStopsSearch

def searchShouldStop (p : NumberOfFruitlessMovesStopsSearch) (_ : Int)
    (config : Configuration) (_ : ℚ) (_ _ : HyperedgeWeight) : Bool :=
  decide (p.num_moves ≥ config.fm_local_search.max_number_of_fruitless_moves)

def resetStatistics (_p : NumberOfFruitlessMovesStopsSearch) :
    NumberOfFruitlessMovesStopsSearch :=
  { num_moves := 0 }

def updateStatistics (p : NumberOfFruitlessMovesStopsSearch) (_ : Gain) :
    NumberOfFruitlessMovesStopsSearch :=
  { num_moves := p.num_moves + 1 }

end NumberOfFruitlessMovesStopsSearch

/-- The class `RandomWalkModelStopsSearch`. -/
structure RandomWalkModelStopsSearch where
  num_steps : Int := 0
  expected_gain : ℚ := 0
  expected_variance : ℚ := 0
  sum_gains : ℚ := 0
  Mk : ℚ := 0
  MkMinus1 : ℚ := 0
  Sk : ℚ := 0
  SkMinus1 : ℚ := 0
deriving DecidableEq, Repr

namespace RandomWalkModelStopsSearch

def searchShouldStop (p : RandomWalkModelStopsSearch) (_ : Int) (config : Configuration)
    (beta : ℚ) (_ _ : HyperedgeWeight) : Bool :=
  decide ((p.num_steps : ℚ) * p.expected_gain * p.expected_gain >
      config.fm_local_search.alpha * p.expected_variance + beta) &&
    decide (p.num_steps ≠ 1)

def resetStatistics (p : RandomWalkModelStopsSearch) : RandomWalkModelStopsSearch :=
  { p with num_steps := 0, expected_gain := 0, expected_variance := 0, sum_gains := 0 }

def updateStatistics (p : RandomWalkModelStopsSearch) (gain : Gain) :
    RandomWalkModelStopsSearch :=
  let num_steps := p.num_steps + 1
  let sum_gains := p.sum_gains + (gain : ℚ)
  let expected_gain := sum_gains / (num_steps : ℚ)
  -- http://de.wikipedia.org/wiki/Standardabweichung#Berechnung_f.C3.BCr_auflaufende_Messwerte
  if num_steps > 1 then
    let MkMinus1 := p.Mk
    let Mk := MkMinus1 + ((gain : ℚ) - MkMinus1) / (num_steps : ℚ)
    let SkMinus1 := p.Sk
    let Sk := SkMinus1 + ((gain : ℚ) - MkMinus1) * ((gain : ℚ) - Mk)
    { num_steps := num_steps, expected_gain := expected_gain,
      expected_variance := Sk / ((num_steps : ℚ) - 1), sum_gains := sum_gains,
      Mk := Mk, MkMinus1 := MkMinus1, Sk := Sk, SkMinus1 := SkMinus1 }
  else
    -- everything else is already reset in resetStatistics
    { p with num_steps := num_steps, expected_gain := expected_gain, sum_gains := sum_gains,
             Mk := (gain : ℚ), Sk := 0 }

end RandomWalkModelStopsSearch

/-- The product of two 32-bit `int` values as the machine makes it: the exact product when
it fits the type, and the product wrapped into the range of the 32-bit two's complement
otherwise. -/
def mulInt32 (a b : Int) : Int := (a * b + 2147483648) % 4294967296 - 2147483648

/-- The class `nGPRandomWalkStopsSearch`. -/
structure nGPRandomWalkStopsSearch where
  sum_gains_squared : ℚ := 0
deriving DecidableEq, Repr

namespace nGPRandomWalkStopsSearch

def searchShouldStop (p : nGPRandomWalkStopsSearch) (num_moves_since_last_improvement : Int)
    (config : Configuration) (beta : ℚ) (best_cut cut : HyperedgeWeight) : Bool :=
  decide ((num_moves_since_last_improvement : ℚ) ≥
    config.fm_local_search.alpha *
      ((p.sum_gains_squared * (num_moves_since_last_improvement : ℚ)) /
          (2 * ((best_cut : ℚ) - (cut : ℚ)) * ((best_cut : ℚ) - (cut : ℚ)) - 1 / 2)
        + beta))

def resetStatistics (_p : nGPRandomWalkStopsSearch) : nGPRandomWalkStopsSearch :=
  { sum_gains_squared := 0 }

/-- The statement `_sum_gains_squared += gain * gain`: the product is one of two `int`, made
by `mulInt32` before it is converted to `double`. -/
def updateStatistics (p : nGPRandomWalkStopsSearch) (gain : Gain) : nGPRandomWalkStopsSearch :=
  { sum_gains_squared := p.sum_gains_squared + ((mulInt32 gain gain : Int) : ℚ) }

end nGPRandomWalkStopsSearch

/-- The policy `NumberOfFruitlessMovesStopsSearch` as the template parameter of the refiner.
`refineImpl` passes `(min_cut_index, num_moves, _config, best_cut, cut)`, the policy declares
`(int, config, beta, best_cut, cut)` and reads only the configuration among them. -/
def fruitlessMovesPolicy :
    MaxGainNodeKWayFMRefiner.StoppingPolicy NumberOfFruitlessMovesStopsSearch :=
  { resetStatistics := NumberOfFruitlessMovesStopsSearch.resetStatistics
    updateStatistics := NumberOfFruitlessMovesStopsSearch.updateStatistics
    searchShouldStop := fun p min_cut_index num_moves config best_cut cut =>
      p.searchShouldStop min_cut_index config (num_moves : ℚ) best_cut cut }

/-- The arithmetic mean of the gains (0 for no gains). -/
def gainMean (gs : List Gain) : ℚ :=
  ((gs.map (fun g : Gain => (g : ℚ))).sum) / (gs.length : ℚ)

/-- The unbiased sample variance of the gains, "sum((g_i - mu)^2)/(n-1) for n >= 2 and 0 for
n <= 1". -/
def gainVariance (gs : List Gain) : ℚ :=
  if 2 ≤ gs.length then
    ((gs.map (fun g : Gain => ((g : ℚ) - gainMean gs) ^ 2)).sum) / ((gs.length : ℚ) - 1)
  else 0

/-! ## Greedy hypergraph growing, round robin
(`GreedyHypergraphGrowingRoundRobinInitialPartitioner.h`) -/

/-- Modelled from the spec: `BucketQueue` (`lib/datastructure/BucketQueue.h` is not among
the sources), "BucketPQ<Key=Gain>. Indexed by gain value ... Supports push, contains,
updateKey, getMax, deleteMax, deleteNode".  The model keeps the elements `(id, key)` in
insertion order; the maximum is an element of maximal key, the earliest inserted among
equal keys. -/
abbrev BucketQueue := List (HypernodeID × Gain)

namespace BucketQueue

def contains (bq : BucketQueue) (id : HypernodeID) : Bool :=
  bq.any (fun e => decide (e.1 = id))

/-- The key stored for `id` (0 when `id` is not contained). -/
def key (bq : BucketQueue) (id : HypernodeID) : Gain :=
  match bq.find? (fun e => decide (e.1 = id)) with
  | some e => e.2
  | none => 0

def push (bq : BucketQueue) (id : HypernodeID) (key : Gain) : BucketQueue :=
  bq ++ [(id, key)]

def updateKey (bq : BucketQueue) (id : HypernodeID) (key : Gain) : BucketQueue :=
  bq.map (fun e => if e.1 = id then (e.1, key) else e)

def deleteNode (bq : BucketQueue) (id : HypernodeID) : BucketQueue :=
  bq.filter (fun e => decide (e.1 ≠ id))

def maxEntry : BucketQueue → Option (HypernodeID × Gain)
  | [] => none
  | e :: es =>
    match maxEntry es with
    | none => some e
    | some m => if e.2 < m.2 then some m else some e

def getMax (bq : BucketQueue) : HypernodeID :=
  match maxEntry bq with
  | some e => e.1
  | none => 0

def getMaxKey (bq : BucketQueue) : Gain :=
  match maxEntry bq with
  | some e => e.2
  | none => 0

def deleteMax (bq : BucketQueue) : BucketQueue := deleteNode bq (getMax bq)

def empty (bq : BucketQueue) : Bool := bq.isEmpty

end BucketQueue

/-- The template parameters `StartNodeSelection` and `GainComputation` and the member
`getUnassignedNode` of `InitialPartitionerBase`, none of them among the sources: the start
nodes for a hypergraph and `k`, the gain of a hypernode towards a part, and the hypernode
that the `n`-th call of `getUnassignedNode` returns. -/
structure GrowingPolicies where
  calculateStartNodes : Hypergraph → Nat → List HypernodeID
  calculateGain : Hypergraph → HypernodeID → PartitionID → Gain
  getUnassignedNode : Nat → Hypergraph → PartitionID → HypernodeID

namespace GreedyHypergraphGrowingRoundRobinInitialPartitioner

/-- Modelled from the spec: `InitialPartitionerBase::assignHypernodeToPartition`
(`InitialPartitionerBase.h` is not among the sources), "if assignment respects
`upper_allowed_partition_weight[p]`, assign v to p, else disable p for the remainder": the
returned flag and the hypergraph afterwards. -/
def assignHypernodeToPartition (hg : Hypergraph) (config : Configuration) (hn : HypernodeID)
    (p : PartitionID) : Bool × Hypergraph :=
  if hg.partWeight p + hg.nodeWeight hn ≤
      getAt config.initial_partitioning.upper_allowed_partition_weight p then
    (true, hg.changeNodePart hn (hg.partID hn) p)
  else (false, hg)

/-- The overload `processNodeForBucketPQ(BucketQueue&, hn, target_part)`. -/
def processNodeForBucketPQ (calculateGain : Hypergraph → HypernodeID → PartitionID → Gain)
    (hg : Hypergraph) (bq : BucketQueue) (hn : HypernodeID) (target_part : PartitionID) :
    BucketQueue :=
  if hg.partID hn ≠ target_part then
    let gain := calculateGain hg hn target_part
    if bq.contains hn then bq.updateKey hn gain else bq.push hn gain
  else bq

/-- Body of the loop of the overload `processNodeForBucketPQ(std::vector<BucketQueue>&, hn,
target_part)`. -/
def processNodeForBucketPQ_vector_body
    (calculateGain : Hypergraph → HypernodeID → PartitionID → Gain)
    (hg : Hypergraph) (hn : HypernodeID) (target_part : PartitionID)
    (bq : List BucketQueue) (i : Nat) : List BucketQueue :=
  if hg.partID hn ≠ target_part then
    if (bq.getD i []).contains hn then
      let gain := calculateGain hg hn (i : Int)
      bq.set i ((bq.getD i []).updateKey hn gain)
    else if (i : Int) = target_part then
      let gain := calculateGain hg hn target_part
      bq.set target_part.toNat ((bq.getD target_part.toNat []).push hn gain)
    else bq
  else bq

/-- The overload `processNodeForBucketPQ(std::vector<BucketQueue>&, hn, target_part)`. -/
def processNodeForBucketPQ_vector
    (calculateGain : Hypergraph → HypernodeID → PartitionID → Gain)
    (hg : Hypergraph) (bq : List BucketQueue) (hn : HypernodeID) (target_part : PartitionID) :
    List BucketQueue :=
  (List.range bq.length).foldl
    (processNodeForBucketPQ_vector_body calculateGain hg hn target_part) bq

/-- The function `deleteAssignedNodeInBucketPQ`. -/
def deleteAssignedNodeInBucketPQ (bq : List BucketQueue) (hn : HypernodeID) :
    List BucketQueue :=
  (List.range bq.length).foldl
    (fun b i => if (b.getD i []).contains hn then b.set i ((b.getD i []).deleteNode hn) else b)
    bq

/-- The locals of `kwayPartitionImpl` that its main loop changes, with the hypergraph and
the number of `getUnassignedNode` calls made so far. -/
structure Growth where
  hg : Hypergraph
  bq : List BucketQueue
  partEnable : List Bool
  assigned_nodes_weight : HypernodeWeight
  calls : Nat
deriving DecidableEq, Repr

/-- The loops over the hyperedges incident to `hn` and their pins that re-rate the
unassigned pins after `hn` has been assigned to part `i`. -/
def rerateNeighbours (P : GrowingPolicies) (unassigned_part : PartitionID) (hg : Hypergraph)
    (bq : List BucketQueue) (hn : HypernodeID) (i : Nat) : List BucketQueue :=
  (hg.incidentEdges hn).foldl
    (fun b he =>
      (hg.pins he).foldl
        (fun b1 hnode =>
          if hg.partID hnode = unassigned_part then
            processNodeForBucketPQ_vector P.calculateGain hg b1 hnode (i : Int)
          else b1)
        b)
    bq

/-- The queues after `if (bq[i].empty()) { ... }` at the start of the step of part `i`: an
empty queue of part `i` receives the hypernode that `getUnassignedNode` returns. -/
def refillQueue (P : GrowingPolicies) (unassigned_part : PartitionID) (st : Growth) (i : Nat) :
    List BucketQueue :=
  if (st.bq.getD i []).empty then
    let newStartNode := P.getUnassignedNode st.calls st.hg unassigned_part
    st.bq.set i
      (processNodeForBucketPQ P.calculateGain st.hg (st.bq.getD i []) newStartNode (i : Int))
  else st.bq

/-- Body of `for (PartitionID i = 0; i < _config.initial_partitioning.k; i++)` in
`kwayPartitionImpl`, without the `break` test at its end. -/
def growStep (P : GrowingPolicies) (config : Configuration) (unassigned_part : PartitionID)
    (st : Growth) (i : Nat) : Growth :=
  if st.partEnable.getD i false then
    let bq1 := refillQueue P unassigned_part st i
    let calls1 := if (st.bq.getD i []).empty then st.calls + 1 else st.calls
    let hn := (bq1.getD i []).getMax
    let res := assignHypernodeToPartition st.hg config hn (i : Int)
    if !res.1 then
      { st with bq := bq1, partEnable := st.partEnable.set i false, calls := calls1 }
    else
      let bq2 := bq1.set i ((bq1.getD i []).deleteMax)
      let bq3 := deleteAssignedNodeInBucketPQ bq2 hn
      { hg := res.2
        bq := rerateNeighbours P unassigned_part res.2 bq3 hn i
        partEnable := st.partEnable
        assigned_nodes_weight := st.assigned_nodes_weight + res.2.nodeWeight hn
        calls := calls1 }
  else st

/-- The loop `for (PartitionID i = 0; i < _config.initial_partitioning.k; i++)` of
`kwayPartitionImpl` over the remaining parts `is`, with its `break`. -/
def growRound (P : GrowingPolicies) (config : Configuration) (unassigned_part : PartitionID) :
    List Nat → Growth → Growth
  | [], st => st
  | i :: is, st =>
    let st1 := growStep P config unassigned_part st i
    if st1.assigned_nodes_weight = config.total_graph_weight then st1
    else growRound P config unassigned_part is st1

/-- The loop `while (assigned_nodes_weight < _config.partition.total_graph_weight)` of
`kwayPartitionImpl`, run on `fuel`: `none` when the fuel runs out before the loop exits. -/
def growLoop (P : GrowingPolicies) (config : Configuration) (unassigned_part : PartitionID) :
    Nat → Growth → Option Growth
  | 0, st => if st.assigned_nodes_weight < config.total_graph_weight then none else some st
  | fuel + 1, st =>
    if st.assigned_nodes_weight < config.total_graph_weight then
      growLoop P config unassigned_part fuel
        (growRound P config unassigned_part (List.range config.initial_partitioning.k) st)
    else some st

/-- The part of `kwayPartitionImpl` before the main loop, with `unassigned_part = 0`: all
hypernodes are put into the unassigned part, the queues are created, every part but the
unassigned one is enabled, and the start nodes are pushed. -/
def growStart (P : GrowingPolicies) (config : Configuration) (hg : Hypergraph) : Growth :=
  let unassigned_part : PartitionID := 0
  let hg1 := { hg with part := List.replicate hg.part.length unassigned_part }
  let bq0 : List BucketQueue := List.replicate config.initial_partitioning.k []
  let partEnable := (List.replicate config.initial_partitioning.k true).set
    unassigned_part.toNat false
  let startNodes := P.calculateStartNodes hg1 config.initial_partitioning.k
  let bq1 := (List.range startNodes.length).foldl
    (fun b i =>
      b.set i (processNodeForBucketPQ P.calculateGain hg1 (b.getD i []) (startNodes.getD i 0)
        (i : Int)))
    bq0
  { hg := hg1, bq := bq1, partEnable := partEnable,
    assigned_nodes_weight :=
      getAt config.initial_partitioning.lower_allowed_partition_weight unassigned_part,
    calls := 0 }

/-- The main loop of `kwayPartitionImpl` from its start state. -/
def kwayPartitionImpl (P : GrowingPolicies) (config : Configuration) (fuel : Nat)
    (hg : Hypergraph) : Option Growth :=
  growLoop P config 0 fuel (growStart P config hg)

end GreedyHypergraphGrowingRoundRobinInitialPartitioner

/-- Modelled from the spec: the gain computation policy `FMGainComputationPolicy`
(`GainComputationPolicy.h` is not among the sources), "FM-gain (weight of edges newly
internal to target minus weight newly cut)", 0 towards the part the hypernode is in. -/
def fmGain (hg : Hypergraph) (hn : HypernodeID) (target_part : PartitionID) : Gain :=
  if target_part = hg.partID hn then 0 else gainTo hg hn target_part

/-- The FM gain policy, with the start nodes `0, 1, ...` and the first hypernode of the
unassigned part as the result of `getUnassignedNode` (hypernode 0 when there is none). -/
def fmGrowingPolicies : GrowingPolicies :=
  { calculateStartNodes := fun _ k => List.range k
    calculateGain := fmGain
    getUnassignedNode := fun _ hg p =>
      ((hg.nodes.find? (fun v => decide (hg.partID v = p))).getD 0) }

/-- A gain policy is local when the gain of a hypernode does not change with the part of a
hypernode with which it shares no hyperedge. -/
def LocalGain (calculateGain : Hypergraph → HypernodeID → PartitionID → Gain) : Prop :=
  ∀ (hg : Hypergraph) (hn : HypernodeID) (t : PartitionID) (v : HypernodeID) (p : PartitionID),
    v ≠ hn → (∀ e ∈ hg.incidentEdges v, hn ∉ hg.pins e) →
    calculateGain (hg.changeNodePart hn (hg.partID hn) t) v p = calculateGain hg v p

/-- Every key stored in a queue of `bq` is the gain of its hypernode towards the part of the
queue, on the hypergraph `hg`. -/
def KeysCurrent (calculateGain : Hypergraph → HypernodeID → PartitionID → Gain)
    (hg : Hypergraph) (bq : List BucketQueue) : Prop :=
  ∀ p : Nat, ∀ e ∈ bq.getD p [], e.2 = calculateGain hg e.1 (p : Int)

/-- Every hypernode in a queue of `bq` is in the unassigned part 0. -/
def MembersUnassigned (hg : Hypergraph) (bq : List BucketQueue) : Prop :=
  ∀ p : Nat, ∀ e ∈ bq.getD p [], hg.partID e.1 = 0

/-- The states at the start of a round-robin step of `kwayPartitionImpl` on the hypergraph
`hg`: the state before the main loop, and the state after the step of a part `i` from such
a state.  The runs are those in which `getUnassignedNode`, when it is called, returns a
hypernode of the unassigned part. -/
inductive GrowReachable (P : GrowingPolicies) (config : Configuration) (hg : Hypergraph) :
    GreedyHypergraphGrowingRoundRobinInitialPartitioner.Growth → Prop
  | start : GrowReachable P config hg
      (GreedyHypergraphGrowingRoundRobinInitialPartitioner.growStart P config hg)
  | step (st : GreedyHypergraphGrowingRoundRobinInitialPartitioner.Growth) (i : Nat) :
      GrowReachable P config hg st → i < config.initial_partitioning.k →
      (st.partEnable.getD i false = true → (st.bq.getD i []).empty = true →
        st.hg.partID (P.getUnassignedNode st.calls st.hg 0) = 0) →
      GrowReachable P config hg
        (GreedyHypergraphGrowingRoundRobinInitialPartitioner.growStep P config 0 st i)

/-- Six hypernodes of weight 1 on a path of five hyperedges. -/
def pathHg : Hypergraph :=
  { k := 3, edge_pins := [[0, 1], [1, 2], [2, 3], [3, 4], [4, 5]],
    edge_weights := [1, 1, 1, 1, 1], node_weights := [1, 1, 1, 1, 1, 1],
    part := [0, 0, 0, 0, 0, 0] }

/-- Three hypernodes of weight 3 in one hyperedge. -/
def heavyHg : Hypergraph :=
  { k := 3, edge_pins := [[0, 1, 2]], edge_weights := [1], node_weights := [3, 3, 3],
    part := [0, 0, 0] }

/-- Three parts for a total weight of 9: at most 4 and at least 1 per part. -/
def heavyConfig : Configuration :=
  { k := 3, max_part_weight := 4, total_graph_weight := 9,
    initial_partitioning :=
      { k := 3, lower_allowed_partition_weight := [1, 1, 1],
        upper_allowed_partition_weight := [4, 4, 4] } }

/-- The invariant of the main loop of `kwayPartitionImpl`: the keys are current, the queues
hold hypernodes of the unassigned part only, the unassigned part is disabled, and there is
a queue per entry of `partEnable`. -/
def GrowInv (P : GrowingPolicies)
    (st : GreedyHypergraphGrowingRoundRobinInitialPartitioner.Growth) : Prop :=
  KeysCurrent P.calculateGain st.hg st.bq ∧ MembersUnassigned st.hg st.bq ∧
  st.partEnable.getD 0 false = false ∧ st.bq.length = st.partEnable.length

/-- Every pin of a hyperedge that is not free is in the queue, unless it is marked or no
border node. -/
def Covered (r : MaxGainNodeKWayFMRefiner) : Prop :=
  ∀ (e : HyperedgeID) (p : HypernodeID), r.locked_hes.getD e (-1) ≠ -1 → p ∈ r.hg.pins e →
    isBorderNode r.hg p = true → r.marked.getD p false = false → r.pq.contains p = true

/-- The invariant of the main loop of `refineImpl` that the gain update relies on: the
queue is in order with current keys, the lock states have their witnesses, the marks and
lock states have an entry per hypernode and hyperedge, and the queue covers the pins of the
hyperedges that are not free. -/
structure UpdateInv (r : MaxGainNodeKWayFMRefiner) : Prop where
  queue : QueueGood r
  locks : LockWitness r
  marked_length : r.marked.length = r.hg.part.length
  locked_length : r.locked_hes.length = r.hg.initialNumEdges
  parts_fit : (r.hg.k : Int) < lockedSentinel
  covered : Covered r

/-- The states at the head of the main loop of `refineImpl`, for a refiner that is `Ready`
when `refineImpl` is called: the state after the part before the loop, and the state after
every iteration that the loop performs. -/
inductive InSearch {σ : Type} (P : MaxGainNodeKWayFMRefiner.StoppingPolicy σ)
    (rnd : MaxGainNodeKWayFMRefiner.Randomize) : MaxGainNodeKWayFMRefiner.Search σ → Prop
  | start (r : MaxGainNodeKWayFMRefiner) (policy : σ) (refinement_nodes : List HypernodeID)
      (num_refinement_nodes : Nat) (best_cut : HyperedgeWeight) :
      Ready r →
      InSearch P rnd (MaxGainNodeKWayFMRefiner.refineStart P rnd r policy refinement_nodes
        num_refinement_nodes best_cut)
  | body (s s1 : MaxGainNodeKWayFMRefiner.Search σ) :
      InSearch P rnd s → MaxGainNodeKWayFMRefiner.searchDone P s = false →
      MaxGainNodeKWayFMRefiner.searchBody P rnd s = some s1 → InSearch P rnd s1

namespace MaxGainNodeKWayFMRefiner

/-- The flag that `moveHypernode` returns in the iteration of the main loop of `refineImpl`
that starts in the state `s`. -/
def movePerformed {σ : Type} (s : Search σ) : Bool :=
  (moveHypernode { s.r with pq := s.r.pq.deleteMax } s.r.pq.max (s.r.hg.partID s.r.pq.max)
    (s.r.pq.data s.r.pq.max)).1

/-- The refiner when `updateNeighbours(max_gain_node, from_part, to_part)` returns in the
iteration of the main loop of `refineImpl` that starts in the state `s` (the value `r2` of
`searchBody`). -/
def afterUpdateNeighbours {σ : Type} (s : Search σ) : MaxGainNodeKWayFMRefiner :=
  updateNeighbours
    (moveHypernode { s.r with pq := s.r.pq.deleteMax } s.r.pq.max (s.r.hg.partID s.r.pq.max)
      (s.r.pq.data s.r.pq.max)).2
    s.r.pq.max (s.r.hg.partID s.r.pq.max) (s.r.pq.data s.r.pq.max)

end MaxGainNodeKWayFMRefiner

/-! ## The `.hgr` format (`lib/io/HypergraphIO.h`) -/

namespace io

/-- Modelled from the spec: `defs::HypergraphType` (the definitions header is not among the
sources), the `type` field of the header of a `.hgr` file: "type ∈ {0 (unweighted),
1 (edge-weighted), 10 (node-weighted), 11 (both)}". -/
inductive HypergraphType where
  | Unweighted
  | EdgeWeights
  | NodeWeights
  | EdgeAndNodeWeights
deriving DecidableEq, Repr

namespace HypergraphType

/-- The number that stands for the type in the header. -/
def code : HypergraphType → Int
  | Unweighted => 0
  | EdgeWeights => 1
  | NodeWeights => 10
  | EdgeAndNodeWeights => 11

/-- The type that a number in the header stands for. -/
def ofCode (c : Int) : Option HypergraphType :=
  if c = 0 then some Unweighted
  else if c = 1 then some EdgeWeights
  else if c = 10 then some NodeWeights
  else if c = 11 then some EdgeAndNodeWeights
  else none

def hasEdgeWeights : HypergraphType → Bool
  | EdgeWeights => true
  | EdgeAndNodeWeights => true
  | _ => false

def hasNodeWeights : HypergraphType → Bool
  | NodeWeights => true
  | EdgeAndNodeWeights => true
  | _ => false

end HypergraphType

/-- Modelled from the spec: a `.hgr` file, "text, whitespace-separated": the lines of the
file in order, each line as the list of its integer tokens. -/
abbrev HgrFile := List (List Int)

/-- Modelled from the spec: `io::writeHypergraphFile` (`lib/io/HypergraphIO.h` is not among
the sources; the hypergraph store of this development has no type member, so the variant is
an argument).  "Header line: `num_hyperedges num_hypernodes [type]`", written without the
type for the unweighted variant; "Next `num_hyperedges` lines: if edge-weighted,
`w pin1 pin2 …`; else `pin1 pin2 …`. Pins are 1-based vertex ids"; "If node-weighted:
`num_hypernodes` trailing lines each with one integer weight." -/
def writeHypergraphFile (hypergraph : Hypergraph) (type : HypergraphType) : HgrFile :=
  ((hypergraph.initialNumEdges : Int) :: (hypergraph.initialNumNodes : Int) ::
      (if type = HypergraphType.Unweighted then [] else [type.code])) ::
    (hypergraph.edges.map (fun he =>
      (if type.hasEdgeWeights then [hypergraph.edgeWeight he] else []) ++
        (hypergraph.pins he).map (fun pin : HypernodeID => (pin : Int) + 1)) ++
     (if type.hasNodeWeights then
        hypergraph.nodes.map (fun hn => [hypergraph.nodeWeight hn])
      else []))

/-- Modelled from the spec: `io::readHGRHeader` (`lib/io/HypergraphIO.h` is not among the
sources), "Header line: `num_hyperedges num_hypernodes [type]`"; `none` for a malformed
header. -/
def readHGRHeader : List Int → Option (HyperedgeID × HypernodeID × HypergraphType)
  | [m, n] =>
    if 0 ≤ m ∧ 0 ≤ n then some (m.toNat, n.toNat, HypergraphType.Unweighted) else none
  | [m, n, t] =>
    if 0 ≤ m ∧ 0 ≤ n then
      match HypergraphType.ofCode t with
      | some type => some (m.toNat, n.toNat, type)
      | none => none
    else none
  | _ => none

/-- The pins of a hyperedge line: "Pins are 1-based vertex ids; reader converts to 0-based";
`none` for a "pin out of range". -/
def readPins (num_hypernodes : HypernodeID) : List Int → Option (List HypernodeID)
  | [] => some []
  | pin :: rest =>
    if 1 ≤ pin ∧ pin ≤ (num_hypernodes : Int) then
      match readPins num_hypernodes rest with
      | some pins => some ((pin - 1).toNat :: pins)
      | none => none
    else none

/-- The hyperedge lines: per line the weight (1 when the file carries none) and the pins;
`none` for a missing or "negative weight" and for a pin out of range. -/
def readEdgeLines (num_hypernodes : HypernodeID) (weighted : Bool) :
    List (List Int) → Option (List (HyperedgeWeight × List HypernodeID))
  | [] => some []
  | line :: rest =>
    match (if weighted then
        match line with
        | [] => none
        | w :: pins =>
          if 0 ≤ w then
            match readPins num_hypernodes pins with
            | some ps => some (w, ps)
            | none => none
          else none
      else
        match readPins num_hypernodes line with
        | some ps => some ((1 : HyperedgeWeight), ps)
        | none => none) with
    | none => none
    | some he =>
      match readEdgeLines num_hypernodes weighted rest with
      | some hes => some (he :: hes)
      | none => none

/-- The trailing lines "each with one integer weight"; `none` for a line that is not one
token and for a "negative weight". -/
def readNodeWeights : List (List Int) → Option (List HypernodeWeight)
  | [] => some []
  | [w] :: rest =>
    if 0 ≤ w then
      match readNodeWeights rest with
      | some ws => some (w :: ws)
      | none => none
    else none
  | _ :: _ => none

/-- The index vector of the compressed pin lists: the position in the edge vector at which
the pins of each hyperedge start, and as last entry the length of the edge vector. -/
def indexVector (start : Nat) : List (List HypernodeID) → List Nat
  | [] => [start]
  | pins :: rest => start :: indexVector (start + pins.length) rest

/-- What `readHypergraphFile` stores through its reference and pointer parameters. -/
structure HgrContents where
  num_hypernodes : HypernodeID
  num_hyperedges : HyperedgeID
  index_vector : List Nat
  edge_vector : List HypernodeID
  hyperedge_weights : Option (List HyperedgeWeight)
  hypernode_weights : Option (List HypernodeWeight)
deriving DecidableEq, Repr

/-- Modelled from the spec: `io::readHypergraphFile` (`lib/io/HypergraphIO.h` is not among
the sources), reading the format of `writeHypergraphFile` into the index vector and edge
vector from which the hypergraph is built, with the weight vectors that the type of the file
announces.  "parsers fail fast ... on malformed input (header mismatch, pin out of range,
negative weight)": the result is `none` then. -/
def readHypergraphFile (file : HgrFile) : Option HgrContents :=
  match file with
  | [] => none
  | header :: lines =>
    match readHGRHeader header with
    | none => none
    | some (num_hyperedges, num_hypernodes, type) =>
      if lines.length = num_hyperedges + (if type.hasNodeWeights then num_hypernodes else 0) then
        match readEdgeLines num_hypernodes type.hasEdgeWeights (lines.take num_hyperedges),
            readNodeWeights (lines.drop num_hyperedges) with
        | some hes, some ws =>
          some
            { num_hypernodes := num_hypernodes
              num_hyperedges := num_hyperedges
              index_vector := indexVector 0 (hes.map (fun he => he.2))
              edge_vector := (hes.map (fun he => he.2)).flatten
              hyperedge_weights :=
                if type.hasEdgeWeights then some (hes.map (fun he => he.1)) else none
              hypernode_weights := if type.hasNodeWeights then some ws else none }
        | _, _ => none
      else none

/-- Modelled from the spec: the constructor `Hypergraph(num_hypernodes, num_hyperedges,
index_vector, edge_vector, k, hyperedge_weights, hypernode_weights)`
(`lib/datastructure/Hypergraph.h` is not among the sources): "The hypergraph is built once
by a parser-provided index/edge vector pair", "`edge_pins[index[e]..index[e+1]]` lists pins
of e"; a weight vector that is not passed gives every weight 1, and every hypernode starts
unassigned, with partition id −1. -/
def constructHypergraph (num_hypernodes : HypernodeID) (num_hyperedges : HyperedgeID)
    (index_vector : List Nat) (edge_vector : List HypernodeID) (k : Nat)
    (hyperedge_weights : Option (List HyperedgeWeight))
    (hypernode_weights : Option (List HypernodeWeight)) : Hypergraph :=
  { k := k
    edge_pins := (List.range num_hyperedges).map (fun he =>
      (edge_vector.drop (index_vector.getD he 0)).take
        (index_vector.getD (he + 1) 0 - index_vector.getD he 0))
    edge_weights :=
      match hyperedge_weights with
      | some ws => ws
      | none => List.replicate num_hyperedges 1
    node_weights :=
      match hypernode_weights with
      | some ws => ws
      | none => List.replicate num_hypernodes 1
    part := List.replicate num_hypernodes kInvalidPartition }

/-- The hypergraph that the tests `CanBeWrittenToFile` build from what `readHypergraphFile`
has stored, with `k = 2`. -/
def hypergraphOfContents (d : HgrContents) : Hypergraph :=
  constructHypergraph d.num_hypernodes d.num_hyperedges d.index_vector d.edge_vector 2
    d.hyperedge_weights d.hypernode_weights

/-- The two hypergraphs have the "same hypernodes, hyperedges, pins and weights". -/
def sameHypergraph (expected actual : Hypergraph) : Bool :=
  decide (expected.initialNumNodes = actual.initialNumNodes) &&
  decide (expected.initialNumEdges = actual.initialNumEdges) &&
  expected.edges.all (fun he => decide (expected.pins he = actual.pins he)) &&
  expected.edges.all (fun he => decide (expected.edgeWeight he = actual.edgeWeight he)) &&
  expected.nodes.all (fun hn => decide (expected.nodeWeight hn = actual.nodeWeight hn))

/-- Modelled from the spec: `verifyEquivalenceWithPartitionInfo` (the hypergraph test
utilities are not among the sources): the two hypergraphs have the "same hypernodes,
hyperedges, pins and weights", and the same partition information, which is the number of
parts and the partition id of every hypernode. -/
def verifyEquivalenceWithPartitionInfo (expected actual : Hypergraph) : Bool :=
  sameHypergraph expected actual && decide (expected.k = actual.k) &&
  expected.nodes.all (fun hn => decide (expected.partID hn = actual.partID hn))

/-- The hypergraph `hg` is one of the variant `type` that can be written: its pins are
hypernodes, its weights are not negative, and the weights that the variant does not carry
are all 1. -/
def IsOfType (hg : Hypergraph) (type : HypergraphType) : Prop :=
  (∀ he ∈ hg.edges, ∀ pin ∈ hg.pins he, pin < hg.initialNumNodes) ∧
  (∀ he ∈ hg.edges, 0 ≤ hg.edgeWeight he) ∧
  (∀ hn ∈ hg.nodes, 0 ≤ hg.nodeWeight hn) ∧
  (type.hasEdgeWeights = false → ∀ he ∈ hg.edges, hg.edgeWeight he = 1) ∧
  (type.hasNodeWeights = false → ∀ hn ∈ hg.nodes, hg.nodeWeight hn = 1)

instance (hg : Hypergraph) (type : HypergraphType) : Decidable (IsOfType hg type) := by
  unfold IsOfType; infer_instance

/-- Seven hypernodes and four hyperedges, not partitioned, with hyperedge weights and
hypernode weights. -/
def weightedHg : Hypergraph :=
  { k := 2, edge_pins := [[0, 2], [0, 1, 3, 4], [3, 4, 6], [2, 5, 6]],
    edge_weights := [2, 3, 8, 7], node_weights := [5, 8, 2, 3, 4, 9, 8],
    part := [-1, -1, -1, -1, -1, -1, -1] }

end io

/-- The divisor in `nGPRandomWalkStopsSearch::searchShouldStop`:
`2.0 * (best_cut - cut) * (best_cut - cut) - 0.5`. -/
def ngpDenominator (best_cut cut : HyperedgeWeight) : ℚ :=
  2 * ((best_cut : ℚ) - (cut : ℚ)) * ((best_cut : ℚ) - (cut : ℚ)) - 1 / 2

/-- Three hypernodes in three parts: hypernode 0 (part 1) shares a hyperedge with hypernode 1
(part 0) and one with hypernode 2 (part 2). -/
def staleHg : Hypergraph :=
  { k := 3, edge_pins := [[0, 1], [0, 2]], edge_weights := [1, 1], node_weights := [1, 1, 1],
    part := [1, 0, 2] }

namespace MaxGainNodeKWayFMRefiner

/-- What happens inside a loop `for (a : as) r = step(r, a)`: the events `leaf r a` of every
pass, each taken in the refiner state at the entry of the pass, in order. -/
def loopTrace {α β : Type} (step : MaxGainNodeKWayFMRefiner → α → MaxGainNodeKWayFMRefiner)
    (leaf : MaxGainNodeKWayFMRefiner → α → List β) :
    List α → MaxGainNodeKWayFMRefiner → List β
  | [], _ => []
  | a :: as, r => leaf r a ++ loopTrace step leaf as (step r a)

/-- The events inside the loop `for (auto && pin : _hg.pins(he)) updatePin(pin);`. -/
def updatePinsTrace {β : Type} (leaf : MaxGainNodeKWayFMRefiner → HypernodeID → List β)
    (r : MaxGainNodeKWayFMRefiner) (he : HyperedgeID) : List β :=
  loopTrace updatePin leaf (r.hg.pins he) r

/-- The events inside the body of `for (auto && he : _hg.incidentEdges(hn))` in
`updateNeighbours`, branch by branch as in `updateNeighboursEdge`. -/
def updateNeighboursEdgeTrace {β : Type}
    (leaf : MaxGainNodeKWayFMRefiner → HypernodeID → List β)
    (from_part to_part : PartitionID) (r : MaxGainNodeKWayFMRefiner) (he : HyperedgeID) :
    List β :=
  if r.locked_hes.getD he (-1) ≠ lockedSentinel then
    if r.locked_hes.getD he (-1) = to_part then
      if looseUpdateNeeded r he from_part to_part then updatePinsTrace leaf r he else []
    else if r.locked_hes.getD he (-1) = -1 then
      updatePinsTrace leaf
        { r with
          locked_hes := r.locked_hes.set he to_part
          current_locked_hes := he :: r.current_locked_hes } he
    else
      if looseUpdateNeeded r he from_part to_part then updatePinsTrace leaf r he else []
  else []

/-- The events inside `updateNeighbours`. -/
def updateNeighboursTrace {β : Type} (leaf : MaxGainNodeKWayFMRefiner → HypernodeID → List β)
    (r : MaxGainNodeKWayFMRefiner) (hn : HypernodeID) (from_part to_part : PartitionID) :
    List β :=
  loopTrace (updateNeighboursEdge from_part to_part)
    (updateNeighboursEdgeTrace leaf from_part to_part) (r.hg.incidentEdges hn)
    { r with just_updated := List.replicate r.just_updated.length false }

/-- The events inside one iteration of the main loop of `refineImpl`. -/
def searchBodyTrace {σ β : Type} (leaf : MaxGainNodeKWayFMRefiner → HypernodeID → List β)
    (s : Search σ) : List β :=
  let max_gain_node := s.r.pq.max
  let from_part := s.r.hg.partID max_gain_node
  let to_part := s.r.pq.data max_gain_node
  let r1 := { s.r with pq := s.r.pq.deleteMax }
  let mv := moveHypernode r1 max_gain_node from_part to_part
  if mv.1 then updateNeighboursTrace leaf mv.2 max_gain_node from_part to_part else []

/-- The events inside the main loop of `refineImpl`, run on `fuel`. -/
def searchLoopTrace {σ β : Type} (P : StoppingPolicy σ) (rnd : Randomize)
    (leaf : MaxGainNodeKWayFMRefiner → HypernodeID → List β) : Nat → Search σ → List β
  | 0, _ => []
  | fuel + 1, s =>
    if searchDone P s then []
    else
      searchBodyTrace leaf s ++
        (match searchBody P rnd s with
         | none => []
         | some s1 => searchLoopTrace P rnd leaf fuel s1)

/-- The events inside `refineImpl` up to the end of its main loop (the rollback calls none of
`activate`, `updatePin` and `computeMaxGain`): `leafA r hn` for every call `activate(hn)` of
the loop over the refinement nodes, `leafU r pin` for every call `updatePin(pin)`, each in
the refiner state `r` in which the call is made. -/
def refineImplTrace {σ β : Type} (P : StoppingPolicy σ) (rnd : Randomize)
    (leafA leafU : MaxGainNodeKWayFMRefiner → HypernodeID → List β) (fuel : Nat)
    (r : MaxGainNodeKWayFMRefiner) (policy : σ) (refinement_nodes : List HypernodeID)
    (num_refinement_nodes : Nat) (best_cut : HyperedgeWeight) : List β :=
  loopTrace activate leafA
      ((rnd.shuffleVector refinement_nodes num_refinement_nodes).take num_refinement_nodes)
      (resetLockedHes
        { r with pq := r.pq.clear, marked := List.replicate r.marked.length false }) ++
    searchLoopTrace P rnd leafU fuel
      (refineStart P rnd r policy refinement_nodes num_refinement_nodes best_cut)

/-- The call of `computeMaxGain` that `activate(hn)` makes in the state `r`, if any: the
state and the argument. -/
def activateCalls (r : MaxGainNodeKWayFMRefiner) (hn : HypernodeID) :
    List (MaxGainNodeKWayFMRefiner × HypernodeID) :=
  if isBorderNode r.hg hn then [(r, hn)] else []

/-- The call of `computeMaxGain` that `updatePin(pin)` makes in the state `r`, if any. -/
def updatePinCalls (r : MaxGainNodeKWayFMRefiner) (pin : HypernodeID) :
    List (MaxGainNodeKWayFMRefiner × HypernodeID) :=
  if r.pq.contains pin then
    if isBorderNode r.hg pin then
      if !(r.just_updated.getD pin false) then [(r, pin)] else []
    else []
  else
    if !(r.marked.getD pin false) then activateCalls r pin else []

/-- The calls of `computeMaxGain` made during `refineImpl`, in order: the refiner state in
which each call is made, and its argument. -/
def computeMaxGainCalls {σ : Type} (P : StoppingPolicy σ) (rnd : Randomize) (fuel : Nat)
    (r : MaxGainNodeKWayFMRefiner) (policy : σ) (refinement_nodes : List HypernodeID)
    (num_refinement_nodes : Nat) (best_cut : HyperedgeWeight) :
    List (MaxGainNodeKWayFMRefiner × HypernodeID) :=
  refineImplTrace P rnd activateCalls updatePinCalls fuel r policy refinement_nodes
    num_refinement_nodes best_cut

/-- The refiner states in which `activate` and `updatePin` are called during `refineImpl`, in
order. -/
def pinUpdateStates {σ : Type} (P : StoppingPolicy σ) (rnd : Randomize) (fuel : Nat)
    (r : MaxGainNodeKWayFMRefiner) (policy : σ) (refinement_nodes : List HypernodeID)
    (num_refinement_nodes : Nat) (best_cut : HyperedgeWeight) :
    List MaxGainNodeKWayFMRefiner :=
  refineImplTrace P rnd (fun r _ => [r]) (fun r _ => [r]) fuel r policy refinement_nodes
    num_refinement_nodes best_cut

end MaxGainNodeKWayFMRefiner

/-- The property `Q` of hypergraphs is kept by every move that `moveHypernode` performs under
the configuration `config`: a move of a hypernode `v` to another part `d` for which neither
`partWeight(d) + nodeWeight(v) >= max_part_weight` nor `partSize(from_part) - 1 == 0`
holds. -/
def MoveKeeps (config : Configuration) (Q : Hypergraph → Prop) : Prop :=
  ∀ (hg : Hypergraph) (v : HypernodeID) (d : PartitionID), hg.WellFormed →
    v < hg.part.length → 0 ≤ d → d < (hg.k : Int) → d ≠ hg.partID v →
    ¬ (hg.partWeight d + hg.nodeWeight v ≥ config.max_part_weight ∨
        (hg.partSize (hg.partID v) : Int) - 1 = 0) →
    Q hg → Q (hg.changeNodePart v (hg.partID v) d)

/-- The invariant of the main loop of `refineImpl` for any value passed in as `best_cut`, for
the hypergraph `hg0` and the configuration `config` at the start of the loop and a property
`Q` of hypergraphs: the queue invariant, the move log leads from `hg0` to the current
hypergraph, its hypernodes are marked and pairwise distinct, the moves and the iterations
made so far and the unmarked hypernodes together are at most the hypernodes, `min_cut_index`
points into the log, and `Q` holds after every prefix of the log. -/
structure LoopInv {σ : Type} (Q : Hypergraph → Prop) (hg0 : Hypergraph)
    (config : Configuration) (s : MaxGainNodeKWayFMRefiner.Search σ) : Prop where
  upd : UpdateInv s.r
  config_eq : s.r.config = config
  moves_length : s.r.performed_moves.length = s.r.hg.part.length
  measure : s.num_moves + s.r.marked.count false ≤ s.r.marked.length
  steps : s.step + s.r.marked.count false ≤ s.r.marked.length
  log : IsMoveLog hg0 (s.r.performed_moves.take s.num_moves)
  current : s.r.hg = applyMoves hg0 (s.r.performed_moves.take s.num_moves)
  index_lower : -1 ≤ s.min_cut_index
  index_upper : s.min_cut_index < (s.num_moves : Int)
  log_marked : ∀ m ∈ s.r.performed_moves.take s.num_moves, s.r.marked.getD m.hn false = true
  log_nodup : ((s.r.performed_moves.take s.num_moves).map (fun m => m.hn)).Nodup
  prefixes : ∀ i, i ≤ s.num_moves →
    Q (applyMoves hg0 ((s.r.performed_moves.take s.num_moves).take i))

/-- Every block is lighter than `max_part_weight`, and no hypernode has a negative weight. -/
def Balanced (config : Configuration) (hg : Hypergraph) : Prop :=
  (∀ v, v < hg.part.length → 0 ≤ hg.nodeWeight v) ∧
  ∀ p : PartitionID, 0 ≤ p → p < (hg.k : Int) → hg.partWeight p < config.max_part_weight

/-- Every block contains at least one hypernode. -/
def NoEmptyPart (hg : Hypergraph) : Prop :=
  ∀ p : PartitionID, 0 ≤ p → p < (hg.k : Int) → 0 < hg.partSize p

instance (config : Configuration) (hg : Hypergraph) : Decidable (Balanced config hg) := by
  unfold Balanced
  have : Decidable (∀ p : PartitionID, 0 ≤ p → p < (hg.k : Int) →
      hg.partWeight p < config.max_part_weight) :=
    decidable_of_iff (∀ i ∈ List.range hg.k, hg.partWeight (i : Int) < config.max_part_weight)
      ⟨fun h p h0 h1 => by
        have := h p.toNat (List.mem_range.mpr ((Int.toNat_lt h0).mpr h1))
        rwa [Int.toNat_of_nonneg h0] at this,
       fun h i hi => h i (Int.ofNat_zero_le i) (by exact_mod_cast List.mem_range.mp hi)⟩
  infer_instance

instance (hg : Hypergraph) : Decidable (NoEmptyPart hg) := by
  unfold NoEmptyPart
  exact decidable_of_iff (∀ i ∈ List.range hg.k, 0 < hg.partSize (i : Int))
    ⟨fun h p h0 h1 => by
      have := h p.toNat (List.mem_range.mpr ((Int.toNat_lt h0).mpr h1))
      rwa [Int.toNat_of_nonneg h0] at this,
     fun h i hi => h i (Int.ofNat_zero_le i) (by exact_mod_cast List.mem_range.mp hi)⟩

/-! ## The analyzer tool (`tools/HypergraphAnalyzer.cc`) -/

/-- Modelled from the spec: `Hypergraph::nodeDegree` (`lib/datastructure/Hypergraph.h` is not
among the sources), the "degree" of a hypernode: the number of hyperedges incident to it. -/
def Hypergraph.nodeDegree (hg : Hypergraph) (hn : HypernodeID) : Nat :=
  (hg.incidentEdges hn).length

namespace HypergraphAnalyzer

/-- The `std::map` of the tool, from a 32-bit unsigned key to a 32-bit unsigned counter: the
entries `(key, counter)` in the order of iteration, which is the increasing order of the
keys. -/
abbrev CountMap := List (Nat × Nat)

/-- The statement `++m[key]`: `operator[]` inserts the key with the counter 0 when the map
does not contain it, and the increment of the 32-bit unsigned counter wraps at `2^32`. -/
def increment : CountMap → Nat → CountMap
  | [], key => [(key, (0 + 1) % 4294967296)]
  | (k, c) :: rest, key =>
    if key < k then (key, (0 + 1) % 4294967296) :: (k, c) :: rest
    else if key = k then (k, (c + 1) % 4294967296) :: rest
    else (k, c) :: increment rest key

/-- The map `node_degrees` after the loop over the hypernodes; the tool writes one row
`degree, count` per entry, in the order of the map. -/
def node_degrees (hypergraph : Hypergraph) : CountMap :=
  hypergraph.nodes.foldl (fun m hn => increment m (hypergraph.nodeDegree hn)) []

/-- The map `edge_sizes` after the loop over the hyperedges; the tool writes one row
`edgesize, count` per entry, in the order of the map. -/
def edge_sizes (hypergraph : Hypergraph) : CountMap :=
  hypergraph.edges.foldl (fun m he => increment m (hypergraph.edgeSize he)) []

/-- The histogram that counts how often each value occurs in a list of values. -/
def histogram (values : List Nat) : CountMap := values.foldl increment []

end HypergraphAnalyzer

/-! ## Bisection by greedy hypergraph growing (`bisectionPartitionImpl`) -/

namespace GreedyHypergraphGrowingRoundRobinInitialPartitioner

/-- The constant `invalid_node = std::numeric_limits<HypernodeID>::max()`, for the 32-bit
unsigned `HypernodeID`. -/
def invalid_node : HypernodeID := 4294967295

/-- The locals of `bisectionPartitionImpl` that its do-while loop changes, with the
hypergraph and the number of `getUnassignedNode` calls made so far. -/
structure Bisection where
  hg : Hypergraph
  bq : BucketQueue
  hn : HypernodeID
  calls : Nat
deriving DecidableEq, Repr

/-- The loops over the hyperedges incident to `hn` and their pins in
`bisectionPartitionImpl`, which re-rate the pins of part 1 other than `hn`. -/
def bisectionRerate (P : GrowingPolicies) (hg : Hypergraph) (bq : BucketQueue)
    (hn : HypernodeID) : BucketQueue :=
  (hg.incidentEdges hn).foldl
    (fun b he =>
      (hg.pins he).foldl
        (fun b1 hnode =>
          if hg.partID hnode = 1 ∧ hnode ≠ hn then
            processNodeForBucketPQ P.calculateGain hg b1 hnode 0
          else b1)
        b)
    bq

/-- The loop `while (_hg.partID(hn) != 1 && !bq.empty()) { hn = bq.getMax(); bq.deleteMax(); }`
on `fuel`; every iteration removes an element, so the length of the queue is fuel enough. -/
def skipAssigned (hg : Hypergraph) : Nat → BucketQueue → HypernodeID → BucketQueue × HypernodeID
  | 0, bq, hn => (bq, hn)
  | fuel + 1, bq, hn =>
    if hg.partID hn ≠ 1 ∧ bq.empty = false then skipAssigned hg fuel bq.deleteMax bq.getMax
    else (bq, hn)

/-- The first part of the body of the do-while loop of `bisectionPartitionImpl`, up to the
end of `if (!bq.empty()) { ... }`: the queue and the hypernode `hn` selected from it. -/
def bisectionSelect (P : GrowingPolicies) (st : Bisection) : BucketQueue × HypernodeID :=
  let bq1 :=
    if st.hn ≠ invalid_node then bisectionRerate P st.hg st.bq.deleteMax st.hn else st.bq
  if bq1.empty = false then skipAssigned st.hg bq1.length bq1 bq1.getMax else (bq1, st.hn)

/-- Body of the do-while loop of `bisectionPartitionImpl`, with the value of its condition
`assignHypernodeToPartition(hn, 0, 1, true)`. -/
def bisectionBody (P : GrowingPolicies) (config : Configuration) (st : Bisection) :
    Bool × Bisection :=
  let sel := bisectionSelect P st
  let fresh : Bool := sel.1.empty && decide (st.hg.partID sel.2 ≠ 1)
  let hn1 := if fresh then P.getUnassignedNode st.calls st.hg 1 else sel.2
  let res := assignHypernodeToPartition st.hg config hn1 0
  (res.1, { hg := res.2, bq := sel.1, hn := hn1,
            calls := if fresh then st.calls + 1 else st.calls })

/-- The do-while loop of `bisectionPartitionImpl`, run on `fuel`: `none` when the fuel runs
out before the condition fails. -/
def bisectionLoop (P : GrowingPolicies) (config : Configuration) :
    Nat → Bisection → Option Bisection
  | 0, _ => none
  | fuel + 1, st =>
    let r := bisectionBody P config st
    if r.1 then bisectionLoop P config fuel r.2 else some r.2

/-- The part of `bisectionPartitionImpl` before the do-while loop: the start nodes are
calculated, all hypernodes are put into part 1, and the first start node is pushed. -/
def bisectionStart (P : GrowingPolicies) (hg : Hypergraph) : Bisection :=
  let startNode := P.calculateStartNodes hg 2
  let hg1 := { hg with part := List.replicate hg.part.length 1 }
  { hg := hg1, bq := processNodeForBucketPQ P.calculateGain hg1 [] (startNode.getD 0 0) 0,
    hn := invalid_node, calls := 0 }

/-- The growth of `bisectionPartitionImpl` from its start state. -/
def bisectionPartitionImpl (P : GrowingPolicies) (config : Configuration) (fuel : Nat)
    (hg : Hypergraph) : Option Bisection :=
  bisectionLoop P config fuel (bisectionStart P hg)

/-- The queue and the hypernode `hn` at every execution of the statement `bq.deleteMax()`
at the top of the loop body, in the order of the executions, for the first `fuel`
iterations of the do-while loop from the state `st`. -/
def deleteMaxStates (P : GrowingPolicies) (config : Configuration) :
    Nat → Bisection → List (BucketQueue × HypernodeID)
  | 0, _ => []
  | fuel + 1, st =>
    (if st.hn ≠ invalid_node then [(st.bq, st.hn)] else []) ++
      (if (bisectionBody P config st).1 then
        deleteMaxStates P config fuel (bisectionBody P config st).2
      else [])

end GreedyHypergraphGrowingRoundRobinInitialPartitioner

/-- Six hypernodes of weight 1 in three disjoint hyperedges of size two. -/
def pairsHg : Hypergraph :=
  { k := 2, edge_pins := [[0, 1], [2, 3], [4, 5]], edge_weights := [1, 1, 1],
    node_weights := [1, 1, 1, 1, 1, 1], part := [-1, -1, -1, -1, -1, -1] }

/-- Two parts for a total weight of 6: at most 3 per part. -/
def pairsConfig : Configuration :=
  { k := 2, max_part_weight := 3, total_graph_weight := 6,
    initial_partitioning :=
      { k := 2, lower_allowed_partition_weight := [3, 3],
        upper_allowed_partition_weight := [3, 3] } }

end KaHyPar

/-! ## Lemmas -/

namespace KaHyPar

open MaxGainNodeKWayFMRefiner

theorem getAt_setAt (v : List Int) (p q : Int) (x : Int) :
    getAt (setAt v q x) p =
      if p = q ∧ 0 ≤ q ∧ q.toNat < v.length then x else getAt v p := by
  unfold getAt setAt
  by_cases hq : 0 ≤ q
  · by_cases hp : 0 ≤ p
    · simp only [hq, hp, if_true, true_and]
      by_cases hpq : p = q
      · subst hpq
        by_cases hl : p.toNat < v.length
        · simp [hl, List.getD_eq_getElem?_getD, List.getElem?_set]
        · have : v.length ≤ p.toNat := by omega
          simp [hl, List.getD_eq_getElem?_getD, List.getElem?_set, List.getElem?_eq_none this]
      · have : q.toNat ≠ p.toNat := by omega
        simp [hpq, List.getD_eq_getElem?_getD, List.getElem?_set, this]
    · have : p ≠ q := by omega
      simp [hq, hp, this]
  · simp [hq]

theorem length_setAt (v : List Int) (q : Int) (x : Int) :
    (setAt v q x).length = v.length := by
  unfold setAt; split <;> simp

theorem mem_insertPart (s : List Int) (p q : Int) :
    q ∈ insertPart s p ↔ q ∈ s ∨ q = p := by
  induction s with
  | nil => simp [insertPart]
  | cons x s ih =>
    unfold insertPart
    by_cases h1 : p < x
    · rw [if_pos h1]
      simp only [List.mem_cons]
      tauto
    · rw [if_neg h1]
      by_cases h2 : p = x
      · rw [if_pos h2]
        simp only [List.mem_cons]
        constructor
        · intro h; exact Or.inl h
        · rintro (h | h)
          · exact h
          · exact Or.inl (h.trans h2)
      · rw [if_neg h2]
        simp only [List.mem_cons, ih]
        tauto

/-- The `insert` of the target-part set keeps the elements in increasing order. -/
theorem sorted_insertPart (s : List Int) (p : Int) (h : s.Pairwise (fun a b => a < b)) :
    (insertPart s p).Pairwise (fun a b => a < b) := by
  induction s with
  | nil => exact List.pairwise_singleton _ _
  | cons x s ih =>
    have h0 := h
    rw [List.pairwise_cons] at h
    obtain ⟨hx, hs⟩ := h
    unfold insertPart
    by_cases h1 : p < x
    · rw [if_pos h1, List.pairwise_cons]
      refine ⟨?_, h0⟩
      intro b hb
      rcases List.mem_cons.mp hb with hb | hb
      · rw [hb]; exact h1
      · exact lt_trans h1 (hx b hb)
    · rw [if_neg h1]
      by_cases h2 : p = x
      · rw [if_pos h2]; exact h0
      · rw [if_neg h2, List.pairwise_cons]
        refine ⟨?_, ih hs⟩
        intro b hb
        rcases (mem_insertPart s p b).mp hb with hb | hb
        · exact hx b hb
        · rw [hb]
          exact lt_of_le_of_ne (not_lt.mp h1) (fun e => h2 e.symm)


theorem mem_connectivitySet (hg : Hypergraph) (he : HyperedgeID) (p : Int) :
    p ∈ hg.connectivitySet he ↔ (0 ≤ p ∧ p < (hg.k : Int)) ∧ 0 < hg.pinCountInPart he p := by
  unfold Hypergraph.connectivitySet
  simp only [List.mem_filter, List.mem_map, List.mem_range, decide_eq_true_eq]
  constructor
  · rintro ⟨⟨a, ha, rfl⟩, h⟩
    exact ⟨⟨Int.ofNat_zero_le a, by exact_mod_cast ha⟩, h⟩
  · rintro ⟨⟨h0, hk⟩, h⟩
    refine ⟨⟨p.toNat, ?_, ?_⟩, h⟩
    · omega
    · simp [Int.toNat_of_nonneg h0]

theorem nodup_connectivitySet (hg : Hypergraph) (he : HyperedgeID) :
    (hg.connectivitySet he).Nodup := by
  unfold Hypergraph.connectivitySet
  apply List.Nodup.filter
  apply List.Nodup.map
  · intro a b h; exact Int.ofNat.inj h
  · exact List.nodup_range _

/-- Effect of the inner loop of the first loop of `computeMaxGain`. -/
theorem scanTarget_foldl (hg : Hypergraph) (he : HyperedgeID) (c : Nat) (ts : List Int) :
    ∀ a : GainScan, ts.Nodup →
      (∀ t ∈ ts, 0 ≤ t ∧ t.toNat < a.tmp_gains.length ∧
        t.toNat < a.tmp_connectivity_decrease.length) →
      let b := ts.foldl (scanTarget hg he c) a
      b.internal_weight = a.internal_weight ∧
      b.tmp_gains.length = a.tmp_gains.length ∧
      b.tmp_connectivity_decrease.length = a.tmp_connectivity_decrease.length ∧
      (∀ q, q ∈ b.tmp_target_parts ↔ q ∈ a.tmp_target_parts ∨ q ∈ ts) ∧
      (a.tmp_target_parts.Pairwise (fun x y => x < y) →
        b.tmp_target_parts.Pairwise (fun x y => x < y)) ∧
      (∀ p, getAt b.tmp_gains p = getAt a.tmp_gains p +
        (if p ∈ ts ∧ c = 1 ∧ hg.pinCountInPart he p = hg.edgeSize he - 1
          then hg.edgeWeight he else 0)) ∧
      (∀ p, getAt b.tmp_connectivity_decrease p = getAt a.tmp_connectivity_decrease p +
        (if p ∈ ts ∧ c = 1 then 1 else 0)) := by
  induction ts with
  | nil => intro a _ _; simp
  | cons t ts ih =>
    intro a hnd hr
    rw [List.nodup_cons] at hnd
    have ht := hr t (List.mem_cons_self _ _)
    have hlg : (scanTarget hg he c a t).tmp_gains.length = a.tmp_gains.length := by
      unfold scanTarget; dsimp only; split <;> simp [length_setAt]
    have hlc : (scanTarget hg he c a t).tmp_connectivity_decrease.length
        = a.tmp_connectivity_decrease.length := by
      unfold scanTarget; dsimp only; split <;> simp [length_setAt]
    have hrec := ih (scanTarget hg he c a t) hnd.2 (by
      intro u hu
      have := hr u (List.mem_cons_of_mem _ hu)
      rw [hlg, hlc]; exact this)
    simp only [List.foldl_cons]
    obtain ⟨h1, h2, h3, h4, h5, h6, h7⟩ := hrec
    refine ⟨?_, ?_, ?_, ?_, ?_, ?_, ?_⟩
    · rw [h1]; rfl
    · rw [h2, hlg]
    · rw [h3, hlc]
    · intro q
      rw [h4 q]
      have : (scanTarget hg he c a t).tmp_target_parts = insertPart a.tmp_target_parts t := rfl
      rw [this, mem_insertPart, List.mem_cons]; tauto
    · intro hn
      apply h5
      exact sorted_insertPart _ _ hn
    · intro p
      rw [h6 p]
      have hg1 : getAt (scanTarget hg he c a t).tmp_gains p = getAt a.tmp_gains p +
          (if p = t ∧ c = 1 ∧ hg.pinCountInPart he p = hg.edgeSize he - 1
            then hg.edgeWeight he else 0) := by
        unfold scanTarget; dsimp only
        by_cases hc : c = 1 ∧ hg.pinCountInPart he t = hg.edgeSize he - 1
        · rw [if_pos hc, getAt_setAt]
          by_cases hpt : p = t
          · subst hpt; simp [ht.1, ht.2.1, hc.1, hc.2]
          · simp [hpt]
        · rw [if_neg hc]
          by_cases hpt : p = t
          · subst hpt; simp only [true_and]; rw [if_neg hc]; simp
          · simp [hpt]
      rw [hg1]
      by_cases hpt : p = t
      · subst hpt
        have : p ∉ ts := hnd.1
        simp [this]
      · simp [hpt]
    · intro p
      rw [h7 p]
      have hg1 : getAt (scanTarget hg he c a t).tmp_connectivity_decrease p
          = getAt a.tmp_connectivity_decrease p + (if p = t ∧ c = 1 then 1 else 0) := by
        unfold scanTarget; dsimp only
        by_cases hc : c = 1
        · rw [if_pos hc, getAt_setAt]
          by_cases hpt : p = t
          · subst hpt; simp [ht.1, ht.2.2, hc]
          · simp [hpt]
        · rw [if_neg hc]; simp [hc]
      rw [hg1]
      by_cases hpt : p = t
      · subst hpt
        have : p ∉ ts := hnd.1
        simp [this]
      · simp [hpt]

/-- Effect of the first loop of `computeMaxGain`. -/
theorem scanEdge_foldl (hg : Hypergraph) (s : Int) (es : List HyperedgeID) :
    ∀ a : GainScan, hg.k ≤ a.tmp_gains.length → hg.k ≤ a.tmp_connectivity_decrease.length →
      let b := es.foldl (scanEdge hg s) a
      b.internal_weight = a.internal_weight +
        (es.map (fun e => if hg.connectivity e = 1 then hg.edgeWeight e else 0)).sum ∧
      b.tmp_gains.length = a.tmp_gains.length ∧
      b.tmp_connectivity_decrease.length = a.tmp_connectivity_decrease.length ∧
      (∀ q, q ∈ b.tmp_target_parts ↔ q ∈ a.tmp_target_parts ∨
        ∃ e ∈ es, hg.connectivity e ≠ 1 ∧ q ∈ hg.connectivitySet e) ∧
      (a.tmp_target_parts.Pairwise (fun x y => x < y) →
        b.tmp_target_parts.Pairwise (fun x y => x < y)) ∧
      (∀ p, getAt b.tmp_gains p = getAt a.tmp_gains p +
        (es.map (fun e => if hg.connectivity e ≠ 1 ∧ p ∈ hg.connectivitySet e ∧
          hg.pinCountInPart e s = 1 ∧ hg.pinCountInPart e p = hg.edgeSize e - 1
          then hg.edgeWeight e else 0)).sum) ∧
      (∀ p, getAt b.tmp_connectivity_decrease p = getAt a.tmp_connectivity_decrease p +
        (es.map (fun e => if hg.connectivity e ≠ 1 ∧ p ∈ hg.connectivitySet e ∧
          hg.pinCountInPart e s = 1 then (1 : Int) else 0)).sum) := by
  induction es with
  | nil => intro a _ _; simp
  | cons e es ih =>
    intro a hl1 hl2
    simp only [List.foldl_cons]
    by_cases hc : hg.connectivity e = 1
    · have hstep : scanEdge hg s a e =
          { a with internal_weight := a.internal_weight + hg.edgeWeight e } := by
        unfold scanEdge; rw [if_pos hc]
      rw [hstep]
      obtain ⟨h1, h2, h3, h4, h5, h6, h7⟩ := ih
        { a with internal_weight := a.internal_weight + hg.edgeWeight e } hl1 hl2
      refine ⟨?_, h2, h3, ?_, h5, ?_, ?_⟩
      · rw [h1]; simp [hc]; ring
      · intro q; rw [h4 q]; simp [hc]
      · intro p; rw [h6 p]; simp [hc]
      · intro p; rw [h7 p]; simp [hc]
    · have hstep : scanEdge hg s a e =
          (hg.connectivitySet e).foldl (scanTarget hg e (hg.pinCountInPart e s)) a := by
        unfold scanEdge; rw [if_neg hc]
      have hin := scanTarget_foldl hg e (hg.pinCountInPart e s) (hg.connectivitySet e) a
        (nodup_connectivitySet hg e) (by
          intro t ht
          rw [mem_connectivitySet] at ht
          refine ⟨ht.1.1, ?_, ?_⟩ <;> omega)
      rw [← hstep] at hin
      obtain ⟨g1, g2, g3, g4, g5, g6, g7⟩ := hin
      obtain ⟨h1, h2, h3, h4, h5, h6, h7⟩ := ih (scanEdge hg s a e)
        (by rw [g2]; exact hl1) (by rw [g3]; exact hl2)
      refine ⟨?_, ?_, ?_, ?_, ?_, ?_, ?_⟩
      · rw [h1, g1]; simp [hc]
      · rw [h2, g2]
      · rw [h3, g3]
      · intro q; rw [h4 q, g4 q]; simp [hc]; tauto
      · intro hn; exact h5 (g5 hn)
      · intro p; rw [h6 p, g6 p]; simp only [List.map_cons, List.sum_cons, hc, not_false_eq_true,
          true_and, ne_eq]; ring
      · intro p; rw [h7 p, g7 p]; simp only [List.map_cons, List.sum_cons, hc, not_false_eq_true,
          true_and, ne_eq]; ring

/-- One step of the second loop of `computeMaxGain`: either the target is taken, or the
running maximum stays. -/
theorem pickTarget_cases (hg : Hypergraph) (config : Configuration) (hn : HypernodeID)
    (s iw : Int) (b : GainPick) (t : Int) :
    let b1 := pickTarget hg config hn s iw b t
    b1.tmp_gains = setAt b.tmp_gains t 0 ∧
    b1.tmp_connectivity_decrease = setAt b.tmp_connectivity_decrease t 0 ∧
    ((b1.max_gain = getAt b.tmp_gains t - iw ∧ b1.max_gain_part = t ∧
        b1.max_connectivity_decrease = getAt b.tmp_connectivity_decrease t ∧
        (b.max_gain < getAt b.tmp_gains t - iw ∨
          (getAt b.tmp_gains t - iw = b.max_gain ∧
            (b.max_connectivity_decrease < getAt b.tmp_connectivity_decrease t ∨
              (config.max_part_weight ≤ hg.partWeight s ∧
                hg.partWeight t + hg.nodeWeight hn < config.max_part_weight))))) ∨
     (b1.max_gain = b.max_gain ∧ b1.max_gain_part = b.max_gain_part ∧
        b1.max_connectivity_decrease = b.max_connectivity_decrease ∧
        getAt b.tmp_gains t - iw ≤ b.max_gain ∧
        (getAt b.tmp_gains t - iw = b.max_gain →
          getAt b.tmp_connectivity_decrease t ≤ b.max_connectivity_decrease))) := by
  intro b1
  refine ⟨rfl, rfl, ?_⟩
  by_cases h1 : b.max_gain < getAt b.tmp_gains t - iw
  · left
    simp only [b1, pickTarget, gt_iff_lt, h1, decide_True, Bool.true_or, if_true, true_and,
      true_or]
  · by_cases h2 : getAt b.tmp_gains t - iw = b.max_gain
    · by_cases h3 : b.max_connectivity_decrease < getAt b.tmp_connectivity_decrease t
      · left
        simp only [b1, pickTarget, gt_iff_lt, h1, h2, h3, decide_True, decide_False,
          Bool.true_or, Bool.or_true, Bool.and_true, Bool.false_or, if_true, true_and, true_or,
          or_true, lt_self_iff_false]
      · by_cases h4 : config.max_part_weight ≤ hg.partWeight s ∧
            hg.partWeight t + hg.nodeWeight hn < config.max_part_weight ∧
            hg.partWeight t + hg.nodeWeight hn < hg.partWeight b.max_gain_part + hg.nodeWeight hn
        · left
          simp only [b1, pickTarget, gt_iff_lt, ge_iff_le, h2, h4.1, h4.2.1, h4.2.2, decide_True,
            Bool.and_true, Bool.or_true, if_true, true_and, or_true, and_self]
        · right
          have hb : (decide (getAt b.tmp_gains t - iw > b.max_gain) ||
              (decide (getAt b.tmp_gains t - iw = b.max_gain) &&
                decide (getAt b.tmp_connectivity_decrease t > b.max_connectivity_decrease)) ||
              (decide (getAt b.tmp_gains t - iw = b.max_gain) &&
                decide (hg.partWeight s ≥ config.max_part_weight) &&
                decide (hg.partWeight t + hg.nodeWeight hn < config.max_part_weight) &&
                decide (hg.partWeight t + hg.nodeWeight hn <
                  hg.partWeight b.max_gain_part + hg.nodeWeight hn)) : Bool) = false := by
            by_contra hne
            simp only [Bool.not_eq_false, Bool.or_eq_true, Bool.and_eq_true, decide_eq_true_eq,
              gt_iff_lt, ge_iff_le] at hne
            tauto
          simp only [b1, pickTarget, hb]
          refine ⟨by simp, by simp, by simp, le_of_eq h2, fun _ => not_lt.mp h3⟩
    · right
      have hb : (decide (getAt b.tmp_gains t - iw > b.max_gain) ||
          (decide (getAt b.tmp_gains t - iw = b.max_gain) &&
            decide (getAt b.tmp_connectivity_decrease t > b.max_connectivity_decrease)) ||
          (decide (getAt b.tmp_gains t - iw = b.max_gain) &&
            decide (hg.partWeight s ≥ config.max_part_weight) &&
            decide (hg.partWeight t + hg.nodeWeight hn < config.max_part_weight) &&
            decide (hg.partWeight t + hg.nodeWeight hn <
              hg.partWeight b.max_gain_part + hg.nodeWeight hn)) : Bool) = false := by
        simp [h1, h2]
      simp only [b1, pickTarget, hb]
      refine ⟨by simp, by simp, by simp, not_lt.mp h1, fun h => absurd h h2⟩

theorem getAt_setAt_zero (v : List Int) (p q : Int) :
    getAt (setAt v q 0) p = if p = q then 0 else getAt v p := by
  rw [getAt_setAt]
  by_cases hpq : p = q
  · subst hpq
    by_cases hr : 0 ≤ p ∧ p.toNat < v.length
    · simp [hr]
    · simp only [true_and, hr, if_false, if_true]
      unfold getAt
      split
      · rename_i h0
        have : v.length ≤ p.toNat := by
          by_contra hcon; exact hr ⟨h0, by omega⟩
        simp [List.getD_eq_getElem?_getD, List.getElem?_eq_none this]
      · rfl
  · simp [hpq]

/-- The third alternative of the selection in `computeMaxGain`: with an overweight source
part, a target whose gain equals the current maximum, that fits and is lighter than the
current choice becomes the choice, whatever its `connectivity_decrease`. -/
theorem pickTarget_third_alternative (hg : Hypergraph) (config : Configuration)
    (hn : HypernodeID) (s iw : Int) (b : GainPick) (t : Int)
    (h1 : getAt b.tmp_gains t - iw = b.max_gain)
    (h2 : config.max_part_weight ≤ hg.partWeight s)
    (h3 : hg.partWeight t + hg.nodeWeight hn < config.max_part_weight)
    (h4 : hg.partWeight t + hg.nodeWeight hn < hg.partWeight b.max_gain_part + hg.nodeWeight hn) :
    (pickTarget hg config hn s iw b t).max_gain_part = t ∧
    (pickTarget hg config hn s iw b t).max_gain = b.max_gain ∧
    (pickTarget hg config hn s iw b t).max_connectivity_decrease =
      getAt b.tmp_connectivity_decrease t := by
  simp only [pickTarget, gt_iff_lt, ge_iff_le, h1, h2, h3, h4, decide_True, Bool.and_true,
    Bool.or_true, if_true, true_and, and_self]

/-- Effect of the second loop of `computeMaxGain` on a duplicate-free list of targets. -/
theorem pickTarget_foldl (hg : Hypergraph) (config : Configuration) (hn : HypernodeID)
    (s iw : Int) (g c : Int → Int) (ts : List Int) :
    ∀ b : GainPick, ts.Nodup →
      (∀ t ∈ ts, getAt b.tmp_gains t = g t ∧ getAt b.tmp_connectivity_decrease t = c t) →
      let R := ts.foldl (pickTarget hg config hn s iw) b
      b.max_gain ≤ R.max_gain ∧
      (∀ t ∈ ts, g t - iw ≤ R.max_gain) ∧
      ((R.max_gain = b.max_gain ∧ R.max_gain_part = b.max_gain_part ∧
          R.max_connectivity_decrease = b.max_connectivity_decrease) ∨
        (R.max_gain_part ∈ ts ∧ R.max_gain = g R.max_gain_part - iw ∧
          R.max_connectivity_decrease = c R.max_gain_part)) ∧
      (∀ p, getAt R.tmp_gains p = if p ∈ ts then 0 else getAt b.tmp_gains p) ∧
      (∀ p, getAt R.tmp_connectivity_decrease p =
        if p ∈ ts then 0 else getAt b.tmp_connectivity_decrease p) ∧
      R.tmp_gains.length = b.tmp_gains.length ∧
      R.tmp_connectivity_decrease.length = b.tmp_connectivity_decrease.length ∧
      ((hg.partWeight s < config.max_part_weight ∨
          ∀ t ∈ ts, g t - iw = R.max_gain →
            config.max_part_weight ≤ hg.partWeight t + hg.nodeWeight hn) →
        (R.max_gain = b.max_gain → b.max_connectivity_decrease ≤ R.max_connectivity_decrease) ∧
        (∀ t ∈ ts, g t - iw = R.max_gain → c t ≤ R.max_connectivity_decrease)) := by
  induction ts with
  | nil => intro b _ _; simp
  | cons t ts ih =>
    intro b hnd hgc
    rw [List.nodup_cons] at hnd
    simp only [List.foldl_cons]
    obtain ⟨e1, e2, hcase⟩ := pickTarget_cases hg config hn s iw b t
    have hgt := hgc t (List.mem_cons_self _ _)
    rw [hgt.1, hgt.2] at hcase
    have htail : ∀ u ∈ ts, getAt (pickTarget hg config hn s iw b t).tmp_gains u = g u ∧
        getAt (pickTarget hg config hn s iw b t).tmp_connectivity_decrease u = c u := by
      intro u hu
      have hut : u ≠ t := fun h => hnd.1 (h ▸ hu)
      rw [e1, e2, getAt_setAt_zero, getAt_setAt_zero, if_neg hut, if_neg hut]
      exact hgc u (List.mem_cons_of_mem _ hu)
    obtain ⟨h1, h2, h3, h4, h5, h6, h7, h8⟩ := ih (pickTarget hg config hn s iw b t) hnd.2 htail
    refine ⟨?_, ?_, ?_, ?_, ?_, ?_, ?_, ?_⟩
    · rcases hcase with ⟨a1, _, _, a4⟩ | ⟨a1, _, _, _, _⟩
      · rcases a4 with a4 | a4 <;> linarith
      · linarith
    · intro u hu
      rcases List.mem_cons.mp hu with rfl | hu
      · rcases hcase with ⟨a1, _, _, _⟩ | ⟨a1, _, _, a4, _⟩ <;> linarith
      · exact h2 u hu
    · rcases h3 with ⟨a1, a2, a3⟩ | ⟨a1, a2, a3⟩
      · rcases hcase with ⟨c1, c2, c3, _⟩ | ⟨c1, c2, c3, _, _⟩
        · right
          rw [a2, c2]
          exact ⟨List.mem_cons_self _ _, by rw [a1, c1], by rw [a3, c3]⟩
        · left
          exact ⟨by rw [a1, c1], by rw [a2, c2], by rw [a3, c3]⟩
      · right
        exact ⟨List.mem_cons_of_mem _ a1, a2, a3⟩
    · intro p
      rw [h4 p, e1, getAt_setAt_zero]
      by_cases hp : p ∈ ts
      · simp [hp]
      · by_cases hpt : p = t <;> simp [hp, hpt]
    · intro p
      rw [h5 p, e2, getAt_setAt_zero]
      by_cases hp : p ∈ ts
      · simp [hp]
      · by_cases hpt : p = t <;> simp [hp, hpt]
    · rw [h6, e1, length_setAt]
    · rw [h7, e2, length_setAt]
    · intro hw
      obtain ⟨m1, m2⟩ := h8 (hw.imp id (fun h u hu => h u (List.mem_cons_of_mem _ hu)))
      constructor
      · intro heq
        rcases hcase with ⟨c1, _, c3, c4⟩ | ⟨c1, _, c3, _, _⟩
        · rcases c4 with c4 | ⟨c4, c5 | c5⟩
          · linarith
          · have := m1 (by linarith); linarith
          · rcases hw with hw | hw
            · linarith [c5.1]
            · have := hw t (List.mem_cons_self _ _) (by linarith)
              linarith [c5.2]
        · have := m1 (by linarith); linarith
      · intro u hu hue
        rcases List.mem_cons.mp hu with rfl | hu
        · rcases hcase with ⟨c1, _, c3, _⟩ | ⟨c1, _, c3, c4, c5⟩
          · have := m1 (by linarith); linarith
          · have := m1 (by linarith)
            have := c5 (by linarith)
            linarith
        · exact m2 u hu hue

theorem sum_map_ite_eq_sum_filter {α : Type} (l : List α) (P : α → Prop) [DecidablePred P]
    (f : α → Int) :
    (l.map (fun e => if P e then f e else 0)).sum = ((l.filter (fun e => decide (P e))).map f).sum := by
  induction l with
  | nil => simp
  | cons a l ih =>
    by_cases h : P a
    · simp [h, ih]
    · simp [h, ih]

theorem one_lt_length_iff_of_nodup {α : Type} (l : List α) (h : l.Nodup) :
    1 < l.length ↔ ∃ a ∈ l, ∃ b ∈ l, a ≠ b := by
  constructor
  · intro hl
    match l, h, hl with
    | a :: b :: _, h, _ =>
      refine ⟨a, by simp, b, by simp, ?_⟩
      intro hab
      rw [List.nodup_cons] at h
      exact h.1 (by simp [hab])
  · rintro ⟨a, ha, b, hb, hab⟩
    match l, ha, hb with
    | [], ha, _ => simp at ha
    | [x], ha, hb =>
      simp at ha hb
      exact absurd (ha.trans hb.symm) hab
    | _ :: _ :: _, _, _ => simp

theorem pins_mem_edge_pins (hg : Hypergraph) (he : HyperedgeID) (v : HypernodeID)
    (h : v ∈ hg.pins he) : hg.pins he ∈ hg.edge_pins := by
  unfold Hypergraph.pins at *
  rw [List.getD_eq_getElem?_getD] at *
  cases hq : hg.edge_pins[he]? with
  | none => rw [hq] at h; simp at h
  | some ps =>
    simp only [Option.getD_some]
    exact List.getElem?_mem hq

theorem partID_valid (hg : Hypergraph) (hwf : hg.WellFormed) (v : HypernodeID)
    (hv : v < hg.part.length) : 0 ≤ hg.partID v ∧ hg.partID v < (hg.k : Int) := by
  obtain ⟨_, _, _, _, _, hp⟩ := hwf
  apply hp
  unfold Hypergraph.partID
  rw [List.getD_eq_getElem?_getD, List.getElem?_eq_getElem hv]
  simp

theorem pin_lt (hg : Hypergraph) (hwf : hg.WellFormed) (he : HyperedgeID) (v : HypernodeID)
    (h : v ∈ hg.pins he) : v < hg.part.length :=
  (hwf.2.2.1 _ (pins_mem_edge_pins hg he v h)).2 v h

theorem pins_nodup (hg : Hypergraph) (hwf : hg.WellFormed) (he : HyperedgeID) :
    (hg.pins he).Nodup := by
  by_cases h : he < hg.edge_pins.length
  · apply (hwf.2.2.1 _ _).1
    unfold Hypergraph.pins
    rw [List.getD_eq_getElem?_getD, List.getElem?_eq_getElem h]
    simp
  · unfold Hypergraph.pins
    rw [List.getD_eq_getElem?_getD, List.getElem?_eq_none (not_lt.mp h)]
    simp

theorem mem_incidentEdges (hg : Hypergraph) (hn : HypernodeID) (he : HyperedgeID) :
    he ∈ hg.incidentEdges hn ↔ he < hg.edge_pins.length ∧ hn ∈ hg.pins he := by
  unfold Hypergraph.incidentEdges Hypergraph.edges Hypergraph.initialNumEdges
  simp

theorem pinCountInPart_pos_iff (hg : Hypergraph) (he : HyperedgeID) (p : Int) :
    0 < hg.pinCountInPart he p ↔ ∃ v ∈ hg.pins he, hg.partID v = p := by
  unfold Hypergraph.pinCountInPart
  rw [List.countP_pos_iff]
  simp

/-- A hyperedge is cut exactly when two of its pins are in different parts. -/
theorem one_lt_connectivity_iff (hg : Hypergraph) (he : HyperedgeID)
    (hv : ∀ v ∈ hg.pins he, 0 ≤ hg.partID v ∧ hg.partID v < (hg.k : Int)) :
    1 < hg.connectivity he ↔ ∃ u ∈ hg.pins he, ∃ v ∈ hg.pins he, hg.partID u ≠ hg.partID v := by
  unfold Hypergraph.connectivity
  rw [one_lt_length_iff_of_nodup _ (nodup_connectivitySet hg he)]
  constructor
  · rintro ⟨a, ha, b, hb, hab⟩
    rw [mem_connectivitySet, pinCountInPart_pos_iff] at ha hb
    obtain ⟨_, u, hu, rfl⟩ := ha
    obtain ⟨_, v, hv, rfl⟩ := hb
    exact ⟨u, hu, v, hv, hab⟩
  · rintro ⟨u, hu, v, hv2, huv⟩
    refine ⟨hg.partID u, ?_, hg.partID v, ?_, huv⟩
    · rw [mem_connectivitySet, pinCountInPart_pos_iff]; exact ⟨hv u hu, u, hu, rfl⟩
    · rw [mem_connectivitySet, pinCountInPart_pos_iff]; exact ⟨hv v hv2, v, hv2, rfl⟩

theorem connectivity_pos_of_pin (hg : Hypergraph) (he : HyperedgeID) (v : HypernodeID)
    (hv : v ∈ hg.pins he) (hp : 0 ≤ hg.partID v ∧ hg.partID v < (hg.k : Int)) :
    0 < hg.connectivity he := by
  unfold Hypergraph.connectivity
  apply List.length_pos_of_mem (a := hg.partID v)
  rw [mem_connectivitySet, pinCountInPart_pos_iff]
  exact ⟨hp, v, hv, rfl⟩

/-- A hyperedge with the pin `hn` has connectivity 1 exactly when all its pins are in the
part of `hn`. -/
theorem connectivity_eq_one_iff (hg : Hypergraph) (hwf : hg.WellFormed) (he : HyperedgeID)
    (hn : HypernodeID) (hin : hn ∈ hg.pins he) :
    hg.connectivity he = 1 ↔ ∀ u ∈ hg.pins he, hg.partID u = hg.partID hn := by
  have hval : ∀ v ∈ hg.pins he, 0 ≤ hg.partID v ∧ hg.partID v < (hg.k : Int) :=
    fun v hv => partID_valid hg hwf v (pin_lt hg hwf he v hv)
  have hpos := connectivity_pos_of_pin hg he hn hin (hval hn hin)
  have hcut := one_lt_connectivity_iff hg he hval
  constructor
  · intro h1 u hu
    by_contra hne
    have : 1 < hg.connectivity he := hcut.mpr ⟨u, hu, hn, hin, hne⟩
    omega
  · intro hall
    have : ¬ 1 < hg.connectivity he := by
      rw [hcut]
      rintro ⟨u, hu, v, hv, huv⟩
      exact huv ((hall u hu).trans (hall v hv).symm)
    omega

theorem partID_changeNodePart (hg : Hypergraph) (hn : Nat) (f t : Int) (v : Nat) :
    (hg.changeNodePart hn f t).partID v =
      if v = hn ∧ hn < hg.part.length then t else hg.partID v := by
  unfold Hypergraph.partID Hypergraph.changeNodePart
  simp only [List.getD_eq_getElem?_getD, List.getElem?_set]
  by_cases hv : hn = v
  · subst hv
    by_cases hl : hn < hg.part.length
    · simp [hl]
    · simp [hl, List.getElem?_eq_none (not_lt.mp hl)]
  · have : ¬ v = hn := fun h => hv h.symm
    simp [hv, this]

theorem pins_changeNodePart (hg : Hypergraph) (hn : Nat) (f t : Int) (he : Nat) :
    (hg.changeNodePart hn f t).pins he = hg.pins he := rfl

theorem edgeWeight_changeNodePart (hg : Hypergraph) (hn : Nat) (f t : Int) (he : Nat) :
    (hg.changeNodePart hn f t).edgeWeight he = hg.edgeWeight he := rfl

theorem edges_changeNodePart (hg : Hypergraph) (hn : Nat) (f t : Int) :
    (hg.changeNodePart hn f t).edges = hg.edges := rfl

theorem incidentEdges_changeNodePart (hg : Hypergraph) (hn : Nat) (f t : Int) (v : Nat) :
    (hg.changeNodePart hn f t).incidentEdges v = hg.incidentEdges v := rfl

theorem wellFormed_changeNodePart (hg : Hypergraph) (hwf : hg.WellFormed) (hn : Nat)
    (f t : Int) (ht : 0 ≤ t ∧ t < (hg.k : Int)) : (hg.changeNodePart hn f t).WellFormed := by
  obtain ⟨h1, h2, h3, h4, h5, h6⟩ := hwf
  refine ⟨h1, ?_, ?_, h4, h5, ?_⟩
  · simp only [Hypergraph.changeNodePart, List.length_set]; exact h2
  · simp only [Hypergraph.changeNodePart, List.length_set]; exact h3
  · intro p hp
    simp only [Hypergraph.changeNodePart] at hp
    rcases List.mem_or_eq_of_mem_set hp with hp | hp
    · exact h6 p hp
    · subst hp; exact ht

/-- Pin counts of a hyperedge that does not contain the moved hypernode are unchanged. -/
theorem pinCountInPart_changeNodePart_of_not_mem (hg : Hypergraph) (hn : Nat) (f t : Int)
    (he : Nat) (h : hn ∉ hg.pins he) (p : Int) :
    (hg.changeNodePart hn f t).pinCountInPart he p = hg.pinCountInPart he p := by
  unfold Hypergraph.pinCountInPart
  rw [pins_changeNodePart]
  apply List.countP_congr
  intro v hv
  have : v ≠ hn := fun hh => h (hh ▸ hv)
  simp [partID_changeNodePart, this]

theorem connectivity_changeNodePart_of_not_mem (hg : Hypergraph) (hn : Nat) (f t : Int)
    (he : Nat) (h : hn ∉ hg.pins he) :
    (hg.changeNodePart hn f t).connectivity he = hg.connectivity he := by
  unfold Hypergraph.connectivity Hypergraph.connectivitySet
  have hk : (hg.changeNodePart hn f t).k = hg.k := rfl
  rw [hk]
  congr 1
  apply List.filter_congr
  intro p _
  rw [pinCountInPart_changeNodePart_of_not_mem hg hn f t he h p]

/-- The condition under which a hyperedge counts for the gain towards `t`, in terms of the
pins: all pins other than `hn` are in part `t`. -/
theorem gain_condition_iff (hg : Hypergraph) (hwf : hg.WellFormed) (he hn : Nat)
    (hin : hn ∈ hg.pins he) (t : Int) (hts : t ≠ hg.partID hn) :
    (hg.pinCountInPart he (hg.partID hn) = 1 ∧ hg.pinCountInPart he t = hg.edgeSize he - 1) ↔
      ∀ u ∈ hg.pins he, u ≠ hn → hg.partID u = t := by
  have hnd := pins_nodup hg hwf he
  have hperm := List.perm_cons_erase hin
  have hmem : ∀ u, u ∈ (hg.pins he).erase hn ↔ u ≠ hn ∧ u ∈ hg.pins he :=
    fun u => hnd.mem_erase_iff
  have hlen : ((hg.pins he).erase hn).length = hg.edgeSize he - 1 := by
    unfold Hypergraph.edgeSize; rw [List.length_erase_of_mem hin]
  have hct : hg.pinCountInPart he t =
      ((hg.pins he).erase hn).countP (fun v => decide (hg.partID v = t)) := by
    unfold Hypergraph.pinCountInPart
    rw [hperm.countP_eq, List.countP_cons]
    simp [Ne.symm hts]
  have hcs : hg.pinCountInPart he (hg.partID hn) =
      ((hg.pins he).erase hn).countP (fun v => decide (hg.partID v = hg.partID hn)) + 1 := by
    unfold Hypergraph.pinCountInPart
    rw [hperm.countP_eq, List.countP_cons]
    simp
  constructor
  · rintro ⟨_, h2⟩ u hu hne
    rw [hct, ← hlen, List.countP_eq_length] at h2
    have := h2 u ((hmem u).mpr ⟨hne, hu⟩)
    simpa using this
  · intro hall
    constructor
    · rw [hcs]
      have : ((hg.pins he).erase hn).countP (fun v => decide (hg.partID v = hg.partID hn)) = 0 := by
        rw [List.countP_eq_zero]
        intro u hu
        have := hall u ((hmem u).mp hu).2 ((hmem u).mp hu).1
        simp [this, hts]
      omega
    · rw [hct, ← hlen, List.countP_eq_length]
      intro u hu
      have := hall u ((hmem u).mp hu).2 ((hmem u).mp hu).1
      simp [this]

theorem sum_map_pointwise {α : Type} (l : List α) (f g a b : α → Int)
    (h : ∀ e ∈ l, f e = g e - a e + b e) :
    (l.map f).sum = (l.map g).sum - (l.map a).sum + (l.map b).sum := by
  induction l with
  | nil => simp
  | cons x l ih =>
    have hx := h x (List.mem_cons_self _ _)
    have := ih (fun e he => h e (List.mem_cons_of_mem _ he))
    simp only [List.map_cons, List.sum_cons]
    rw [this, hx]; ring

/-- After the move of `hn` to `t` a hyperedge that contains `hn` is cut exactly when some
other pin is outside `t`. -/
theorem one_lt_connectivity_changeNodePart (hg : Hypergraph) (hwf : hg.WellFormed)
    (hn he : Nat) (hin : hn ∈ hg.pins he) (f t : Int) (ht : 0 ≤ t ∧ t < (hg.k : Int)) :
    1 < (hg.changeNodePart hn f t).connectivity he ↔
      ¬ ∀ u ∈ hg.pins he, u ≠ hn → hg.partID u = t := by
  have hwf1 := wellFormed_changeNodePart hg hwf hn f t ht
  have hlt := pin_lt hg hwf he hn hin
  rw [one_lt_connectivity_iff _ he (fun v hv =>
    partID_valid _ hwf1 v (pin_lt _ hwf1 he v hv))]
  simp only [pins_changeNodePart, partID_changeNodePart, hlt, and_true]
  constructor
  · rintro ⟨u, hu, v, hv, huv⟩ hall
    apply huv
    have e1 : (if u = hn then t else hg.partID u) = t := by
      by_cases h : u = hn
      · simp [h]
      · simp [h, hall u hu h]
    have e2 : (if v = hn then t else hg.partID v) = t := by
      by_cases h : v = hn
      · simp [h]
      · simp [h, hall v hv h]
    rw [e1, e2]
  · intro hnot
    push_neg at hnot
    obtain ⟨u, hu, hne, hpt⟩ := hnot
    exact ⟨u, hu, hn, hin, by simp [hne, hpt]⟩

/-- The cut after moving `hn` to another part `t` is the cut before minus `gainTo`. -/
theorem hyperedgeCut_changeNodePart (hg : Hypergraph) (hwf : hg.WellFormed) (hn : Nat)
    (t : Int) (ht : 0 ≤ t ∧ t < (hg.k : Int)) (hts : t ≠ hg.partID hn) :
    hyperedgeCut (hg.changeNodePart hn (hg.partID hn) t) = hyperedgeCut hg - gainTo hg hn t := by
  unfold hyperedgeCut gainTo internalWeight Hypergraph.incidentEdges
  rw [edges_changeNodePart]
  simp only [List.filter_filter]
  rw [← sum_map_ite_eq_sum_filter hg.edges (fun e => 1 < hg.connectivity e) hg.edgeWeight,
    ← sum_map_ite_eq_sum_filter hg.edges
      (fun e => 1 < (hg.changeNodePart hn (hg.partID hn) t).connectivity e)
      (hg.changeNodePart hn (hg.partID hn) t).edgeWeight]
  have ha : ((hg.edges.filter (fun a =>
      (decide (hg.pinCountInPart a (hg.partID hn) = 1 ∧
        hg.pinCountInPart a t = hg.edgeSize a - 1) && decide (hn ∈ hg.pins a)))).map
        hg.edgeWeight).sum =
      (hg.edges.map (fun e => if (hg.pinCountInPart e (hg.partID hn) = 1 ∧
        hg.pinCountInPart e t = hg.edgeSize e - 1) ∧ hn ∈ hg.pins e
        then hg.edgeWeight e else 0)).sum := by
    rw [sum_map_ite_eq_sum_filter]
    congr 2
    apply List.filter_congr
    intro e _
    simp only [Bool.decide_and]
  have hb : ((hg.edges.filter (fun a =>
      (decide (hg.connectivity a = 1) && decide (hn ∈ hg.pins a)))).map hg.edgeWeight).sum =
      (hg.edges.map (fun e => if hg.connectivity e = 1 ∧ hn ∈ hg.pins e
        then hg.edgeWeight e else 0)).sum := by
    rw [sum_map_ite_eq_sum_filter]
    congr 2
    apply List.filter_congr
    intro e _
    simp only [Bool.decide_and]
  rw [ha, hb]
  have key := sum_map_pointwise hg.edges
    (fun e => if 1 < (hg.changeNodePart hn (hg.partID hn) t).connectivity e
      then (hg.changeNodePart hn (hg.partID hn) t).edgeWeight e else 0)
    (fun e => if 1 < hg.connectivity e then hg.edgeWeight e else 0)
    (fun e => if (hg.pinCountInPart e (hg.partID hn) = 1 ∧
        hg.pinCountInPart e t = hg.edgeSize e - 1) ∧ hn ∈ hg.pins e
        then hg.edgeWeight e else 0)
    (fun e => if hg.connectivity e = 1 ∧ hn ∈ hg.pins e then hg.edgeWeight e else 0)
    (by
      intro e _
      simp only [edgeWeight_changeNodePart]
      by_cases hin : hn ∈ hg.pins e
      · have hpos := connectivity_pos_of_pin hg e hn hin
          (partID_valid hg hwf hn (pin_lt hg hwf e hn hin))
        have h1 := one_lt_connectivity_changeNodePart hg hwf hn e hin (hg.partID hn) t ht
        have h2 := gain_condition_iff hg hwf e hn hin t hts
        by_cases hO : ∀ u ∈ hg.pins e, u ≠ hn → hg.partID u = t
        · have h1' : ¬ 1 < (hg.changeNodePart hn (hg.partID hn) t).connectivity e := by
            rw [h1]; exact fun h => h hO
          have h2' := h2.mpr hO
          by_cases hI : hg.connectivity e = 1
          · have : ¬ 1 < hg.connectivity e := by omega
            simp [h1', h2', hin, hI]
          · have : 1 < hg.connectivity e := by omega
            simp [h1', h2', hin, hI, this]
        · have h1' : 1 < (hg.changeNodePart hn (hg.partID hn) t).connectivity e := h1.mpr hO
          have h2' : ¬ (hg.pinCountInPart e (hg.partID hn) = 1 ∧
              hg.pinCountInPart e t = hg.edgeSize e - 1) := fun h => hO (h2.mp h)
          by_cases hI : hg.connectivity e = 1
          · have : ¬ 1 < hg.connectivity e := by omega
            simp [h1', h2', hin, hI]
          · have : 1 < hg.connectivity e := by omega
            simp [h1', h2', hin, hI, this]
      · rw [connectivity_changeNodePart_of_not_mem hg hn _ t e hin]
        simp [hin])
  rw [key]; ring

theorem getAt_of_all_zero (v : List Int) (h : ∀ x ∈ v, x = 0) (p : Int) : getAt v p = 0 := by
  unfold getAt
  split
  · rw [List.getD_eq_getElem?_getD]
    cases hq : v[p.toNat]? with
    | none => rfl
    | some x => exact h x (List.getElem?_mem hq)
  · rfl

theorem edgeWeight_nonneg (hg : Hypergraph) (hwf : hg.WellFormed) (he : Nat) :
    0 ≤ hg.edgeWeight he := by
  unfold Hypergraph.edgeWeight
  rw [List.getD_eq_getElem?_getD]
  cases hq : hg.edge_weights[he]? with
  | none => simp
  | some x => exact hwf.2.2.2.1 x (List.getElem?_mem hq)

theorem sum_filter_le_of_nonneg {α : Type} (l : List α) (P : α → Bool) (f : α → Int)
    (h : ∀ e, 0 ≤ f e) : ((l.filter P).map f).sum ≤ (l.map f).sum := by
  induction l with
  | nil => simp
  | cons a l ih =>
    have := h a
    by_cases hp : P a = true
    · simp only [List.filter_cons, hp, if_true, List.map_cons, List.sum_cons]; omega
    · simp only [List.filter_cons, hp, List.map_cons, List.sum_cons]
      simp only [Bool.false_eq_true, if_false]; omega

theorem sum_map_nonneg {α : Type} (l : List α) (f : α → Int) (h : ∀ e, 0 ≤ f e) :
    0 ≤ (l.map f).sum := by
  induction l with
  | nil => simp
  | cons a l ih => have := h a; simp only [List.map_cons, List.sum_cons]; omega

theorem sum_edgeWeight_edges (hg : Hypergraph) (hwf : hg.WellFormed) :
    (hg.edges.map hg.edgeWeight).sum = hg.edge_weights.sum := by
  have h1 := hwf.1
  unfold Hypergraph.edges Hypergraph.initialNumEdges
  rw [← h1]
  congr 1
  apply List.ext_getElem
  · simp
  · intro i hi1 hi2
    simp only [List.getElem_map, List.getElem_range, Hypergraph.edgeWeight,
      List.getD_eq_getElem?_getD]
    rw [List.getElem?_eq_getElem hi2]; rfl

/-- The internal weight of a hypernode stays above the least value of `Gain`. -/
theorem internalWeight_lt (hg : Hypergraph) (hwf : hg.WellFormed) (hn : Nat) :
    0 ≤ internalWeight hg hn ∧ internalWeight hg hn < 2147483648 := by
  constructor
  · exact sum_map_nonneg _ _ (edgeWeight_nonneg hg hwf)
  · unfold internalWeight Hypergraph.incidentEdges
    have h1 := sum_filter_le_of_nonneg (hg.edges.filter (fun he => decide (hn ∈ hg.pins he)))
      (fun he => decide (hg.connectivity he = 1)) hg.edgeWeight (edgeWeight_nonneg hg hwf)
    have h2 := sum_filter_le_of_nonneg hg.edges (fun he => decide (hn ∈ hg.pins he))
      hg.edgeWeight (edgeWeight_nonneg hg hwf)
    rw [sum_edgeWeight_edges hg hwf] at h2
    have h3 := hwf.2.2.2.2.1
    linarith

theorem mem_candidateParts (hg : Hypergraph) (hn : Nat) (t : Int) :
    t ∈ candidateParts hg hn ↔
      (0 ≤ t ∧ t < (hg.k : Int)) ∧ t ≠ hg.partID hn ∧
        ∃ e ∈ hg.incidentEdges hn, t ∈ hg.connectivitySet e := by
  unfold candidateParts
  simp only [List.mem_filter, List.mem_map, List.mem_range, Bool.and_eq_true, decide_eq_true_eq,
    List.any_eq_true]
  constructor
  · rintro ⟨⟨a, ha, rfl⟩, h1, h2⟩
    exact ⟨⟨Int.ofNat_zero_le a, by exact_mod_cast ha⟩, h1, h2⟩
  · rintro ⟨⟨h0, hk⟩, h1, h2⟩
    refine ⟨⟨t.toNat, by omega, by simp [Int.toNat_of_nonneg h0]⟩, h1, h2⟩

/-- A hyperedge incident to `hn` that has another part than that of `hn` in its connectivity
set is cut. -/
theorem connectivity_ne_one_of_mem (hg : Hypergraph) (hwf : hg.WellFormed) (hn e : Nat)
    (hin : hn ∈ hg.pins e) (t : Int) (ht : t ∈ hg.connectivitySet e) (hts : t ≠ hg.partID hn) :
    1 < hg.connectivity e := by
  unfold Hypergraph.connectivity
  rw [one_lt_length_iff_of_nodup _ (nodup_connectivitySet hg e)]
  refine ⟨t, ht, hg.partID hn, ?_, hts⟩
  rw [mem_connectivitySet, pinCountInPart_pos_iff]
  exact ⟨partID_valid hg hwf hn (pin_lt hg hwf e hn hin), hn, hin, rfl⟩

theorem sum_map_ite_one_eq_length {α : Type} (l : List α) (P : α → Prop) [DecidablePred P] :
    (l.map (fun e => if P e then (1 : Int) else 0)).sum =
      ((l.filter (fun e => decide (P e))).length : Int) := by
  induction l with
  | nil => simp
  | cons a l ih =>
    by_cases h : P a
    · simp [h, ih]; ring
    · simp [h, ih]

/-- What `computeMaxGain` returns for a border node when `_tmp_gains` is all zero on
entry: a candidate part of maximal gain, the gain being `gainTo` less the weight of the
single-pin hyperedges at the node. -/
theorem computeMaxGain_char (r : MaxGainNodeKWayFMRefiner) (hn : Nat)
    (hwf : r.hg.WellFormed) (hl1 : r.hg.k ≤ r.tmp_gains.length)
    (hl2 : r.hg.k ≤ r.tmp_connectivity_decrease.length)
    (hz : ∀ x ∈ r.tmp_gains, x = 0)
    (hb : isBorderNode r.hg hn = true) :
    (computeMaxGain r hn).1.2 ∈ candidateParts r.hg hn ∧
    (computeMaxGain r hn).1.1 =
      gainTo r.hg hn (computeMaxGain r hn).1.2 - singlePinWeight r.hg hn ∧
    (∀ t ∈ candidateParts r.hg hn,
      gainTo r.hg hn t - singlePinWeight r.hg hn ≤ (computeMaxGain r hn).1.1) ∧
    ((r.hg.partWeight (r.hg.partID hn) < r.config.max_part_weight ∨
        ∀ t ∈ candidateParts r.hg hn,
          gainTo r.hg hn t - singlePinWeight r.hg hn = (computeMaxGain r hn).1.1 →
          r.config.max_part_weight ≤ r.hg.partWeight t + r.hg.nodeWeight hn) →
      ∀ t ∈ candidateParts r.hg hn,
        gainTo r.hg hn t - singlePinWeight r.hg hn = (computeMaxGain r hn).1.1 →
        getAt r.tmp_connectivity_decrease t + connectivityDecrease r.hg hn t ≤
          getAt r.tmp_connectivity_decrease (computeMaxGain r hn).1.2 +
            connectivityDecrease r.hg hn (computeMaxGain r hn).1.2) := by
  unfold computeMaxGain
  dsimp only
  obtain ⟨A1, A2, A3, A4, A5, A6, A7⟩ := scanEdge_foldl r.hg (r.hg.partID hn)
    (r.hg.incidentEdges hn)
    { internal_weight := 0, tmp_gains := r.tmp_gains,
      tmp_connectivity_decrease := r.tmp_connectivity_decrease, tmp_target_parts := [] } hl1 hl2
  simp only [zero_add, List.not_mem_nil, false_or] at A1 A4
  have A5' : List.Nodup _ := (A5 List.Pairwise.nil).imp (fun h => ne_of_lt h)
  -- the targets and their membership
  have hTmem : ∀ t, t ∈ ((r.hg.incidentEdges hn).foldl (scanEdge r.hg (r.hg.partID hn))
      { internal_weight := 0, tmp_gains := r.tmp_gains,
        tmp_connectivity_decrease := r.tmp_connectivity_decrease,
        tmp_target_parts := [] }).tmp_target_parts.erase (r.hg.partID hn) ↔
      t ∈ candidateParts r.hg hn := by
    intro t
    rw [A5'.mem_erase_iff, A4 t, mem_candidateParts]
    constructor
    · rintro ⟨hts, e, he, _, hte⟩
      exact ⟨((mem_connectivitySet _ _ _).mp hte).1, hts, e, he, hte⟩
    · rintro ⟨_, hts, e, he, hte⟩
      refine ⟨hts, e, he, ?_, hte⟩
      have := connectivity_ne_one_of_mem r.hg hwf hn e ((mem_incidentEdges _ _ _).mp he).2 t hte hts
      omega
  have hiw : ((r.hg.incidentEdges hn).foldl (scanEdge r.hg (r.hg.partID hn))
      { internal_weight := 0, tmp_gains := r.tmp_gains,
        tmp_connectivity_decrease := r.tmp_connectivity_decrease,
        tmp_target_parts := [] }).internal_weight = internalWeight r.hg hn := by
    rw [A1, sum_map_ite_eq_sum_filter]; rfl
  -- the accumulated gain of a candidate
  have hgain : ∀ t ∈ candidateParts r.hg hn,
      ((r.hg.incidentEdges hn).map (fun e => if r.hg.connectivity e ≠ 1 ∧
          t ∈ r.hg.connectivitySet e ∧ r.hg.pinCountInPart e (r.hg.partID hn) = 1 ∧
          r.hg.pinCountInPart e t = r.hg.edgeSize e - 1 then r.hg.edgeWeight e else 0)).sum
        - internalWeight r.hg hn = gainTo r.hg hn t - singlePinWeight r.hg hn := by
    intro t ht
    rw [mem_candidateParts] at ht
    unfold gainTo singlePinWeight
    rw [← sum_map_ite_eq_sum_filter _ (fun e => r.hg.pinCountInPart e (r.hg.partID hn) = 1 ∧
        r.hg.pinCountInPart e t = r.hg.edgeSize e - 1),
      ← sum_map_ite_eq_sum_filter _ (fun e => r.hg.edgeSize e = 1)]
    have key := sum_map_pointwise (r.hg.incidentEdges hn)
      (fun e => if r.hg.connectivity e ≠ 1 ∧
          t ∈ r.hg.connectivitySet e ∧ r.hg.pinCountInPart e (r.hg.partID hn) = 1 ∧
          r.hg.pinCountInPart e t = r.hg.edgeSize e - 1 then r.hg.edgeWeight e else 0)
      (fun e => if r.hg.pinCountInPart e (r.hg.partID hn) = 1 ∧
        r.hg.pinCountInPart e t = r.hg.edgeSize e - 1 then r.hg.edgeWeight e else 0)
      (fun e => if r.hg.edgeSize e = 1 then r.hg.edgeWeight e else 0)
      (fun _ => 0)
      (by
        intro e he
        have hin := ((mem_incidentEdges _ _ _).mp he).2
        by_cases h1 : r.hg.edgeSize e = 1
        · have hall : ∀ u ∈ r.hg.pins e, u = hn := by
            intro u hu
            unfold Hypergraph.edgeSize at h1
            obtain ⟨x, hx⟩ := List.length_eq_one.mp h1
            rw [hx] at hu hin
            simp only [List.mem_singleton] at hu hin
            rw [hu, hin]
          have hc1 : r.hg.connectivity e = 1 :=
            (connectivity_eq_one_iff r.hg hwf e hn hin).mpr (fun u hu => by rw [hall u hu])
          have hsp := (gain_condition_iff r.hg hwf e hn hin t ht.2.1).mpr
            (fun u hu hne => absurd (hall u hu) hne)
          simp [h1, hc1, hsp]
        · have hs : 2 ≤ r.hg.edgeSize e := by
            have : 0 < r.hg.edgeSize e := List.length_pos_of_mem hin
            omega
          by_cases hc : r.hg.pinCountInPart e (r.hg.partID hn) = 1 ∧
              r.hg.pinCountInPart e t = r.hg.edgeSize e - 1
          · have hte : t ∈ r.hg.connectivitySet e := by
              rw [mem_connectivitySet]; exact ⟨ht.1, by omega⟩
            have := connectivity_ne_one_of_mem r.hg hwf hn e hin t hte ht.2.1
            have hne : r.hg.connectivity e ≠ 1 := by omega
            simp [hc, hte, hne, h1]
          · have : ¬ (r.hg.connectivity e ≠ 1 ∧ t ∈ r.hg.connectivitySet e ∧
                r.hg.pinCountInPart e (r.hg.partID hn) = 1 ∧
                r.hg.pinCountInPart e t = r.hg.edgeSize e - 1) :=
              fun h => hc ⟨h.2.2.1, h.2.2.2⟩
            simp only [if_neg this, if_neg hc, if_neg h1]; simp)
    rw [key]; simp only [List.map_const', List.sum_replicate, smul_zero, add_zero]; ring
  obtain ⟨P1, P2, P3, _, _, _, _, P8⟩ := pickTarget_foldl r.hg r.config hn (r.hg.partID hn)
    ((r.hg.incidentEdges hn).foldl (scanEdge r.hg (r.hg.partID hn))
      { internal_weight := 0, tmp_gains := r.tmp_gains,
        tmp_connectivity_decrease := r.tmp_connectivity_decrease,
        tmp_target_parts := [] }).internal_weight
    (fun t => ((r.hg.incidentEdges hn).map (fun e => if r.hg.connectivity e ≠ 1 ∧
          t ∈ r.hg.connectivitySet e ∧ r.hg.pinCountInPart e (r.hg.partID hn) = 1 ∧
          r.hg.pinCountInPart e t = r.hg.edgeSize e - 1 then r.hg.edgeWeight e else 0)).sum)
    (fun t => getAt r.tmp_connectivity_decrease t +
      ((r.hg.incidentEdges hn).map (fun e => if r.hg.connectivity e ≠ 1 ∧
          t ∈ r.hg.connectivitySet e ∧ r.hg.pinCountInPart e (r.hg.partID hn) = 1
          then (1 : Int) else 0)).sum)
    (((r.hg.incidentEdges hn).foldl (scanEdge r.hg (r.hg.partID hn))
      { internal_weight := 0, tmp_gains := r.tmp_gains,
        tmp_connectivity_decrease := r.tmp_connectivity_decrease,
        tmp_target_parts := [] }).tmp_target_parts.erase (r.hg.partID hn))
    { max_gain_part := kInvalidPartition, max_gain := gainMin, max_connectivity_decrease := 0,
      tmp_gains := setAt ((r.hg.incidentEdges hn).foldl (scanEdge r.hg (r.hg.partID hn))
        { internal_weight := 0, tmp_gains := r.tmp_gains,
          tmp_connectivity_decrease := r.tmp_connectivity_decrease,
          tmp_target_parts := [] }).tmp_gains (r.hg.partID hn) 0,
      tmp_connectivity_decrease := ((r.hg.incidentEdges hn).foldl
        (scanEdge r.hg (r.hg.partID hn))
        { internal_weight := 0, tmp_gains := r.tmp_gains,
          tmp_connectivity_decrease := r.tmp_connectivity_decrease,
          tmp_target_parts := [] }).tmp_connectivity_decrease }
    (A5'.erase _)
    (by
      intro t ht
      have hts : t ≠ r.hg.partID hn := (A5'.mem_erase_iff.mp ht).1
      refine ⟨?_, A7 t⟩
      rw [getAt_setAt_zero, if_neg hts, A6 t, getAt_of_all_zero _ hz, zero_add])
  rw [hiw] at P1 P2 P3 P8 ⊢
  simp only [hTmem] at P2 P3 P8
  -- a candidate exists and its gain lies above the least value of `Gain`
  have hex : ∃ t0, t0 ∈ candidateParts r.hg hn := by
    unfold isBorderNode at hb
    rw [List.any_eq_true] at hb
    obtain ⟨e, he, hce⟩ := hb
    simp only [decide_eq_true_eq] at hce
    unfold Hypergraph.connectivity at hce
    rw [one_lt_length_iff_of_nodup _ (nodup_connectivitySet _ e)] at hce
    obtain ⟨a, ha, b, hb2, hab⟩ := hce
    by_cases has : a = r.hg.partID hn
    · refine ⟨b, (mem_candidateParts _ _ _).mpr
        ⟨((mem_connectivitySet _ _ _).mp hb2).1, ?_, e, he, hb2⟩⟩
      intro hbs; exact hab (has.trans hbs.symm)
    · exact ⟨a, (mem_candidateParts _ _ _).mpr
        ⟨((mem_connectivitySet _ _ _).mp ha).1, has, e, he, ha⟩⟩
  obtain ⟨t0, ht0⟩ := hex
  have hiwb := internalWeight_lt r.hg hwf hn
  have hlow : ∀ t, gainMin < ((r.hg.incidentEdges hn).map (fun e =>
      if r.hg.connectivity e ≠ 1 ∧
        t ∈ r.hg.connectivitySet e ∧ r.hg.pinCountInPart e (r.hg.partID hn) = 1 ∧
        r.hg.pinCountInPart e t = r.hg.edgeSize e - 1 then r.hg.edgeWeight e else 0)).sum
      - internalWeight r.hg hn := by
    intro t
    have := sum_map_nonneg (r.hg.incidentEdges hn) (fun e =>
      if r.hg.connectivity e ≠ 1 ∧
        t ∈ r.hg.connectivitySet e ∧ r.hg.pinCountInPart e (r.hg.partID hn) = 1 ∧
        r.hg.pinCountInPart e t = r.hg.edgeSize e - 1 then r.hg.edgeWeight e else 0)
      (by intro e; dsimp only; split
          · exact edgeWeight_nonneg r.hg hwf e
          · exact le_refl 0)
    unfold gainMin
    linarith [hiwb.2]
  have h0 := P2 t0 ht0
  have hl0 := hlow t0
  have hsel : _ := P3.resolve_left (by
    rintro ⟨e1, _, _⟩
    linarith)
  obtain ⟨S1, S2, S3⟩ := hsel
  refine ⟨S1, ?_, ?_, ?_⟩
  · rw [← hgain _ S1]; exact S2
  · intro t ht
    rw [← hgain t ht]; exact P2 t ht
  · intro hw t ht hge
    have hcd : ∀ u ∈ candidateParts r.hg hn,
        getAt r.tmp_connectivity_decrease u +
          ((r.hg.incidentEdges hn).map (fun e => if r.hg.connectivity e ≠ 1 ∧
            u ∈ r.hg.connectivitySet e ∧ r.hg.pinCountInPart e (r.hg.partID hn) = 1
            then (1 : Int) else 0)).sum =
          getAt r.tmp_connectivity_decrease u + connectivityDecrease r.hg hn u := by
      intro u _
      rw [sum_map_ite_one_eq_length]
      unfold connectivityDecrease
      congr 3
      apply List.filter_congr
      intro e _
      by_cases hue : u ∈ r.hg.connectivitySet e
      · have : 0 < r.hg.connectivity e := List.length_pos_of_mem hue
        have hiff : r.hg.connectivity e ≠ 1 ↔ 1 < r.hg.connectivity e := by omega
        simp [hue, hiff]
      · simp [hue]
    have := (P8 (hw.imp id (fun h u hu hue => h u hu (by rw [← hgain u hu]; exact hue)))).2
      t ht (by rw [hgain t ht]; exact hge)
    rw [S3] at this
    rw [hcd t ht, hcd _ S1] at this
    exact this

theorem singlePinWeight_eq_zero (hg : Hypergraph) (hn : Nat)
    (hsz : ∀ e ∈ hg.incidentEdges hn, 2 ≤ hg.edgeSize e) : singlePinWeight hg hn = 0 := by
  unfold singlePinWeight
  have : (hg.incidentEdges hn).filter (fun he => decide (hg.edgeSize he = 1)) = [] := by
    rw [List.filter_eq_nil_iff]
    intro e he
    have := hsz e he
    simp only [decide_eq_true_eq]
    omega
  rw [this]; rfl

/-! ### Rollback -/

theorem changeNodePart_undo (hg : Hypergraph) (v : Nat) (f t : Int) (h : hg.partID v = f) :
    (hg.changeNodePart v f t).changeNodePart v t f = hg := by
  unfold Hypergraph.changeNodePart
  simp only [List.set_set]
  unfold Hypergraph.partID at h
  have : hg.part.set v f = hg.part := by
    apply List.ext_getElem?
    intro i
    rw [List.getElem?_set]
    by_cases hv : v = i
    · subst hv
      simp only [if_true]
      by_cases hl : v < hg.part.length
      · simp only [hl, if_true]
        rw [List.getD_eq_getElem?_getD, List.getElem?_eq_getElem hl] at h
        simp only [Option.getD_some] at h
        rw [List.getElem?_eq_getElem hl, h]
      · simp [hl, List.getElem?_eq_none (not_lt.mp hl)]
    · simp [hv]
  cases hg
  simp only at this
  simp [this]

theorem applyMoves_append (hg : Hypergraph) (l1 l2 : List RollbackInfo) :
    applyMoves hg (l1 ++ l2) = applyMoves (applyMoves hg l1) l2 := by
  unfold applyMoves; rw [List.foldl_append]

theorem isMoveLog_getElem (log : List RollbackInfo) :
    ∀ (hg : Hypergraph), IsMoveLog hg log → ∀ (j : Nat) (hj : j < log.length),
      (applyMoves hg (log.take j)).partID (log[j]).hn = (log[j]).from_part := by
  induction log with
  | nil => intro hg _ j hj; simp at hj
  | cons m ms ih =>
    intro hg hlog j hj
    obtain ⟨h1, h2⟩ := hlog
    cases j with
    | zero => simpa [applyMoves] using h1
    | succ j =>
      have := ih _ h2 j (by simpa using hj)
      simpa [applyMoves] using this

theorem take_succ_eq_append_getElem' (log : List RollbackInfo) (j : Nat) (hj : j < log.length) :
    log.take (j + 1) = log.take j ++ [log[j]] := by
  rw [List.take_succ, List.getElem?_eq_getElem hj]; rfl

/-- Undoing the moves `j-1, ..., n` of a move log, from the state after the first `j` moves,
gives the state after the first `n` moves. -/
theorem rollback_take (hg0 : Hypergraph) (log : List RollbackInfo) (hlog : IsMoveLog hg0 log)
    (n : Nat) :
    ∀ (d fuel : Nat) (r : MaxGainNodeKWayFMRefiner), d ≤ fuel → n + d ≤ log.length →
      r.performed_moves.take log.length = log →
      r.hg = applyMoves hg0 (log.take (n + d)) →
      rollback fuel r (((n + d : Nat) : Int) - 1) ((n : Int) - 1) =
        some { r with hg := applyMoves hg0 (log.take n) } := by
  intro d
  induction d with
  | zero =>
    intro fuel r _ _ _ hhg
    have : { r with hg := applyMoves hg0 (log.take n) } = r := by
      cases r; simp only at hhg; simp [hhg]
    rw [this]
    cases fuel <;> simp [rollback]
  | succ d ih =>
    intro fuel r hf hlen hst hhg
    cases fuel with
    | zero => omega
    | succ fuel =>
      have hne : ¬ (((n + (d + 1) : Nat) : Int) - 1 = (n : Int) - 1) := by omega
      have hnn : (0 : Int) ≤ ((n + (d + 1) : Nat) : Int) - 1 := by omega
      have hidx : (((n + (d + 1) : Nat) : Int) - 1).toNat = n + d := by omega
      have hjl : n + d < log.length := by omega
      have hread : r.performed_moves[n + d]? = some log[n + d] := by
        have h1 : (r.performed_moves.take log.length)[n + d]? = log[n + d]? := by rw [hst]
        rw [List.getElem?_take_of_lt hjl] at h1
        rw [h1, List.getElem?_eq_getElem hjl]
      unfold rollback
      rw [if_neg hne, if_pos hnn, hidx]
      have hpart := isMoveLog_getElem log hg0 hlog (n + d) hjl
      have htake := take_succ_eq_append_getElem' log (n + d) hjl
      generalize log[n + d] = mv at hread hpart htake
      rw [hread]
      simp only
      have hundo : r.hg.changeNodePart mv.hn mv.to_part mv.from_part
          = applyMoves hg0 (log.take (n + d)) := by
        rw [hhg, show n + (d + 1) = (n + d) + 1 from rfl, htake, applyMoves_append]
        simp only [applyMoves, List.foldl_cons, List.foldl_nil]
        exact changeNodePart_undo _ _ _ _ hpart
      have hstep := ih fuel
        { r with hg := r.hg.changeNodePart mv.hn mv.to_part mv.from_part }
        (by omega) (by omega) hst hundo
      have hcast : ((n + (d + 1) : Nat) : Int) - 1 - 1 = ((n + d : Nat) : Int) - 1 := by omega
      rw [hcast, hstep]

/-! ### Frame of the gain computation and of the pin update -/

theorem sameFrame_refl (r : MaxGainNodeKWayFMRefiner) : SameFrame r r :=
  ⟨rfl, rfl, rfl, rfl, rfl, rfl, rfl, rfl, rfl⟩

theorem sameFrame_trans {r r1 r2 : MaxGainNodeKWayFMRefiner} (h1 : SameFrame r r1)
    (h2 : SameFrame r1 r2) : SameFrame r r2 := by
  obtain ⟨a1, a2, a3, a4, a5, a6, a7, a8, a9⟩ := h1
  obtain ⟨b1, b2, b3, b4, b5, b6, b7, b8, b9⟩ := h2
  exact ⟨b1.trans a1, b2.trans a2, b3.trans a3, b4.trans a4, b5.trans a5, b6.trans a6,
    b7.trans a7, b8.trans a8, b9.trans a9⟩

theorem scanEdge_foldl_length (hg : Hypergraph) (s : Int) (es : List Nat) :
    ∀ a : GainScan,
      (es.foldl (scanEdge hg s) a).tmp_gains.length = a.tmp_gains.length ∧
      (es.foldl (scanEdge hg s) a).tmp_connectivity_decrease.length =
        a.tmp_connectivity_decrease.length := by
  have inner : ∀ (e c : Nat) (ts : List Int) (a : GainScan),
      (ts.foldl (scanTarget hg e c) a).tmp_gains.length = a.tmp_gains.length ∧
      (ts.foldl (scanTarget hg e c) a).tmp_connectivity_decrease.length =
        a.tmp_connectivity_decrease.length := by
    intro e c ts
    induction ts with
    | nil => intro a; exact ⟨rfl, rfl⟩
    | cons t ts ih =>
      intro a
      simp only [List.foldl_cons]
      obtain ⟨h1, h2⟩ := ih (scanTarget hg e c a t)
      rw [h1, h2]
      unfold scanTarget
      dsimp only
      constructor
      · split <;> simp [length_setAt]
      · split <;> simp [length_setAt]
  induction es with
  | nil => intro a; exact ⟨rfl, rfl⟩
  | cons e es ih =>
    intro a
    simp only [List.foldl_cons]
    obtain ⟨h1, h2⟩ := ih (scanEdge hg s a e)
    rw [h1, h2]
    unfold scanEdge
    split
    · exact ⟨rfl, rfl⟩
    · exact inner _ _ _ _

theorem pickTarget_foldl_length (hg : Hypergraph) (config : Configuration) (hn : Nat)
    (s iw : Int) (ts : List Int) :
    ∀ b : GainPick,
      (ts.foldl (pickTarget hg config hn s iw) b).tmp_gains.length = b.tmp_gains.length ∧
      (ts.foldl (pickTarget hg config hn s iw) b).tmp_connectivity_decrease.length =
        b.tmp_connectivity_decrease.length := by
  induction ts with
  | nil => intro b; exact ⟨rfl, rfl⟩
  | cons t ts ih =>
    intro b
    simp only [List.foldl_cons]
    obtain ⟨h1, h2⟩ := ih (pickTarget hg config hn s iw b t)
    rw [h1, h2]
    exact ⟨length_setAt _ _ _, length_setAt _ _ _⟩

theorem sameFrame_computeMaxGain (r : MaxGainNodeKWayFMRefiner) (hn : Nat) :
    SameFrame r (computeMaxGain r hn).2 ∧ (computeMaxGain r hn).2.pq = r.pq ∧
      (computeMaxGain r hn).2.just_updated = r.just_updated := by
  refine ⟨⟨rfl, rfl, rfl, rfl, rfl, rfl, ?_, ?_, rfl⟩, rfl, rfl⟩
  · unfold computeMaxGain
    dsimp only
    rw [(pickTarget_foldl_length _ _ _ _ _ _ _).1, length_setAt,
      (scanEdge_foldl_length _ _ _ _).1]
  · unfold computeMaxGain
    dsimp only
    rw [(pickTarget_foldl_length _ _ _ _ _ _ _).2, (scanEdge_foldl_length _ _ _ _).2]

theorem sameFrame_activate (r : MaxGainNodeKWayFMRefiner) (hn : Nat) :
    SameFrame r (activate r hn) ∧ (activate r hn).just_updated = r.just_updated := by
  unfold activate
  split
  · obtain ⟨⟨a1, a2, a3, a4, a5, a6, a7, a8, a9⟩, _, hj⟩ := sameFrame_computeMaxGain r hn
    exact ⟨⟨a1, a2, a3, a4, a5, a6, a7, a8, a9⟩, hj⟩
  · exact ⟨sameFrame_refl r, rfl⟩

theorem sameFrame_updatePin (r : MaxGainNodeKWayFMRefiner) (pin : Nat) :
    SameFrame r (updatePin r pin) := by
  unfold updatePin
  split
  · split
    · split
      · obtain ⟨⟨a1, a2, a3, a4, a5, a6, a7, a8, a9⟩, _, hj⟩ := sameFrame_computeMaxGain r pin
        refine ⟨a1, a2, a3, a4, a5, a6, a7, a8, ?_⟩
        simp only [List.length_set]; exact a9
      · exact sameFrame_refl r
    · exact sameFrame_refl r
  · split
    · obtain ⟨⟨a1, a2, a3, a4, a5, a6, a7, a8, a9⟩, hj⟩ := sameFrame_activate r pin
      refine ⟨a1, a2, a3, a4, a5, a6, a7, a8, ?_⟩
      simp only [List.length_set]; exact a9
    · exact sameFrame_refl r

theorem sameFrame_foldl_updatePin (ps : List Nat) :
    ∀ r : MaxGainNodeKWayFMRefiner, SameFrame r (ps.foldl updatePin r) := by
  induction ps with
  | nil => intro r; exact sameFrame_refl r
  | cons p ps ih =>
    intro r
    exact sameFrame_trans (sameFrame_updatePin r p) (ih (updatePin r p))

theorem sameFrame_updatePins (r : MaxGainNodeKWayFMRefiner) (he : Nat) :
    SameFrame r (updatePins r he) := by
  unfold updatePins
  have h := sameFrame_foldl_updatePin (r.hg.pins he) r
  exact h

/-! ### Hyperedge locks -/

theorem getD_set_eq (l : List Int) (i : Nat) (x d : Int) (h : i < l.length) :
    (l.set i x).getD i d = x := by
  simp [List.getD_eq_getElem?_getD, List.getElem?_set, h]

theorem getD_set_ne (l : List Int) (i j : Nat) (x d : Int) (h : j ≠ i) :
    (l.set i x).getD j d = l.getD j d := by
  simp [List.getD_eq_getElem?_getD, List.getElem?_set, Ne.symm h]

/-- One hyperedge of `updateNeighbours`: the four cases of the loop body. -/
theorem updateNeighboursEdge_cases (f t : Int) (r : MaxGainNodeKWayFMRefiner) (e : Nat) :
    (r.locked_hes.getD e (-1) = lockedSentinel → updateNeighboursEdge f t r e = r) ∧
    (r.locked_hes.getD e (-1) ≠ lockedSentinel → r.locked_hes.getD e (-1) = t →
      updateNeighboursEdge f t r e =
        if looseUpdateNeeded r e f t then updatePins r e else r) ∧
    (r.locked_hes.getD e (-1) ≠ lockedSentinel → r.locked_hes.getD e (-1) ≠ t →
      r.locked_hes.getD e (-1) = -1 →
      updateNeighboursEdge f t r e =
        updatePins { r with locked_hes := r.locked_hes.set e t,
                            current_locked_hes := e :: r.current_locked_hes } e) ∧
    (r.locked_hes.getD e (-1) ≠ lockedSentinel → r.locked_hes.getD e (-1) ≠ t →
      r.locked_hes.getD e (-1) ≠ -1 →
      updateNeighboursEdge f t r e =
        { (if looseUpdateNeeded r e f t then updatePins r e else r) with
          locked_hes := (if looseUpdateNeeded r e f t then updatePins r e else r).locked_hes.set e
            lockedSentinel }) := by
  refine ⟨?_, ?_, ?_, ?_⟩
  · intro h; unfold updateNeighboursEdge; rw [if_neg (not_not.mpr h)]
  · intro h1 h2; unfold updateNeighboursEdge; rw [if_pos h1, if_pos h2]
  · intro h1 h2 h3; unfold updateNeighboursEdge; rw [if_pos h1, if_neg h2, if_pos h3]
  · intro h1 h2 h3; unfold updateNeighboursEdge; rw [if_pos h1, if_neg h2, if_neg h3]

/-- Effect of one hyperedge of `updateNeighbours` on the locks and on the lock stack. -/
theorem updateNeighboursEdge_locks (f t : Int) (r : MaxGainNodeKWayFMRefiner) (e : Nat)
    (he : e < r.locked_hes.length) :
    (updateNeighboursEdge f t r e).locked_hes.length = r.locked_hes.length ∧
    (updateNeighboursEdge f t r e).locked_hes.getD e (-1) =
      lockAfterMove t (r.locked_hes.getD e (-1)) ∧
    (∀ e1, e1 ≠ e → (updateNeighboursEdge f t r e).locked_hes.getD e1 (-1) =
      r.locked_hes.getD e1 (-1)) ∧
    (updateNeighboursEdge f t r e).hg = r.hg ∧
    (updateNeighboursEdge f t r e).current_locked_hes =
      (if r.locked_hes.getD e (-1) = -1 ∧ t ≠ -1
        then e :: r.current_locked_hes else r.current_locked_hes) := by
  obtain ⟨c1, c2, c3, c4⟩ := updateNeighboursEdge_cases f t r e
  have hs : lockedSentinel ≠ (-1 : Int) := by decide
  by_cases h1 : r.locked_hes.getD e (-1) = lockedSentinel
  · rw [c1 h1]
    have hne : r.locked_hes.getD e (-1) ≠ -1 := by rw [h1]; exact hs
    refine ⟨rfl, ?_, fun _ _ => rfl, rfl, ?_⟩
    · unfold lockAfterMove; rw [if_pos h1, h1]
    · rw [if_neg (fun h => hne h.1)]
  · by_cases h2 : r.locked_hes.getD e (-1) = t
    · rw [c2 h1 h2]
      have hfr : SameFrame r (if looseUpdateNeeded r e f t then updatePins r e else r) := by
        split
        · exact sameFrame_updatePins r e
        · exact sameFrame_refl r
      obtain ⟨a1, _, _, _, a5, a6, _, _, _⟩ := hfr
      rw [a5, a6, a1]
      refine ⟨rfl, ?_, fun _ _ => rfl, rfl, ?_⟩
      · unfold lockAfterMove; rw [if_neg h1, if_pos h2, h2]
      · by_cases ht : t = -1
        · rw [if_neg (fun h => h.2 ht)]
        · have : r.locked_hes.getD e (-1) ≠ -1 := by rw [h2]; exact ht
          rw [if_neg (fun h => this h.1)]
    · by_cases h3 : r.locked_hes.getD e (-1) = -1
      · rw [c3 h1 h2 h3]
        obtain ⟨a1, _, _, _, a5, a6, _, _, _⟩ := sameFrame_updatePins
          { r with locked_hes := r.locked_hes.set e t,
                   current_locked_hes := e :: r.current_locked_hes } e
        rw [a5, a6, a1]
        have ht : t ≠ -1 := fun h => h2 (h3.trans h.symm)
        refine ⟨by simp, ?_, ?_, rfl, ?_⟩
        · show (r.locked_hes.set e t).getD e (-1) = _
          rw [getD_set_eq _ _ _ _ he]
          unfold lockAfterMove; rw [if_neg h1, if_neg h2, if_pos h3]
        · intro e1 hne
          show (r.locked_hes.set e t).getD e1 (-1) = _
          rw [getD_set_ne _ _ _ _ _ hne]
        · show e :: r.current_locked_hes = _
          rw [if_pos ⟨h3, ht⟩]
      · rw [c4 h1 h2 h3]
        have hfr : SameFrame r (if looseUpdateNeeded r e f t then updatePins r e else r) := by
          split
          · exact sameFrame_updatePins r e
          · exact sameFrame_refl r
        obtain ⟨a1, _, _, _, a5, a6, _, _, _⟩ := hfr
        simp only
        rw [a5, a6, a1]
        refine ⟨by simp, ?_, ?_, rfl, ?_⟩
        · rw [getD_set_eq _ _ _ _ he]
          unfold lockAfterMove; rw [if_neg h1, if_neg h2, if_neg h3]
        · intro e1 hne
          rw [getD_set_ne _ _ _ _ _ hne]
        · rw [if_neg (fun h => h3 h.1)]

theorem lockAfterMove_idem (t l : Int) (_h1 : t ≠ -1) (h2 : t ≠ lockedSentinel) :
    lockAfterMove t (lockAfterMove t l) = lockAfterMove t l := by
  have e1 : lockAfterMove t lockedSentinel = lockedSentinel := by
    unfold lockAfterMove; rw [if_pos rfl]
  have e2 : lockAfterMove t t = t := by
    unfold lockAfterMove; rw [if_neg h2, if_pos rfl]
  by_cases a : l = lockedSentinel
  · rw [a, e1, e1]
  · by_cases b : l = t
    · rw [b, e2, e2]
    · by_cases c : l = -1
      · have : lockAfterMove t l = t := by
          unfold lockAfterMove; rw [if_neg a, if_neg b, if_pos c]
        rw [this, e2]
      · have : lockAfterMove t l = lockedSentinel := by
          unfold lockAfterMove; rw [if_neg a, if_neg b, if_neg c]
        rw [this, e1]

/-- Effect of the loop of `updateNeighbours` on the locks. -/
theorem updateNeighboursEdge_foldl_locks (f t : Int) (h1 : t ≠ -1) (h2 : t ≠ lockedSentinel)
    (es : List Nat) :
    ∀ r : MaxGainNodeKWayFMRefiner, (∀ e ∈ es, e < r.locked_hes.length) →
      ((es.foldl (updateNeighboursEdge f t) r).locked_hes.length = r.locked_hes.length) ∧
      (es.foldl (updateNeighboursEdge f t) r).hg = r.hg ∧
      (∀ e, e ∈ es → (es.foldl (updateNeighboursEdge f t) r).locked_hes.getD e (-1) =
        lockAfterMove t (r.locked_hes.getD e (-1))) ∧
      (∀ e, e ∉ es → (es.foldl (updateNeighboursEdge f t) r).locked_hes.getD e (-1) =
        r.locked_hes.getD e (-1)) := by
  induction es with
  | nil => intro r _; simp
  | cons x es ih =>
    intro r hr
    simp only [List.foldl_cons]
    obtain ⟨s1, s2, s3, s4, _⟩ := updateNeighboursEdge_locks f t r x
      (hr x (List.mem_cons_self _ _))
    obtain ⟨i1, i2, i3, i4⟩ := ih (updateNeighboursEdge f t r x) (by
      intro e he; rw [s1]; exact hr e (List.mem_cons_of_mem _ he))
    refine ⟨by rw [i1, s1], by rw [i2, s4], ?_, ?_⟩
    · intro e he
      by_cases hex : e = x
      · subst hex
        by_cases hes : e ∈ es
        · rw [i3 e hes, s2, lockAfterMove_idem t _ h1 h2]
        · rw [i4 e hes, s2]
      · have hes : e ∈ es := by
          rcases List.mem_cons.mp he with h | h
          · exact absurd h hex
          · exact h
        rw [i3 e hes, s3 e hex]
    · intro e he
      have hex : e ≠ x := fun h => he (h ▸ List.mem_cons_self _ _)
      have hes : e ∉ es := fun h => he (List.mem_cons_of_mem _ h)
      rw [i4 e hes, s3 e hex]

theorem lockedOnStack_of_sameFrame {r r1 : MaxGainNodeKWayFMRefiner} (h : SameFrame r r1)
    (hl : LockedOnStack r) : LockedOnStack r1 := by
  obtain ⟨_, _, _, _, a5, a6, _, _, _⟩ := h
  intro e he
  rw [a5] at he
  rw [a6]
  exact hl e he

theorem lockedOnStack_updateNeighboursEdge (f t : Int) (r : MaxGainNodeKWayFMRefiner) (e : Nat)
    (hl : LockedOnStack r) : LockedOnStack (updateNeighboursEdge f t r e) := by
  obtain ⟨c1, c2, c3, c4⟩ := updateNeighboursEdge_cases f t r e
  have hif : SameFrame r (if looseUpdateNeeded r e f t then updatePins r e else r) := by
    split
    · exact sameFrame_updatePins r e
    · exact sameFrame_refl r
  by_cases h1 : r.locked_hes.getD e (-1) = lockedSentinel
  · rw [c1 h1]; exact hl
  · by_cases h2 : r.locked_hes.getD e (-1) = t
    · rw [c2 h1 h2]
      exact lockedOnStack_of_sameFrame hif hl
    · by_cases h3 : r.locked_hes.getD e (-1) = -1
      · rw [c3 h1 h2 h3]
        apply lockedOnStack_of_sameFrame (sameFrame_updatePins _ e)
        intro e1 he1
        show e1 ∈ e :: r.current_locked_hes
        by_cases hee : e1 = e
        · rw [hee]; exact List.mem_cons_self _ _
        · have : (r.locked_hes.set e t).getD e1 (-1) ≠ -1 := he1
          rw [getD_set_ne _ _ _ _ _ hee] at this
          exact List.mem_cons_of_mem _ (hl e1 this)
      · rw [c4 h1 h2 h3]
        obtain ⟨_, _, _, _, a5, a6, _, _, _⟩ := hif
        intro e1 he1
        show e1 ∈ (if looseUpdateNeeded r e f t then updatePins r e else r).current_locked_hes
        rw [a6]
        by_cases hee : e1 = e
        · rw [hee]; exact hl e h3
        · have : ((if looseUpdateNeeded r e f t then updatePins r e else r).locked_hes.set e
              lockedSentinel).getD e1 (-1) ≠ -1 := he1
          rw [getD_set_ne _ _ _ _ _ hee, a5] at this
          exact hl e1 this

theorem lockedOnStack_updateNeighbours (r : MaxGainNodeKWayFMRefiner) (hn : Nat) (f t : Int)
    (hl : LockedOnStack r) : LockedOnStack (updateNeighbours r hn f t) := by
  unfold updateNeighbours
  have gen : ∀ (es : List Nat) (r0 : MaxGainNodeKWayFMRefiner), LockedOnStack r0 →
      LockedOnStack (es.foldl (updateNeighboursEdge f t) r0) := by
    intro es
    induction es with
    | nil => intro r0 h; exact h
    | cons x es ih =>
      intro r0 h
      exact ih _ (lockedOnStack_updateNeighboursEdge f t r0 x h)
  exact gen _ _ hl

theorem getD_foldl_set_free (stack : List Nat) :
    ∀ (l : List Int) (e : Nat),
      (stack.foldl (fun l he => l.set he (-1)) l).getD e (-1) =
        if e ∈ stack then -1 else l.getD e (-1) := by
  induction stack with
  | nil => intro l e; simp
  | cons x xs ih =>
    intro l e
    simp only [List.foldl_cons]
    rw [ih]
    by_cases hx : e ∈ xs
    · simp [hx]
    · by_cases hex : e = x
      · subst hex
        simp only [hx, if_false, List.mem_cons, true_or, if_true]
        by_cases hlen : e < l.length
        · exact getD_set_eq _ _ _ _ hlen
        · rw [List.getD_eq_getElem?_getD, List.getElem?_eq_none (by simpa using hlen)]
          rfl
      · simp only [hx, if_false, List.mem_cons, hex, or_self]
        exact getD_set_ne _ _ _ _ _ hex

/-- After the reset loop every hyperedge is free, provided every hyperedge that is not free
is on the stack. -/
theorem resetLockedHes_free (r : MaxGainNodeKWayFMRefiner) (hl : LockedOnStack r) (e : Nat) :
    (resetLockedHes r).locked_hes.getD e (-1) = -1 := by
  show (r.current_locked_hes.foldl (fun l he => l.set he (-1)) r.locked_hes).getD e (-1) = -1
  rw [getD_foldl_set_free]
  by_cases h : e ∈ r.current_locked_hes
  · rw [if_pos h]
  · rw [if_neg h]
    by_contra hne
    exact h (hl e hne)

theorem sameFrame_foldl_activate (ns : List Nat) :
    ∀ r : MaxGainNodeKWayFMRefiner, SameFrame r (ns.foldl activate r) := by
  induction ns with
  | nil => intro r; exact sameFrame_refl r
  | cons p ps ih =>
    intro r
    exact sameFrame_trans (sameFrame_activate r p).1 (ih (activate r p))

/-- The refiner at the start of the main loop: all hyperedges free, the lock stack empty. -/
theorem refineStart_locks {σ : Type} (P : StoppingPolicy σ) (rnd : Randomize)
    (r : MaxGainNodeKWayFMRefiner) (policy : σ) (ns : List Nat) (n : Nat) (bc : Int)
    (hl : LockedOnStack r) :
    (∀ e, (refineStart P rnd r policy ns n bc).r.locked_hes.getD e (-1) = -1) ∧
    (refineStart P rnd r policy ns n bc).r.current_locked_hes = [] := by
  obtain ⟨_, _, _, _, a5, a6, _, _, _⟩ := sameFrame_foldl_activate
    ((rnd.shuffleVector ns n).take n)
    (resetLockedHes { r with pq := r.pq.clear, marked := List.replicate r.marked.length false })
  constructor
  · intro e
    show (List.foldl activate _ _).locked_hes.getD e (-1) = -1
    rw [a5]
    exact resetLockedHes_free _ hl e
  · show (List.foldl activate _ _).current_locked_hes = []
    rw [a6]; rfl

theorem rollback_frame (fuel : Nat) :
    ∀ (r r1 : MaxGainNodeKWayFMRefiner) (a b : Int), rollback fuel r a b = some r1 →
      r1 = { r with hg := r1.hg } := by
  induction fuel with
  | zero =>
    intro r r1 a b h
    unfold rollback at h
    split at h
    · cases h; rfl
    · cases h
  | succ fuel ih =>
    intro r r1 a b h
    unfold rollback at h
    split at h
    · cases h; rfl
    · split at h
      · cases h
      · have := ih _ _ _ _ h
        rw [this]

theorem moveHypernode_frame (r : MaxGainNodeKWayFMRefiner) (hn : Nat) (f t : Int) :
    (moveHypernode r hn f t).2.locked_hes = r.locked_hes ∧
    (moveHypernode r hn f t).2.current_locked_hes = r.current_locked_hes ∧
    (moveHypernode r hn f t).2.pq = r.pq ∧
    (moveHypernode r hn f t).2.config = r.config ∧
    (moveHypernode r hn f t).2.tmp_gains = r.tmp_gains ∧
    (moveHypernode r hn f t).2.tmp_connectivity_decrease = r.tmp_connectivity_decrease ∧
    (moveHypernode r hn f t).2.performed_moves = r.performed_moves ∧
    (moveHypernode r hn f t).2.just_updated = r.just_updated := by
  unfold moveHypernode
  dsimp only
  split <;> exact ⟨rfl, rfl, rfl, rfl, rfl, rfl, rfl, rfl⟩

theorem lockedOnStack_searchBody {σ : Type} (P : StoppingPolicy σ) (rnd : Randomize)
    (s s1 : Search σ) (h : searchBody P rnd s = some s1) (hl : LockedOnStack s.r) :
    LockedOnStack s1.r := by
  have hmv : LockedOnStack (moveHypernode { s.r with pq := s.r.pq.deleteMax } s.r.pq.max
      (s.r.hg.partID s.r.pq.max) (s.r.pq.data s.r.pq.max)).2 := by
    obtain ⟨m1, m2, _⟩ := moveHypernode_frame { s.r with pq := s.r.pq.deleteMax } s.r.pq.max
      (s.r.hg.partID s.r.pq.max) (s.r.pq.data s.r.pq.max)
    intro e he
    rw [m1] at he
    rw [m2]
    exact hl e he
  unfold searchBody at h
  dsimp only at h
  split at h
  · split at h
    · cases h
      have := lockedOnStack_updateNeighbours _ s.r.pq.max (s.r.hg.partID s.r.pq.max)
        (s.r.pq.data s.r.pq.max) hmv
      exact this
    · cases h
  · cases h
    exact hmv

/-- Every hyperedge that is not free is on the lock stack, in every reachable state. -/
theorem lockedOnStack_of_reachable (r : MaxGainNodeKWayFMRefiner) (h : Reachable r) :
    LockedOnStack r := by
  induction h with
  | init hypergraph config =>
    intro e he
    exfalso
    apply he
    show (List.replicate hypergraph.initialNumEdges (-1 : Int)).getD e (-1) = -1
    rw [List.getD_eq_getElem?_getD]
    cases hq : (List.replicate hypergraph.initialNumEdges (-1 : Int))[e]? with
    | none => rfl
    | some x =>
      have := List.getElem?_mem hq
      rw [List.mem_replicate] at this
      simp [this.2]
  | caller r hypergraph _ ih => exact ih
  | start P rnd r policy ns n bc _ ih =>
    intro e he
    exact absurd ((refineStart_locks P rnd r policy ns n bc ih).1 e) he
  | body P rnd s s1 _ hb ih => exact lockedOnStack_searchBody P rnd s s1 hb ih
  | rollback fuel r r1 a b _ hr ih =>
    rw [rollback_frame fuel r r1 a b hr]
    exact ih

theorem reachable_searchLoop {σ : Type} (P : StoppingPolicy σ) (rnd : Randomize) (fuel : Nat) :
    ∀ s s1 : Search σ, searchLoop P rnd fuel s = some s1 → Reachable s.r → Reachable s1.r := by
  induction fuel with
  | zero =>
    intro s s1 h hr
    unfold searchLoop at h
    split at h
    · cases h; exact hr
    · cases h
  | succ fuel ih =>
    intro s s1 h hr
    unfold searchLoop at h
    split at h
    · cases h; exact hr
    · split at h
      · cases h
      · rename_i s2 hb
        exact ih s2 s1 h (Reachable.body P rnd s s2 hr hb)

/-- The refiner that a `refineImpl` call on a reachable refiner leaves is reachable. -/
theorem reachable_refineImpl {σ : Type} (P : StoppingPolicy σ) (rnd : Randomize) (fuel : Nat)
    (r : MaxGainNodeKWayFMRefiner) (policy : σ) (ns : List Nat) (n : Nat) (bc : Int)
    (res : RefineResult σ) (h : refineImpl P rnd fuel r policy ns n bc = some res)
    (hr : Reachable r) : Reachable res.r := by
  unfold refineImpl at h
  dsimp only at h
  split at h
  · cases h
  · rename_i s hs
    split at h
    · cases h
    · rename_i r1 hrb
      cases h
      have h1 := reachable_searchLoop P rnd fuel _ s hs
        (Reachable.start P rnd r policy ns n bc hr)
      exact Reachable.rollback fuel s.r r1 _ _ h1 hrb

theorem reachable_exampleAfterRefine : Reachable exampleAfterRefine := by
  unfold exampleAfterRefine
  split
  · rename_i res h
    exact reachable_refineImpl _ _ _ _ _ _ _ _ res h (Reachable.init _ _)
  · exact Reachable.init _ _

/-! ### Priority queue -/

theorem maxEntry_mem (pq : KWayRefinementPQ) (h : pq ≠ []) :
    ∃ e, KWayRefinementPQ.maxEntry pq = some e ∧ e ∈ pq := by
  induction pq with
  | nil => exact absurd rfl h
  | cons a as ih =>
    unfold KWayRefinementPQ.maxEntry
    cases has : as with
    | nil => exact ⟨a, by simp [KWayRefinementPQ.maxEntry], by simp⟩
    | cons b bs =>
      obtain ⟨m, hm, hmem⟩ := ih (by rw [has]; simp)
      rw [has] at hm hmem
      rw [hm]
      dsimp only
      split
      · exact ⟨m, rfl, List.mem_cons_of_mem _ hmem⟩
      · exact ⟨a, rfl, List.mem_cons_self _ _⟩

theorem find?_of_mem_nodup (pq : KWayRefinementPQ) (hnd : (pq.map (fun e => e.id)).Nodup)
    (e : PQEntry) (he : e ∈ pq) : pq.find? (fun x => decide (x.id = e.id)) = some e := by
  induction pq with
  | nil => simp at he
  | cons a as ih =>
    simp only [List.map_cons, List.nodup_cons] at hnd
    rcases List.mem_cons.mp he with h | h
    · subst h; simp
    · have hne : a.id ≠ e.id := by
        intro heq
        apply hnd.1
        rw [heq]
        exact List.mem_map_of_mem (fun e => e.id) h
      rw [List.find?_cons_of_neg _ (by simpa using hne)]
      exact ih hnd.2 h

theorem data_of_mem_nodup (pq : KWayRefinementPQ) (hnd : (pq.map (fun e => e.id)).Nodup)
    (e : PQEntry) (he : e ∈ pq) : KWayRefinementPQ.data pq e.id = e.data := by
  unfold KWayRefinementPQ.data
  rw [find?_of_mem_nodup pq hnd e he]

theorem mem_remove (pq : KWayRefinementPQ) (id : Nat) (e : PQEntry) :
    e ∈ KWayRefinementPQ.remove pq id ↔ e ∈ pq ∧ e.id ≠ id := by
  unfold KWayRefinementPQ.remove
  simp [List.mem_filter]

theorem nodup_remove (pq : KWayRefinementPQ) (id : Nat)
    (hnd : (pq.map (fun e => e.id)).Nodup) :
    ((KWayRefinementPQ.remove pq id).map (fun e => e.id)).Nodup := by
  unfold KWayRefinementPQ.remove
  exact (List.filter_sublist pq).map _ |>.nodup hnd

theorem contains_iff (pq : KWayRefinementPQ) (id : Nat) :
    KWayRefinementPQ.contains pq id = true ↔ ∃ e ∈ pq, e.id = id := by
  unfold KWayRefinementPQ.contains
  simp [List.any_eq_true]

theorem mem_reInsert (pq : KWayRefinementPQ) (id : Nat) (k d : Int) (e : PQEntry) :
    e ∈ KWayRefinementPQ.reInsert pq id k d ↔
      (e ∈ pq ∧ e.id ≠ id) ∨ e = { id := id, key := k, data := d } := by
  unfold KWayRefinementPQ.reInsert
  rw [List.mem_append, mem_remove]
  simp

theorem nodup_reInsert (pq : KWayRefinementPQ) (id : Nat) (k d : Int)
    (hnd : (pq.map (fun e => e.id)).Nodup) :
    ((KWayRefinementPQ.reInsert pq id k d).map (fun e => e.id)).Nodup := by
  unfold KWayRefinementPQ.reInsert
  rw [List.map_append, List.nodup_append]
  refine ⟨nodup_remove pq id hnd, by simp, ?_⟩
  intro a ha hb
  simp only [List.map_cons, List.map_nil, List.mem_singleton] at hb
  rw [List.mem_map] at ha
  obtain ⟨e, he, rfl⟩ := ha
  exact ((mem_remove pq id e).mp he).2 hb

theorem mem_update (pq : KWayRefinementPQ) (id : Nat) (k d : Int) (e : PQEntry) :
    e ∈ KWayRefinementPQ.setData (KWayRefinementPQ.updateKey pq id k) id d ↔
      (e ∈ pq ∧ e.id ≠ id) ∨ (e = { id := id, key := k, data := d } ∧ ∃ x ∈ pq, x.id = id) := by
  unfold KWayRefinementPQ.setData KWayRefinementPQ.updateKey
  simp only [List.map_map, List.mem_map, Function.comp]
  constructor
  · rintro ⟨x, hx, rfl⟩
    by_cases hid : x.id = id
    · refine Or.inr ⟨?_, x, hx, hid⟩
      simp [hid]
    · refine Or.inl ⟨?_, ?_⟩
      · simp only [hid, if_false]; exact hx
      · simp only [hid, if_false]; exact hid
  · rintro (⟨he, hid⟩ | ⟨rfl, x, hx, hid⟩)
    · exact ⟨e, he, by simp [hid]⟩
    · exact ⟨x, hx, by simp [hid]⟩

theorem ids_update (pq : KWayRefinementPQ) (id : Nat) (k d : Int) :
    (KWayRefinementPQ.setData (KWayRefinementPQ.updateKey pq id k) id d).map (fun e => e.id) =
      pq.map (fun e => e.id) := by
  unfold KWayRefinementPQ.setData KWayRefinementPQ.updateKey
  simp only [List.map_map]
  apply List.map_congr_left
  intro x _
  simp only [Function.comp]
  by_cases hid : x.id = id <;> simp [hid]

theorem all_zero_of_getAt (v : List Int) (h : ∀ p : Int, getAt v p = 0) : ∀ x ∈ v, x = 0 := by
  intro x hx
  obtain ⟨i, hi, rfl⟩ := List.getElem_of_mem hx
  have := h (i : Int)
  unfold getAt at this
  rw [if_pos (Int.ofNat_zero_le i)] at this
  simp only [Int.toNat_ofNat, List.getD_eq_getElem?_getD, List.getElem?_eq_getElem hi,
    Option.getD_some] at this
  exact this

/-- The scratch vector `_tmp_gains` is all zero again when `computeMaxGain` returns. -/
theorem computeMaxGain_tmp_gains_zero (r : MaxGainNodeKWayFMRefiner) (hn : Nat)
    (hl1 : r.hg.k ≤ r.tmp_gains.length) (hl2 : r.hg.k ≤ r.tmp_connectivity_decrease.length)
    (hz : ∀ x ∈ r.tmp_gains, x = 0) :
    ∀ x ∈ (computeMaxGain r hn).2.tmp_gains, x = 0 := by
  apply all_zero_of_getAt
  intro p
  unfold computeMaxGain
  dsimp only
  obtain ⟨_, _, _, A4, A5, A6, _⟩ := scanEdge_foldl r.hg (r.hg.partID hn)
    (r.hg.incidentEdges hn)
    { internal_weight := 0, tmp_gains := r.tmp_gains,
      tmp_connectivity_decrease := r.tmp_connectivity_decrease, tmp_target_parts := [] } hl1 hl2
  simp only [List.not_mem_nil, false_or] at A4
  have A5' : List.Nodup _ := (A5 List.Pairwise.nil).imp (fun h => ne_of_lt h)
  obtain ⟨_, _, _, P4, _⟩ := pickTarget_foldl r.hg r.config hn (r.hg.partID hn)
    ((r.hg.incidentEdges hn).foldl (scanEdge r.hg (r.hg.partID hn))
      { internal_weight := 0, tmp_gains := r.tmp_gains,
        tmp_connectivity_decrease := r.tmp_connectivity_decrease,
        tmp_target_parts := [] }).internal_weight
    (getAt (setAt ((r.hg.incidentEdges hn).foldl (scanEdge r.hg (r.hg.partID hn))
        { internal_weight := 0, tmp_gains := r.tmp_gains,
          tmp_connectivity_decrease := r.tmp_connectivity_decrease,
          tmp_target_parts := [] }).tmp_gains (r.hg.partID hn) 0))
    (getAt ((r.hg.incidentEdges hn).foldl (scanEdge r.hg (r.hg.partID hn))
        { internal_weight := 0, tmp_gains := r.tmp_gains,
          tmp_connectivity_decrease := r.tmp_connectivity_decrease,
          tmp_target_parts := [] }).tmp_connectivity_decrease)
    (((r.hg.incidentEdges hn).foldl (scanEdge r.hg (r.hg.partID hn))
      { internal_weight := 0, tmp_gains := r.tmp_gains,
        tmp_connectivity_decrease := r.tmp_connectivity_decrease,
        tmp_target_parts := [] }).tmp_target_parts.erase (r.hg.partID hn))
    { max_gain_part := kInvalidPartition, max_gain := gainMin, max_connectivity_decrease := 0,
      tmp_gains := setAt ((r.hg.incidentEdges hn).foldl (scanEdge r.hg (r.hg.partID hn))
        { internal_weight := 0, tmp_gains := r.tmp_gains,
          tmp_connectivity_decrease := r.tmp_connectivity_decrease,
          tmp_target_parts := [] }).tmp_gains (r.hg.partID hn) 0,
      tmp_connectivity_decrease := ((r.hg.incidentEdges hn).foldl
        (scanEdge r.hg (r.hg.partID hn))
        { internal_weight := 0, tmp_gains := r.tmp_gains,
          tmp_connectivity_decrease := r.tmp_connectivity_decrease,
          tmp_target_parts := [] }).tmp_connectivity_decrease }
    (A5'.erase _) (fun t _ => ⟨rfl, rfl⟩)
  rw [P4 p]
  split
  · rfl
  · rename_i hp
    rw [getAt_setAt_zero]
    split
    · rfl
    · rename_i hps
      rw [A6 p, getAt_of_all_zero _ hz, zero_add]
      have hnot : p ∉ ((r.hg.incidentEdges hn).foldl (scanEdge r.hg (r.hg.partID hn))
          { internal_weight := 0, tmp_gains := r.tmp_gains,
            tmp_connectivity_decrease := r.tmp_connectivity_decrease,
            tmp_target_parts := [] }).tmp_target_parts := by
        intro hmem
        exact hp (A5'.mem_erase_iff.mpr ⟨hps, hmem⟩)
      rw [A4 p] at hnot
      have : ∀ e ∈ r.hg.incidentEdges hn,
          (if r.hg.connectivity e ≠ 1 ∧ p ∈ r.hg.connectivitySet e ∧
            r.hg.pinCountInPart e (r.hg.partID hn) = 1 ∧
            r.hg.pinCountInPart e p = r.hg.edgeSize e - 1 then r.hg.edgeWeight e else 0) = 0 := by
        intro e he
        rw [if_neg]
        intro hc
        exact hnot ⟨e, he, hc.1, hc.2.1⟩
      rw [List.map_congr_left this]
      simp

/-! ### Border nodes and maximal gains -/

theorem isBorderNode_iff (hg : Hypergraph) (hn : Nat) :
    isBorderNode hg hn = true ↔ ∃ e ∈ hg.incidentEdges hn, 1 < hg.connectivity e := by
  unfold isBorderNode
  simp only [List.any_eq_true, decide_eq_true_eq]

/-- A single-pin hyperedge at `hn` satisfies the gain condition towards every other part. -/
theorem gain_condition_of_single (hg : Hypergraph) (hwf : hg.WellFormed) (e hn : Nat)
    (hin : hn ∈ hg.pins e) (h1 : hg.edgeSize e = 1) (t : Int) (hts : t ≠ hg.partID hn) :
    hg.pinCountInPart e (hg.partID hn) = 1 ∧ hg.pinCountInPart e t = hg.edgeSize e - 1 := by
  apply (gain_condition_iff hg hwf e hn hin t hts).mpr
  intro u hu hne
  exfalso
  apply hne
  unfold Hypergraph.edgeSize at h1
  obtain ⟨x, hx⟩ := List.length_eq_one.mp h1
  rw [hx] at hu hin
  simp only [List.mem_singleton] at hu hin
  rw [hu, hin]

/-- The gain towards any other part, less the single-pin weight, is at least the negated
internal weight. -/
theorem neg_internalWeight_le (hg : Hypergraph) (hwf : hg.WellFormed) (hn : Nat) (t : Int)
    (hts : t ≠ hg.partID hn) :
    - internalWeight hg hn ≤ gainTo hg hn t - singlePinWeight hg hn := by
  have key : singlePinWeight hg hn ≤
      (((hg.incidentEdges hn).filter (fun he =>
        decide (hg.pinCountInPart he (hg.partID hn) = 1 ∧
          hg.pinCountInPart he t = hg.edgeSize he - 1))).map hg.edgeWeight).sum := by
    unfold singlePinWeight
    rw [← sum_map_ite_eq_sum_filter _ (fun e => hg.pinCountInPart e (hg.partID hn) = 1 ∧
        hg.pinCountInPart e t = hg.edgeSize e - 1),
      ← sum_map_ite_eq_sum_filter _ (fun e => hg.edgeSize e = 1)]
    apply List.sum_le_sum
    intro e he
    have hin := ((mem_incidentEdges _ _ _).mp he).2
    by_cases h1 : hg.edgeSize e = 1
    · rw [if_pos h1, if_pos (gain_condition_of_single hg hwf e hn hin h1 t hts)]
    · rw [if_neg h1]
      split
      · exact edgeWeight_nonneg hg hwf e
      · exact le_refl _
  unfold gainTo
  linarith

/-- Towards a part that is no candidate the gain, less the single-pin weight, is the negated
internal weight. -/
theorem gainTo_of_not_candidate (hg : Hypergraph) (hwf : hg.WellFormed) (hn : Nat) (t : Int)
    (hv : 0 ≤ t ∧ t < (hg.k : Int)) (hts : t ≠ hg.partID hn)
    (hnc : t ∉ candidateParts hg hn) :
    gainTo hg hn t - singlePinWeight hg hn = - internalWeight hg hn := by
  have key : ((hg.incidentEdges hn).filter (fun he =>
        decide (hg.pinCountInPart he (hg.partID hn) = 1 ∧
          hg.pinCountInPart he t = hg.edgeSize he - 1))) =
      ((hg.incidentEdges hn).filter (fun he => decide (hg.edgeSize he = 1))) := by
    apply List.filter_congr
    intro e he
    have hin := ((mem_incidentEdges _ _ _).mp he).2
    have hpos : 0 < hg.edgeSize e := List.length_pos_of_mem hin
    have hnot : ¬ 0 < hg.pinCountInPart e t := by
      intro hp
      apply hnc
      rw [mem_candidateParts]
      exact ⟨hv, hts, e, he, (mem_connectivitySet _ _ _).mpr ⟨hv, hp⟩⟩
    by_cases h1 : hg.edgeSize e = 1
    · rw [decide_eq_true h1, decide_eq_true (gain_condition_of_single hg hwf e hn hin h1 t hts)]
    · rw [decide_eq_false h1, decide_eq_false]
      rintro ⟨_, h2⟩
      omega
  unfold gainTo singlePinWeight
  rw [key]
  ring

/-- The part that `computeMaxGain` returns maximises the gain over all other parts. -/
theorem computeMaxGain_max (r : MaxGainNodeKWayFMRefiner) (hn : Nat)
    (hwf : r.hg.WellFormed) (hl1 : r.hg.k ≤ r.tmp_gains.length)
    (hl2 : r.hg.k ≤ r.tmp_connectivity_decrease.length)
    (hz : ∀ x ∈ r.tmp_gains, x = 0) (hb : isBorderNode r.hg hn = true)
    (t : Int) (hv : 0 ≤ t ∧ t < (r.hg.k : Int)) (hts : t ≠ r.hg.partID hn) :
    gainTo r.hg hn t ≤ gainTo r.hg hn (computeMaxGain r hn).1.2 := by
  obtain ⟨h1, h2, h3, _⟩ := computeMaxGain_char r hn hwf hl1 hl2 hz hb
  by_cases hc : t ∈ candidateParts r.hg hn
  · have := h3 t hc
    rw [h2] at this
    linarith
  · have e1 := gainTo_of_not_candidate r.hg hwf hn t hv hts hc
    have e2 := neg_internalWeight_le r.hg hwf hn (computeMaxGain r hn).1.2
      ((mem_candidateParts _ _ _).mp h1).2.1
    linarith

/-! ### Gain updates -/

theorem goodEntry_computeMaxGain (r : MaxGainNodeKWayFMRefiner) (hn : Nat)
    (hwf : r.hg.WellFormed) (hl1 : r.hg.k ≤ r.tmp_gains.length)
    (hl2 : r.hg.k ≤ r.tmp_connectivity_decrease.length)
    (hz : ∀ x ∈ r.tmp_gains, x = 0) (hb : isBorderNode r.hg hn = true) :
    GoodEntry r.hg { id := hn, key := (computeMaxGain r hn).1.1,
                     data := (computeMaxGain r hn).1.2 } := by
  obtain ⟨h1, h2, _, _⟩ := computeMaxGain_char r hn hwf hl1 hl2 hz hb
  rw [mem_candidateParts] at h1
  obtain ⟨hv, hne, e, he, _⟩ := h1
  have hlt : hn < r.hg.part.length := pin_lt r.hg hwf e hn ((mem_incidentEdges _ _ _).mp he).2
  exact ⟨hlt, hv.1, hv.2, hne, h2, hb,
    fun t ht0 ht1 hts => computeMaxGain_max r hn hwf hl1 hl2 hz hb t ⟨ht0, ht1⟩ hts⟩

/-- The effect of `updatePin` on the queue. -/
theorem updatePin_effect (r : MaxGainNodeKWayFMRefiner) (pin : Nat) (hq : PinInv r) :
    PinInv (updatePin r pin) ∧
    (∀ e ∈ (updatePin r pin).pq, e.id ≠ pin → e ∈ r.pq) ∧
    (∀ e ∈ (updatePin r pin).pq, e.id = pin → GoodEntry r.hg e) ∧
    (∀ x, x ≠ pin → (updatePin r pin).just_updated.getD x false = r.just_updated.getD x false) := by
  obtain ⟨q1, q2, q3, q4, q5, q6, q7⟩ := hq
  obtain ⟨⟨c1, c2, c3, c4, c5, c6, c7, c8, c9⟩, cpq, cju⟩ := sameFrame_computeMaxGain r pin
  have cz := computeMaxGain_tmp_gains_zero r pin q2 q3 q4
  by_cases hc : r.pq.contains pin = true
  · by_cases hb : isBorderNode r.hg pin = true
    · by_cases hj : (!(r.just_updated.getD pin false)) = true
      · -- recompute
        have hgood := goodEntry_computeMaxGain r pin q1 q2 q3 q4 hb
        have hup : updatePin r pin =
            { (computeMaxGain r pin).2 with
              pq := ((computeMaxGain r pin).2.pq.updateKey pin (computeMaxGain r pin).1.1).setData
                pin (computeMaxGain r pin).1.2
              just_updated := (computeMaxGain r pin).2.just_updated.set pin true } := by
          unfold updatePin; rw [if_pos hc, if_pos hb, if_pos hj]
        rw [hup]
        dsimp only
        rw [cpq, cju]
        refine ⟨⟨?_, ?_, ?_, cz, ?_, ?_, ?_⟩, ?_, ?_, ?_⟩
        · rw [c1]; exact q1
        · rw [c1, c7]; exact q2
        · rw [c1, c8]; exact q3
        · rw [ids_update]; exact q5
        · intro e he
          rw [c3]
          rcases (mem_update _ _ _ _ _).mp he with ⟨h1, _⟩ | ⟨rfl, x, hx, hid⟩
          · exact q6 e h1
          · have := q6 x hx
            rw [hid] at this
            exact this
        · intro e he hju
          rw [c1]
          rcases (mem_update _ _ _ _ _).mp he with ⟨h1, h2⟩ | ⟨rfl, _⟩
          · apply q7 e h1
            rw [List.getD_eq_getElem?_getD, List.getElem?_set] at hju
            rw [if_neg (Ne.symm h2)] at hju
            rw [List.getD_eq_getElem?_getD]
            exact hju
          · exact hgood
        · intro e he hne
          rcases (mem_update _ _ _ _ _).mp he with ⟨h1, _⟩ | ⟨rfl, _⟩
          · exact h1
          · exact absurd rfl hne
        · intro e he hid
          rcases (mem_update _ _ _ _ _).mp he with ⟨_, h2⟩ | ⟨rfl, _⟩
          · exact absurd hid h2
          · exact hgood
        · intro x hx
          rw [List.getD_eq_getElem?_getD, List.getElem?_set, if_neg (Ne.symm hx),
            List.getD_eq_getElem?_getD]
      · -- already updated
        have hup : updatePin r pin = r := by
          unfold updatePin; rw [if_pos hc, if_pos hb, if_neg hj]
        rw [hup]
        refine ⟨⟨q1, q2, q3, q4, q5, q6, q7⟩, fun e he _ => he, ?_, fun _ _ => rfl⟩
        intro e he hid
        apply q7 e he
        rw [hid]
        simpa using hj
    · -- no border node any more
      have hup : updatePin r pin = { r with pq := r.pq.remove pin } := by
        unfold updatePin; rw [if_pos hc, if_neg hb]
      rw [hup]
      refine ⟨⟨q1, q2, q3, q4, nodup_remove _ _ q5, ?_, ?_⟩, ?_, ?_, fun _ _ => rfl⟩
      · intro e he; exact q6 e ((mem_remove _ _ _).mp he).1
      · intro e he; exact q7 e ((mem_remove _ _ _).mp he).1
      · intro e he _; exact ((mem_remove _ _ _).mp he).1
      · intro e he hid; exact absurd hid ((mem_remove _ _ _).mp he).2
  · by_cases hm : (!(r.marked.getD pin false)) = true
    · by_cases hb : isBorderNode r.hg pin = true
      · have hgood := goodEntry_computeMaxGain r pin q1 q2 q3 q4 hb
        have hup : updatePin r pin =
            { (computeMaxGain r pin).2 with
              pq := (computeMaxGain r pin).2.pq.reInsert pin (computeMaxGain r pin).1.1
                (computeMaxGain r pin).1.2
              just_updated := (computeMaxGain r pin).2.just_updated.set pin true } := by
          unfold updatePin activate; rw [if_neg hc, if_pos hm, if_pos hb]
        rw [hup]
        dsimp only
        rw [cpq, cju]
        refine ⟨⟨?_, ?_, ?_, cz, nodup_reInsert _ _ _ _ q5, ?_, ?_⟩, ?_, ?_, ?_⟩
        · rw [c1]; exact q1
        · rw [c1, c7]; exact q2
        · rw [c1, c8]; exact q3
        · intro e he
          rw [c3]
          rcases (mem_reInsert _ _ _ _ _).mp he with ⟨h1, _⟩ | rfl
          · exact q6 e h1
          · simpa using hm
        · intro e he hju
          rw [c1]
          rcases (mem_reInsert _ _ _ _ _).mp he with ⟨h1, h2⟩ | rfl
          · apply q7 e h1
            rw [List.getD_eq_getElem?_getD, List.getElem?_set] at hju
            rw [if_neg (Ne.symm h2)] at hju
            rw [List.getD_eq_getElem?_getD]
            exact hju
          · exact hgood
        · intro e he hne
          rcases (mem_reInsert _ _ _ _ _).mp he with ⟨h1, _⟩ | rfl
          · exact h1
          · exact absurd rfl hne
        · intro e he hid
          rcases (mem_reInsert _ _ _ _ _).mp he with ⟨_, h2⟩ | rfl
          · exact absurd hid h2
          · exact hgood
        · intro x hx
          rw [List.getD_eq_getElem?_getD, List.getElem?_set, if_neg (Ne.symm hx),
            List.getD_eq_getElem?_getD]
      · have hup : updatePin r pin =
            { r with just_updated := r.just_updated.set pin true } := by
          unfold updatePin activate; rw [if_neg hc, if_pos hm, if_neg hb]
        rw [hup]
        have hnotin : ∀ e ∈ r.pq, e.id ≠ pin := by
          intro e he hid
          exact hc ((contains_iff _ _).mpr ⟨e, he, hid⟩)
        refine ⟨⟨q1, q2, q3, q4, q5, q6, ?_⟩, fun e he _ => he, ?_, ?_⟩
        · intro e he hju
          apply q7 e he
          have h2 := hnotin e he
          change (r.just_updated.set pin true).getD e.id false = true at hju
          rw [List.getD_eq_getElem?_getD, List.getElem?_set, if_neg (Ne.symm h2)] at hju
          rw [List.getD_eq_getElem?_getD]
          exact hju
        · intro e he hid
          exact absurd hid (hnotin e he)
        · intro x hx
          show (r.just_updated.set pin true).getD x false = _
          rw [List.getD_eq_getElem?_getD, List.getElem?_set, if_neg (Ne.symm hx),
            List.getD_eq_getElem?_getD]
    · have hup : updatePin r pin = r := by
        unfold updatePin; rw [if_neg hc, if_neg hm]
      rw [hup]
      refine ⟨⟨q1, q2, q3, q4, q5, q6, q7⟩, fun e he _ => he, ?_, fun _ _ => rfl⟩
      intro e he hid
      exact absurd ((contains_iff _ _).mpr ⟨e, he, hid⟩) hc

/-- The effect of `updatePin` on all pins of a list. -/
theorem updatePin_foldl_effect (ps : List Nat) :
    ∀ r : MaxGainNodeKWayFMRefiner, PinInv r →
      PinInv (ps.foldl updatePin r) ∧
      (∀ e ∈ (ps.foldl updatePin r).pq,
        (e.id ∈ ps → GoodEntry r.hg e) ∧ (e.id ∉ ps → e ∈ r.pq)) ∧
      (∀ x, x ∉ ps →
        (ps.foldl updatePin r).just_updated.getD x false = r.just_updated.getD x false) := by
  induction ps with
  | nil =>
    intro r hq
    exact ⟨hq, fun e he => ⟨fun h => absurd h (List.not_mem_nil _), fun _ => he⟩, fun _ _ => rfl⟩
  | cons p ps ih =>
    intro r hq
    obtain ⟨u1, u2, u3, u4⟩ := updatePin_effect r p hq
    obtain ⟨i1, i2, i3⟩ := ih (updatePin r p) u1
    have hhg : (updatePin r p).hg = r.hg := (sameFrame_updatePin r p).1
    simp only [List.foldl_cons]
    refine ⟨i1, ?_, ?_⟩
    · intro e he
      obtain ⟨j1, j2⟩ := i2 e he
      rw [hhg] at j1
      constructor
      · intro hmem
        by_cases hps : e.id ∈ ps
        · exact j1 hps
        · have hid : e.id = p := by
            rcases List.mem_cons.mp hmem with h | h
            · exact h
            · exact absurd h hps
          exact u3 e (j2 hps) hid
      · intro hnot
        have h1 : e.id ∉ ps := fun h => hnot (List.mem_cons_of_mem _ h)
        have h2 : e.id ≠ p := fun h => hnot (h ▸ List.mem_cons_self _ _)
        exact u2 e (j2 h1) h2
    · intro x hx
      have h1 : x ∉ ps := fun h => hx (List.mem_cons_of_mem _ h)
      have h2 : x ≠ p := fun h => hx (h ▸ List.mem_cons_self _ _)
      rw [i3 x h1, u4 x h2]

theorem looseUpdateNeeded_congr (r r1 : MaxGainNodeKWayFMRefiner) (h : r1.hg = r.hg)
    (e : Nat) (f t : Int) : looseUpdateNeeded r1 e f t = looseUpdateNeeded r e f t := by
  unfold looseUpdateNeeded
  rw [h]

theorem updatesThrough_congr (r r1 : MaxGainNodeKWayFMRefiner) (h : r1.hg = r.hg)
    (e : Nat) (f t l : Int) : UpdatesThrough r1 f t l e ↔ UpdatesThrough r f t l e := by
  unfold UpdatesThrough
  rw [looseUpdateNeeded_congr r r1 h]

/-- A hyperedge through which `updatePin` is called: afterwards the entries of its pins agree
with the hypergraph. -/
theorem edgeInv_updatePins (L : Nat → Int) (f t : Int) (e : Nat) (es : List Nat)
    (r : MaxGainNodeKWayFMRefiner) (h : EdgeInv L f t (e :: es) r) :
    EdgeInv L f t es (updatePins r e) := by
  obtain ⟨hq, hen⟩ := h
  obtain ⟨i1, i2, i3⟩ := updatePin_foldl_effect (r.hg.pins e) r hq
  have hhg : (updatePins r e).hg = r.hg := (sameFrame_updatePins r e).1
  refine ⟨i1, ?_⟩
  intro en hmem
  obtain ⟨j1, j2⟩ := i2 en hmem
  rw [hhg]
  by_cases hp : en.id ∈ r.hg.pins e
  · exact Or.inl (j1 hp)
  · rcases hen en (j2 hp) with hgood | ⟨hju, e2, he2, hpin, hact⟩
    · exact Or.inl hgood
    · right
      refine ⟨?_, e2, ?_, hpin, (updatesThrough_congr r _ hhg e2 f t _).mpr hact⟩
      · show (List.foldl updatePin r (r.hg.pins e)).just_updated.getD en.id false = false
        rw [i3 en.id hp]; exact hju
      · rcases List.mem_cons.mp he2 with h | h
        · rw [h] at hpin; exact absurd hpin hp
        · exact h

/-- A hyperedge through which `updatePin` is not called. -/
theorem edgeInv_skip (L : Nat → Int) (f t : Int) (e : Nat) (es : List Nat)
    (r : MaxGainNodeKWayFMRefiner) (h : EdgeInv L f t (e :: es) r)
    (hskip : ¬ UpdatesThrough r f t (L e) e) : EdgeInv L f t es r := by
  obtain ⟨hq, hen⟩ := h
  refine ⟨hq, ?_⟩
  intro en hmem
  rcases hen en hmem with hgood | ⟨hju, e2, he2, hpin, hact⟩
  · exact Or.inl hgood
  · right
    refine ⟨hju, e2, ?_, hpin, hact⟩
    rcases List.mem_cons.mp he2 with h | h
    · rw [h] at hact; exact absurd hact hskip
    · exact h

theorem edgeInv_updateNeighboursEdge (L : Nat → Int) (f t : Int) (ht : t ≠ -1) (e : Nat)
    (es : List Nat) (r : MaxGainNodeKWayFMRefiner) (hL : r.locked_hes.getD e (-1) = L e)
    (h : EdgeInv L f t (e :: es) r) : EdgeInv L f t es (updateNeighboursEdge f t r e) := by
  obtain ⟨c1, c2, c3, c4⟩ := updateNeighboursEdge_cases f t r e
  have hcond : EdgeInv L f t es (if looseUpdateNeeded r e f t then updatePins r e else r) ∨
      (L e = -1 ∧ L e ≠ lockedSentinel) := by
    by_cases hn : looseUpdateNeeded r e f t = true
    · left; rw [if_pos hn]; exact edgeInv_updatePins L f t e es r h
    · by_cases hfree : L e = -1 ∧ L e ≠ lockedSentinel
      · exact Or.inr hfree
      · left
        rw [if_neg hn]
        apply edgeInv_skip L f t e es r h
        rintro ⟨u1, u2 | u2⟩
        · exact hfree ⟨u2, u1⟩
        · exact hn u2
  by_cases h1 : r.locked_hes.getD e (-1) = lockedSentinel
  · rw [c1 h1]
    apply edgeInv_skip L f t e es r h
    rintro ⟨u1, _⟩
    exact u1 (hL ▸ h1)
  · by_cases h2 : r.locked_hes.getD e (-1) = t
    · rw [c2 h1 h2]
      rcases hcond with hc | ⟨hc, _⟩
      · exact hc
      · exact absurd (h2.symm.trans (hL.trans hc)) ht
    · by_cases h3 : r.locked_hes.getD e (-1) = -1
      · rw [c3 h1 h2 h3]
        exact edgeInv_updatePins L f t e es
          { r with locked_hes := r.locked_hes.set e t,
                   current_locked_hes := e :: r.current_locked_hes } h
      · rw [c4 h1 h2 h3]
        rcases hcond with hc | ⟨hc, _⟩
        · exact hc
        · exact absurd (hL.trans hc) h3

/-- After `updateNeighbours` every entry of the queue agrees with the hypergraph, if before
the call every entry that does not is a pin of a hyperedge through which `updatePin` is
called. -/
theorem edgeInv_foldl (L : Nat → Int) (f t : Int) (ht : t ≠ -1) (es : List Nat) :
    ∀ r : MaxGainNodeKWayFMRefiner, es.Nodup →
      (∀ e ∈ es, r.locked_hes.getD e (-1) = L e) → (∀ e ∈ es, e < r.locked_hes.length) →
      EdgeInv L f t es r → EdgeInv L f t [] (es.foldl (updateNeighboursEdge f t) r) := by
  induction es with
  | nil => intro r _ _ _ h; exact h
  | cons e es ih =>
    intro r hnd hL hlen h
    rw [List.nodup_cons] at hnd
    simp only [List.foldl_cons]
    obtain ⟨s1, _, s3, _, _⟩ := updateNeighboursEdge_locks f t r e
      (hlen e (List.mem_cons_self _ _))
    apply ih _ hnd.2
    · intro e1 he1
      have hne : e1 ≠ e := fun hh => hnd.1 (hh ▸ he1)
      rw [s3 e1 hne]
      exact hL e1 (List.mem_cons_of_mem _ he1)
    · intro e1 he1
      rw [s1]
      exact hlen e1 (List.mem_cons_of_mem _ he1)
    · exact edgeInv_updateNeighboursEdge L f t ht e es r (hL e (List.mem_cons_self _ _)) h

theorem sameFrame_updateNeighboursEdge (f t : Int) (r : MaxGainNodeKWayFMRefiner) (e : Nat) :
    (updateNeighboursEdge f t r e).hg = r.hg ∧ (updateNeighboursEdge f t r e).config = r.config ∧
    (updateNeighboursEdge f t r e).marked = r.marked ∧
    (updateNeighboursEdge f t r e).performed_moves = r.performed_moves ∧
    (updateNeighboursEdge f t r e).just_updated.length = r.just_updated.length := by
  obtain ⟨c1, c2, c3, c4⟩ := updateNeighboursEdge_cases f t r e
  have hif : SameFrame r (if looseUpdateNeeded r e f t then updatePins r e else r) := by
    split
    · exact sameFrame_updatePins r e
    · exact sameFrame_refl r
  by_cases h1 : r.locked_hes.getD e (-1) = lockedSentinel
  · rw [c1 h1]; exact ⟨rfl, rfl, rfl, rfl, rfl⟩
  · by_cases h2 : r.locked_hes.getD e (-1) = t
    · rw [c2 h1 h2]
      obtain ⟨a1, a2, a3, a4, _, _, _, _, a9⟩ := hif
      exact ⟨a1, a2, a3, a4, a9⟩
    · by_cases h3 : r.locked_hes.getD e (-1) = -1
      · rw [c3 h1 h2 h3]
        obtain ⟨a1, a2, a3, a4, _, _, _, _, a9⟩ := sameFrame_updatePins
          { r with locked_hes := r.locked_hes.set e t,
                   current_locked_hes := e :: r.current_locked_hes } e
        exact ⟨a1, a2, a3, a4, a9⟩
      · rw [c4 h1 h2 h3]
        obtain ⟨a1, a2, a3, a4, _, _, _, _, a9⟩ := hif
        exact ⟨a1, a2, a3, a4, a9⟩

theorem sameFrame_updateNeighbours (r : MaxGainNodeKWayFMRefiner) (hn : Nat) (f t : Int) :
    (updateNeighbours r hn f t).hg = r.hg ∧ (updateNeighbours r hn f t).config = r.config ∧
    (updateNeighbours r hn f t).marked = r.marked ∧
    (updateNeighbours r hn f t).performed_moves = r.performed_moves ∧
    (updateNeighbours r hn f t).just_updated.length = r.just_updated.length := by
  unfold updateNeighbours
  have gen : ∀ (es : List Nat) (r0 : MaxGainNodeKWayFMRefiner),
      (es.foldl (updateNeighboursEdge f t) r0).hg = r0.hg ∧
      (es.foldl (updateNeighboursEdge f t) r0).config = r0.config ∧
      (es.foldl (updateNeighboursEdge f t) r0).marked = r0.marked ∧
      (es.foldl (updateNeighboursEdge f t) r0).performed_moves = r0.performed_moves ∧
      (es.foldl (updateNeighboursEdge f t) r0).just_updated.length = r0.just_updated.length := by
    intro es
    induction es with
    | nil => intro r0; exact ⟨rfl, rfl, rfl, rfl, rfl⟩
    | cons x es ih =>
      intro r0
      obtain ⟨a1, a2, a3, a4, a5⟩ := sameFrame_updateNeighboursEdge f t r0 x
      obtain ⟨b1, b2, b3, b4, b5⟩ := ih (updateNeighboursEdge f t r0 x)
      exact ⟨b1.trans a1, b2.trans a2, b3.trans a3, b4.trans a4, b5.trans a5⟩
  obtain ⟨b1, b2, b3, b4, b5⟩ := gen (r.hg.incidentEdges hn)
    { r with just_updated := List.replicate r.just_updated.length false }
  exact ⟨b1, b2, b3, b4, by rw [b5]; simp⟩

/-! ### Gains that a move leaves unchanged -/

/-- The gain of moving `u` to `t` is not changed by the move of another hypernode `v`, if
every hyperedge that contains both has two more pins in different parts. -/
theorem gainTo_changeNodePart_of_two_others (hg : Hypergraph) (hwf : hg.WellFormed)
    (u v : Nat) (huv : u ≠ v) (f d : Int) (hd : 0 ≤ d ∧ d < (hg.k : Int)) (t : Int)
    (ht : t ≠ hg.partID u)
    (hin : ∀ e, u ∈ hg.pins e → v ∈ hg.pins e →
      ∃ w1 ∈ hg.pins e, ∃ w2 ∈ hg.pins e,
        w1 ≠ u ∧ w1 ≠ v ∧ w2 ≠ u ∧ w2 ≠ v ∧ hg.partID w1 ≠ hg.partID w2) :
    gainTo (hg.changeNodePart v f d) u t = gainTo hg u t := by
  have hwf1 := wellFormed_changeNodePart hg hwf v f d hd
  have hpu : (hg.changeNodePart v f d).partID u = hg.partID u := by
    rw [partID_changeNodePart]; simp [huv]
  have hpw : ∀ w, w ≠ v → (hg.changeNodePart v f d).partID w = hg.partID w := by
    intro w hw; rw [partID_changeNodePart]; simp [hw]
  unfold gainTo internalWeight
  rw [incidentEdges_changeNodePart, hpu]
  have hA : (hg.incidentEdges u).filter (fun he =>
        decide ((hg.changeNodePart v f d).pinCountInPart he (hg.partID u) = 1 ∧
          (hg.changeNodePart v f d).pinCountInPart he t =
            (hg.changeNodePart v f d).edgeSize he - 1)) =
      (hg.incidentEdges u).filter (fun he =>
        decide (hg.pinCountInPart he (hg.partID u) = 1 ∧
          hg.pinCountInPart he t = hg.edgeSize he - 1)) := by
    apply List.filter_congr
    intro e he
    have hue := ((mem_incidentEdges _ _ _).mp he).2
    by_cases hv : v ∈ hg.pins e
    · obtain ⟨w1, hw1, w2, hw2, a1, a2, a3, a4, a5⟩ := hin e hue hv
      have h0 : ¬ (hg.pinCountInPart e (hg.partID u) = 1 ∧
          hg.pinCountInPart e t = hg.edgeSize e - 1) := by
        rw [gain_condition_iff hg hwf e u hue t ht]
        intro hall
        exact a5 ((hall w1 hw1 a1).trans (hall w2 hw2 a3).symm)
      have h1 : ¬ ((hg.changeNodePart v f d).pinCountInPart e (hg.partID u) = 1 ∧
          (hg.changeNodePart v f d).pinCountInPart e t =
            (hg.changeNodePart v f d).edgeSize e - 1) := by
        have := gain_condition_iff _ hwf1 e u hue t (by rw [hpu]; exact ht)
        rw [hpu] at this
        rw [this]
        intro hall
        have e1 := hall w1 hw1 a1
        have e2 := hall w2 hw2 a3
        rw [hpw w1 a2] at e1
        rw [hpw w2 a4] at e2
        exact a5 (e1.trans e2.symm)
      rw [decide_eq_false h0, decide_eq_false h1]
    · have hc : ∀ p, (hg.changeNodePart v f d).pinCountInPart e p = hg.pinCountInPart e p :=
        pinCountInPart_changeNodePart_of_not_mem hg v f d e hv
      rw [hc, hc]
      rfl
  have hB : (hg.incidentEdges u).filter (fun he =>
        decide ((hg.changeNodePart v f d).connectivity he = 1)) =
      (hg.incidentEdges u).filter (fun he => decide (hg.connectivity he = 1)) := by
    apply List.filter_congr
    intro e he
    have hue := ((mem_incidentEdges _ _ _).mp he).2
    by_cases hv : v ∈ hg.pins e
    · obtain ⟨w1, hw1, w2, hw2, a1, a2, a3, a4, a5⟩ := hin e hue hv
      have h0 : ¬ hg.connectivity e = 1 := by
        rw [connectivity_eq_one_iff hg hwf e u hue]
        intro hall
        exact a5 ((hall w1 hw1).trans (hall w2 hw2).symm)
      have h1 : ¬ (hg.changeNodePart v f d).connectivity e = 1 := by
        rw [connectivity_eq_one_iff _ hwf1 e u hue]
        intro hall
        have e1 := hall w1 hw1
        have e2 := hall w2 hw2
        rw [hpw w1 a2] at e1
        rw [hpw w2 a4] at e2
        exact a5 (e1.trans e2.symm)
      rw [decide_eq_false h0, decide_eq_false h1]
    · rw [connectivity_changeNodePart_of_not_mem hg v f d e hv]
  rw [hA, hB]
  rfl

/-- The move of another hypernode `v` does not change whether `u` is a border node, if every
hyperedge that contains both has two more pins in different parts. -/
theorem isBorderNode_changeNodePart_of_two_others (hg : Hypergraph) (hwf : hg.WellFormed)
    (u v : Nat) (f d : Int) (hd : 0 ≤ d ∧ d < (hg.k : Int))
    (hin : ∀ e, u ∈ hg.pins e → v ∈ hg.pins e →
      ∃ w1 ∈ hg.pins e, ∃ w2 ∈ hg.pins e,
        w1 ≠ u ∧ w1 ≠ v ∧ w2 ≠ u ∧ w2 ≠ v ∧ hg.partID w1 ≠ hg.partID w2) :
    isBorderNode (hg.changeNodePart v f d) u = isBorderNode hg u := by
  have hwf1 := wellFormed_changeNodePart hg hwf v f d hd
  have hpw : ∀ w, w ≠ v → (hg.changeNodePart v f d).partID w = hg.partID w := by
    intro w hw; rw [partID_changeNodePart]; simp [hw]
  have hedge : ∀ e ∈ hg.incidentEdges u,
      (1 < (hg.changeNodePart v f d).connectivity e ↔ 1 < hg.connectivity e) := by
    intro e he
    have hue := ((mem_incidentEdges _ _ _).mp he).2
    by_cases hve : v ∈ hg.pins e
    · obtain ⟨w1, hw1, w2, hw2, _, a2, _, a4, a5⟩ := hin e hue hve
      have t1 : 1 < hg.connectivity e :=
        (one_lt_connectivity_iff hg e (fun x hx =>
          partID_valid hg hwf x (pin_lt hg hwf e x hx))).mpr ⟨w1, hw1, w2, hw2, a5⟩
      have t2 : 1 < (hg.changeNodePart v f d).connectivity e :=
        (one_lt_connectivity_iff _ e (fun x hx =>
          partID_valid _ hwf1 x (pin_lt _ hwf1 e x hx))).mpr
          ⟨w1, hw1, w2, hw2, by rw [hpw w1 a2, hpw w2 a4]; exact a5⟩
      exact ⟨fun _ => t1, fun _ => t2⟩
    · rw [connectivity_changeNodePart_of_not_mem hg v f d e hve]
  rw [Bool.eq_iff_iff, isBorderNode_iff, isBorderNode_iff, incidentEdges_changeNodePart]
  constructor
  · rintro ⟨e, he, h⟩
    exact ⟨e, he, (hedge e he).mp h⟩
  · rintro ⟨e, he, h⟩
    exact ⟨e, he, (hedge e he).mpr h⟩

theorem exists_mem_not_mem_of_lt_countP {α : Type} [DecidableEq α] (l excl : List α)
    (p : α → Bool) (hnd : l.Nodup) (h : excl.length < l.countP p) :
    ∃ x ∈ l, x ∉ excl ∧ p x = true := by
  by_contra hcon
  push_neg at hcon
  have hsub : l.filter p ⊆ excl := by
    intro x hx
    rw [List.mem_filter] at hx
    by_contra hx2
    exact hcon x hx.1 hx2 hx.2
  have hle := ((hnd.filter p).subperm hsub).length_le
  rw [← List.countP_eq_length_filter] at hle
  omega

/-- A loose hyperedge that `updateNeighbours` skips has, besides the moved hypernode `v` and
any other pin `u`, two pins in different parts. -/
theorem two_others_of_not_needed (hg : Hypergraph) (hwf : hg.WellFormed) (e u v : Nat)
    (hv : v ∈ hg.pins e) (f d : Int) (hfd : f ≠ d) (hpv : hg.partID v = d)
    (r : MaxGainNodeKWayFMRefiner) (hr : r.hg = hg)
    (hno : looseUpdateNeeded r e f d ≠ true) :
    ∃ w1 ∈ hg.pins e, ∃ w2 ∈ hg.pins e,
      w1 ≠ u ∧ w1 ≠ v ∧ w2 ≠ u ∧ w2 ≠ v ∧ hg.partID w1 ≠ hg.partID w2 := by
  have hnd := pins_nodup hg hwf e
  have hno2 : ¬ (((hg.pinCountInPart e d : Int) - 1 = 0 ∨ (hg.pinCountInPart e d : Int) - 1 = 1) ∨
      (hg.pinCountInPart e f : Int) + 1 = 1 ∨ (hg.pinCountInPart e f : Int) + 1 - 1 = 1) := by
    intro hc
    apply hno
    unfold looseUpdateNeeded moveAffectsGainUpdate
    rw [hr]
    simp only [Bool.or_eq_true, decide_eq_true_eq]
    tauto
  simp only [not_or] at hno2
  obtain ⟨⟨n1, n2⟩, n3, n4⟩ := hno2
  have hposd : 0 < hg.pinCountInPart e d := (pinCountInPart_pos_iff hg e d).mpr ⟨v, hv, hpv⟩
  have hd3 : [u, v].length < (hg.pins e).countP (fun w => decide (hg.partID w = d)) := by
    show 2 < hg.pinCountInPart e d
    omega
  have hf2 : [u].length < (hg.pins e).countP (fun w => decide (hg.partID w = f)) := by
    show 1 < hg.pinCountInPart e f
    omega
  obtain ⟨w2, hw2, hx2, hp2⟩ := exists_mem_not_mem_of_lt_countP _ _ _ hnd hd3
  obtain ⟨w1, hw1, hx1, hp1⟩ := exists_mem_not_mem_of_lt_countP _ _ _ hnd hf2
  simp only [decide_eq_true_eq] at hp1 hp2
  simp only [List.mem_cons, List.mem_singleton, List.not_mem_nil, or_false, not_or] at hx1 hx2
  refine ⟨w1, hw1, w2, hw2, hx1, ?_, hx2.1, hx2.2, ?_⟩
  · intro h
    rw [h, hpv] at hp1
    exact hfd hp1.symm
  · rw [hp1, hp2]; exact hfd

theorem lt_of_mem_pins (hg : Hypergraph) (e v : Nat) (h : v ∈ hg.pins e) :
    e < hg.edge_pins.length := by
  by_contra hlt
  unfold Hypergraph.pins at h
  rw [List.getD_eq_getElem?_getD, List.getElem?_eq_none (not_lt.mp hlt)] at h
  simp at h

theorem getD_replicate_false (n x : Nat) : (List.replicate n false).getD x false = false := by
  rw [List.getD_eq_getElem?_getD]
  cases hq : (List.replicate n false)[x]? with
  | none => rfl
  | some b =>
    have := List.getElem?_mem hq
    rw [List.mem_replicate] at this
    simp [this.2]

theorem getD_set_bool_ne (l : List Bool) (i j : Nat) (x d : Bool) (h : j ≠ i) :
    (l.set i x).getD j d = l.getD j d := by
  simp [List.getD_eq_getElem?_getD, List.getElem?_set, Ne.symm h]

theorem getD_set_bool_eq (l : List Bool) (i : Nat) (x d : Bool) (h : i < l.length) :
    (l.set i x).getD i d = x := by
  simp [List.getD_eq_getElem?_getD, List.getElem?_set, h]

/-- The queue right after a move, before `updateNeighbours` has visited a hyperedge. -/
theorem edgeInv_after_move (r1 : MaxGainNodeKWayFMRefiner) (v : Nat) (d : Int)
    (hq : QueueGood r1) (hlw : LockWitness r1) (hvn : v < r1.hg.part.length)
    (hvu : r1.marked.getD v false = false) (hvpq : ∀ en ∈ r1.pq, en.id ≠ v)
    (hd : 0 ≤ d ∧ d < (r1.hg.k : Int)) (hdf : d ≠ r1.hg.partID v) :
    EdgeInv (fun e => r1.locked_hes.getD e (-1)) (r1.hg.partID v) d (r1.hg.incidentEdges v)
      { r1 with
        marked := r1.marked.set v true
        hg := r1.hg.changeNodePart v (r1.hg.partID v) d
        just_updated := List.replicate r1.just_updated.length false } := by
  obtain ⟨⟨q1, q2, q3, q4, q5, q6, _⟩, qg⟩ := hq
  have hwf1 := wellFormed_changeNodePart r1.hg q1 v (r1.hg.partID v) d hd
  have hpv : (r1.hg.changeNodePart v (r1.hg.partID v) d).partID v = d := by
    rw [partID_changeNodePart]; simp [hvn]
  refine ⟨⟨hwf1, q2, q3, q4, q5, ?_, ?_⟩, ?_⟩
  · intro en he
    show (r1.marked.set v true).getD en.id false = false
    rw [getD_set_bool_ne _ _ _ _ _ (hvpq en he)]
    exact q6 en he
  · intro en _ hju
    exfalso
    have : (List.replicate r1.just_updated.length false).getD en.id false = true := hju
    rw [getD_replicate_false] at this
    exact Bool.false_ne_true this
  · intro en he
    by_cases hex : ∃ e ∈ r1.hg.incidentEdges v,
        en.id ∈ r1.hg.pins e ∧
          UpdatesThrough
            { r1 with
              marked := r1.marked.set v true
              hg := r1.hg.changeNodePart v (r1.hg.partID v) d
              just_updated := List.replicate r1.just_updated.length false }
            (r1.hg.partID v) d (r1.locked_hes.getD e (-1)) e
    · right
      exact ⟨getD_replicate_false _ _, hex⟩
    · left
      obtain ⟨g0, g1, g2, g3, g4, g5, g6⟩ := qg en he
      have huv : en.id ≠ v := hvpq en he
      have hpu : (r1.hg.changeNodePart v (r1.hg.partID v) d).partID en.id = r1.hg.partID en.id := by
        rw [partID_changeNodePart]; simp [huv]
      have htwo : ∀ e, en.id ∈ r1.hg.pins e → v ∈ r1.hg.pins e →
          ∃ w1 ∈ r1.hg.pins e, ∃ w2 ∈ r1.hg.pins e,
            w1 ≠ en.id ∧ w1 ≠ v ∧ w2 ≠ en.id ∧ w2 ≠ v ∧ r1.hg.partID w1 ≠ r1.hg.partID w2 := by
        intro e hue hve
        have hein : e ∈ r1.hg.incidentEdges v :=
          (mem_incidentEdges _ _ _).mpr ⟨lt_of_mem_pins _ _ _ hve, hve⟩
        have hnot : ¬ UpdatesThrough
            { r1 with
              marked := r1.marked.set v true
              hg := r1.hg.changeNodePart v (r1.hg.partID v) d
              just_updated := List.replicate r1.just_updated.length false }
            (r1.hg.partID v) d (r1.locked_hes.getD e (-1)) e :=
          fun h => hex ⟨e, hein, hue, h⟩
        by_cases hs : r1.locked_hes.getD e (-1) = lockedSentinel
        · obtain ⟨p1, p2, hp, ⟨m1, hm1, hk1, hpm1⟩, ⟨m2, hm2, hk2, hpm2⟩⟩ := (hlw e).2 hs
          refine ⟨m1, hm1, m2, hm2, ?_, ?_, ?_, ?_, ?_⟩
          · intro h; rw [h, q6 en he] at hk1; exact Bool.false_ne_true hk1
          · intro h; rw [h, hvu] at hk1; exact Bool.false_ne_true hk1
          · intro h; rw [h, q6 en he] at hk2; exact Bool.false_ne_true hk2
          · intro h; rw [h, hvu] at hk2; exact Bool.false_ne_true hk2
          · rw [hpm1, hpm2]; exact hp
        · have hno : looseUpdateNeeded
              { r1 with
                marked := r1.marked.set v true
                hg := r1.hg.changeNodePart v (r1.hg.partID v) d
                just_updated := List.replicate r1.just_updated.length false }
              e (r1.hg.partID v) d ≠ true := by
            intro hn
            exact hnot ⟨hs, Or.inr hn⟩
          obtain ⟨w1, hw1, w2, hw2, a1, a2, a3, a4, a5⟩ :=
            two_others_of_not_needed (r1.hg.changeNodePart v (r1.hg.partID v) d) hwf1 e en.id
              v hve (r1.hg.partID v) d (Ne.symm hdf) hpv _ rfl hno
          refine ⟨w1, hw1, w2, hw2, a1, a2, a3, a4, ?_⟩
          have e1 : (r1.hg.changeNodePart v (r1.hg.partID v) d).partID w1 = r1.hg.partID w1 := by
            rw [partID_changeNodePart]; simp [a2]
          have e2 : (r1.hg.changeNodePart v (r1.hg.partID v) d).partID w2 = r1.hg.partID w2 := by
            rw [partID_changeNodePart]; simp [a4]
          rw [← e1, ← e2]; exact a5
      refine ⟨?_, g1, g2, ?_, ?_, ?_, ?_⟩
      · show en.id < (r1.hg.part.set v d).length
        rw [List.length_set]; exact g0
      · show en.data ≠ (r1.hg.changeNodePart v (r1.hg.partID v) d).partID en.id
        rw [hpu]; exact g3
      · show en.key = gainTo (r1.hg.changeNodePart v (r1.hg.partID v) d) en.id en.data
          - singlePinWeight r1.hg en.id
        rw [gainTo_changeNodePart_of_two_others r1.hg q1 en.id v huv (r1.hg.partID v) d hd
          en.data g3 htwo]
        exact g4
      · show isBorderNode (r1.hg.changeNodePart v (r1.hg.partID v) d) en.id = true
        rw [isBorderNode_changeNodePart_of_two_others r1.hg q1 en.id v (r1.hg.partID v) d hd
          htwo]
        exact g5
      · intro t ht0 ht1 hts
        have hts1 : t ≠ r1.hg.partID en.id := by
          intro h; apply hts
          show t = (r1.hg.changeNodePart v (r1.hg.partID v) d).partID en.id
          rw [hpu]; exact h
        show gainTo (r1.hg.changeNodePart v (r1.hg.partID v) d) en.id t ≤
          gainTo (r1.hg.changeNodePart v (r1.hg.partID v) d) en.id en.data
        rw [gainTo_changeNodePart_of_two_others r1.hg q1 en.id v huv (r1.hg.partID v) d hd
            t hts1 htwo,
          gainTo_changeNodePart_of_two_others r1.hg q1 en.id v huv (r1.hg.partID v) d hd
            en.data g3 htwo]
        exact g6 t ht0 ht1 hts1

/-- The lock states keep their meaning over a move and the `updateNeighbours` call that
follows it. -/
theorem lockWitness_after_move (r1 : MaxGainNodeKWayFMRefiner) (v : Nat) (d : Int)
    (hlw : LockWitness r1) (hvn : v < r1.hg.part.length) (hvm : v < r1.marked.length)
    (hvu : r1.marked.getD v false = false)
    (hlen : r1.locked_hes.length = r1.hg.initialNumEdges)
    (hd1 : d ≠ -1) (hd2 : d ≠ lockedSentinel) :
    LockWitness (updateNeighbours
      { r1 with marked := r1.marked.set v true
                hg := r1.hg.changeNodePart v (r1.hg.partID v) d } v (r1.hg.partID v) d) := by
  obtain ⟨b1, _, b3, _, _⟩ := sameFrame_updateNeighbours
    { r1 with marked := r1.marked.set v true
              hg := r1.hg.changeNodePart v (r1.hg.partID v) d } v (r1.hg.partID v) d
  obtain ⟨_, _, f3, f4⟩ := updateNeighboursEdge_foldl_locks (r1.hg.partID v) d hd1 hd2
    (r1.hg.incidentEdges v)
    { r1 with marked := r1.marked.set v true
              hg := r1.hg.changeNodePart v (r1.hg.partID v) d
              just_updated := List.replicate r1.just_updated.length false }
    (by
      intro e he
      show e < r1.locked_hes.length
      rw [hlen]
      exact ((mem_incidentEdges _ _ _).mp he).1)
  have hkeep : ∀ e p, MarkedPinIn r1 e p →
      MarkedPinIn (updateNeighbours
        { r1 with marked := r1.marked.set v true
                  hg := r1.hg.changeNodePart v (r1.hg.partID v) d } v (r1.hg.partID v) d) e p := by
    rintro e p ⟨m, hm, hk, hp⟩
    have hmv : m ≠ v := by
      intro h; rw [h, hvu] at hk; exact Bool.false_ne_true hk
    refine ⟨m, ?_, ?_, ?_⟩
    · rw [b1]; exact hm
    · rw [b3]
      show (r1.marked.set v true).getD m false = true
      rw [getD_set_bool_ne _ _ _ _ _ hmv]; exact hk
    · rw [b1, partID_changeNodePart]
      simp only [hmv, false_and, if_false]
      exact hp
  have hnew : ∀ e, v ∈ r1.hg.pins e →
      MarkedPinIn (updateNeighbours
        { r1 with marked := r1.marked.set v true
                  hg := r1.hg.changeNodePart v (r1.hg.partID v) d } v (r1.hg.partID v) d) e d := by
    intro e hve
    refine ⟨v, ?_, ?_, ?_⟩
    · rw [b1]; exact hve
    · rw [b3]
      show (r1.marked.set v true).getD v false = true
      exact getD_set_bool_eq _ _ _ _ hvm
    · rw [b1, partID_changeNodePart]
      simp [hvn]
  intro e
  by_cases hin : e ∈ r1.hg.incidentEdges v
  · have hl : (updateNeighbours
        { r1 with marked := r1.marked.set v true
                  hg := r1.hg.changeNodePart v (r1.hg.partID v) d } v (r1.hg.partID v)
        d).locked_hes.getD e (-1) = lockAfterMove d (r1.locked_hes.getD e (-1)) := f3 e hin
    have hve := ((mem_incidentEdges _ _ _).mp hin).2
    rw [hl]
    unfold lockAfterMove
    by_cases h1 : r1.locked_hes.getD e (-1) = lockedSentinel
    · rw [if_pos h1]
      refine ⟨fun _ h => absurd rfl h, fun _ => ?_⟩
      obtain ⟨p1, p2, hp, w1, w2⟩ := (hlw e).2 h1
      exact ⟨p1, p2, hp, hkeep e p1 w1, hkeep e p2 w2⟩
    · rw [if_neg h1]
      by_cases h2 : r1.locked_hes.getD e (-1) = d
      · rw [if_pos h2]
        exact ⟨fun _ _ => hnew e hve, fun h => absurd h hd2⟩
      · rw [if_neg h2]
        by_cases h3 : r1.locked_hes.getD e (-1) = -1
        · rw [if_pos h3]
          exact ⟨fun _ _ => hnew e hve, fun h => absurd h hd2⟩
        · rw [if_neg h3]
          refine ⟨fun _ h => absurd rfl h, fun _ => ?_⟩
          exact ⟨r1.locked_hes.getD e (-1), d, h2, hkeep e _ ((hlw e).1 h3 h1), hnew e hve⟩
  · have hl : (updateNeighbours
        { r1 with marked := r1.marked.set v true
                  hg := r1.hg.changeNodePart v (r1.hg.partID v) d } v (r1.hg.partID v)
        d).locked_hes.getD e (-1) = r1.locked_hes.getD e (-1) := f4 e hin
    rw [hl]
    constructor
    · intro h1 h2
      exact hkeep e _ ((hlw e).1 h1 h2)
    · intro h1
      obtain ⟨p1, p2, hp, w1, w2⟩ := (hlw e).2 h1
      exact ⟨p1, p2, hp, hkeep e p1 w1, hkeep e p2 w2⟩

/-! ### The main loop of `refineImpl` -/

theorem count_false_set_true (l : List Bool) (u : Nat) (hu : u < l.length)
    (h : l.getD u false = false) : (l.set u true).count false + 1 = l.count false := by
  induction l generalizing u with
  | nil => simp at hu
  | cons a as ih =>
    cases u with
    | zero =>
      have ha : a = false := by simpa using h
      subst ha
      simp
    | succ u =>
      have hu2 : u < as.length := by simpa using hu
      have h2 : as.getD u false = false := by simpa using h
      have := ih u hu2 h2
      cases a <;> simp [List.count_cons] <;> omega

theorem take_set_succ {α : Type} (l : List α) (n : Nat) (x : α) (h : n < l.length) :
    (l.set n x).take (n + 1) = l.take n ++ [x] := by
  induction l generalizing n with
  | nil => simp at h
  | cons a as ih =>
    cases n with
    | zero => simp
    | succ n =>
      have h2 : n < as.length := by simpa using h
      simp [ih n h2]

theorem isMoveLog_append (log : List RollbackInfo) :
    ∀ (hg : Hypergraph) (m : RollbackInfo), IsMoveLog hg log →
      (applyMoves hg log).partID m.hn = m.from_part → IsMoveLog hg (log ++ [m]) := by
  induction log with
  | nil =>
    intro hg m _ hp
    exact ⟨by simpa [applyMoves] using hp, trivial⟩
  | cons x xs ih =>
    intro hg m hl hp
    obtain ⟨h1, h2⟩ := hl
    refine ⟨h1, ?_⟩
    apply ih _ m h2
    simpa [applyMoves] using hp

theorem take_append_singleton_of_le {α : Type} (l : List α) (x : α) (j : Nat)
    (h : j ≤ l.length) : (l ++ [x]).take j = l.take j := by
  rw [List.take_append_of_le_length h]

theorem singlePinWeight_nonneg (hg : Hypergraph) (hwf : hg.WellFormed) (hn : Nat) :
    0 ≤ singlePinWeight hg hn :=
  sum_map_nonneg _ _ (edgeWeight_nonneg hg hwf)

theorem singlePinWeight_of_noSinglePin (hg : Hypergraph) (h : NoSinglePin hg) (hn : Nat) :
    singlePinWeight hg hn = 0 := by
  apply singlePinWeight_eq_zero
  intro e he
  apply h e
  unfold Hypergraph.edges Hypergraph.initialNumEdges
  rw [List.mem_range]
  exact ((mem_incidentEdges _ _ _).mp he).1

theorem lockWitness_set_marked (r : MaxGainNodeKWayFMRefiner) (u : Nat)
    (h : LockWitness r) : LockWitness { r with marked := r.marked.set u true } := by
  have hkeep : ∀ e p, MarkedPinIn r e p →
      MarkedPinIn { r with marked := r.marked.set u true } e p := by
    rintro e p ⟨m, hm, hk, hp⟩
    refine ⟨m, hm, ?_, hp⟩
    show (r.marked.set u true).getD m false = true
    by_cases hmu : m = u
    · subst hmu
      have hlt : m < r.marked.length := by
        by_contra hc
        rw [List.getD_eq_getElem?_getD, List.getElem?_eq_none (not_lt.mp hc)] at hk
        exact Bool.false_ne_true hk
      exact getD_set_bool_eq _ _ _ _ hlt
    · rw [getD_set_bool_ne _ _ _ _ _ hmu]; exact hk
  intro e
  constructor
  · intro h1 h2
    exact hkeep e _ ((h e).1 h1 h2)
  · intro h1
    obtain ⟨p1, p2, hp, w1, w2⟩ := (h e).2 h1
    exact ⟨p1, p2, hp, hkeep e p1 w1, hkeep e p2 w2⟩

theorem queueGood_remove (r : MaxGainNodeKWayFMRefiner) (u : Nat) (h : QueueGood r) :
    QueueGood { r with pq := r.pq.remove u } ∧ ∀ en ∈ r.pq.remove u, en.id ≠ u := by
  obtain ⟨⟨q1, q2, q3, q4, q5, q6, q7⟩, qg⟩ := h
  refine ⟨⟨⟨q1, q2, q3, q4, nodup_remove _ _ q5, ?_, ?_⟩, ?_⟩, ?_⟩
  · intro e he; exact q6 e ((mem_remove _ _ _).mp he).1
  · intro e he; exact q7 e ((mem_remove _ _ _).mp he).1
  · intro e he; exact qg e ((mem_remove _ _ _).mp he).1
  · intro e he; exact ((mem_remove _ _ _).mp he).2

theorem searchBody_refused {σ : Type} (P : StoppingPolicy σ) (rnd : Randomize) (s : Search σ)
    (hc : s.r.hg.partWeight (s.r.pq.data s.r.pq.max) + s.r.hg.nodeWeight s.r.pq.max ≥
        s.r.config.max_part_weight ∨
      (s.r.hg.partSize (s.r.hg.partID s.r.pq.max) : Int) - 1 = 0) :
    searchBody P rnd s =
      some { s with
        r := { s.r with pq := s.r.pq.deleteMax, marked := s.r.marked.set s.r.pq.max true }
        step := s.step + 1 } := by
  unfold searchBody
  dsimp only
  unfold moveHypernode
  dsimp only
  rw [if_pos hc]
  simp

theorem searchBody_moved {σ : Type} (P : StoppingPolicy σ) (rnd : Randomize) (s : Search σ)
    (hc : ¬ (s.r.hg.partWeight (s.r.pq.data s.r.pq.max) + s.r.hg.nodeWeight s.r.pq.max ≥
        s.r.config.max_part_weight ∨
      (s.r.hg.partSize (s.r.hg.partID s.r.pq.max) : Int) - 1 = 0)) :
    searchBody P rnd s =
      if s.num_moves < (updateNeighbours
          { s.r with
            pq := s.r.pq.deleteMax
            marked := s.r.marked.set s.r.pq.max true
            hg := s.r.hg.changeNodePart s.r.pq.max (s.r.hg.partID s.r.pq.max)
              (s.r.pq.data s.r.pq.max) }
          s.r.pq.max (s.r.hg.partID s.r.pq.max) (s.r.pq.data s.r.pq.max)).performed_moves.length
      then
        some
          { r := { (updateNeighbours
                { s.r with
                  pq := s.r.pq.deleteMax
                  marked := s.r.marked.set s.r.pq.max true
                  hg := s.r.hg.changeNodePart s.r.pq.max (s.r.hg.partID s.r.pq.max)
                    (s.r.pq.data s.r.pq.max) }
                s.r.pq.max (s.r.hg.partID s.r.pq.max) (s.r.pq.data s.r.pq.max)) with
              performed_moves := (updateNeighbours
                { s.r with
                  pq := s.r.pq.deleteMax
                  marked := s.r.marked.set s.r.pq.max true
                  hg := s.r.hg.changeNodePart s.r.pq.max (s.r.hg.partID s.r.pq.max)
                    (s.r.pq.data s.r.pq.max) }
                s.r.pq.max (s.r.hg.partID s.r.pq.max)
                (s.r.pq.data s.r.pq.max)).performed_moves.set s.num_moves
                  { hn := s.r.pq.max, from_part := s.r.hg.partID s.r.pq.max,
                    to_part := s.r.pq.data s.r.pq.max } }
            policy :=
              if (decide (s.cut - s.r.pq.maxKey < s.best_cut) ||
                  (decide (s.cut - s.r.pq.maxKey = s.best_cut) && rnd.flipCoin s.step)) &&
                  decide (s.cut - s.r.pq.maxKey < s.best_cut)
              then P.resetStatistics (P.updateStatistics s.policy s.r.pq.maxKey)
              else P.updateStatistics s.policy s.r.pq.maxKey
            best_cut :=
              if (decide (s.cut - s.r.pq.maxKey < s.best_cut) ||
                  (decide (s.cut - s.r.pq.maxKey = s.best_cut) && rnd.flipCoin s.step))
              then s.cut - s.r.pq.maxKey else s.best_cut
            cut := s.cut - s.r.pq.maxKey
            min_cut_index :=
              if (decide (s.cut - s.r.pq.maxKey < s.best_cut) ||
                  (decide (s.cut - s.r.pq.maxKey = s.best_cut) && rnd.flipCoin s.step))
              then (s.num_moves : Int) else s.min_cut_index
            step := s.step + 1
            num_moves := s.num_moves + 1 }
      else none := by
  unfold searchBody
  dsimp only
  unfold moveHypernode
  dsimp only
  rw [if_neg hc]
  simp

theorem nodup_incidentEdges (hg : Hypergraph) (hn : Nat) : (hg.incidentEdges hn).Nodup := by
  unfold Hypergraph.incidentEdges Hypergraph.edges
  exact (List.nodup_range _).filter _

/-- The refiner after a performed move and the `updateNeighbours` call that follows it. -/
theorem refiner_after_move (r1 : MaxGainNodeKWayFMRefiner) (v : Nat) (d : Int)
    (hq : QueueGood r1) (hlw : LockWitness r1) (hvn : v < r1.hg.part.length)
    (hvm : v < r1.marked.length)
    (hvu : r1.marked.getD v false = false) (hvpq : ∀ en ∈ r1.pq, en.id ≠ v)
    (hlen : r1.locked_hes.length = r1.hg.initialNumEdges)
    (hd : 0 ≤ d ∧ d < (r1.hg.k : Int)) (hd2 : d ≠ lockedSentinel)
    (hdf : d ≠ r1.hg.partID v) :
    QueueGood (updateNeighbours
      { r1 with marked := r1.marked.set v true
                hg := r1.hg.changeNodePart v (r1.hg.partID v) d } v (r1.hg.partID v) d) ∧
    LockWitness (updateNeighbours
      { r1 with marked := r1.marked.set v true
                hg := r1.hg.changeNodePart v (r1.hg.partID v) d } v (r1.hg.partID v) d) ∧
    (updateNeighbours
      { r1 with marked := r1.marked.set v true
                hg := r1.hg.changeNodePart v (r1.hg.partID v) d } v (r1.hg.partID v) d).hg =
      r1.hg.changeNodePart v (r1.hg.partID v) d ∧
    (updateNeighbours
      { r1 with marked := r1.marked.set v true
                hg := r1.hg.changeNodePart v (r1.hg.partID v) d } v (r1.hg.partID v) d).marked =
      r1.marked.set v true ∧
    (updateNeighbours
      { r1 with marked := r1.marked.set v true
                hg := r1.hg.changeNodePart v (r1.hg.partID v) d } v (r1.hg.partID v)
      d).performed_moves = r1.performed_moves ∧
    (updateNeighbours
      { r1 with marked := r1.marked.set v true
                hg := r1.hg.changeNodePart v (r1.hg.partID v) d } v (r1.hg.partID v)
      d).locked_hes.length = r1.locked_hes.length := by
  have hd1 : d ≠ -1 := by
    intro h; rw [h] at hd; exact absurd hd.1 (by decide)
  obtain ⟨b1, _, b3, b4, _⟩ := sameFrame_updateNeighbours
    { r1 with marked := r1.marked.set v true
              hg := r1.hg.changeNodePart v (r1.hg.partID v) d } v (r1.hg.partID v) d
  have hlenE : ∀ e ∈ r1.hg.incidentEdges v, e < r1.locked_hes.length := by
    intro e he
    rw [hlen]
    exact ((mem_incidentEdges _ _ _).mp he).1
  obtain ⟨f1, _, _, _⟩ := updateNeighboursEdge_foldl_locks (r1.hg.partID v) d hd1 hd2
    (r1.hg.incidentEdges v)
    { r1 with marked := r1.marked.set v true
              hg := r1.hg.changeNodePart v (r1.hg.partID v) d
              just_updated := List.replicate r1.just_updated.length false } hlenE
  have hstart := edgeInv_after_move r1 v d hq hlw hvn hvu hvpq hd hdf
  have hend := edgeInv_foldl (fun e => r1.locked_hes.getD e (-1)) (r1.hg.partID v) d hd1
    (r1.hg.incidentEdges v)
    { r1 with marked := r1.marked.set v true
              hg := r1.hg.changeNodePart v (r1.hg.partID v) d
              just_updated := List.replicate r1.just_updated.length false }
    (nodup_incidentEdges _ _) (fun _ _ => rfl) hlenE hstart
  refine ⟨?_, lockWitness_after_move r1 v d hlw hvn hvm hvu hlen hd1 hd2, b1, b3, b4, f1⟩
  obtain ⟨hp, hen⟩ := hend
  refine ⟨hp, ?_⟩
  intro en he
  rcases hen en he with hgood | ⟨_, e, he2, _⟩
  · exact hgood
  · exact absurd he2 (List.not_mem_nil _)

theorem pop_facts (r : MaxGainNodeKWayFMRefiner) (hq : QueueGood r) (hne : r.pq ≠ []) :
    GoodEntry r.hg { id := r.pq.max, key := r.pq.maxKey, data := r.pq.data r.pq.max } ∧
      r.marked.getD r.pq.max false = false := by
  obtain ⟨mx, hmx, hmem⟩ := maxEntry_mem r.pq hne
  have h1 : r.pq.max = mx.id := by
    unfold KWayRefinementPQ.max; rw [hmx]
  have h2 : r.pq.maxKey = mx.key := by
    unfold KWayRefinementPQ.maxKey; rw [hmx]
  have h3 : r.pq.data mx.id = mx.data :=
    data_of_mem_nodup r.pq hq.1.2.2.2.2.1 mx hmem
  rw [h1, h2, h3]
  exact ⟨hq.2 mx hmem, hq.1.2.2.2.2.2.1 mx hmem⟩

/-- An iteration of the main loop in which `moveHypernode` refuses the move. -/
theorem searchInv_refused {σ : Type} (hg0 : Hypergraph) (c0 : Int) (s : Search σ)
    (hinv : SearchInv hg0 c0 s) (hne : s.r.pq ≠ []) (step1 : Nat) :
    SearchInv hg0 c0
      { s with
        r := { s.r with pq := s.r.pq.deleteMax, marked := s.r.marked.set s.r.pq.max true }
        step := step1 } ∧
    (s.r.marked.set s.r.pq.max true).count false < s.r.marked.count false := by
  obtain ⟨hgood, hunm⟩ := pop_facts s.r hinv.queue hne
  obtain ⟨hqr, hids⟩ := queueGood_remove s.r s.r.pq.max hinv.queue
  have hlt : s.r.pq.max < s.r.marked.length := by
    rw [hinv.marked_length]; exact hgood.1
  have hcount := count_false_set_true s.r.marked s.r.pq.max hlt hunm
  refine ⟨?_, by omega⟩
  obtain ⟨⟨q1, q2, q3, q4, q5, q6, q7⟩, qg⟩ := hqr
  exact
    { queue := ⟨⟨q1, q2, q3, q4, q5, (by
          intro en he
          show (s.r.marked.set s.r.pq.max true).getD en.id false = false
          rw [getD_set_bool_ne _ _ _ _ _ (hids en he)]
          exact q6 en he), q7⟩, qg⟩
      locks := lockWitness_set_marked { s.r with pq := s.r.pq.deleteMax } s.r.pq.max hinv.locks
      marked_length := by
        show (s.r.marked.set s.r.pq.max true).length = _
        rw [List.length_set]; exact hinv.marked_length
      moves_length := hinv.moves_length
      locked_length := hinv.locked_length
      parts_fit := hinv.parts_fit
      measure := by
        show s.num_moves + (s.r.marked.set s.r.pq.max true).count false ≤
          (s.r.marked.set s.r.pq.max true).length
        rw [List.length_set]
        have := hinv.measure
        omega
      log := hinv.log
      current := hinv.current
      cut_le := hinv.cut_le
      best_le_cut := hinv.best_le_cut
      best_le_initial := hinv.best_le_initial
      index_lower := hinv.index_lower
      index_upper := hinv.index_upper
      best_state := hinv.best_state
      best_wf := hinv.best_wf
      exact := hinv.exact }

/-- An iteration of the main loop in which the move of `u` to `d` is performed. -/
theorem searchInv_moved {σ : Type} (hg0 : Hypergraph) (c0 : Int) (s : Search σ)
    (hinv : SearchInv hg0 c0 s) (u : Nat) (d key : Int)
    (hgood : GoodEntry s.r.hg { id := u, key := key, data := d })
    (hunm : s.r.marked.getD u false = false)
    (r3 : MaxGainNodeKWayFMRefiner)
    (hr3 : updateNeighbours
      { s.r with
        pq := KWayRefinementPQ.remove s.r.pq u
        marked := s.r.marked.set u true
        hg := s.r.hg.changeNodePart u (s.r.hg.partID u) d } u (s.r.hg.partID u) d = r3)
    (step1 : Nat) (pol1 : σ) (imp : Bool)
    (himp : imp = true → s.cut - key ≤ s.best_cut)
    (hnimp : imp = false → s.best_cut ≤ s.cut - key) :
    s.num_moves < r3.performed_moves.length ∧
    SearchInv hg0 c0
      { r := { r3 with
          performed_moves := r3.performed_moves.set s.num_moves
            { hn := u, from_part := s.r.hg.partID u, to_part := d } }
        policy := pol1
        best_cut := if imp then s.cut - key else s.best_cut
        cut := s.cut - key
        min_cut_index := if imp then (s.num_moves : Int) else s.min_cut_index
        step := step1
        num_moves := s.num_moves + 1 } ∧
    r3.marked.count false < s.r.marked.count false := by
  obtain ⟨g0, g1, g2, g3, g4, _, _⟩ := hgood
  change u < s.r.hg.part.length at g0
  change 0 ≤ d at g1
  change d < (s.r.hg.k : Int) at g2
  change d ≠ s.r.hg.partID u at g3
  change key = gainTo s.r.hg u d - singlePinWeight s.r.hg u at g4
  obtain ⟨hqr, hids⟩ := queueGood_remove s.r u hinv.queue
  have hwf : s.r.hg.WellFormed := hinv.queue.1.1
  have hlt : u < s.r.marked.length := by rw [hinv.marked_length]; exact g0
  have hcount := count_false_set_true s.r.marked u hlt hunm
  have hmeas := hinv.measure
  have hd2 : d ≠ lockedSentinel := by
    have := hinv.parts_fit
    intro h; rw [h] at g2; exact absurd g2 (not_lt.mpr (le_of_lt this))
  obtain ⟨a1, a2, a3, a4, a5, a6⟩ := refiner_after_move
    { s.r with pq := KWayRefinementPQ.remove s.r.pq u } u d hqr hinv.locks g0 hlt hunm hids
    hinv.locked_length ⟨g1, g2⟩ hd2 g3
  rw [hr3] at a1 a2 a3 a4 a5 a6
  change r3.performed_moves = s.r.performed_moves at a5
  change r3.locked_hes.length = s.r.locked_hes.length at a6
  change r3.marked = s.r.marked.set u true at a4
  change r3.hg = s.r.hg.changeNodePart u (s.r.hg.partID u) d at a3
  have hnlt : s.num_moves < s.r.performed_moves.length := by
    rw [hinv.moves_length, ← hinv.marked_length]; omega
  have htake : (s.r.performed_moves.set s.num_moves
      { hn := u, from_part := s.r.hg.partID u, to_part := d }).take (s.num_moves + 1) =
      s.r.performed_moves.take s.num_moves ++
        [{ hn := u, from_part := s.r.hg.partID u, to_part := d }] :=
    take_set_succ _ _ _ hnlt
  have hloglen : (s.r.performed_moves.take s.num_moves).length = s.num_moves := by
    rw [List.length_take]; omega
  have hcur : s.r.hg.changeNodePart u (s.r.hg.partID u) d =
      applyMoves hg0 (s.r.performed_moves.take s.num_moves ++
        [{ hn := u, from_part := s.r.hg.partID u, to_part := d }]) := by
    rw [applyMoves_append, ← hinv.current]; rfl
  have hcut : hyperedgeCut (s.r.hg.changeNodePart u (s.r.hg.partID u) d) =
      hyperedgeCut s.r.hg - gainTo s.r.hg u d :=
    hyperedgeCut_changeNodePart s.r.hg hwf u d ⟨g1, g2⟩ g3
  have hspw := singlePinWeight_nonneg s.r.hg hwf u
  have hcutle := hinv.cut_le
  have hbc := hinv.best_le_cut
  have hbi := hinv.best_le_initial
  have hil := hinv.index_lower
  have hiu := hinv.index_upper
  have hbs := hinv.best_state
  refine ⟨by rw [a5]; exact hnlt, ?_, by rw [a4]; omega⟩
  exact
    { queue := a1
      locks := a2
      marked_length := by
        show r3.marked.length = r3.hg.part.length
        rw [a4, a3]
        simp only [List.length_set, Hypergraph.changeNodePart]
        exact hinv.marked_length
      moves_length := by
        show (r3.performed_moves.set _ _).length = r3.hg.part.length
        rw [a5, a3]
        simp only [List.length_set, Hypergraph.changeNodePart]
        exact hinv.moves_length
      locked_length := by
        show r3.locked_hes.length = r3.hg.initialNumEdges
        rw [a6, a3]
        exact hinv.locked_length
      parts_fit := by
        show (r3.hg.k : Int) < lockedSentinel
        rw [a3]
        exact hinv.parts_fit
      measure := by
        show s.num_moves + 1 + r3.marked.count false ≤ r3.marked.length
        rw [a4, List.length_set]
        omega
      log := by
        show IsMoveLog hg0 ((r3.performed_moves.set _ _).take (s.num_moves + 1))
        rw [a5, htake]
        apply isMoveLog_append _ _ _ hinv.log
        rw [← hinv.current]
      current := by
        show r3.hg = applyMoves hg0 ((r3.performed_moves.set _ _).take (s.num_moves + 1))
        rw [a5, htake, a3]
        exact hcur
      cut_le := by
        show hyperedgeCut r3.hg ≤ s.cut - key
        rw [a3, hcut]
        linarith
      best_le_cut := by
        show (if imp = true then s.cut - key else s.best_cut) ≤ s.cut - key
        cases imp
        · simp only [Bool.false_eq_true, if_false]; exact hnimp rfl
        · simp
      best_le_initial := by
        show (if imp = true then s.cut - key else s.best_cut) ≤ c0
        cases imp
        · simp only [Bool.false_eq_true, if_false]; exact hbi
        · simp only [if_true]; have := himp rfl; linarith
      index_lower := by
        show -1 ≤ (if imp = true then (s.num_moves : Int) else s.min_cut_index)
        cases imp
        · simp only [Bool.false_eq_true, if_false]; exact hil
        · simp only [if_true]; omega
      index_upper := by
        show (if imp = true then (s.num_moves : Int) else s.min_cut_index) <
          ((s.num_moves + 1 : Nat) : Int)
        cases imp
        · simp only [Bool.false_eq_true, if_false]; omega
        · simp only [if_true]; omega
      best_state := by
        show hyperedgeCut (applyMoves hg0 (((r3.performed_moves.set _ _).take
          (s.num_moves + 1)).take ((if imp = true then (s.num_moves : Int)
            else s.min_cut_index) + 1).toNat)) ≤ (if imp = true then s.cut - key else s.best_cut)
        rw [a5, htake]
        cases imp
        · simp only [Bool.false_eq_true, if_false]
          rw [take_append_singleton_of_le _ _ _ (by rw [hloglen]; omega)]
          exact hbs
        · simp only [if_true]
          have : ((s.num_moves : Int) + 1).toNat = s.num_moves + 1 := by omega
          rw [this, List.take_of_length_le (by simp [hloglen]), ← hcur, hcut]
          linarith
      best_wf := by
        show (applyMoves hg0 (((r3.performed_moves.set _ _).take
          (s.num_moves + 1)).take ((if imp = true then (s.num_moves : Int)
            else s.min_cut_index) + 1).toNat)).WellFormed
        rw [a5, htake]
        cases imp
        · simp only [Bool.false_eq_true, if_false]
          rw [take_append_singleton_of_le _ _ _ (by rw [hloglen]; omega)]
          exact hinv.best_wf
        · simp only [if_true]
          have : ((s.num_moves : Int) + 1).toNat = s.num_moves + 1 := by omega
          rw [this, List.take_of_length_le (by simp [hloglen]), ← hcur, ← a3]
          exact a1.1.1
      exact := by
        intro hns
        have hns0 : NoSinglePin s.r.hg := by
          have : NoSinglePin r3.hg := hns
          rw [a3] at this
          exact this
        obtain ⟨e1, e2, e3⟩ := hinv.exact hns0
        have hs0 := singlePinWeight_of_noSinglePin s.r.hg hns0 u
        have hcut3 : hyperedgeCut r3.hg = s.cut - key := by
          rw [a3, hcut]; linarith
        have hall : ∀ i, i ≤ s.num_moves + 1 →
            s.cut - key ≤ hyperedgeCut (applyMoves hg0
              ((s.r.performed_moves.take s.num_moves ++
                [({ hn := u, from_part := s.r.hg.partID u, to_part := d } : RollbackInfo)]).take i)) ∨
            s.best_cut ≤ hyperedgeCut (applyMoves hg0
              ((s.r.performed_moves.take s.num_moves ++
                [({ hn := u, from_part := s.r.hg.partID u, to_part := d } : RollbackInfo)]).take i)) := by
          intro i hi
          by_cases hi2 : i ≤ s.num_moves
          · right
            rw [take_append_singleton_of_le _ _ _ (by rw [hloglen]; exact hi2)]
            exact e3 i hi2
          · left
            rw [List.take_of_length_le (by simp [hloglen]; omega), ← hcur, ← a3, hcut3]
        refine ⟨hcut3, ?_, ?_⟩
        · show hyperedgeCut (applyMoves hg0 (((r3.performed_moves.set _ _).take
            (s.num_moves + 1)).take ((if imp = true then (s.num_moves : Int)
              else s.min_cut_index) + 1).toNat)) = (if imp = true then s.cut - key else s.best_cut)
          rw [a5, htake]
          cases imp
          · simp only [Bool.false_eq_true, if_false]
            rw [take_append_singleton_of_le _ _ _ (by rw [hloglen]; omega)]
            exact e2
          · simp only [if_true]
            have : ((s.num_moves : Int) + 1).toNat = s.num_moves + 1 := by omega
            rw [this, List.take_of_length_le (by simp [hloglen]), ← hcur, ← a3, hcut3]
        · intro i hi
          show (if imp = true then s.cut - key else s.best_cut) ≤ hyperedgeCut (applyMoves hg0
            (((r3.performed_moves.set _ _).take (s.num_moves + 1)).take i))
          rw [a5, htake]
          have hi' : i ≤ s.num_moves + 1 := hi
          cases imp
          · simp only [Bool.false_eq_true, if_false]
            have := hnimp rfl
            rcases hall i hi' with h | h
            · linarith
            · exact h
          · simp only [if_true]
            have := himp rfl
            rcases hall i hi' with h | h
            · exact h
            · linarith }

/-- One iteration of the main loop: the body returns, the invariant is kept and one more
hypernode is marked. -/
theorem searchInv_step {σ : Type} (P : StoppingPolicy σ) (rnd : Randomize)
    (hg0 : Hypergraph) (c0 : Int) (s : Search σ)
    (hinv : SearchInv hg0 c0 s) (hne : s.r.pq ≠ []) :
    ∃ s1, searchBody P rnd s = some s1 ∧ SearchInv hg0 c0 s1 ∧
      s1.r.marked.count false < s.r.marked.count false := by
  by_cases hc : s.r.hg.partWeight (s.r.pq.data s.r.pq.max) + s.r.hg.nodeWeight s.r.pq.max ≥
        s.r.config.max_part_weight ∨
      (s.r.hg.partSize (s.r.hg.partID s.r.pq.max) : Int) - 1 = 0
  · obtain ⟨h1, h2⟩ := searchInv_refused hg0 c0 s hinv hne (s.step + 1)
    exact ⟨_, searchBody_refused P rnd s hc, h1, h2⟩
  · obtain ⟨p1, p2⟩ := pop_facts s.r hinv.queue hne
    obtain ⟨h1, h2, h3⟩ := searchInv_moved hg0 c0 s hinv s.r.pq.max (s.r.pq.data s.r.pq.max)
      s.r.pq.maxKey p1 p2 _ rfl (s.step + 1)
      (if (decide (s.cut - s.r.pq.maxKey < s.best_cut) ||
            (decide (s.cut - s.r.pq.maxKey = s.best_cut) && rnd.flipCoin s.step)) &&
            decide (s.cut - s.r.pq.maxKey < s.best_cut)
        then P.resetStatistics (P.updateStatistics s.policy s.r.pq.maxKey)
        else P.updateStatistics s.policy s.r.pq.maxKey)
      (decide (s.cut - s.r.pq.maxKey < s.best_cut) ||
            (decide (s.cut - s.r.pq.maxKey = s.best_cut) && rnd.flipCoin s.step))
      (by
        intro h
        simp only [Bool.or_eq_true, Bool.and_eq_true, decide_eq_true_eq] at h
        rcases h with h | ⟨h, _⟩
        · exact le_of_lt h
        · exact le_of_eq h)
      (by
        intro h
        simp only [Bool.or_eq_false_iff, decide_eq_false_iff_not] at h
        exact not_lt.mp h.1)
    rw [searchBody_moved P rnd s hc]
    have h1' : s.num_moves < (updateNeighbours
          { s.r with
            pq := s.r.pq.deleteMax
            marked := s.r.marked.set s.r.pq.max true
            hg := s.r.hg.changeNodePart s.r.pq.max (s.r.hg.partID s.r.pq.max)
              (s.r.pq.data s.r.pq.max) }
          s.r.pq.max (s.r.hg.partID s.r.pq.max) (s.r.pq.data s.r.pq.max)).performed_moves.length :=
      h1
    rw [if_pos h1']
    exact ⟨_, rfl, h2, h3⟩

theorem count_false_pos (l : List Bool) (i : Nat) (h : i < l.length)
    (hf : l.getD i false = false) : 0 < l.count false := by
  rw [List.count_pos_iff]
  rw [List.getD_eq_getElem l false h] at hf
  rw [← hf]
  exact List.getElem_mem h

/-- The main loop returns when the fuel covers the unmarked hypernodes, and keeps the
invariant. -/
theorem searchLoop_inv {σ : Type} (P : StoppingPolicy σ) (rnd : Randomize)
    (hg0 : Hypergraph) (c0 : Int) :
    ∀ (fuel : Nat) (s : Search σ), SearchInv hg0 c0 s → s.r.marked.count false ≤ fuel →
      ∃ s1, searchLoop P rnd fuel s = some s1 ∧ SearchInv hg0 c0 s1 := by
  intro fuel
  induction fuel with
  | zero =>
    intro s hinv hf
    have hemp : s.r.pq = [] := by
      by_contra hne
      obtain ⟨en, hen⟩ := List.exists_mem_of_ne_nil _ hne
      have h1 := hinv.queue.1.2.2.2.2.2.1 en hen
      have h2 : en.id < s.r.marked.length := by
        rw [hinv.marked_length]; exact (hinv.queue.2 en hen).1
      have := count_false_pos s.r.marked en.id h2 h1
      omega
    refine ⟨s, ?_, hinv⟩
    unfold searchLoop searchDone KWayRefinementPQ.empty
    rw [hemp]
    rfl
  | succ fuel ih =>
    intro s hinv hf
    unfold searchLoop
    by_cases hd : searchDone P s = true
    · rw [if_pos hd]
      exact ⟨s, rfl, hinv⟩
    · rw [if_neg hd]
      have hne : s.r.pq ≠ [] := by
        intro hemp
        apply hd
        unfold searchDone KWayRefinementPQ.empty
        rw [hemp]
        rfl
      obtain ⟨s1, hb, hi1, hc⟩ := searchInv_step P rnd hg0 c0 s hinv hne
      rw [hb]
      exact ih s1 hi1 (by omega)

theorem activate_queueGood (r : MaxGainNodeKWayFMRefiner) (hn : Nat) (hq : QueueGood r)
    (hm : ∀ i, r.marked.getD i false = false) : QueueGood (activate r hn) := by
  obtain ⟨⟨q1, q2, q3, q4, q5, q6, q7⟩, hg⟩ := hq
  by_cases hb : isBorderNode r.hg hn = true
  · have hact : activate r hn =
        { (computeMaxGain r hn).2 with
          pq := (computeMaxGain r hn).2.pq.reInsert hn (computeMaxGain r hn).1.1
            (computeMaxGain r hn).1.2 } := by
      unfold activate; rw [if_pos hb]
    obtain ⟨⟨c1, c2, c3, c4, c5, c6, c7, c8, c9⟩, cpq, cju⟩ := sameFrame_computeMaxGain r hn
    have cz := computeMaxGain_tmp_gains_zero r hn q2 q3 q4
    have hgood := goodEntry_computeMaxGain r hn q1 q2 q3 q4 hb
    have hall : ∀ e ∈ KWayRefinementPQ.reInsert r.pq hn (computeMaxGain r hn).1.1
        (computeMaxGain r hn).1.2, GoodEntry r.hg e := by
      intro e he
      rcases (mem_reInsert _ _ _ _ _).mp he with ⟨h1, _⟩ | rfl
      · exact hg e h1
      · exact hgood
    rw [hact]
    unfold QueueGood PinInv
    dsimp only
    rw [cpq, cju, c1, c3, c7, c8]
    refine ⟨⟨q1, q2, q3, cz, nodup_reInsert _ _ _ _ q5, ?_, ?_⟩, hall⟩
    · intro e _
      exact hm e.id
    · intro e he _
      exact hall e he
  · have hact : activate r hn = r := by
      unfold activate; rw [if_neg hb]
    rw [hact]
    exact ⟨⟨q1, q2, q3, q4, q5, q6, q7⟩, hg⟩

theorem foldl_activate_queueGood (ns : List Nat) :
    ∀ r : MaxGainNodeKWayFMRefiner, QueueGood r → (∀ i, r.marked.getD i false = false) →
      QueueGood (ns.foldl activate r) := by
  induction ns with
  | nil => intro r hq _; exact hq
  | cons p ps ih =>
    intro r hq hm
    apply ih (activate r p) (activate_queueGood r p hq hm)
    rw [(sameFrame_activate r p).1.2.2.1]
    exact hm

theorem lockedOnStack_of_ready (r : MaxGainNodeKWayFMRefiner) (h : Ready r) :
    LockedOnStack r := by
  intro he hne
  apply h.2.2.2.2.2.2.2.2 he _ hne
  rw [List.mem_range]
  by_contra hlt
  apply hne
  rw [List.getD_eq_default _ _ (not_lt.mp hlt)]

/-- The state at the start of the main loop satisfies the invariant. -/
theorem refineStart_inv {σ : Type} (P : StoppingPolicy σ) (rnd : Randomize)
    (r : MaxGainNodeKWayFMRefiner) (policy : σ) (ns : List Nat) (n : Nat)
    (hr : Ready r) :
    SearchInv r.hg (hyperedgeCut r.hg)
      (refineStart P rnd r policy ns n (hyperedgeCut r.hg)) ∧
    (refineStart P rnd r policy ns n (hyperedgeCut r.hg)).r.marked.count false ≤
      r.hg.part.length := by
  obtain ⟨w1, w2, w3, w4, w5, w6, w7, w8, w9⟩ := hr
  have hlos := lockedOnStack_of_ready r ⟨w1, w2, w3, w4, w5, w6, w7, w8, w9⟩
  obtain ⟨l1, _⟩ := refineStart_locks P rnd r policy ns n (hyperedgeCut r.hg) hlos
  obtain ⟨a1, a2, a3, a4, a5, a6, a7, a8, a9⟩ := sameFrame_foldl_activate
    ((rnd.shuffleVector ns n).take n)
    (resetLockedHes { r with pq := r.pq.clear, marked := List.replicate r.marked.length false })
  have hq0 : QueueGood
      (resetLockedHes { r with pq := r.pq.clear,
                               marked := List.replicate r.marked.length false }) := by
    refine ⟨⟨w1, w2, w3, w4, ?_, ?_, ?_⟩, ?_⟩
    · exact List.nodup_nil
    · intro e he; cases he
    · intro e he; cases he
    · intro e he; cases he
  have hm0 : ∀ i, (resetLockedHes
      { r with pq := r.pq.clear,
               marked := List.replicate r.marked.length false }).marked.getD i false = false := by
    intro i
    exact getD_replicate_false _ _
  have hq := foldl_activate_queueGood ((rnd.shuffleVector ns n).take n) _ hq0 hm0
  change (List.foldl activate _ _).hg = r.hg at a1
  change (List.foldl activate _ _).marked = List.replicate r.marked.length false at a3
  change (List.foldl activate _ _).performed_moves = r.performed_moves at a4
  have a5' : (refineStart P rnd r policy ns n (hyperedgeCut r.hg)).r.locked_hes.length =
      r.locked_hes.length := by
    show (List.foldl activate _ _).locked_hes.length = r.locked_hes.length
    rw [a5]
    show (r.current_locked_hes.foldl (fun l he => l.set he (-1)) r.locked_hes).length = _
    generalize r.locked_hes = L
    induction r.current_locked_hes generalizing L with
    | nil => rfl
    | cons x xs ih => rw [List.foldl_cons, ih, List.length_set]
  have hs : (refineStart P rnd r policy ns n (hyperedgeCut r.hg)).r =
      List.foldl activate (resetLockedHes
        { r with pq := r.pq.clear, marked := List.replicate r.marked.length false })
        ((rnd.shuffleVector ns n).take n) := rfl
  have hnm : (refineStart P rnd r policy ns n (hyperedgeCut r.hg)).num_moves = 0 := rfl
  have hmc : (refineStart P rnd r policy ns n (hyperedgeCut r.hg)).min_cut_index = -1 := rfl
  have hbc : (refineStart P rnd r policy ns n (hyperedgeCut r.hg)).best_cut =
      hyperedgeCut r.hg := rfl
  have hct : (refineStart P rnd r policy ns n (hyperedgeCut r.hg)).cut =
      hyperedgeCut r.hg := rfl
  constructor
  · exact
      { queue := by rw [hs]; exact hq
        locks := by
          intro e
          rw [l1 e]
          constructor
          · intro h; exact absurd rfl h
          · intro h; exact absurd h (by decide)
        marked_length := by rw [hs, a3, a1, List.length_replicate]; exact w5
        moves_length := by rw [hs, a4, a1]; exact w6
        locked_length := by rw [a5', hs, a1]; exact w7
        parts_fit := by rw [hs, a1]; exact w8
        measure := by rw [hnm, Nat.zero_add]; exact List.count_le_length _ _
        log := by rw [hnm, List.take_zero]; trivial
        current := by rw [hnm, List.take_zero, hs, a1]; rfl
        cut_le := by rw [hs, a1, hct]
        best_le_cut := by rw [hbc, hct]
        best_le_initial := by rw [hbc]
        index_lower := by rw [hmc]
        index_upper := by rw [hmc, hnm]; decide
        best_state := by rw [hnm, List.take_zero, hbc]; exact le_refl _
        best_wf := by rw [hnm, List.take_zero]; exact w1
        exact := by
          intro _
          rw [hnm, List.take_zero, hbc, hct, hs, a1]
          refine ⟨rfl, rfl, ?_⟩
          intro i _
          rw [List.take_nil]
          exact le_refl (hyperedgeCut r.hg) }
  · rw [hs, a3]
    exact (List.count_le_length _ _).trans (by rw [List.length_replicate, w5])

theorem length_part_applyMoves (log : List RollbackInfo) :
    ∀ hg : Hypergraph, (applyMoves hg log).part.length = hg.part.length := by
  induction log with
  | nil => intro hg; rfl
  | cons m ms ih =>
    intro hg
    show (applyMoves (hg.changeNodePart m.hn m.from_part m.to_part) ms).part.length = _
    rw [ih]
    simp only [Hypergraph.changeNodePart, List.length_set]

/-- With fuel for one iteration per hypernode `refineImpl` returns: the main loop ends in a
state `s` that satisfies the invariant, and the rollback leaves the hypergraph after the
first `min_cut_index + 1` moves of the log. -/
theorem refineImpl_result {σ : Type} (P : StoppingPolicy σ) (rnd : Randomize) (fuel : Nat)
    (r : MaxGainNodeKWayFMRefiner) (policy : σ) (ns : List Nat) (n : Nat)
    (hr : Ready r) (hf : r.hg.part.length ≤ fuel) :
    ∃ s : Search σ,
      searchLoop P rnd fuel (refineStart P rnd r policy ns n (hyperedgeCut r.hg)) = some s ∧
      SearchInv r.hg (hyperedgeCut r.hg) s ∧
      refineImpl P rnd fuel r policy ns n (hyperedgeCut r.hg) =
        some { improved := decide (s.best_cut < hyperedgeCut r.hg), best_cut := s.best_cut,
               r := { s.r with
                      hg := applyMoves r.hg
                        ((s.r.performed_moves.take s.num_moves).take
                          (s.min_cut_index + 1).toNat) },
               policy := s.policy } := by
  obtain ⟨hi0, hc0⟩ := refineStart_inv P rnd r policy ns n hr
  obtain ⟨s, hs, hinv⟩ := searchLoop_inv P rnd r.hg _ fuel _ hi0 (by omega)
  refine ⟨s, hs, hinv, ?_⟩
  have hpl : s.r.hg.part.length = r.hg.part.length := by
    rw [hinv.current, length_part_applyMoves]
  have hnm : s.num_moves ≤ s.r.performed_moves.length := by
    have := hinv.measure
    rw [hinv.moves_length, ← hinv.marked_length]; omega
  have hnf : s.num_moves ≤ fuel := by
    rw [hinv.moves_length, hpl] at hnm; omega
  have hil := hinv.index_lower
  have hiu := hinv.index_upper
  have hll : (s.r.performed_moves.take s.num_moves).length = s.num_moves := by
    rw [List.length_take]; omega
  have hrb := rollback_take r.hg (s.r.performed_moves.take s.num_moves) hinv.log
    (s.min_cut_index + 1).toNat (s.num_moves - (s.min_cut_index + 1).toNat) fuel s.r
    (by omega) (by rw [hll]; omega) (by rw [hll])
    (by
      have : (s.min_cut_index + 1).toNat + (s.num_moves - (s.min_cut_index + 1).toNat) =
        s.num_moves := by omega
      rw [this, List.take_of_length_le (by rw [hll])]
      exact hinv.current)
  have e1 : ((((s.min_cut_index + 1).toNat + (s.num_moves - (s.min_cut_index + 1).toNat) :
      Nat) : Int) - 1) = (s.num_moves : Int) - 1 := by omega
  have e2 : (((s.min_cut_index + 1).toNat : Int) - 1) = s.min_cut_index := by omega
  rw [e1, e2] at hrb
  unfold refineImpl
  dsimp only
  rw [hs]
  dsimp only
  rw [hrb]

theorem edge_pins_applyMoves (log : List RollbackInfo) :
    ∀ hg : Hypergraph, (applyMoves hg log).edge_pins = hg.edge_pins := by
  induction log with
  | nil => intro hg; rfl
  | cons m ms ih =>
    intro hg
    show (applyMoves (hg.changeNodePart m.hn m.from_part m.to_part) ms).edge_pins = _
    rw [ih]
    rfl

theorem noSinglePin_applyMoves (hg : Hypergraph) (log : List RollbackInfo)
    (h : NoSinglePin hg) : NoSinglePin (applyMoves hg log) := by
  unfold NoSinglePin Hypergraph.edges Hypergraph.initialNumEdges Hypergraph.edgeSize
    Hypergraph.pins at h ⊢
  rw [edge_pins_applyMoves]
  exact h

/-- The result of `refineImpl`, called with the cut of the hypergraph as `best_cut`: the cut
does not grow, and without single-pin hyperedges `best_cut` is the cut of the result and the
least cut among the states after each prefix of the move log. -/
theorem refineImpl_cut {σ : Type} (P : StoppingPolicy σ) (rnd : Randomize) (fuel : Nat)
    (r : MaxGainNodeKWayFMRefiner) (policy : σ) (ns : List Nat) (n : Nat)
    (hr : Ready r) (hf : r.hg.part.length ≤ fuel) :
    ∃ s res,
      searchLoop P rnd fuel (refineStart P rnd r policy ns n (hyperedgeCut r.hg)) = some s ∧
      refineImpl P rnd fuel r policy ns n (hyperedgeCut r.hg) = some res ∧
      IsMoveLog r.hg (s.r.performed_moves.take s.num_moves) ∧
      s.r.hg = applyMoves r.hg (s.r.performed_moves.take s.num_moves) ∧
      (∃ i, i ≤ s.num_moves ∧
        res.r.hg = applyMoves r.hg ((s.r.performed_moves.take s.num_moves).take i)) ∧
      hyperedgeCut res.r.hg ≤ res.best_cut ∧ res.best_cut ≤ hyperedgeCut r.hg ∧
      (NoSinglePin r.hg →
        res.best_cut = hyperedgeCut res.r.hg ∧
        ∀ i, i ≤ s.num_moves → res.best_cut ≤
          hyperedgeCut (applyMoves r.hg ((s.r.performed_moves.take s.num_moves).take i))) := by
  obtain ⟨s, hs, hinv, hres⟩ := refineImpl_result P rnd fuel r policy ns n hr hf
  have hil := hinv.index_lower
  have hiu := hinv.index_upper
  refine ⟨s, _, hs, hres, hinv.log, hinv.current, ⟨(s.min_cut_index + 1).toNat, by omega, rfl⟩,
    hinv.best_state, hinv.best_le_initial, ?_⟩
  intro hns
  have hns1 : NoSinglePin s.r.hg := by
    rw [hinv.current]; exact noSinglePin_applyMoves _ _ hns
  obtain ⟨_, e2, e3⟩ := hinv.exact hns1
  exact ⟨e2.symm, e3⟩

theorem k_applyMoves (log : List RollbackInfo) :
    ∀ hg : Hypergraph, (applyMoves hg log).k = hg.k := by
  induction log with
  | nil => intro hg; rfl
  | cons m ms ih =>
    intro hg
    show (applyMoves (hg.changeNodePart m.hn m.from_part m.to_part) ms).k = _
    rw [ih]
    rfl

theorem searchLoop_lockedOnStack {σ : Type} (P : StoppingPolicy σ) (rnd : Randomize)
    (fuel : Nat) :
    ∀ s s1 : Search σ, searchLoop P rnd fuel s = some s1 → LockedOnStack s.r →
      LockedOnStack s1.r := by
  induction fuel with
  | zero =>
    intro s s1 h hr
    unfold searchLoop at h
    split at h
    · cases h; exact hr
    · cases h
  | succ fuel ih =>
    intro s s1 h hr
    unfold searchLoop at h
    split at h
    · cases h; exact hr
    · split at h
      · cases h
      · rename_i s2 hb
        exact ih s2 s1 h (lockedOnStack_searchBody P rnd s s2 hb hr)

/-- The constructor leaves the refiner in a state in which `refineImpl` may be called. -/
theorem ready_init (hypergraph : Hypergraph) (config : Configuration)
    (hwf : hypergraph.WellFormed) (hk : hypergraph.k ≤ config.k)
    (hfit : (hypergraph.k : Int) < lockedSentinel) : Ready (init hypergraph config) := by
  refine ⟨hwf, ?_, ?_, ?_, ?_, ?_, ?_, hfit, ?_⟩
  · show hypergraph.k ≤ (List.replicate config.k (0 : Int)).length
    rw [List.length_replicate]; exact hk
  · show hypergraph.k ≤ (List.replicate config.k (0 : Int)).length
    rw [List.length_replicate]; exact hk
  · intro x hx
    exact List.eq_of_mem_replicate hx
  · exact List.length_replicate _ _
  · exact List.length_replicate _ _
  · exact List.length_replicate _ _
  · intro e _ hne
    exfalso
    apply hne
    show (List.replicate hypergraph.initialNumEdges (-1 : Int)).getD e (-1) = -1
    rw [List.getD_eq_getElem?_getD]
    cases hq : (List.replicate hypergraph.initialNumEdges (-1 : Int))[e]? with
    | none => rfl
    | some b => exact List.eq_of_mem_replicate (List.getElem?_mem hq)

/-- The state that `refineImpl` leaves is again one in which it may be called. -/
theorem ready_refineImpl {σ : Type} (P : StoppingPolicy σ) (rnd : Randomize) (fuel : Nat)
    (r : MaxGainNodeKWayFMRefiner) (policy : σ) (ns : List Nat) (n : Nat)
    (hr : Ready r) (hf : r.hg.part.length ≤ fuel) (res : RefineResult σ)
    (h : refineImpl P rnd fuel r policy ns n (hyperedgeCut r.hg) = some res) :
    Ready res.r := by
  obtain ⟨s, hs, hinv, hres⟩ := refineImpl_result P rnd fuel r policy ns n hr hf
  rw [hres] at h
  cases h
  have hlos0 : LockedOnStack (refineStart P rnd r policy ns n (hyperedgeCut r.hg)).r := by
    intro he hne
    exact absurd ((refineStart_locks P rnd r policy ns n (hyperedgeCut r.hg)
      (lockedOnStack_of_ready r hr)).1 he) hne
  have hlos := searchLoop_lockedOnStack P rnd fuel _ s hs hlos0
  obtain ⟨⟨_, q2, q3, q4, _, _, _⟩, _⟩ := hinv.queue
  have hk : s.r.hg.k = r.hg.k := by rw [hinv.current, k_applyMoves]
  have hpl : s.r.hg.part.length = r.hg.part.length := by
    rw [hinv.current, length_part_applyMoves]
  have hel : s.r.hg.initialNumEdges = r.hg.initialNumEdges := by
    unfold Hypergraph.initialNumEdges
    rw [hinv.current, edge_pins_applyMoves]
  refine ⟨hinv.best_wf, ?_, ?_, q4, ?_, ?_, ?_, ?_, ?_⟩
  · show (applyMoves r.hg _).k ≤ s.r.tmp_gains.length
    rw [k_applyMoves, ← hk]; exact q2
  · show (applyMoves r.hg _).k ≤ s.r.tmp_connectivity_decrease.length
    rw [k_applyMoves, ← hk]; exact q3
  · show s.r.marked.length = (applyMoves r.hg _).part.length
    rw [length_part_applyMoves, ← hpl]; exact hinv.marked_length
  · show s.r.performed_moves.length = (applyMoves r.hg _).part.length
    rw [length_part_applyMoves, ← hpl]; exact hinv.moves_length
  · show s.r.locked_hes.length = (applyMoves r.hg _).initialNumEdges
    unfold Hypergraph.initialNumEdges
    rw [edge_pins_applyMoves]
    exact hinv.locked_length.trans hel
  · show (((applyMoves r.hg _).k : Nat) : Int) < lockedSentinel
    rw [k_applyMoves, ← hk]; exact hinv.parts_fit
  · intro e _ hne
    exact hlos e hne

/-! ### Look-ups in the queue -/

theorem contains_eq_isSome (pq : KWayRefinementPQ) (q : Nat) :
    KWayRefinementPQ.contains pq q = (pq.find? (fun e => decide (e.id = q))).isSome := by
  unfold KWayRefinementPQ.contains
  induction pq with
  | nil => rfl
  | cons a as ih =>
    by_cases h : a.id = q
    · simp [List.find?_cons, h]
    · simp only [List.any_cons, List.find?_cons, h, decide_False, Bool.false_or]
      exact ih

/-- Equal results of the search for `q` give equal `contains`, `key` and `data`. -/
theorem lookup_congr (pq pq1 : KWayRefinementPQ) (q : Nat)
    (h : pq1.find? (fun e => decide (e.id = q)) = pq.find? (fun e => decide (e.id = q))) :
    KWayRefinementPQ.contains pq1 q = KWayRefinementPQ.contains pq q ∧
    KWayRefinementPQ.key pq1 q = KWayRefinementPQ.key pq q ∧
    KWayRefinementPQ.data pq1 q = KWayRefinementPQ.data pq q := by
  rw [contains_eq_isSome, contains_eq_isSome]
  unfold KWayRefinementPQ.key KWayRefinementPQ.data
  rw [h]
  exact ⟨rfl, rfl, rfl⟩

theorem find?_filter_of (pq : KWayRefinementPQ) (q : Nat) (P : PQEntry → Bool)
    (hP : ∀ e : PQEntry, e.id = q → P e = true) :
    (pq.filter P).find? (fun e => decide (e.id = q)) =
      pq.find? (fun e => decide (e.id = q)) := by
  rw [List.find?_filter]
  congr 1
  funext e
  by_cases h : e.id = q
  · rw [hP e h, decide_eq_true h]; rfl
  · rw [decide_eq_false h]; simp

theorem find?_map_of (pq : KWayRefinementPQ) (q : Nat) (f : PQEntry → PQEntry)
    (hid : ∀ e : PQEntry, (f e).id = e.id) (hf : ∀ e : PQEntry, e.id = q → f e = e) :
    (pq.map f).find? (fun e => decide (e.id = q)) =
      pq.find? (fun e => decide (e.id = q)) := by
  induction pq with
  | nil => rfl
  | cons a as ih =>
    rw [List.map_cons, List.find?_cons, List.find?_cons, hid]
    by_cases h : a.id = q
    · rw [decide_eq_true h, hf a h]
    · rw [decide_eq_false h]
      exact ih

theorem find?_remove_ne (pq : KWayRefinementPQ) (p q : Nat) (h : q ≠ p) :
    (KWayRefinementPQ.remove pq p).find? (fun e => decide (e.id = q)) =
      pq.find? (fun e => decide (e.id = q)) := by
  unfold KWayRefinementPQ.remove
  apply find?_filter_of
  intro e he
  rw [he]
  exact decide_eq_true h

theorem find?_remove_self (pq : KWayRefinementPQ) (p : Nat) :
    (KWayRefinementPQ.remove pq p).find? (fun e => decide (e.id = p)) = none := by
  rw [List.find?_eq_none]
  intro e he
  have := (mem_remove pq p e).mp he
  simp [this.2]

theorem find?_update_ne (pq : KWayRefinementPQ) (p q : Nat) (k d : Int) (h : q ≠ p) :
    (KWayRefinementPQ.setData (KWayRefinementPQ.updateKey pq p k) p d).find?
        (fun e => decide (e.id = q)) =
      pq.find? (fun e => decide (e.id = q)) := by
  unfold KWayRefinementPQ.setData KWayRefinementPQ.updateKey
  rw [find?_map_of, find?_map_of]
  · intro e; split <;> rfl
  · intro e he
    rw [if_neg (fun hh => h (he.symm.trans hh))]
  · intro e; split <;> rfl
  · intro e he
    rw [if_neg (fun hh => h (he.symm.trans hh))]

theorem find?_update_self (pq : KWayRefinementPQ) (p : Nat) (k d : Int)
    (hc : KWayRefinementPQ.contains pq p = true) :
    ∃ e, (KWayRefinementPQ.setData (KWayRefinementPQ.updateKey pq p k) p d).find?
        (fun e => decide (e.id = p)) = some e ∧ e.key = k ∧ e.data = d := by
  rw [contains_eq_isSome] at hc
  obtain ⟨x, hx⟩ := Option.isSome_iff_exists.mp hc
  have hxid : x.id = p := by
    have := List.find?_some hx
    exact of_decide_eq_true this
  unfold KWayRefinementPQ.setData KWayRefinementPQ.updateKey
  rw [List.map_map, List.find?_map]
  have hfun : ((fun e : PQEntry => decide (e.id = p)) ∘
      ((fun e : PQEntry => if e.id = p then { e with data := d } else e) ∘
        (fun e : PQEntry => if e.id = p then { e with key := k } else e))) =
      (fun e : PQEntry => decide (e.id = p)) := by
    funext e
    simp only [Function.comp]
    by_cases he : e.id = p
    · simp [he]
    · simp [he]
  rw [hfun, hx]
  refine ⟨_, rfl, ?_, ?_⟩
  · simp [Function.comp, hxid]
  · simp [Function.comp, hxid]

theorem find?_reInsert_ne (pq : KWayRefinementPQ) (p q : Nat) (k d : Int) (h : q ≠ p) :
    (KWayRefinementPQ.reInsert pq p k d).find? (fun e => decide (e.id = q)) =
      pq.find? (fun e => decide (e.id = q)) := by
  unfold KWayRefinementPQ.reInsert
  rw [List.find?_append, find?_remove_ne pq p q h]
  have : ([{ id := p, key := k, data := d }] : List PQEntry).find?
      (fun e => decide (e.id = q)) = none := by
    simp [List.find?_cons, h.symm]
  rw [this, Option.or_none]

theorem find?_reInsert_self (pq : KWayRefinementPQ) (p : Nat) (k d : Int) :
    (KWayRefinementPQ.reInsert pq p k d).find? (fun e => decide (e.id = p)) =
      some { id := p, key := k, data := d } := by
  unfold KWayRefinementPQ.reInsert
  rw [List.find?_append, find?_remove_self]
  simp [List.find?_cons]

/-- The four cases of `updatePin`. -/
theorem updatePin_cases (r : MaxGainNodeKWayFMRefiner) (p : Nat) :
    (r.pq.contains p = true → isBorderNode r.hg p = true →
        r.just_updated.getD p false = false →
      (updatePin r p).pq =
        (r.pq.updateKey p (computeMaxGain r p).1.1).setData p (computeMaxGain r p).1.2 ∧
      (updatePin r p).pq.contains p = true ∧
      (updatePin r p).pq.key p = (computeMaxGain r p).1.1 ∧
      (updatePin r p).pq.data p = (computeMaxGain r p).1.2 ∧
      (p < r.just_updated.length → (updatePin r p).just_updated.getD p false = true)) ∧
    (r.pq.contains p = true → isBorderNode r.hg p = false →
      (updatePin r p).pq = r.pq.remove p ∧ (updatePin r p).pq.contains p = false) ∧
    (r.pq.contains p = false → r.marked.getD p false = false →
      (isBorderNode r.hg p = true →
        (updatePin r p).pq =
          r.pq.reInsert p (computeMaxGain r p).1.1 (computeMaxGain r p).1.2 ∧
        (updatePin r p).pq.contains p = true ∧
        (updatePin r p).pq.key p = (computeMaxGain r p).1.1 ∧
        (updatePin r p).pq.data p = (computeMaxGain r p).1.2) ∧
      (isBorderNode r.hg p = false → (updatePin r p).pq = r.pq)) ∧
    (r.pq.contains p = true → isBorderNode r.hg p = true →
        r.just_updated.getD p false = true → (updatePin r p).pq = r.pq) ∧
    (r.pq.contains p = false → r.marked.getD p false = true → (updatePin r p).pq = r.pq) ∧
    (∀ q, q ≠ p →
      (updatePin r p).pq.contains q = r.pq.contains q ∧
      (updatePin r p).pq.key q = r.pq.key q ∧ (updatePin r p).pq.data q = r.pq.data q) := by
  have cpq : (computeMaxGain r p).2.pq = r.pq := (sameFrame_computeMaxGain r p).2.1
  have cju : (computeMaxGain r p).2.just_updated = r.just_updated :=
    (sameFrame_computeMaxGain r p).2.2
  refine ⟨?_, ?_, ?_, ?_, ?_, ?_⟩
  · intro hc hb hj
    have hup : updatePin r p =
        { (computeMaxGain r p).2 with
          pq := ((computeMaxGain r p).2.pq.updateKey p (computeMaxGain r p).1.1).setData
            p (computeMaxGain r p).1.2
          just_updated := (computeMaxGain r p).2.just_updated.set p true } := by
      unfold updatePin; rw [if_pos hc, if_pos hb, hj]; rfl
    rw [hup]
    dsimp only
    rw [cpq, cju]
    obtain ⟨e, he, hk, hd⟩ := find?_update_self r.pq p (computeMaxGain r p).1.1
      (computeMaxGain r p).1.2 hc
    refine ⟨rfl, ?_, ?_, ?_, ?_⟩
    · rw [contains_eq_isSome, he]; rfl
    · unfold KWayRefinementPQ.key; rw [he]; exact hk
    · unfold KWayRefinementPQ.data; rw [he]; exact hd
    · intro hlt
      exact getD_set_bool_eq _ _ _ _ hlt
  · intro hc hb
    have hup : updatePin r p = { r with pq := r.pq.remove p } := by
      unfold updatePin; rw [if_pos hc, if_neg (by rw [hb]; decide)]
    rw [hup]
    refine ⟨rfl, ?_⟩
    show KWayRefinementPQ.contains (r.pq.remove p) p = false
    rw [contains_eq_isSome, find?_remove_self]; rfl
  · intro hc hm
    constructor
    · intro hb
      have hup : updatePin r p =
          { (computeMaxGain r p).2 with
            pq := (computeMaxGain r p).2.pq.reInsert p (computeMaxGain r p).1.1
              (computeMaxGain r p).1.2
            just_updated := (computeMaxGain r p).2.just_updated.set p true } := by
        unfold updatePin activate
        rw [if_neg (by rw [hc]; decide), hm, if_pos hb]; rfl
      rw [hup]
      dsimp only
      rw [cpq]
      refine ⟨rfl, ?_, ?_, ?_⟩
      · rw [contains_eq_isSome, find?_reInsert_self]; rfl
      · unfold KWayRefinementPQ.key; rw [find?_reInsert_self]
      · unfold KWayRefinementPQ.data; rw [find?_reInsert_self]
    · intro hb
      unfold updatePin activate
      rw [if_neg (by rw [hc]; decide), hm,
        if_neg (show ¬ isBorderNode r.hg p = true by rw [hb]; decide)]
      rfl
  · intro hc hb hj
    unfold updatePin; rw [if_pos hc, if_pos hb, hj]; rfl
  · intro hc hm
    unfold updatePin; rw [if_neg (by rw [hc]; decide), hm]; rfl
  · intro q hq
    apply lookup_congr
    unfold updatePin activate
    split
    · split
      · split
        · dsimp only
          rw [cpq]
          exact find?_update_ne r.pq p q _ _ hq
        · rfl
      · exact find?_remove_ne r.pq p q hq
    · split
      · split
        · dsimp only
          rw [cpq]
          exact find?_reInsert_ne r.pq p q _ _ hq
        · rfl
      · rfl

/-! ### Stopping policies -/

theorem fruitless_foldl (gs : List Int) :
    ∀ p : NumberOfFruitlessMovesStopsSearch,
      (gs.foldl NumberOfFruitlessMovesStopsSearch.updateStatistics p).num_moves =
        p.num_moves + (gs.length : Int) := by
  induction gs with
  | nil => intro p; simp
  | cons g gs ih =>
    intro p
    rw [List.foldl_cons, ih]
    simp only [NumberOfFruitlessMovesStopsSearch.updateStatistics, List.length_cons]
    push_cast
    ring

/-- The counter of `NumberOfFruitlessMovesStopsSearch` after a reset and `n` updates, the
stop test, and what the main loop of `refineImpl` does with the counter. -/
theorem fruitless_spec :
    (∀ (p0 : NumberOfFruitlessMovesStopsSearch) (gs : List Int) (a : Int)
        (config : Configuration) (beta : ℚ) (best_cut cut : Int),
      (gs.foldl NumberOfFruitlessMovesStopsSearch.updateStatistics
          p0.resetStatistics).searchShouldStop a config beta best_cut cut = true ↔
        (gs.length : Int) ≥ config.fm_local_search.max_number_of_fruitless_moves) ∧
    (∀ (rnd : Randomize) (r : MaxGainNodeKWayFMRefiner)
        (p0 : NumberOfFruitlessMovesStopsSearch) (ns : List Nat) (n : Nat) (bc : Int),
      (refineStart fruitlessMovesPolicy rnd r p0 ns n bc).policy.num_moves = 0) ∧
    (∀ (s : Search NumberOfFruitlessMovesStopsSearch),
      searchDone fruitlessMovesPolicy s = true ↔
        (s.r.pq.empty = true ∨
          s.policy.num_moves ≥ s.r.config.fm_local_search.max_number_of_fruitless_moves)) ∧
    (∀ (rnd : Randomize) (s s1 : Search NumberOfFruitlessMovesStopsSearch),
      searchBody fruitlessMovesPolicy rnd s = some s1 →
      (((moveHypernode { s.r with pq := s.r.pq.deleteMax } s.r.pq.max
            (s.r.hg.partID s.r.pq.max) (s.r.pq.data s.r.pq.max)).1 = false →
          s1.policy.num_moves = s.policy.num_moves) ∧
        ((moveHypernode { s.r with pq := s.r.pq.deleteMax } s.r.pq.max
            (s.r.hg.partID s.r.pq.max) (s.r.pq.data s.r.pq.max)).1 = true →
          s1.policy.num_moves =
            if s.cut - s.r.pq.maxKey < s.best_cut then 0 else s.policy.num_moves + 1))) := by
  refine ⟨?_, ?_, ?_, ?_⟩
  · intro p0 gs a config beta best_cut cut
    unfold NumberOfFruitlessMovesStopsSearch.searchShouldStop
    rw [fruitless_foldl, decide_eq_true_iff]
    simp [NumberOfFruitlessMovesStopsSearch.resetStatistics]
  · intro rnd r p0 ns n bc
    rfl
  · intro s
    unfold searchDone fruitlessMovesPolicy NumberOfFruitlessMovesStopsSearch.searchShouldStop
    simp only [Bool.or_eq_true, decide_eq_true_eq]
  · intro rnd s s1 h
    unfold searchBody at h
    dsimp only at h
    constructor
    · intro hmv
      rw [hmv] at h
      simp only [Bool.false_eq_true, if_false, Option.some.injEq] at h
      rw [← h]
    · intro hmv
      rw [hmv] at h
      simp only [if_true] at h
      split at h
      · simp only [Option.some.injEq] at h
        rw [← h]
        dsimp only
        by_cases hlt : s.cut - s.r.pq.maxKey < s.best_cut
        · rw [if_pos hlt]
          simp [hlt, fruitlessMovesPolicy, NumberOfFruitlessMovesStopsSearch.resetStatistics]
        · rw [if_neg hlt]
          simp [hlt, fruitlessMovesPolicy, NumberOfFruitlessMovesStopsSearch.updateStatistics]
      · cases h


/-- The sum of the squared deviations from `c`, by the sum and the sum of squares. -/
theorem sum_sq_dev (gs : List Int) (c : ℚ) :
    (gs.map (fun g : Int => ((g : ℚ) - c) ^ 2)).sum =
      (gs.map (fun g : Int => (g : ℚ) ^ 2)).sum - 2 * c * (gs.map (fun g : Int => (g : ℚ))).sum
        + (gs.length : ℚ) * c ^ 2 := by
  induction gs with
  | nil => simp
  | cons g gs ih =>
    simp only [List.map_cons, List.sum_cons, List.length_cons, Nat.cast_add, Nat.cast_one]
    rw [ih]
    ring

/-- The state of `RandomWalkModelStopsSearch` after a reset and the updates `gs`. -/
theorem randomWalk_foldl (p0 : RandomWalkModelStopsSearch) (gs : List Int) :
    (gs.foldl RandomWalkModelStopsSearch.updateStatistics p0.resetStatistics).num_steps =
        (gs.length : Int) ∧
    (gs.foldl RandomWalkModelStopsSearch.updateStatistics p0.resetStatistics).sum_gains =
        (gs.map (fun g : Int => (g : ℚ))).sum ∧
    (gs.foldl RandomWalkModelStopsSearch.updateStatistics p0.resetStatistics).expected_gain =
        (gs.map (fun g : Int => (g : ℚ))).sum / (gs.length : ℚ) ∧
    (gs.foldl RandomWalkModelStopsSearch.updateStatistics p0.resetStatistics).expected_variance =
        (if 2 ≤ gs.length then
          ((gs.map (fun g : Int => (g : ℚ) ^ 2)).sum -
            (gs.map (fun g : Int => (g : ℚ))).sum ^ 2 / (gs.length : ℚ)) / ((gs.length : ℚ) - 1)
        else 0) ∧
    (1 ≤ gs.length →
      (gs.foldl RandomWalkModelStopsSearch.updateStatistics p0.resetStatistics).Mk =
        (gs.map (fun g : Int => (g : ℚ))).sum / (gs.length : ℚ) ∧
      (gs.foldl RandomWalkModelStopsSearch.updateStatistics p0.resetStatistics).Sk =
        (gs.map (fun g : Int => (g : ℚ) ^ 2)).sum -
          (gs.map (fun g : Int => (g : ℚ))).sum ^ 2 / (gs.length : ℚ)) := by
  induction gs using List.reverseRecOn with
  | nil =>
    refine ⟨rfl, rfl, ?_, ?_, ?_⟩
    · simp [RandomWalkModelStopsSearch.resetStatistics]
    · simp [RandomWalkModelStopsSearch.resetStatistics]
    · intro h; simp at h
  | append_singleton l g ih =>
    by_cases hl : 1 ≤ l.length
    · obtain ⟨i1, i2, i3, i4, i5⟩ := ih
      obtain ⟨m1, m2⟩ := i5 hl
      rw [List.foldl_append, List.foldl_cons, List.foldl_nil]
      generalize List.foldl RandomWalkModelStopsSearch.updateStatistics
        p0.resetStatistics l = p at i1 i2 i3 i4 m1 m2 ⊢
      simp only [List.map_append, List.map_cons, List.map_nil, List.sum_append, List.sum_cons,
        List.sum_nil, add_zero, List.length_append, List.length_singleton, Nat.cast_add,
        Nat.cast_one]
      generalize (l.map (fun g : Int => (g : ℚ))).sum = s1 at i2 i3 i4 m1 m2 ⊢
      generalize (l.map (fun g : Int => (g : ℚ) ^ 2)).sum = s2 at i4 m2 ⊢
      unfold RandomWalkModelStopsSearch.updateStatistics
      dsimp only
      rw [i1, i2]
      have hgt : (l.length : Int) + 1 > 1 := by omega
      rw [if_pos hgt]
      dsimp only
      rw [m1, m2]
      have hn0 : (l.length : ℚ) ≠ 0 := by
        have : (1 : ℚ) ≤ (l.length : ℚ) := by exact_mod_cast hl
        linarith
      have hn1 : (l.length : ℚ) + 1 ≠ 0 := by
        have : (0 : ℚ) ≤ (l.length : ℚ) := Nat.cast_nonneg _
        linarith
      have hMk : s1 / (l.length : ℚ) + ((g : ℚ) - s1 / (l.length : ℚ)) / ((l.length : ℚ) + 1) =
          (s1 + (g : ℚ)) / ((l.length : ℚ) + 1) := by
        field_simp; ring
      have hSk : s2 - s1 ^ 2 / (l.length : ℚ) + ((g : ℚ) - s1 / (l.length : ℚ)) *
          ((g : ℚ) - (s1 / (l.length : ℚ) + ((g : ℚ) - s1 / (l.length : ℚ)) /
            ((l.length : ℚ) + 1))) =
          s2 + (g : ℚ) ^ 2 - (s1 + (g : ℚ)) ^ 2 / ((l.length : ℚ) + 1) := by
        rw [hMk]; field_simp; ring
      have h2 : 2 ≤ l.length + 1 := by omega
      refine ⟨?_, ?_, ?_, ?_, ?_⟩
      · rfl
      · rfl
      · push_cast; rfl
      · rw [if_pos h2]
        push_cast
        rw [hSk]
      · intro _
        push_cast
        exact ⟨hMk, hSk⟩
    · have hnil : l = [] := List.length_eq_zero.mp (by omega)
      subst hnil
      refine ⟨rfl, ?_, ?_, ?_, ?_⟩
      · simp [RandomWalkModelStopsSearch.updateStatistics,
          RandomWalkModelStopsSearch.resetStatistics]
      · simp [RandomWalkModelStopsSearch.updateStatistics,
          RandomWalkModelStopsSearch.resetStatistics]
      · simp [RandomWalkModelStopsSearch.updateStatistics,
          RandomWalkModelStopsSearch.resetStatistics]
      · intro _
        simp [RandomWalkModelStopsSearch.updateStatistics,
          RandomWalkModelStopsSearch.resetStatistics]

/-- The incremental update of `RandomWalkModelStopsSearch` computes the mean and the unbiased
sample variance of the gains, and the stop test is the one on them. -/
theorem randomWalk_spec (p0 : RandomWalkModelStopsSearch) (gs : List Int) (a : Int)
    (config : Configuration) (beta : ℚ) (best_cut cut : Int) :
    (gs.foldl RandomWalkModelStopsSearch.updateStatistics p0.resetStatistics).expected_gain =
      gainMean gs ∧
    (gs.foldl RandomWalkModelStopsSearch.updateStatistics p0.resetStatistics).expected_variance =
      gainVariance gs ∧
    ((gs.foldl RandomWalkModelStopsSearch.updateStatistics
        p0.resetStatistics).searchShouldStop a config beta best_cut cut = true ↔
      ((gs.length : ℚ) * gainMean gs ^ 2 >
          config.fm_local_search.alpha * gainVariance gs + beta ∧ gs.length ≠ 1)) := by
  obtain ⟨i1, _, i3, i4, _⟩ := randomWalk_foldl p0 gs
  have hmean : (gs.foldl RandomWalkModelStopsSearch.updateStatistics
      p0.resetStatistics).expected_gain = gainMean gs := by
    rw [i3]; rfl
  have hvar : (gs.foldl RandomWalkModelStopsSearch.updateStatistics
      p0.resetStatistics).expected_variance = gainVariance gs := by
    rw [i4]
    unfold gainVariance
    by_cases h2 : 2 ≤ gs.length
    · rw [if_pos h2, if_pos h2, sum_sq_dev]
      have hn0 : (gs.length : ℚ) ≠ 0 := by
        have : (2 : ℚ) ≤ (gs.length : ℚ) := by exact_mod_cast h2
        linarith
      congr 1
      unfold gainMean
      field_simp
      ring
    · rw [if_neg h2, if_neg h2]
  refine ⟨hmean, hvar, ?_⟩
  unfold RandomWalkModelStopsSearch.searchShouldStop
  rw [hmean, hvar, i1, Bool.and_eq_true, decide_eq_true_iff, decide_eq_true_iff]
  have e1 : (((gs.length : Int) : ℚ)) * gainMean gs * gainMean gs =
      (gs.length : ℚ) * gainMean gs ^ 2 := by
    push_cast; ring
  rw [e1]
  constructor
  · rintro ⟨h, hne⟩
    exact ⟨h, by intro hh; apply hne; rw [hh]; rfl⟩
  · rintro ⟨h, hne⟩
    exact ⟨h, by intro hh; apply hne; exact_mod_cast hh⟩


/-! ### Greedy hypergraph growing -/

open GreedyHypergraphGrowingRoundRobinInitialPartitioner

theorem growStep_disabled (P : GrowingPolicies) (config : Configuration) (u : Int)
    (st : Growth) (i : Nat) (h : st.partEnable.getD i false = false) :
    growStep P config u st i = st := by
  unfold growStep
  rw [h]
  rfl

theorem growRound_disabled (P : GrowingPolicies) (config : Configuration) (u : Int)
    (st : Growth) (is : List Nat) (h : ∀ i ∈ is, st.partEnable.getD i false = false) :
    growRound P config u is st = st := by
  induction is with
  | nil => rfl
  | cons i is ih =>
    unfold growRound
    dsimp only
    rw [growStep_disabled P config u st i (h i (List.mem_cons_self _ _))]
    split
    · rfl
    · exact ih (fun j hj => h j (List.mem_cons_of_mem _ hj))

/-- With every part disabled and `assigned_nodes_weight` below `total_graph_weight` the main
loop of `kwayPartitionImpl` does not exit, whatever the fuel. -/
theorem growLoop_disabled (P : GrowingPolicies) (config : Configuration) (u : Int)
    (st : Growth)
    (h : ∀ i ∈ List.range config.initial_partitioning.k, st.partEnable.getD i false = false)
    (hlt : st.assigned_nodes_weight < config.total_graph_weight) :
    ∀ fuel, growLoop P config u fuel st = none := by
  intro fuel
  induction fuel with
  | zero => unfold growLoop; rw [if_pos hlt]
  | succ fuel ih =>
    unfold growLoop
    rw [if_pos hlt, growRound_disabled P config u st _ h]
    exact ih

/-- On the hypergraph `heavyHg` with `heavyConfig` the main loop of `kwayPartitionImpl` does
not exit: after two rounds both growing parts are disabled with 7 of 9 assigned. -/
theorem kwayPartitionImpl_heavy (fuel : Nat) :
    kwayPartitionImpl fmGrowingPolicies heavyConfig fuel heavyHg = none := by
  have h0 : (growStart fmGrowingPolicies heavyConfig heavyHg).assigned_nodes_weight <
      heavyConfig.total_graph_weight := by decide
  have h1 : (growRound fmGrowingPolicies heavyConfig 0
      (List.range heavyConfig.initial_partitioning.k)
      (growStart fmGrowingPolicies heavyConfig heavyHg)).assigned_nodes_weight <
      heavyConfig.total_graph_weight := by decide
  have hd : ∀ i ∈ List.range heavyConfig.initial_partitioning.k,
      (growRound fmGrowingPolicies heavyConfig 0
        (List.range heavyConfig.initial_partitioning.k)
        (growRound fmGrowingPolicies heavyConfig 0
          (List.range heavyConfig.initial_partitioning.k)
          (growStart fmGrowingPolicies heavyConfig heavyHg))).partEnable.getD i false =
        false := by decide
  have h2 : (growRound fmGrowingPolicies heavyConfig 0
      (List.range heavyConfig.initial_partitioning.k)
      (growRound fmGrowingPolicies heavyConfig 0
        (List.range heavyConfig.initial_partitioning.k)
        (growStart fmGrowingPolicies heavyConfig heavyHg))).assigned_nodes_weight <
      heavyConfig.total_graph_weight := by decide
  unfold kwayPartitionImpl
  rcases fuel with _ | _ | f
  · unfold growLoop; rw [if_pos h0]
  · unfold growLoop; rw [if_pos h0]; unfold growLoop; rw [if_pos h1]
  · unfold growLoop; rw [if_pos h0]; unfold growLoop; rw [if_pos h1]
    exact growLoop_disabled _ _ _ _ hd h2 f

/-- A loop over the indices that rewrites the entry at its index. -/
theorem foldl_range_set {α : Type} (f : Nat → α → α) (d : α) (l : List α) :
    ∀ m : Nat,
      ((List.range m).foldl (fun b i => b.set i (f i (b.getD i d))) l).length = l.length ∧
      ∀ j, ((List.range m).foldl (fun b i => b.set i (f i (b.getD i d))) l).getD j d =
        if j < m ∧ j < l.length then f j (l.getD j d) else l.getD j d := by
  intro m
  induction m with
  | zero =>
    refine ⟨rfl, ?_⟩
    intro j
    simp
  | succ m ih =>
    obtain ⟨ih1, ih2⟩ := ih
    rw [List.range_succ, List.foldl_append, List.foldl_cons, List.foldl_nil]
    refine ⟨by rw [List.length_set, ih1], ?_⟩
    intro j
    by_cases hj : j = m
    · subst hj
      by_cases hl : j < l.length
      · rw [List.getD_eq_getElem?_getD, List.getElem?_set_self (by rw [ih1]; exact hl)]
        rw [if_pos ⟨Nat.lt_succ_self _, hl⟩, ih2 j, if_neg (fun h => Nat.lt_irrefl _ h.1)]
        rfl
      · rw [if_neg (fun h => hl h.2)]
        rw [List.getD_eq_default _ _ (by rw [List.length_set, ih1]; omega),
          List.getD_eq_default _ _ (by omega)]
    · rw [List.getD_eq_getElem?_getD, List.getElem?_set_ne (fun h => hj h.symm),
        ← List.getD_eq_getElem?_getD, ih2 j]
      by_cases h1 : j < m ∧ j < l.length
      · rw [if_pos h1, if_pos ⟨by omega, h1.2⟩]
      · rw [if_neg h1, if_neg (fun h => h1 ⟨by omega, h.2⟩)]

theorem set_getD_self {α : Type} (l : List α) (i : Nat) (d : α) :
    l.set i (l.getD i d) = l := by
  induction l generalizing i with
  | nil => rfl
  | cons a as ih =>
    cases i with
    | zero => rfl
    | succ i =>
      rw [List.getD_cons_succ, List.set_cons_succ, ih]

/-! ### Look-ups in a bucket queue -/

theorem bq_contains_eq_isSome (bq : BucketQueue) (q : Nat) :
    BucketQueue.contains bq q = (bq.find? (fun e => decide (e.1 = q))).isSome := by
  unfold BucketQueue.contains
  induction bq with
  | nil => rfl
  | cons a as ih =>
    by_cases h : a.1 = q
    · simp [List.find?_cons, h]
    · simp only [List.any_cons, List.find?_cons, h, decide_False, Bool.false_or]
      exact ih

theorem bq_contains_iff (bq : BucketQueue) (q : Nat) :
    BucketQueue.contains bq q = true ↔ ∃ e ∈ bq, e.1 = q := by
  unfold BucketQueue.contains
  simp [List.any_eq_true]

theorem bq_lookup_congr (bq bq1 : BucketQueue) (q : Nat)
    (h : bq1.find? (fun e => decide (e.1 = q)) = bq.find? (fun e => decide (e.1 = q))) :
    BucketQueue.contains bq1 q = BucketQueue.contains bq q ∧
    BucketQueue.key bq1 q = BucketQueue.key bq q := by
  rw [bq_contains_eq_isSome, bq_contains_eq_isSome]
  unfold BucketQueue.key
  rw [h]
  exact ⟨rfl, rfl⟩

theorem bq_find?_filter_of (bq : BucketQueue) (q : Nat) (P : HypernodeID × Gain → Bool)
    (hP : ∀ e : HypernodeID × Gain, e.1 = q → P e = true) :
    (bq.filter P).find? (fun e => decide (e.1 = q)) =
      bq.find? (fun e => decide (e.1 = q)) := by
  rw [List.find?_filter]
  congr 1
  funext e
  by_cases h : e.1 = q
  · rw [hP e h, decide_eq_true h]; rfl
  · rw [decide_eq_false h]; simp

theorem bq_find?_map_of (bq : BucketQueue) (q : Nat)
    (f : HypernodeID × Gain → HypernodeID × Gain)
    (hid : ∀ e : HypernodeID × Gain, (f e).1 = e.1)
    (hf : ∀ e : HypernodeID × Gain, e.1 = q → f e = e) :
    (bq.map f).find? (fun e => decide (e.1 = q)) =
      bq.find? (fun e => decide (e.1 = q)) := by
  induction bq with
  | nil => rfl
  | cons a as ih =>
    rw [List.map_cons, List.find?_cons, List.find?_cons, hid]
    by_cases h : a.1 = q
    · rw [decide_eq_true h, hf a h]
    · rw [decide_eq_false h]
      exact ih

theorem bq_find?_deleteNode_ne (bq : BucketQueue) (p q : Nat) (h : q ≠ p) :
    (BucketQueue.deleteNode bq p).find? (fun e => decide (e.1 = q)) =
      bq.find? (fun e => decide (e.1 = q)) := by
  unfold BucketQueue.deleteNode
  apply bq_find?_filter_of
  intro e he
  rw [he]
  exact decide_eq_true h

theorem bq_mem_deleteNode (bq : BucketQueue) (p : Nat) (e : HypernodeID × Gain) :
    e ∈ BucketQueue.deleteNode bq p ↔ e ∈ bq ∧ e.1 ≠ p := by
  unfold BucketQueue.deleteNode
  simp [List.mem_filter]

theorem bq_contains_deleteNode_self (bq : BucketQueue) (p : Nat) :
    BucketQueue.contains (BucketQueue.deleteNode bq p) p = false := by
  rw [Bool.eq_false_iff]
  intro h
  obtain ⟨e, he, hid⟩ := (bq_contains_iff _ _).mp h
  exact ((bq_mem_deleteNode bq p e).mp he).2 hid

theorem bq_find?_updateKey_ne (bq : BucketQueue) (p q : Nat) (k : Int) (h : q ≠ p) :
    (BucketQueue.updateKey bq p k).find? (fun e => decide (e.1 = q)) =
      bq.find? (fun e => decide (e.1 = q)) := by
  unfold BucketQueue.updateKey
  apply bq_find?_map_of
  · intro e; split <;> rfl
  · intro e he
    rw [if_neg (fun hh => h (he.symm.trans hh))]

theorem bq_mem_updateKey (bq : BucketQueue) (p : Nat) (k : Int) (e : HypernodeID × Gain) :
    e ∈ BucketQueue.updateKey bq p k ↔
      (e ∈ bq ∧ e.1 ≠ p) ∨ (e = (p, k) ∧ ∃ x ∈ bq, x.1 = p) := by
  unfold BucketQueue.updateKey
  simp only [List.mem_map]
  constructor
  · rintro ⟨x, hx, rfl⟩
    by_cases hid : x.1 = p
    · rw [if_pos hid]
      exact Or.inr ⟨by rw [hid], x, hx, hid⟩
    · rw [if_neg hid]
      exact Or.inl ⟨hx, hid⟩
  · rintro (⟨h1, h2⟩ | ⟨rfl, x, hx, hid⟩)
    · exact ⟨e, h1, by rw [if_neg h2]⟩
    · exact ⟨x, hx, by rw [if_pos hid, hid]⟩

theorem bq_updateKey_self (bq : BucketQueue) (p : Nat) (k : Int)
    (hc : BucketQueue.contains bq p = true) :
    BucketQueue.contains (BucketQueue.updateKey bq p k) p = true ∧
    BucketQueue.key (BucketQueue.updateKey bq p k) p = k := by
  rw [bq_contains_eq_isSome] at hc
  obtain ⟨x, hx⟩ := Option.isSome_iff_exists.mp hc
  have hxid : x.1 = p := by
    have := List.find?_some hx
    exact of_decide_eq_true this
  have hfun : ((fun e : HypernodeID × Gain => decide (e.1 = p)) ∘
      (fun e : HypernodeID × Gain => if e.1 = p then (e.1, k) else e)) =
      (fun e : HypernodeID × Gain => decide (e.1 = p)) := by
    funext e
    simp only [Function.comp]
    by_cases he : e.1 = p
    · simp [he]
    · simp [he]
  have hfind : (BucketQueue.updateKey bq p k).find? (fun e => decide (e.1 = p)) =
      some (x.1, k) := by
    unfold BucketQueue.updateKey
    rw [List.find?_map, hfun, hx]
    simp [hxid]
  constructor
  · rw [bq_contains_eq_isSome, hfind]; rfl
  · unfold BucketQueue.key; rw [hfind]

theorem bq_mem_push (bq : BucketQueue) (p : Nat) (k : Int) (e : HypernodeID × Gain) :
    e ∈ BucketQueue.push bq p k ↔ e ∈ bq ∨ e = (p, k) := by
  unfold BucketQueue.push
  simp

theorem bq_find?_push_ne (bq : BucketQueue) (p q : Nat) (k : Int) (h : q ≠ p) :
    (BucketQueue.push bq p k).find? (fun e => decide (e.1 = q)) =
      bq.find? (fun e => decide (e.1 = q)) := by
  unfold BucketQueue.push
  rw [List.find?_append]
  have : ([(p, k)] : List (HypernodeID × Gain)).find? (fun e => decide (e.1 = q)) = none := by
    simp [List.find?_cons, h.symm]
  rw [this, Option.or_none]

theorem bq_push_self (bq : BucketQueue) (p : Nat) (k : Int)
    (hc : BucketQueue.contains bq p = false) :
    BucketQueue.contains (BucketQueue.push bq p k) p = true ∧
    BucketQueue.key (BucketQueue.push bq p k) p = k := by
  have hnone : bq.find? (fun e => decide (e.1 = p)) = none := by
    rw [bq_contains_eq_isSome] at hc
    exact Option.not_isSome_iff_eq_none.mp (by rw [hc]; decide)
  have hfind : (BucketQueue.push bq p k).find? (fun e => decide (e.1 = p)) = some (p, k) := by
    unfold BucketQueue.push
    rw [List.find?_append, hnone]
    simp [List.find?_cons]
  constructor
  · rw [bq_contains_eq_isSome, hfind]; rfl
  · unfold BucketQueue.key; rw [hfind]

/-- The queue of part `j` after the vector form of `processNodeForBucketPQ`, from the queue
before. -/
theorem processNodeForBucketPQ_vector_getD
    (cg : Hypergraph → HypernodeID → PartitionID → Gain) (hg : Hypergraph)
    (bq : List BucketQueue) (hn : Nat) (p : Int) (hne : hg.partID hn ≠ p) :
    (processNodeForBucketPQ_vector cg hg bq hn p).length = bq.length ∧
    ∀ j, (processNodeForBucketPQ_vector cg hg bq hn p).getD j [] =
      if j < bq.length then
        (if (bq.getD j []).contains hn then (bq.getD j []).updateKey hn (cg hg hn (j : Int))
         else if (j : Int) = p then (bq.getD j []).push hn (cg hg hn p)
         else bq.getD j [])
      else bq.getD j [] := by
  have hbody : processNodeForBucketPQ_vector_body cg hg hn p =
      fun b i => b.set i
        ((fun (i : Nat) (q : BucketQueue) =>
          if q.contains hn then q.updateKey hn (cg hg hn (i : Int))
          else if (i : Int) = p then q.push hn (cg hg hn p) else q) i (b.getD i [])) := by
    funext b i
    unfold processNodeForBucketPQ_vector_body
    rw [if_pos hne]
    dsimp only
    by_cases hc : (b.getD i []).contains hn = true
    · rw [if_pos hc, if_pos hc]
    · rw [if_neg hc, if_neg hc]
      by_cases hi : (i : Int) = p
      · rw [if_pos hi, if_pos hi]
        have : p.toNat = i := by omega
        rw [this]
      · rw [if_neg hi, if_neg hi, set_getD_self]
  unfold processNodeForBucketPQ_vector
  rw [hbody]
  obtain ⟨h1, h2⟩ := foldl_range_set
    (fun (i : Nat) (q : BucketQueue) =>
      if q.contains hn then q.updateKey hn (cg hg hn (i : Int))
      else if (i : Int) = p then q.push hn (cg hg hn p) else q) [] bq bq.length
  refine ⟨h1, ?_⟩
  intro j
  rw [h2 j]
  by_cases hj : j < bq.length
  · rw [if_pos ⟨hj, hj⟩, if_pos hj]
  · rw [if_neg (fun h => hj h.1), if_neg hj]

/-- The effect of the vector form of `processNodeForBucketPQ(bq, hn, p)` for a hypernode
`hn` with `partID(hn) != p` and a part `p` that has a queue. -/
theorem processNodeForBucketPQ_vector_spec
    (cg : Hypergraph → HypernodeID → PartitionID → Gain) (hg : Hypergraph)
    (bq : List BucketQueue) (hn : Nat) (p : Nat) (hne : hg.partID hn ≠ (p : Int))
    (hp : p < bq.length) :
    ((processNodeForBucketPQ_vector cg hg bq hn (p : Int)).getD p []).contains hn = true ∧
    (∀ i, i ≠ p →
      ((processNodeForBucketPQ_vector cg hg bq hn (p : Int)).getD i []).contains hn =
        (bq.getD i []).contains hn) ∧
    (∀ i, ((processNodeForBucketPQ_vector cg hg bq hn (p : Int)).getD i []).contains hn = true →
      ((processNodeForBucketPQ_vector cg hg bq hn (p : Int)).getD i []).key hn =
        cg hg hn (i : Int)) ∧
    (∀ i v, v ≠ hn →
      ((processNodeForBucketPQ_vector cg hg bq hn (p : Int)).getD i []).contains v =
        (bq.getD i []).contains v ∧
      ((processNodeForBucketPQ_vector cg hg bq hn (p : Int)).getD i []).key v =
        (bq.getD i []).key v) := by
  obtain ⟨_, hget⟩ := processNodeForBucketPQ_vector_getD cg hg bq hn (p : Int) hne
  refine ⟨?_, ?_, ?_, ?_⟩
  · rw [hget p, if_pos hp]
    by_cases hc : (bq.getD p []).contains hn = true
    · rw [if_pos hc]; exact (bq_updateKey_self _ _ _ hc).1
    · rw [if_neg hc, if_pos rfl]
      exact (bq_push_self _ _ _ (by simpa using hc)).1
  · intro i hi
    rw [hget i]
    by_cases hl : i < bq.length
    · rw [if_pos hl]
      by_cases hc : (bq.getD i []).contains hn = true
      · rw [if_pos hc, hc]; exact (bq_updateKey_self _ _ _ hc).1
      · rw [if_neg hc, if_neg (by intro h; apply hi; exact_mod_cast h)]
    · rw [if_neg hl]
  · intro i
    rw [hget i]
    by_cases hl : i < bq.length
    · rw [if_pos hl]
      by_cases hc : (bq.getD i []).contains hn = true
      · rw [if_pos hc]; intro _; exact (bq_updateKey_self _ _ _ hc).2
      · rw [if_neg hc]
        by_cases hi : (i : Int) = (p : Int)
        · rw [if_pos hi]; intro _
          rw [(bq_push_self _ _ _ (by simpa using hc)).2, hi]
        · rw [if_neg hi]; intro h; exact absurd h hc
    · rw [if_neg hl]
      intro h
      rw [List.getD_eq_default _ _ (by omega)] at h
      cases h
  · intro i v hv
    rw [hget i]
    apply bq_lookup_congr
    by_cases hl : i < bq.length
    · rw [if_pos hl]
      by_cases hc : (bq.getD i []).contains hn = true
      · rw [if_pos hc]; exact bq_find?_updateKey_ne _ _ _ _ hv
      · rw [if_neg hc]
        by_cases hi : (i : Int) = (p : Int)
        · rw [if_pos hi]; exact bq_find?_push_ne _ _ _ _ hv
        · rw [if_neg hi]
    · rw [if_neg hl]

/-- The queue of part `j` after `deleteAssignedNodeInBucketPQ`. -/
theorem deleteAssignedNodeInBucketPQ_getD (bq : List BucketQueue) (hn : Nat) :
    (deleteAssignedNodeInBucketPQ bq hn).length = bq.length ∧
    ∀ j, (deleteAssignedNodeInBucketPQ bq hn).getD j [] = (bq.getD j []).deleteNode hn := by
  have hbody : (fun (b : List BucketQueue) (i : Nat) =>
      if (b.getD i []).contains hn then b.set i ((b.getD i []).deleteNode hn) else b) =
      fun b i => b.set i
        ((fun (_ : Nat) (q : BucketQueue) =>
          if q.contains hn then q.deleteNode hn else q) i (b.getD i [])) := by
    funext b i
    dsimp only
    by_cases hc : (b.getD i []).contains hn = true
    · rw [if_pos hc, if_pos hc]
    · rw [if_neg hc, if_neg hc, set_getD_self]
  unfold deleteAssignedNodeInBucketPQ
  rw [hbody]
  obtain ⟨h1, h2⟩ := foldl_range_set
    (fun (_ : Nat) (q : BucketQueue) => if q.contains hn then q.deleteNode hn else q)
    [] bq bq.length
  refine ⟨h1, ?_⟩
  intro j
  rw [h2 j]
  have hno : ∀ q : BucketQueue, q.contains hn ≠ true → q.deleteNode hn = q := by
    intro q hq
    unfold BucketQueue.deleteNode
    rw [List.filter_eq_self]
    intro e he
    apply decide_eq_true
    intro hid
    exact hq ((bq_contains_iff q hn).mpr ⟨e, he, hid⟩)
  by_cases hj : j < bq.length
  · rw [if_pos ⟨hj, hj⟩]
    by_cases hc : (bq.getD j []).contains hn = true
    · rw [if_pos hc]
    · rw [if_neg hc, hno _ hc]
  · rw [if_neg (fun h => hj h.1), List.getD_eq_default _ _ (by omega)]
    rfl

/-- After `deleteAssignedNodeInBucketPQ(bq, hn)` no queue contains `hn`, and membership and
keys of the other hypernodes are as before. -/
theorem deleteAssignedNodeInBucketPQ_spec (bq : List BucketQueue) (hn : Nat) :
    (∀ j, ((deleteAssignedNodeInBucketPQ bq hn).getD j []).contains hn = false) ∧
    (∀ j v, v ≠ hn →
      ((deleteAssignedNodeInBucketPQ bq hn).getD j []).contains v =
        (bq.getD j []).contains v ∧
      ((deleteAssignedNodeInBucketPQ bq hn).getD j []).key v = (bq.getD j []).key v) := by
  obtain ⟨_, hget⟩ := deleteAssignedNodeInBucketPQ_getD bq hn
  constructor
  · intro j
    rw [hget j]
    exact bq_contains_deleteNode_self _ _
  · intro j v hv
    rw [hget j]
    exact bq_lookup_congr _ _ _ (bq_find?_deleteNode_ne _ _ _ hv)

/-! ### Keys of the bucket queues -/

theorem partID_changeNodePart_ne (hg : Hypergraph) (hn : Nat) (f t : Int) (v : Nat)
    (h : v ≠ hn) : (hg.changeNodePart hn f t).partID v = hg.partID v := by
  rw [partID_changeNodePart, if_neg (fun hh => h hh.1)]

theorem gainTo_changeNodePart_of_disjoint (hg : Hypergraph) (hn : Nat) (f t : Int) (v : Nat)
    (p : Int) (hv : v ≠ hn) (hd : ∀ e ∈ hg.incidentEdges v, hn ∉ hg.pins e) :
    gainTo (hg.changeNodePart hn f t) v p = gainTo hg v p := by
  unfold gainTo internalWeight
  rw [incidentEdges_changeNodePart, partID_changeNodePart_ne hg hn f t v hv]
  have h1 : (hg.incidentEdges v).filter (fun he =>
      decide ((hg.changeNodePart hn f t).pinCountInPart he (hg.partID v) = 1 ∧
        (hg.changeNodePart hn f t).pinCountInPart he p =
          (hg.changeNodePart hn f t).edgeSize he - 1)) =
      (hg.incidentEdges v).filter (fun he =>
        decide (hg.pinCountInPart he (hg.partID v) = 1 ∧
          hg.pinCountInPart he p = hg.edgeSize he - 1)) := by
    apply List.filter_congr
    intro e he
    rw [pinCountInPart_changeNodePart_of_not_mem hg hn f t e (hd e he),
      pinCountInPart_changeNodePart_of_not_mem hg hn f t e (hd e he)]
    rfl
  have h2 : (hg.incidentEdges v).filter (fun he =>
      decide ((hg.changeNodePart hn f t).connectivity he = 1)) =
      (hg.incidentEdges v).filter (fun he => decide (hg.connectivity he = 1)) := by
    apply List.filter_congr
    intro e he
    rw [connectivity_changeNodePart_of_not_mem hg hn f t e (hd e he)]
  rw [h1, h2]
  rfl

/-- The FM gain is local. -/
theorem localGain_fmGain : LocalGain fmGain := by
  intro hg hn t v p hv hd
  unfold fmGain
  rw [partID_changeNodePart_ne hg hn _ t v hv,
    gainTo_changeNodePart_of_disjoint hg hn _ t v p hv hd]

theorem bq_maxEntry_mem (bq : BucketQueue) (h : bq ≠ []) :
    ∃ e, BucketQueue.maxEntry bq = some e ∧ e ∈ bq := by
  induction bq with
  | nil => exact absurd rfl h
  | cons a as ih =>
    unfold BucketQueue.maxEntry
    cases has : as with
    | nil => exact ⟨a, by simp [BucketQueue.maxEntry], by simp⟩
    | cons b bs =>
      obtain ⟨m, hm, hmem⟩ := ih (by rw [has]; simp)
      rw [has] at hm hmem
      rw [hm]
      dsimp only
      split
      · exact ⟨m, rfl, List.mem_cons_of_mem _ hmem⟩
      · exact ⟨a, rfl, List.mem_cons_self _ _⟩

/-- The maximum of a queue that is not empty is one of its elements, with its key. -/
theorem bq_getMax_mem (bq : BucketQueue) (h : bq ≠ []) :
    (bq.getMax, bq.getMaxKey) ∈ bq := by
  obtain ⟨e, he, hmem⟩ := bq_maxEntry_mem bq h
  unfold BucketQueue.getMax BucketQueue.getMaxKey
  rw [he]
  exact hmem

/-- The elements of the queue of part `p` after the vector form of `processNodeForBucketPQ`
for `w`: the elements before that are not `w`, and `w` with its gain towards `p`. -/
theorem processNodeForBucketPQ_vector_mem
    (cg : Hypergraph → HypernodeID → PartitionID → Gain) (hg : Hypergraph)
    (b : List BucketQueue) (w : Nat) (i : Int) (hne : hg.partID w ≠ i) (p : Nat)
    (e : HypernodeID × Gain)
    (he : e ∈ (processNodeForBucketPQ_vector cg hg b w i).getD p []) :
    (e ∈ b.getD p [] ∧ e.1 ≠ w) ∨ e = (w, cg hg w (p : Int)) := by
  rw [(processNodeForBucketPQ_vector_getD cg hg b w i hne).2 p] at he
  have hnc : ∀ x ∈ b.getD p [], ¬ (b.getD p []).contains w = true → x.1 ≠ w := by
    intro x hx hc hid
    exact hc ((bq_contains_iff _ _).mpr ⟨x, hx, hid⟩)
  by_cases hl : p < b.length
  · rw [if_pos hl] at he
    by_cases hc : (b.getD p []).contains w = true
    · rw [if_pos hc] at he
      rcases (bq_mem_updateKey _ _ _ _).mp he with h | ⟨h, _⟩
      · exact Or.inl h
      · exact Or.inr h
    · rw [if_neg hc] at he
      by_cases hi : (p : Int) = i
      · rw [if_pos hi] at he
        rcases (bq_mem_push _ _ _ _).mp he with h | h
        · exact Or.inl ⟨h, hnc e h hc⟩
        · right; rw [h, hi]
      · rw [if_neg hi] at he
        exact Or.inl ⟨he, hnc e he hc⟩
  · rw [if_neg hl, List.getD_eq_default _ _ (by omega)] at he
    cases he

theorem length_rerate_inner (cg : Hypergraph → HypernodeID → PartitionID → Gain)
    (hg : Hypergraph) (i : Int) (ws : List Nat) :
    ∀ b : List BucketQueue,
      (ws.foldl (fun b1 w =>
        if hg.partID w = 0 then processNodeForBucketPQ_vector cg hg b1 w i else b1) b).length =
        b.length := by
  induction ws with
  | nil => intro b; rfl
  | cons w ws ih =>
    intro b
    rw [List.foldl_cons, ih]
    split
    · unfold processNodeForBucketPQ_vector processNodeForBucketPQ_vector_body
      generalize List.range b.length = rs
      induction rs generalizing b with
      | nil => rfl
      | cons r rs ih2 =>
        rw [List.foldl_cons, ih2]
        split
        · split
          · rw [List.length_set]
          · split
            · rw [List.length_set]
            · rfl
        · rfl
    · rfl

theorem length_rerateNeighbours (P : GrowingPolicies) (hg : Hypergraph) (hn i : Nat) :
    ∀ b : List BucketQueue, (rerateNeighbours P 0 hg b hn i).length = b.length := by
  unfold rerateNeighbours
  generalize hg.incidentEdges hn = es
  induction es with
  | nil => intro b; rfl
  | cons e es ih =>
    intro b
    rw [List.foldl_cons, ih]
    exact length_rerate_inner P.calculateGain hg (i : Int) (hg.pins e) b

/-- The loop over the pins of one hyperedge in `rerateNeighbours`: the elements that were
waiting for this loop are current afterwards. -/
theorem rerate_inner_good (cg : Hypergraph → HypernodeID → PartitionID → Gain)
    (hg : Hypergraph) (i : Int) (hi : i ≠ 0) (F : Nat → Prop) (ws : List Nat) :
    ∀ b : List BucketQueue,
      (∀ (p : Nat) (e : HypernodeID × Gain), e ∈ b.getD p [] →
        hg.partID e.1 = 0 ∧ (e.2 = cg hg e.1 (p : Int) ∨ e.1 ∈ ws ∨ F e.1)) →
      ∀ (p : Nat) (e : HypernodeID × Gain),
        e ∈ (ws.foldl (fun b1 w =>
          if hg.partID w = 0 then processNodeForBucketPQ_vector cg hg b1 w i else b1) b).getD
            p [] →
        hg.partID e.1 = 0 ∧ (e.2 = cg hg e.1 (p : Int) ∨ F e.1) := by
  induction ws with
  | nil =>
    intro b hb p e he
    obtain ⟨h1, h2⟩ := hb p e he
    refine ⟨h1, ?_⟩
    rcases h2 with h | h | h
    · exact Or.inl h
    · cases h
    · exact Or.inr h
  | cons w ws ih =>
    intro b hb
    rw [List.foldl_cons]
    apply ih
    intro p e he
    by_cases hw : hg.partID w = 0
    · rw [if_pos hw] at he
      rcases processNodeForBucketPQ_vector_mem cg hg b w i
        (by rw [hw]; exact fun h => hi h.symm) p e he with ⟨h1, h2⟩ | h
      · obtain ⟨g1, g2⟩ := hb p e h1
        refine ⟨g1, ?_⟩
        rcases g2 with g | g | g
        · exact Or.inl g
        · rcases List.mem_cons.mp g with g | g
          · exact absurd g h2
          · exact Or.inr (Or.inl g)
        · exact Or.inr (Or.inr g)
      · rw [h]
        exact ⟨hw, Or.inl rfl⟩
    · rw [if_neg hw] at he
      obtain ⟨g1, g2⟩ := hb p e he
      refine ⟨g1, ?_⟩
      rcases g2 with g | g | g
      · exact Or.inl g
      · rcases List.mem_cons.mp g with g | g
        · rw [g] at g1; exact absurd g1 hw
        · exact Or.inr (Or.inl g)
      · exact Or.inr (Or.inr g)

/-- After `rerateNeighbours` the elements that share a hyperedge with `hn` are current. -/
theorem rerateNeighbours_good (P : GrowingPolicies) (hg : Hypergraph) (hn i : Nat)
    (hi : i ≠ 0) (b : List BucketQueue)
    (hb : ∀ (p : Nat) (e : HypernodeID × Gain), e ∈ b.getD p [] →
      hg.partID e.1 = 0 ∧ (e.2 = P.calculateGain hg e.1 (p : Int) ∨
        ∃ he ∈ hg.incidentEdges hn, e.1 ∈ hg.pins he)) :
    ∀ (p : Nat) (e : HypernodeID × Gain), e ∈ (rerateNeighbours P 0 hg b hn i).getD p [] →
      hg.partID e.1 = 0 ∧ e.2 = P.calculateGain hg e.1 (p : Int) := by
  have key : ∀ (es : List Nat) (b : List BucketQueue),
      (∀ (p : Nat) (e : HypernodeID × Gain), e ∈ b.getD p [] →
        hg.partID e.1 = 0 ∧ (e.2 = P.calculateGain hg e.1 (p : Int) ∨
          ∃ he ∈ es, e.1 ∈ hg.pins he)) →
      ∀ (p : Nat) (e : HypernodeID × Gain),
        e ∈ (es.foldl (fun b he =>
          (hg.pins he).foldl (fun b1 hnode =>
            if hg.partID hnode = 0 then
              processNodeForBucketPQ_vector P.calculateGain hg b1 hnode (i : Int)
            else b1) b) b).getD p [] →
        hg.partID e.1 = 0 ∧ e.2 = P.calculateGain hg e.1 (p : Int) := by
    intro es
    induction es with
    | nil =>
      intro b hb p e he
      obtain ⟨h1, h2⟩ := hb p e he
      refine ⟨h1, ?_⟩
      rcases h2 with h | ⟨x, hx, _⟩
      · exact h
      · cases hx
    | cons x es ih =>
      intro b hb
      rw [List.foldl_cons]
      apply ih
      apply rerate_inner_good P.calculateGain hg (i : Int) (by exact_mod_cast hi)
        (fun y => ∃ he ∈ es, y ∈ hg.pins he) (hg.pins x) b
      intro p e he
      obtain ⟨h1, h2⟩ := hb p e he
      refine ⟨h1, ?_⟩
      rcases h2 with h | ⟨y, hy, hmem⟩
      · exact Or.inl h
      · rcases List.mem_cons.mp hy with hy | hy
        · rw [hy] at hmem; exact Or.inr (Or.inl hmem)
        · exact Or.inr (Or.inr ⟨y, hy, hmem⟩)
  exact key (hg.incidentEdges hn) b hb

theorem lt_length_of_getD_bool (l : List Bool) (i : Nat) (h : l.getD i false = true) :
    i < l.length := by
  by_contra hlt
  rw [List.getD_eq_default _ _ (by omega)] at h
  cases h

theorem getD_set_other {α : Type} (l : List α) (i j : Nat) (x d : α) (h : j ≠ i) :
    (l.set i x).getD j d = l.getD j d := by
  rw [List.getD_eq_getElem?_getD, List.getElem?_set_ne (fun hh => h hh.symm),
    ← List.getD_eq_getElem?_getD]

theorem getD_set_same {α : Type} (l : List α) (i : Nat) (x d : α) (h : i < l.length) :
    (l.set i x).getD i d = x := by
  rw [List.getD_eq_getElem?_getD, List.getElem?_set_self h]
  rfl

/-- The queues after the refill at the start of a step of an enabled part. -/
theorem refillQueue_inv (P : GrowingPolicies) (st : Growth) (i : Nat)
    (hinv : GrowInv P st) (hen : st.partEnable.getD i false = true)
    (horacle : (st.bq.getD i []).empty = true →
      st.hg.partID (P.getUnassignedNode st.calls st.hg 0) = 0) :
    KeysCurrent P.calculateGain st.hg (refillQueue P 0 st i) ∧
    MembersUnassigned st.hg (refillQueue P 0 st i) ∧
    (refillQueue P 0 st i).length = st.bq.length ∧
    (refillQueue P 0 st i).getD i [] ≠ [] := by
  obtain ⟨hk, hm, h0, hlen⟩ := hinv
  have hil : i < st.bq.length := by
    rw [hlen]; exact lt_length_of_getD_bool _ _ hen
  have hi0 : i ≠ 0 := by
    intro h; rw [h, h0] at hen; cases hen
  unfold refillQueue
  by_cases hemp : (st.bq.getD i []).empty = true
  · rw [if_pos hemp]
    dsimp only
    have hq : st.bq.getD i [] = [] := List.isEmpty_iff.mp hemp
    have hu := horacle hemp
    have hproc : processNodeForBucketPQ P.calculateGain st.hg (st.bq.getD i [])
        (P.getUnassignedNode st.calls st.hg 0) (i : Int) =
        [(P.getUnassignedNode st.calls st.hg 0,
          P.calculateGain st.hg (P.getUnassignedNode st.calls st.hg 0) (i : Int))] := by
      unfold processNodeForBucketPQ
      rw [if_pos (by rw [hu]; exact fun h => hi0 (by exact_mod_cast h.symm)), hq]
      rfl
    rw [hproc]
    refine ⟨?_, ?_, by rw [List.length_set], ?_⟩
    · intro p e he
      by_cases hp : p = i
      · rw [hp, getD_set_same _ _ _ _ hil] at he
        rw [List.mem_singleton.mp he, hp]
      · rw [getD_set_other _ _ _ _ _ hp] at he
        exact hk p e he
    · intro p e he
      by_cases hp : p = i
      · rw [hp, getD_set_same _ _ _ _ hil] at he
        rw [List.mem_singleton.mp he]
        exact hu
      · rw [getD_set_other _ _ _ _ _ hp] at he
        exact hm p e he
    · rw [getD_set_same _ _ _ _ hil]
      exact List.cons_ne_nil _ _
  · rw [if_neg hemp]
    refine ⟨hk, hm, rfl, ?_⟩
    intro hq
    apply hemp
    rw [hq]
    rfl

/-- A round-robin step keeps the invariant of the main loop. -/
theorem growStep_inv (P : GrowingPolicies) (config : Configuration) (st : Growth) (i : Nat)
    (hloc : LocalGain P.calculateGain) (hinv : GrowInv P st)
    (horacle : st.partEnable.getD i false = true → (st.bq.getD i []).empty = true →
      st.hg.partID (P.getUnassignedNode st.calls st.hg 0) = 0) :
    GrowInv P (growStep P config 0 st i) := by
  unfold growStep
  by_cases hen : st.partEnable.getD i false = true
  · rw [if_pos hen]
    dsimp only
    obtain ⟨r1, r2, r3, r4⟩ := refillQueue_inv P st i hinv hen (horacle hen)
    obtain ⟨hk, hm, h0, hlen⟩ := hinv
    have hil : i < st.bq.length := by
      rw [hlen]; exact lt_length_of_getD_bool _ _ hen
    have hi0 : i ≠ 0 := by
      intro h; rw [h, h0] at hen; cases hen
    have hmax := bq_getMax_mem _ r4
    have hhn : st.hg.partID ((refillQueue P 0 st i).getD i []).getMax = 0 := r2 i _ hmax
    generalize ((refillQueue P 0 st i).getD i []).getMax = hn at hmax hhn ⊢
    unfold assignHypernodeToPartition
    split
    · -- the assignment is performed
      dsimp only
      rw [if_neg (by decide)]
      have hgood : ∀ (p : Nat) (e : HypernodeID × Gain),
          e ∈ (deleteAssignedNodeInBucketPQ
            ((refillQueue P 0 st i).set i ((refillQueue P 0 st i).getD i []).deleteMax)
              hn).getD p [] →
          (st.hg.changeNodePart hn (st.hg.partID hn) (i : Int)).partID e.1 = 0 ∧
          (e.2 = P.calculateGain (st.hg.changeNodePart hn (st.hg.partID hn) (i : Int)) e.1
              (p : Int) ∨
            ∃ he ∈ (st.hg.changeNodePart hn (st.hg.partID hn) (i : Int)).incidentEdges hn,
              e.1 ∈ (st.hg.changeNodePart hn (st.hg.partID hn) (i : Int)).pins he) := by
        intro p e he
        rw [(deleteAssignedNodeInBucketPQ_getD _ _).2 p] at he
        obtain ⟨he1, hne⟩ := (bq_mem_deleteNode _ _ _).mp he
        have he2 : e ∈ (refillQueue P 0 st i).getD p [] := by
          by_cases hp : p = i
          · rw [hp, getD_set_same _ _ _ _ (by rw [r3]; exact hil)] at he1
            unfold BucketQueue.deleteMax at he1
            rw [hp]
            exact ((bq_mem_deleteNode _ _ _).mp he1).1
          · rw [getD_set_other _ _ _ _ _ hp] at he1
            exact he1
        refine ⟨by rw [partID_changeNodePart_ne _ _ _ _ _ hne]; exact r2 p e he2, ?_⟩
        by_cases hsh : ∃ he ∈ st.hg.incidentEdges hn, e.1 ∈ st.hg.pins he
        · exact Or.inr hsh
        · left
          rw [hloc st.hg hn (i : Int) e.1 (p : Int) hne ?_]
          · exact r1 p e he2
          · intro x hx hmem
            apply hsh
            exact ⟨x, (mem_incidentEdges _ _ _).mpr ⟨((mem_incidentEdges _ _ _).mp hx).1, hmem⟩,
              ((mem_incidentEdges _ _ _).mp hx).2⟩
      refine ⟨?_, ?_, h0, ?_⟩
      · intro p e he
        exact (rerateNeighbours_good P _ hn i hi0 _ hgood p e he).2
      · intro p e he
        exact (rerateNeighbours_good P _ hn i hi0 _ hgood p e he).1
      · show (rerateNeighbours P 0 _ _ hn i).length = st.partEnable.length
        rw [length_rerateNeighbours, (deleteAssignedNodeInBucketPQ_getD _ _).1, List.length_set,
          r3, hlen]
    · -- the part is disabled
      dsimp only
      rw [if_pos (by decide)]
      refine ⟨r1, r2, ?_, ?_⟩
      · show (st.partEnable.set i false).getD 0 false = false
        rw [getD_set_other _ _ _ _ _ (fun h => hi0 h.symm)]
        exact h0
      · show (refillQueue P 0 st i).length = (st.partEnable.set i false).length
        rw [r3, hlen, List.length_set]
  · rw [if_neg hen]
    exact hinv

theorem getD_replicate_nil (k j : Nat) :
    (List.replicate k ([] : BucketQueue)).getD j [] = [] := by
  rw [List.getD_eq_getElem?_getD]
  cases hq : (List.replicate k ([] : BucketQueue))[j]? with
  | none => rfl
  | some b => exact List.eq_of_mem_replicate (List.getElem?_mem hq)

theorem partID_replicate_zero (hg : Hypergraph) (v : Nat) (hv : v < hg.part.length) :
    ({ hg with part := List.replicate hg.part.length (0 : Int) } : Hypergraph).partID v = 0 := by
  unfold Hypergraph.partID
  dsimp only
  rw [List.getD_eq_getElem _ _ (by rw [List.length_replicate]; exact hv)]
  exact List.getElem_replicate _ _

/-- The state before the main loop of `kwayPartitionImpl` satisfies the invariant, when the
start nodes are hypernodes. -/
theorem growStart_inv (P : GrowingPolicies) (config : Configuration) (hg : Hypergraph)
    (hstart : ∀ v ∈ P.calculateStartNodes (growStart P config hg).hg
      config.initial_partitioning.k, v < hg.part.length) :
    GrowInv P (growStart P config hg) := by
  have hhg : (growStart P config hg).hg =
      { hg with part := List.replicate hg.part.length (0 : Int) } := rfl
  rw [hhg] at hstart
  obtain ⟨h1, h2⟩ := foldl_range_set
    (fun (i : Nat) (q : BucketQueue) =>
      processNodeForBucketPQ P.calculateGain
        { hg with part := List.replicate hg.part.length (0 : Int) } q
        ((P.calculateStartNodes { hg with part := List.replicate hg.part.length (0 : Int) }
          config.initial_partitioning.k).getD i 0) (i : Int))
    [] (List.replicate config.initial_partitioning.k ([] : BucketQueue))
    (P.calculateStartNodes { hg with part := List.replicate hg.part.length (0 : Int) }
      config.initial_partitioning.k).length
  have hbq : (growStart P config hg).bq =
      (List.range (P.calculateStartNodes
          { hg with part := List.replicate hg.part.length (0 : Int) }
          config.initial_partitioning.k).length).foldl
        (fun b i => b.set i
          ((fun (i : Nat) (q : BucketQueue) =>
            processNodeForBucketPQ P.calculateGain
              { hg with part := List.replicate hg.part.length (0 : Int) } q
              ((P.calculateStartNodes
                { hg with part := List.replicate hg.part.length (0 : Int) }
                config.initial_partitioning.k).getD i 0) (i : Int)) i (b.getD i [])))
        (List.replicate config.initial_partitioning.k ([] : BucketQueue)) := rfl
  have hentry : ∀ (p : Nat) (e : HypernodeID × Gain), e ∈ (growStart P config hg).bq.getD p [] →
      e.2 = P.calculateGain (growStart P config hg).hg e.1 (p : Int) ∧
      (growStart P config hg).hg.partID e.1 = 0 := by
    intro p e he
    rw [hbq, h2 p] at he
    rw [hhg]
    split at he
    · rename_i hp
      rw [getD_replicate_nil] at he
      unfold processNodeForBucketPQ at he
      split at he
      · have he1 : e ∈ BucketQueue.push [] ((P.calculateStartNodes
            { hg with part := List.replicate hg.part.length (0 : Int) }
            config.initial_partitioning.k).getD p 0)
            (P.calculateGain { hg with part := List.replicate hg.part.length (0 : Int) }
              ((P.calculateStartNodes
                { hg with part := List.replicate hg.part.length (0 : Int) }
                config.initial_partitioning.k).getD p 0) (p : Int)) := he
        rcases (bq_mem_push _ _ _ _).mp he1 with h | h
        · cases h
        · rw [h]
          refine ⟨rfl, ?_⟩
          apply partID_replicate_zero
          apply hstart
          rw [List.getD_eq_getElem _ _ hp.1]
          exact List.getElem_mem _
      · cases he
    · rw [getD_replicate_nil] at he
      cases he
  refine ⟨fun p e he => (hentry p e he).1, fun p e he => (hentry p e he).2, ?_, ?_⟩
  · show ((List.replicate config.initial_partitioning.k true).set 0 false).getD 0 false = false
    by_cases hk : 0 < config.initial_partitioning.k
    · exact getD_set_same _ _ _ _ (by rw [List.length_replicate]; exact hk)
    · have : config.initial_partitioning.k = 0 := by omega
      rw [this]
      rfl
  · rw [hbq, h1]
    show (List.replicate config.initial_partitioning.k ([] : BucketQueue)).length =
      ((List.replicate config.initial_partitioning.k true).set 0 false).length
    rw [List.length_set, List.length_replicate, List.length_replicate]

/-- The invariant holds at the start of every round-robin step. -/
theorem growInv_of_reachable (P : GrowingPolicies) (config : Configuration) (hg : Hypergraph)
    (hloc : LocalGain P.calculateGain)
    (hstart : ∀ v ∈ P.calculateStartNodes (growStart P config hg).hg
      config.initial_partitioning.k, v < hg.part.length)
    (st : Growth) (hr : GrowReachable P config hg st) : GrowInv P st := by
  induction hr with
  | start => exact growStart_inv P config hg hstart
  | step st i _ _ horacle ih => exact growStep_inv P config st i hloc ih horacle

theorem growStep_wf (P : GrowingPolicies) (config : Configuration) (st : Growth) (i : Nat)
    (hwf : st.hg.WellFormed) (hi : (i : Int) < (st.hg.k : Int)) :
    (growStep P config 0 st i).hg.WellFormed ∧ (growStep P config 0 st i).hg.k = st.hg.k := by
  unfold growStep
  split
  · dsimp only
    unfold assignHypernodeToPartition
    split
    · dsimp only
      rw [if_neg (by decide)]
      exact ⟨wellFormed_changeNodePart st.hg hwf ((refillQueue P 0 st i).getD i []).getMax
        (st.hg.partID ((refillQueue P 0 st i).getD i []).getMax) (i : Int)
        ⟨by omega, hi⟩, rfl⟩
    · dsimp only
      rw [if_pos (by decide)]
      exact ⟨hwf, rfl⟩
  · exact ⟨hwf, rfl⟩

theorem wf_of_reachable (P : GrowingPolicies) (config : Configuration) (hg : Hypergraph)
    (hwf : (growStart P config hg).hg.WellFormed)
    (hk : config.initial_partitioning.k ≤ hg.k)
    (st : Growth) (hr : GrowReachable P config hg st) :
    st.hg.WellFormed ∧ st.hg.k = hg.k := by
  induction hr with
  | start => exact ⟨hwf, rfl⟩
  | step st i _ hi _ ih =>
    obtain ⟨h1, h2⟩ := growStep_wf P config st i ih.1 (by rw [ih.2]; exact_mod_cast (by omega))
    exact ⟨h1, h2.trans ih.2⟩

/-- With the FM gain policy the key of the popped maximum is the reduction of the cut by the
assignment. -/
theorem growStep_fm_key (P : GrowingPolicies) (config : Configuration) (hg : Hypergraph)
    (hfm : P.calculateGain = fmGain)
    (hstart : ∀ v ∈ P.calculateStartNodes (growStart P config hg).hg
      config.initial_partitioning.k, v < hg.part.length)
    (hwf : (growStart P config hg).hg.WellFormed)
    (hk : config.initial_partitioning.k ≤ hg.k)
    (st : Growth) (hr : GrowReachable P config hg st) (i : Nat)
    (hi : i < config.initial_partitioning.k)
    (hen : st.partEnable.getD i false = true)
    (horacle : (st.bq.getD i []).empty = true →
      st.hg.partID (P.getUnassignedNode st.calls st.hg 0) = 0) :
    ((refillQueue P 0 st i).getD i []).getMaxKey =
      fmGain st.hg ((refillQueue P 0 st i).getD i []).getMax (i : Int) ∧
    ((assignHypernodeToPartition st.hg config
        ((refillQueue P 0 st i).getD i []).getMax (i : Int)).1 = true →
      hyperedgeCut (assignHypernodeToPartition st.hg config
        ((refillQueue P 0 st i).getD i []).getMax (i : Int)).2 =
      hyperedgeCut st.hg - ((refillQueue P 0 st i).getD i []).getMaxKey) := by
  have hinv := growInv_of_reachable P config hg (by rw [hfm]; exact localGain_fmGain) hstart st hr
  obtain ⟨w1, w2⟩ := wf_of_reachable P config hg hwf hk st hr
  obtain ⟨r1, r2, _, r4⟩ := refillQueue_inv P st i hinv hen horacle
  have hi0 : i ≠ 0 := by
    intro h; rw [h, hinv.2.2.1] at hen; cases hen
  have hmax := bq_getMax_mem _ r4
  have hkey := r1 i _ hmax
  have hpart := r2 i _ hmax
  dsimp only at hkey hpart
  rw [hfm] at hkey
  refine ⟨hkey, ?_⟩
  intro hok
  unfold assignHypernodeToPartition at hok ⊢
  split at hok
  · rename_i hc
    rw [if_pos hc]
    dsimp only
    have hne : (i : Int) ≠ st.hg.partID ((refillQueue P 0 st i).getD i []).getMax := by
      rw [hpart]; exact_mod_cast hi0
    rw [hyperedgeCut_changeNodePart st.hg w1 _ (i : Int) ⟨by omega, by rw [w2]; exact_mod_cast (by omega)⟩ hne,
      hkey]
    unfold fmGain
    rw [if_neg hne]
  · cases hok

theorem bq_key_of_contains (bq : BucketQueue) (v : Nat)
    (h : BucketQueue.contains bq v = true) :
    ∃ e ∈ bq, e.1 = v ∧ BucketQueue.key bq v = e.2 := by
  rw [bq_contains_eq_isSome] at h
  obtain ⟨x, hx⟩ := Option.isSome_iff_exists.mp h
  refine ⟨x, List.mem_of_find?_eq_some hx, ?_, ?_⟩
  · have := List.find?_some hx
    exact of_decide_eq_true this
  · unfold BucketQueue.key
    rw [hx]

/-- At the start of every round-robin step of `kwayPartitionImpl` the keys of the bucket
queues are current; with the FM gain policy the key of the popped maximum is the reduction
of the cut by its assignment. -/
theorem grow_keys_current (P : GrowingPolicies) (config : Configuration) (hg : Hypergraph)
    (hloc : LocalGain P.calculateGain)
    (hstart : ∀ v ∈ P.calculateStartNodes (growStart P config hg).hg
      config.initial_partitioning.k, v < hg.part.length)
    (st : Growth) (hr : GrowReachable P config hg st) :
    (∀ (p : Nat) (v : HypernodeID), (st.bq.getD p []).contains v = true →
      (st.bq.getD p []).key v = P.calculateGain st.hg v (p : Int)) ∧
    (∀ (p : Nat) (e : HypernodeID × Gain), e ∈ st.bq.getD p [] →
      e.2 = P.calculateGain st.hg e.1 (p : Int) ∧ st.hg.partID e.1 = 0) ∧
    (P.calculateGain = fmGain → (growStart P config hg).hg.WellFormed →
      config.initial_partitioning.k ≤ hg.k →
      ∀ i, i < config.initial_partitioning.k → st.partEnable.getD i false = true →
        ((st.bq.getD i []).empty = true →
          st.hg.partID (P.getUnassignedNode st.calls st.hg 0) = 0) →
        ((refillQueue P 0 st i).getD i []).getMaxKey =
          fmGain st.hg ((refillQueue P 0 st i).getD i []).getMax (i : Int) ∧
        ((assignHypernodeToPartition st.hg config
            ((refillQueue P 0 st i).getD i []).getMax (i : Int)).1 = true →
          hyperedgeCut (assignHypernodeToPartition st.hg config
            ((refillQueue P 0 st i).getD i []).getMax (i : Int)).2 =
          hyperedgeCut st.hg - ((refillQueue P 0 st i).getD i []).getMaxKey)) := by
  have hinv := growInv_of_reachable P config hg hloc hstart st hr
  refine ⟨?_, ?_, ?_⟩
  · intro p v hc
    obtain ⟨e, he, hid, hkey⟩ := bq_key_of_contains _ v hc
    rw [hkey, hinv.1 p e he, hid]
  · intro p e he
    exact ⟨hinv.1 p e he, hinv.2.1 p e he⟩
  · intro hfm hwf hk i hi hen horacle
    exact growStep_fm_key P config hg hfm hstart hwf hk st hr i hi hen horacle



/-! ### The queue after a gain update -/

theorem key_of_mem_nodup (pq : KWayRefinementPQ) (hnd : (pq.map (fun e => e.id)).Nodup)
    (e : PQEntry) (he : e ∈ pq) : KWayRefinementPQ.key pq e.id = e.key := by
  unfold KWayRefinementPQ.key
  rw [find?_of_mem_nodup pq hnd e he]

/-- In a queue that is in order the key of a hypernode is its maximal gain as
`computeMaxGain` computes it. -/
theorem key_eq_computeMaxGain (r : MaxGainNodeKWayFMRefiner) (hq : QueueGood r) (p : Nat)
    (hc : r.pq.contains p = true) : r.pq.key p = (computeMaxGain r p).1.1 := by
  obtain ⟨⟨q1, q2, q3, q4, q5, _, _⟩, qg⟩ := hq
  obtain ⟨e, he, hid⟩ := (contains_iff _ _).mp hc
  obtain ⟨_, g1, g2, g3, g4, g5, g6⟩ := qg e he
  rw [← hid, key_of_mem_nodup r.pq q5 e he, g4]
  obtain ⟨h1, h2, _, _⟩ := computeMaxGain_char r e.id q1 q2 q3 q4 g5
  rw [h2]
  obtain ⟨hv, hne, _⟩ := (mem_candidateParts _ _ _).mp h1
  have a := g6 _ hv.1 hv.2 hne
  have b := computeMaxGain_max r e.id q1 q2 q3 q4 g5 e.data ⟨g1, g2⟩ g3
  linarith

/-- In a queue that is in order there is no hypernode that is not a border node. -/
theorem not_contains_of_not_border (r : MaxGainNodeKWayFMRefiner) (hq : QueueGood r) (p : Nat)
    (hb : isBorderNode r.hg p = false) : r.pq.contains p = false := by
  cases hc : r.pq.contains p with
  | false => rfl
  | true =>
    obtain ⟨e, he, hid⟩ := (contains_iff _ _).mp hc
    have := (hq.2 e he).2.2.2.2.2.1
    rw [hid, hb] at this
    exact absurd this Bool.false_ne_true

/-- After `updatePin` a border node is in the queue, if it was there before or is not
marked. -/
theorem updatePin_contains_self (r : MaxGainNodeKWayFMRefiner) (p : Nat)
    (hb : isBorderNode r.hg p = true)
    (h : r.pq.contains p = true ∨ r.marked.getD p false = false) :
    (updatePin r p).pq.contains p = true := by
  obtain ⟨c1, _, c3, c4, _, _⟩ := updatePin_cases r p
  cases hc : r.pq.contains p with
  | true =>
    cases hj : r.just_updated.getD p false with
    | false => exact (c1 hc hb hj).2.1
    | true => rw [c4 hc hb hj]; exact hc
  | false =>
    rcases h with h | h
    · rw [hc] at h; exact absurd h Bool.false_ne_true
    · exact ((c3 hc h).1 hb).2.1

/-- The loop over the pins of a hyperedge: a border node is in the queue afterwards, if it
was there before, or is a pin and not marked. -/
theorem updatePin_foldl_contains (q : Nat) (ps : List Nat) :
    ∀ r : MaxGainNodeKWayFMRefiner, isBorderNode r.hg q = true →
      (r.pq.contains q = true ∨ (q ∈ ps ∧ r.marked.getD q false = false)) →
      (ps.foldl updatePin r).pq.contains q = true := by
  induction ps with
  | nil =>
    intro r _ h
    rcases h with h | ⟨h, _⟩
    · exact h
    · exact absurd h (List.not_mem_nil _)
  | cons x ps ih =>
    intro r hb h
    simp only [List.foldl_cons]
    obtain ⟨s1, _, s3, _⟩ := sameFrame_updatePin r x
    apply ih
    · rw [s1]; exact hb
    · by_cases hx : q = x
      · left
        rw [← hx]
        apply updatePin_contains_self r q hb
        rcases h with h | ⟨_, h⟩
        · exact Or.inl h
        · exact Or.inr h
      · rcases h with h | ⟨h1, h2⟩
        · left
          rw [((updatePin_cases r x).2.2.2.2.2 q hx).1]; exact h
        · right
          rw [s3]
          refine ⟨?_, h2⟩
          rcases List.mem_cons.mp h1 with h | h
          · exact absurd h hx
          · exact h

/-- One hyperedge of `updateNeighbours`: a border node is in the queue afterwards, if it was
there before, or is an unmarked pin of the hyperedge and `updatePin` is called through it. -/
theorem updateNeighboursEdge_contains (f t : Int) (ht : t ≠ -1) (q : Nat)
    (r : MaxGainNodeKWayFMRefiner) (e : Nat) (hb : isBorderNode r.hg q = true)
    (h : r.pq.contains q = true ∨
      (r.marked.getD q false = false ∧ q ∈ r.hg.pins e ∧
        UpdatesThrough r f t (r.locked_hes.getD e (-1)) e)) :
    (updateNeighboursEdge f t r e).pq.contains q = true := by
  obtain ⟨c1, c2, c3, c4⟩ := updateNeighboursEdge_cases f t r e
  have hpins : ∀ r0 : MaxGainNodeKWayFMRefiner, r0.hg = r.hg → r0.pq = r.pq →
      r0.marked = r.marked →
      (r.pq.contains q = true ∨ (r.marked.getD q false = false ∧ q ∈ r.hg.pins e)) →
      (updatePins r0 e).pq.contains q = true := by
    intro r0 e1 e2 e3 h0
    unfold updatePins
    apply updatePin_foldl_contains q (r0.hg.pins e) r0 (by rw [e1]; exact hb)
    rw [e1, e2, e3]
    rcases h0 with h0 | ⟨h1, h2⟩
    · exact Or.inl h0
    · exact Or.inr ⟨h2, h1⟩
  have hcond : r.locked_hes.getD e (-1) ≠ -1 →
      (if looseUpdateNeeded r e f t then updatePins r e else r).pq.contains q = true := by
    intro hfree
    by_cases hn : looseUpdateNeeded r e f t = true
    · rw [if_pos hn]
      apply hpins r rfl rfl rfl
      rcases h with h | ⟨h1, h2, _⟩
      · exact Or.inl h
      · exact Or.inr ⟨h1, h2⟩
    · rw [if_neg hn]
      rcases h with h | ⟨_, _, _, h3 | h3⟩
      · exact h
      · exact absurd h3 hfree
      · exact absurd h3 hn
  by_cases h1 : r.locked_hes.getD e (-1) = lockedSentinel
  · rw [c1 h1]
    rcases h with h | ⟨_, _, h3, _⟩
    · exact h
    · exact absurd h1 h3
  · by_cases h2 : r.locked_hes.getD e (-1) = t
    · rw [c2 h1 h2]
      exact hcond (by rw [h2]; exact ht)
    · by_cases h3 : r.locked_hes.getD e (-1) = -1
      · rw [c3 h1 h2 h3]
        exact hpins
          { r with locked_hes := r.locked_hes.set e t,
                   current_locked_hes := e :: r.current_locked_hes } rfl rfl rfl
          (h.imp id (fun hh => ⟨hh.1, hh.2.1⟩))
      · rw [c4 h1 h2 h3]
        exact hcond h3

/-- The loop of `updateNeighbours`: a border node is in the queue afterwards, if it was
there before, or is an unmarked pin of a visited hyperedge through which `updatePin` is
called. -/
theorem updateNeighboursEdge_foldl_contains (L : Nat → Int) (f t : Int) (ht : t ≠ -1)
    (q : Nat) (es : List Nat) :
    ∀ r : MaxGainNodeKWayFMRefiner, es.Nodup →
      (∀ e ∈ es, r.locked_hes.getD e (-1) = L e) → (∀ e ∈ es, e < r.locked_hes.length) →
      isBorderNode r.hg q = true →
      (r.pq.contains q = true ∨
        (r.marked.getD q false = false ∧
          ∃ e ∈ es, q ∈ r.hg.pins e ∧ UpdatesThrough r f t (L e) e)) →
      (es.foldl (updateNeighboursEdge f t) r).pq.contains q = true := by
  induction es with
  | nil =>
    intro r _ _ _ _ h
    rcases h with h | ⟨_, e, he, _⟩
    · exact h
    · exact absurd he (List.not_mem_nil _)
  | cons x es ih =>
    intro r hnd hL hlen hb h
    rw [List.nodup_cons] at hnd
    simp only [List.foldl_cons]
    obtain ⟨s1, _, s3, s4, _⟩ := updateNeighboursEdge_locks f t r x
      (hlen x (List.mem_cons_self _ _))
    obtain ⟨_, _, m3, _, _⟩ := sameFrame_updateNeighboursEdge f t r x
    apply ih _ hnd.2
    · intro e1 he1
      have hne : e1 ≠ x := fun hh => hnd.1 (hh ▸ he1)
      rw [s3 e1 hne]
      exact hL e1 (List.mem_cons_of_mem _ he1)
    · intro e1 he1
      rw [s1]
      exact hlen e1 (List.mem_cons_of_mem _ he1)
    · rw [s4]; exact hb
    · rcases h with h | ⟨hm, e, he, hpin, hact⟩
      · exact Or.inl (updateNeighboursEdge_contains f t ht q r x hb (Or.inl h))
      · rcases List.mem_cons.mp he with hx | hx
        · left
          apply updateNeighboursEdge_contains f t ht q r x hb
          right
          refine ⟨hm, hx ▸ hpin, ?_⟩
          rw [hL x (List.mem_cons_self _ _)]
          exact hx ▸ hact
        · right
          rw [m3, s4]
          exact ⟨hm, e, hx, hpin,
            (updatesThrough_congr r _ s4 e f t _).mpr hact⟩

theorem contains_remove_ne (pq : KWayRefinementPQ) (p q : Nat) (h : q ≠ p) :
    KWayRefinementPQ.contains (KWayRefinementPQ.remove pq p) q =
      KWayRefinementPQ.contains pq q :=
  (lookup_congr pq _ q (find?_remove_ne pq p q h)).1

/-- A hypernode `p` that `updateNeighbours` does not reach after the move of `v`: every
hyperedge that contains both has two more pins in different parts. -/
theorem two_others_of_skipped (r1 r2 : MaxGainNodeKWayFMRefiner) (v p : Nat) (d : Int)
    (hwf : r1.hg.WellFormed) (hlw : LockWitness r1) (hvn : v < r1.hg.part.length)
    (hvu : r1.marked.getD v false = false) (hpu : r1.marked.getD p false = false)
    (hd : 0 ≤ d ∧ d < (r1.hg.k : Int)) (hdf : d ≠ r1.hg.partID v)
    (hr2 : r2.hg = r1.hg.changeNodePart v (r1.hg.partID v) d)
    (hex : ¬ ∃ e ∈ r1.hg.incidentEdges v, p ∈ r1.hg.pins e ∧
      UpdatesThrough r2 (r1.hg.partID v) d (r1.locked_hes.getD e (-1)) e) :
    ∀ e, p ∈ r1.hg.pins e → v ∈ r1.hg.pins e →
      ∃ w1 ∈ r1.hg.pins e, ∃ w2 ∈ r1.hg.pins e,
        w1 ≠ p ∧ w1 ≠ v ∧ w2 ≠ p ∧ w2 ≠ v ∧ r1.hg.partID w1 ≠ r1.hg.partID w2 := by
  have hwf1 := wellFormed_changeNodePart r1.hg hwf v (r1.hg.partID v) d hd
  have hpv : (r1.hg.changeNodePart v (r1.hg.partID v) d).partID v = d := by
    rw [partID_changeNodePart]; simp [hvn]
  intro e hue hve
  have hein : e ∈ r1.hg.incidentEdges v :=
    (mem_incidentEdges _ _ _).mpr ⟨lt_of_mem_pins _ _ _ hve, hve⟩
  have hnot : ¬ UpdatesThrough r2 (r1.hg.partID v) d (r1.locked_hes.getD e (-1)) e :=
    fun h => hex ⟨e, hein, hue, h⟩
  by_cases hs : r1.locked_hes.getD e (-1) = lockedSentinel
  · obtain ⟨p1, p2, hp, ⟨m1, hm1, hk1, hpm1⟩, ⟨m2, hm2, hk2, hpm2⟩⟩ := (hlw e).2 hs
    refine ⟨m1, hm1, m2, hm2, ?_, ?_, ?_, ?_, ?_⟩
    · intro h; rw [h, hpu] at hk1; exact Bool.false_ne_true hk1
    · intro h; rw [h, hvu] at hk1; exact Bool.false_ne_true hk1
    · intro h; rw [h, hpu] at hk2; exact Bool.false_ne_true hk2
    · intro h; rw [h, hvu] at hk2; exact Bool.false_ne_true hk2
    · rw [hpm1, hpm2]; exact hp
  · have hno : looseUpdateNeeded r2 e (r1.hg.partID v) d ≠ true := by
      intro hn
      exact hnot ⟨hs, Or.inr hn⟩
    obtain ⟨w1, hw1, w2, hw2, a1, a2, a3, a4, a5⟩ :=
      two_others_of_not_needed (r1.hg.changeNodePart v (r1.hg.partID v) d) hwf1 e p
        v hve (r1.hg.partID v) d (Ne.symm hdf) hpv r2 hr2 hno
    refine ⟨w1, hw1, w2, hw2, a1, a2, a3, a4, ?_⟩
    have e1 : (r1.hg.changeNodePart v (r1.hg.partID v) d).partID w1 = r1.hg.partID w1 := by
      rw [partID_changeNodePart]; simp [a2]
    have e2 : (r1.hg.changeNodePart v (r1.hg.partID v) d).partID w2 = r1.hg.partID w2 := by
      rw [partID_changeNodePart]; simp [a4]
    rw [← e1, ← e2]; exact a5

/-- The queue covers the pins of the hyperedges that are not free after a performed move and
the `updateNeighbours` call that follows it. -/
theorem covered_after_move (r1 : MaxGainNodeKWayFMRefiner) (v : Nat) (d : Int)
    (hwf : r1.hg.WellFormed) (hlw : LockWitness r1) (hvn : v < r1.hg.part.length)
    (hvm : v < r1.marked.length) (hvu : r1.marked.getD v false = false)
    (hlen : r1.locked_hes.length = r1.hg.initialNumEdges)
    (hd : 0 ≤ d ∧ d < (r1.hg.k : Int)) (hd2 : d ≠ lockedSentinel)
    (hdf : d ≠ r1.hg.partID v)
    (hcov : ∀ (e p : Nat), r1.locked_hes.getD e (-1) ≠ -1 → p ∈ r1.hg.pins e →
      isBorderNode r1.hg p = true → r1.marked.getD p false = false → p ≠ v →
      r1.pq.contains p = true) :
    Covered (updateNeighbours
      { r1 with marked := r1.marked.set v true
                hg := r1.hg.changeNodePart v (r1.hg.partID v) d } v (r1.hg.partID v) d) := by
  have hd1 : d ≠ -1 := by
    intro h; rw [h] at hd; exact absurd hd.1 (by decide)
  obtain ⟨b1, _, b3, _, _⟩ := sameFrame_updateNeighbours
    { r1 with marked := r1.marked.set v true
              hg := r1.hg.changeNodePart v (r1.hg.partID v) d } v (r1.hg.partID v) d
  have hlenE : ∀ e ∈ r1.hg.incidentEdges v, e < r1.locked_hes.length := by
    intro e he
    rw [hlen]
    exact ((mem_incidentEdges _ _ _).mp he).1
  obtain ⟨_, _, f3, f4⟩ := updateNeighboursEdge_foldl_locks (r1.hg.partID v) d hd1 hd2
    (r1.hg.incidentEdges v)
    { r1 with marked := r1.marked.set v true
              hg := r1.hg.changeNodePart v (r1.hg.partID v) d
              just_updated := List.replicate r1.just_updated.length false } hlenE
  intro e p hlock hp hb hm
  rw [b1] at hp hb
  rw [b3] at hm
  have hm2 : (r1.marked.set v true).getD p false = false := hm
  have hpv : p ≠ v := by
    intro h
    rw [h, getD_set_bool_eq _ _ _ _ hvm] at hm2
    exact Bool.false_ne_true hm2.symm
  have hpu : r1.marked.getD p false = false := by
    rw [getD_set_bool_ne _ _ _ _ _ hpv] at hm2; exact hm2
  have hb2 : isBorderNode (r1.hg.changeNodePart v (r1.hg.partID v) d) p = true := hb
  have hp2 : p ∈ r1.hg.pins e := hp
  have hfold := updateNeighboursEdge_foldl_contains (fun e => r1.locked_hes.getD e (-1))
    (r1.hg.partID v) d hd1 p (r1.hg.incidentEdges v)
    { r1 with marked := r1.marked.set v true
              hg := r1.hg.changeNodePart v (r1.hg.partID v) d
              just_updated := List.replicate r1.just_updated.length false }
    (nodup_incidentEdges _ _) (fun _ _ => rfl) hlenE hb2
  apply hfold
  by_cases hex : ∃ e ∈ r1.hg.incidentEdges v, p ∈ r1.hg.pins e ∧
      UpdatesThrough
        { r1 with marked := r1.marked.set v true
                  hg := r1.hg.changeNodePart v (r1.hg.partID v) d
                  just_updated := List.replicate r1.just_updated.length false }
        (r1.hg.partID v) d (r1.locked_hes.getD e (-1)) e
  · exact Or.inr ⟨hm2, hex⟩
  · left
    show r1.pq.contains p = true
    have htwo := two_others_of_skipped r1 _ v p d hwf hlw hvn hvu hpu hd hdf rfl hex
    apply hcov e p ?_ hp2 ?_ hpu hpv
    · intro h0
      by_cases hin : e ∈ r1.hg.incidentEdges v
      · apply hex
        refine ⟨e, hin, hp2, ?_, Or.inl h0⟩
        rw [h0]; decide
      · have := f4 e hin
        apply hlock
        show (updateNeighbours
          { r1 with marked := r1.marked.set v true
                    hg := r1.hg.changeNodePart v (r1.hg.partID v) d } v (r1.hg.partID v)
          d).locked_hes.getD e (-1) = -1
        exact this.trans h0
    · rw [← isBorderNode_changeNodePart_of_two_others r1.hg hwf p v (r1.hg.partID v) d hd htwo]
      exact hb2

/-- The invariant holds when the main loop of `refineImpl` is entered. -/
theorem updateInv_start {σ : Type} (P : StoppingPolicy σ) (rnd : Randomize)
    (r : MaxGainNodeKWayFMRefiner) (policy : σ) (ns : List Nat) (n : Nat)
    (c : HyperedgeWeight) (hr : Ready r) :
    UpdateInv (refineStart P rnd r policy ns n c).r := by
  have hinv := (refineStart_inv P rnd r policy ns n hr).1
  obtain ⟨l1, _⟩ := refineStart_locks P rnd r policy ns n c (lockedOnStack_of_ready r hr)
  exact
    { queue := hinv.queue
      locks := hinv.locks
      marked_length := hinv.marked_length
      locked_length := hinv.locked_length
      parts_fit := hinv.parts_fit
      covered := fun e _ h => absurd (l1 e) h }

/-- The invariant after a performed move and the gain update that follows it. -/
theorem updateInv_moved (r : MaxGainNodeKWayFMRefiner) (hinv : UpdateInv r) (u : Nat)
    (d key : Int) (hgood : GoodEntry r.hg { id := u, key := key, data := d })
    (hunm : r.marked.getD u false = false)
    (r3 : MaxGainNodeKWayFMRefiner)
    (hr3 : updateNeighbours
      { r with
        pq := KWayRefinementPQ.remove r.pq u
        marked := r.marked.set u true
        hg := r.hg.changeNodePart u (r.hg.partID u) d } u (r.hg.partID u) d = r3)
    (moves : List RollbackInfo) :
    UpdateInv r3 ∧ UpdateInv { r3 with performed_moves := moves } := by
  obtain ⟨g0, g1, g2, g3, _, _, _⟩ := hgood
  change u < r.hg.part.length at g0
  change 0 ≤ d at g1
  change d < (r.hg.k : Int) at g2
  change d ≠ r.hg.partID u at g3
  obtain ⟨hqr, hids⟩ := queueGood_remove r u hinv.queue
  have hlt : u < r.marked.length := by rw [hinv.marked_length]; exact g0
  have hd2 : d ≠ lockedSentinel := ne_of_lt (lt_trans g2 hinv.parts_fit)
  have hcov : ∀ (e p : Nat), r.locked_hes.getD e (-1) ≠ -1 → p ∈ r.hg.pins e →
      isBorderNode r.hg p = true → r.marked.getD p false = false → p ≠ u →
      (KWayRefinementPQ.remove r.pq u).contains p = true := by
    intro e p h1 h2 h3 h4 h5
    rw [contains_remove_ne _ _ _ h5]
    exact hinv.covered e p h1 h2 h3 h4
  obtain ⟨a1, a2, a3, a4, _, a6⟩ := refiner_after_move
    { r with pq := KWayRefinementPQ.remove r.pq u } u d hqr hinv.locks g0 hlt hunm hids
    hinv.locked_length ⟨g1, g2⟩ hd2 g3
  have a7 := covered_after_move
    { r with pq := KWayRefinementPQ.remove r.pq u } u d
    hinv.queue.1.1 hinv.locks g0 hlt hunm hinv.locked_length ⟨g1, g2⟩ hd2 g3 hcov
  rw [hr3] at a1 a2 a3 a4 a6 a7
  change r3.locked_hes.length = r.locked_hes.length at a6
  change r3.marked = r.marked.set u true at a4
  change r3.hg = r.hg.changeNodePart u (r.hg.partID u) d at a3
  have hml : r3.marked.length = r3.hg.part.length := by
    rw [a4, a3]
    show (r.marked.set u true).length = (r.hg.part.set u d).length
    rw [List.length_set, List.length_set]; exact hinv.marked_length
  have hll : r3.locked_hes.length = r3.hg.initialNumEdges := by
    rw [a6, a3]; exact hinv.locked_length
  have hpf : (r3.hg.k : Int) < lockedSentinel := by
    rw [a3]; exact hinv.parts_fit
  exact ⟨{ queue := a1, locks := a2, marked_length := hml, locked_length := hll,
           parts_fit := hpf, covered := a7 },
         { queue := a1, locks := a2, marked_length := hml, locked_length := hll,
           parts_fit := hpf, covered := a7 }⟩

/-- An iteration of the main loop of `refineImpl` keeps the invariant. -/
theorem updateInv_step {σ : Type} (P : StoppingPolicy σ) (rnd : Randomize) (s s1 : Search σ)
    (hinv : UpdateInv s.r) (hne : s.r.pq ≠ []) (hb : searchBody P rnd s = some s1) :
    UpdateInv s1.r := by
  obtain ⟨hgood, hunm⟩ := pop_facts s.r hinv.queue hne
  obtain ⟨hqr, hids⟩ := queueGood_remove s.r s.r.pq.max hinv.queue
  have hlt : s.r.pq.max < s.r.marked.length := by
    rw [hinv.marked_length]; exact hgood.1
  by_cases hc : s.r.hg.partWeight (s.r.pq.data s.r.pq.max) + s.r.hg.nodeWeight s.r.pq.max ≥
        s.r.config.max_part_weight ∨
      (s.r.hg.partSize (s.r.hg.partID s.r.pq.max) : Int) - 1 = 0
  · rw [searchBody_refused P rnd s hc] at hb
    have hs1 : s1.r =
        { s.r with pq := s.r.pq.deleteMax, marked := s.r.marked.set s.r.pq.max true } := by
      rw [← Option.some.inj hb]
    rw [hs1]
    obtain ⟨⟨q1, q2, q3, q4, q5, q6, q7⟩, qg⟩ := hqr
    exact
      { queue := ⟨⟨q1, q2, q3, q4, q5, (by
            intro en he
            show (s.r.marked.set s.r.pq.max true).getD en.id false = false
            rw [getD_set_bool_ne _ _ _ _ _ (hids en he)]
            exact q6 en he), q7⟩, qg⟩
        locks := lockWitness_set_marked { s.r with pq := s.r.pq.deleteMax } s.r.pq.max hinv.locks
        marked_length := by
          show (s.r.marked.set s.r.pq.max true).length = _
          rw [List.length_set]; exact hinv.marked_length
        locked_length := hinv.locked_length
        parts_fit := hinv.parts_fit
        covered := by
          intro e p h1 h2 h3 h4
          have h4' : (s.r.marked.set s.r.pq.max true).getD p false = false := h4
          have hpv : p ≠ s.r.pq.max := by
            intro h
            rw [h, getD_set_bool_eq _ _ _ _ hlt] at h4'
            exact Bool.false_ne_true h4'.symm
          rw [getD_set_bool_ne _ _ _ _ _ hpv] at h4'
          show (KWayRefinementPQ.remove s.r.pq s.r.pq.max).contains p = true
          rw [contains_remove_ne _ _ _ hpv]
          exact hinv.covered e p h1 h2 h3 h4' }
  · rw [searchBody_moved P rnd s hc] at hb
    split at hb
    · have hs1 := Option.some.inj hb
      rw [← hs1]
      exact (updateInv_moved s.r hinv s.r.pq.max (s.r.pq.data s.r.pq.max) s.r.pq.maxKey
        hgood hunm _ rfl _).2
    · exact absurd hb (by simp)

theorem pq_ne_nil_of_not_done {σ : Type} (P : StoppingPolicy σ) (s : Search σ)
    (h : searchDone P s = false) : s.r.pq ≠ [] := by
  intro hn
  unfold searchDone at h
  rw [hn] at h
  exact Bool.noConfusion h

/-- The invariant holds at the head of every iteration of the main loop. -/
theorem updateInv_of_inSearch {σ : Type} (P : StoppingPolicy σ) (rnd : Randomize)
    (s : Search σ) (h : InSearch P rnd s) : UpdateInv s.r := by
  induction h with
  | start r policy ns n c hr => exact updateInv_start P rnd r policy ns n c hr
  | body s s1 _ hnd hb ih =>
    exact updateInv_step P rnd s s1 ih (pq_ne_nil_of_not_done P s hnd) hb

theorem lockAfterMove_ne_free (t l : Int) (ht : t ≠ -1) : lockAfterMove t l ≠ -1 := by
  have hs : lockedSentinel ≠ (-1 : Int) := by decide
  unfold lockAfterMove
  split
  · exact hs
  · split
    · exact ht
    · split
      · exact ht
      · exact hs

/-- What the assertion at the end of `updateNeighbours` checks holds in a refiner that
satisfies the invariant, for the pins of the hyperedges that are not free. -/
theorem gain_update_checked (r3 : MaxGainNodeKWayFMRefiner) (hinv : UpdateInv r3) (hn : Nat)
    (hlock : ∀ e ∈ r3.hg.incidentEdges hn, r3.locked_hes.getD e (-1) ≠ -1) :
    ∀ e ∈ r3.hg.incidentEdges hn, ∀ p ∈ r3.hg.pins e,
      (isBorderNode r3.hg p = false → r3.pq.contains p = false) ∧
      (isBorderNode r3.hg p = true → r3.pq.contains p = true →
        r3.pq.key p = (computeMaxGain r3 p).1.1) ∧
      (isBorderNode r3.hg p = true → r3.pq.contains p = false →
        r3.marked.getD p false = true) := by
  intro e he p hp
  refine ⟨not_contains_of_not_border r3 hinv.queue p,
    fun _ hc => key_eq_computeMaxGain r3 hinv.queue p hc, ?_⟩
  intro hb hc
  cases hm : r3.marked.getD p false with
  | true => rfl
  | false =>
    have := hinv.covered e p (hlock e he) hp hb hm
    rw [hc] at this
    exact absurd this Bool.false_ne_true

/-- The gain update of an iteration of the main loop of `refineImpl` in which the move is
performed leaves the queue consistent. -/
theorem gain_update_in_search {σ : Type} (P : StoppingPolicy σ) (rnd : Randomize)
    (s : Search σ) (h : InSearch P rnd s) (hnd : searchDone P s = false)
    (hmv : movePerformed s = true) :
    ∀ e ∈ (afterUpdateNeighbours s).hg.incidentEdges s.r.pq.max,
      ∀ p ∈ (afterUpdateNeighbours s).hg.pins e,
        (isBorderNode (afterUpdateNeighbours s).hg p = false →
          (afterUpdateNeighbours s).pq.contains p = false) ∧
        (isBorderNode (afterUpdateNeighbours s).hg p = true →
          (afterUpdateNeighbours s).pq.contains p = true →
          (afterUpdateNeighbours s).pq.key p = (computeMaxGain (afterUpdateNeighbours s) p).1.1) ∧
        (isBorderNode (afterUpdateNeighbours s).hg p = true →
          (afterUpdateNeighbours s).pq.contains p = false →
          (afterUpdateNeighbours s).marked.getD p false = true) := by
  have hinv := updateInv_of_inSearch P rnd s h
  have hne := pq_ne_nil_of_not_done P s hnd
  obtain ⟨hgood, hunm⟩ := pop_facts s.r hinv.queue hne
  have hc : ¬ (s.r.hg.partWeight (s.r.pq.data s.r.pq.max) + s.r.hg.nodeWeight s.r.pq.max ≥
        s.r.config.max_part_weight ∨
      (s.r.hg.partSize (s.r.hg.partID s.r.pq.max) : Int) - 1 = 0) := by
    intro hc
    unfold movePerformed moveHypernode at hmv
    dsimp only at hmv
    rw [if_pos hc] at hmv
    exact Bool.noConfusion hmv
  have hr3 : updateNeighbours
      { s.r with
        pq := KWayRefinementPQ.remove s.r.pq s.r.pq.max
        marked := s.r.marked.set s.r.pq.max true
        hg := s.r.hg.changeNodePart s.r.pq.max (s.r.hg.partID s.r.pq.max)
          (s.r.pq.data s.r.pq.max) }
      s.r.pq.max (s.r.hg.partID s.r.pq.max) (s.r.pq.data s.r.pq.max) =
      afterUpdateNeighbours s := by
    unfold afterUpdateNeighbours moveHypernode
    dsimp only
    rw [if_neg hc]
    rfl
  have hinv3 := (updateInv_moved s.r hinv s.r.pq.max (s.r.pq.data s.r.pq.max) s.r.pq.maxKey
    hgood hunm _ hr3 []).1
  apply gain_update_checked _ hinv3
  intro e he
  obtain ⟨_, g1, g2, _⟩ := hgood
  have hd1 : s.r.pq.data s.r.pq.max ≠ -1 := by
    intro h0
    have : (0 : Int) ≤ s.r.pq.data s.r.pq.max := g1
    rw [h0] at this
    exact absurd this (by decide)
  have hd2 : s.r.pq.data s.r.pq.max ≠ lockedSentinel :=
    ne_of_lt (lt_trans g2 hinv.parts_fit)
  have hhg : (afterUpdateNeighbours s).hg =
      s.r.hg.changeNodePart s.r.pq.max (s.r.hg.partID s.r.pq.max) (s.r.pq.data s.r.pq.max) := by
    rw [← hr3]
    exact (sameFrame_updateNeighbours _ _ _ _).1
  rw [hhg, incidentEdges_changeNodePart] at he
  obtain ⟨_, _, f3, _⟩ := updateNeighboursEdge_foldl_locks (s.r.hg.partID s.r.pq.max)
    (s.r.pq.data s.r.pq.max) hd1 hd2 (s.r.hg.incidentEdges s.r.pq.max)
    { s.r with
      pq := KWayRefinementPQ.remove s.r.pq s.r.pq.max
      marked := s.r.marked.set s.r.pq.max true
      hg := s.r.hg.changeNodePart s.r.pq.max (s.r.hg.partID s.r.pq.max)
        (s.r.pq.data s.r.pq.max)
      just_updated := List.replicate s.r.just_updated.length false }
    (by
      intro e1 he1
      show e1 < s.r.locked_hes.length
      rw [hinv.locked_length]
      exact ((mem_incidentEdges _ _ _).mp he1).1)
  rw [← hr3]
  intro h0
  exact lockAfterMove_ne_free _ _ hd1 ((f3 e he).symm.trans h0)


/-! ### The `.hgr` format -/

open io

theorem readPins_written (n : Nat) :
    ∀ ps : List Nat, (∀ p ∈ ps, p < n) →
      readPins n (ps.map (fun pin : Nat => (pin : Int) + 1)) = some ps := by
  intro ps
  induction ps with
  | nil => intro _; rfl
  | cons p ps ih =>
    intro h
    have hp := h p (List.mem_cons_self _ _)
    have hr := ih (fun q hq => h q (List.mem_cons_of_mem _ hq))
    simp only [List.map_cons, readPins]
    rw [if_pos (by constructor <;> omega), hr]
    simp

theorem readEdgeLines_written (n : Nat) (weighted : Bool) :
    ∀ l : List (Int × List Nat),
      (∀ x ∈ l, (∀ p ∈ x.2, p < n) ∧ 0 ≤ x.1 ∧ (weighted = false → x.1 = 1)) →
      readEdgeLines n weighted (l.map (fun x =>
        (if weighted then [x.1] else []) ++ x.2.map (fun pin : Nat => (pin : Int) + 1))) =
        some l := by
  intro l
  induction l with
  | nil => intro _; rfl
  | cons x l ih =>
    intro h
    obtain ⟨h1, h2, h3⟩ := h x (List.mem_cons_self _ _)
    have hr := ih (fun y hy => h y (List.mem_cons_of_mem _ hy))
    simp only [List.map_cons, readEdgeLines]
    rw [hr]
    cases weighted with
    | true =>
      simp only [if_true, List.singleton_append, if_pos h2, readPins_written n x.2 h1]
    | false =>
      simp only [Bool.false_eq_true, if_false, List.nil_append, readPins_written n x.2 h1]
      rw [← h3 rfl]

theorem readNodeWeights_written :
    ∀ ws : List Int, (∀ w ∈ ws, 0 ≤ w) →
      readNodeWeights (ws.map (fun w => [w])) = some ws := by
  intro ws
  induction ws with
  | nil => intro _; rfl
  | cons w ws ih =>
    intro h
    have hw := h w (List.mem_cons_self _ _)
    have hr := ih (fun q hq => h q (List.mem_cons_of_mem _ hq))
    simp only [List.map_cons, readNodeWeights]
    rw [if_pos hw, hr]

theorem readHGRHeader_written (m n : Nat) (type : HypergraphType) :
    readHGRHeader ((m : Int) :: (n : Int) ::
      (if type = HypergraphType.Unweighted then [] else [type.code])) = some (m, n, type) := by
  cases type <;>
    simp [readHGRHeader, HypergraphType.code, HypergraphType.ofCode]

theorem indexVector_head (s : Nat) (L : List (List Nat)) : (indexVector s L).getD 0 0 = s := by
  cases L <;> rfl

theorem map_getD_range {α : Type} (d : α) :
    ∀ L : List α, (List.range L.length).map (fun i => L.getD i d) = L := by
  intro L
  induction L with
  | nil => rfl
  | cons x L ih =>
    rw [List.length_cons, List.range_succ_eq_map, List.map_cons, List.map_map]
    congr 1

/-- The pins of every hyperedge are found again between its entries of the index vector. -/
theorem slices_indexVector :
    ∀ (L : List (List Nat)) (pre : List Nat),
      (List.range L.length).map (fun e =>
        ((pre ++ L.flatten).drop ((indexVector pre.length L).getD e 0)).take
          ((indexVector pre.length L).getD (e + 1) 0 - (indexVector pre.length L).getD e 0)) =
        L := by
  intro L
  induction L with
  | nil => intro _; rfl
  | cons ps L ih =>
    intro pre
    rw [List.length_cons, List.range_succ_eq_map, List.map_cons, List.map_map]
    congr 1
    · show ((pre ++ (ps :: L).flatten).drop pre.length).take
          ((indexVector (pre.length + ps.length) L).getD 0 0 - pre.length) = ps
      rw [indexVector_head, List.drop_left, List.flatten_cons, Nat.add_sub_cancel_left,
        List.take_left]
    · have := ih (pre ++ ps)
      rw [List.length_append, List.append_assoc] at this
      rw [← List.flatten_cons] at this
      exact this

theorem getD_map_range {α : Type} (f : Nat → α) (d : α) (m i : Nat) (h : i < m) :
    ((List.range m).map f).getD i d = f i := by
  rw [List.getD_eq_getElem?_getD, List.getElem?_map, List.getElem?_range h]
  rfl

theorem getD_replicate_of_lt {α : Type} (x d : α) (m i : Nat) (h : i < m) :
    (List.replicate m x).getD i d = x := by
  rw [List.getD_eq_getElem?_getD, List.getElem?_replicate, if_pos h]
  rfl

/-- What `readHypergraphFile` reads from the file that `writeHypergraphFile` has written. -/
theorem read_written (H : Hypergraph) (type : HypergraphType) (h : IsOfType H type) :
    readHypergraphFile (writeHypergraphFile H type) =
      some
        { num_hypernodes := H.initialNumNodes
          num_hyperedges := H.initialNumEdges
          index_vector := indexVector 0 H.edge_pins
          edge_vector := H.edge_pins.flatten
          hyperedge_weights :=
            if type.hasEdgeWeights then some (H.edges.map H.edgeWeight) else none
          hypernode_weights :=
            if type.hasNodeWeights then some (H.nodes.map H.nodeWeight) else none } := by
  obtain ⟨h1, h2, h3, h4, h5⟩ := h
  have hlines : H.edges.map (fun he =>
      (if type.hasEdgeWeights then [H.edgeWeight he] else []) ++
        (H.pins he).map (fun pin : HypernodeID => (pin : Int) + 1)) =
      (H.edges.map (fun he => (H.edgeWeight he, H.pins he))).map (fun x =>
        (if type.hasEdgeWeights then [x.1] else []) ++
          x.2.map (fun pin : Nat => (pin : Int) + 1)) := by
    rw [List.map_map]; rfl
  have hnodes : H.nodes.map (fun hn => [H.nodeWeight hn]) =
      (H.nodes.map H.nodeWeight).map (fun w => [w]) := by
    rw [List.map_map]; rfl
  have hlen : (H.edges.map (fun he =>
      (if type.hasEdgeWeights then [H.edgeWeight he] else []) ++
        (H.pins he).map (fun pin : HypernodeID => (pin : Int) + 1))).length =
      H.initialNumEdges := by
    rw [List.length_map]
    unfold Hypergraph.edges
    rw [List.length_range]
  have hedges := readEdgeLines_written H.initialNumNodes type.hasEdgeWeights
    (H.edges.map (fun he => (H.edgeWeight he, H.pins he)))
    (by
      intro x hx
      obtain ⟨he, hhe, rfl⟩ := List.mem_map.mp hx
      exact ⟨h1 he hhe, h2 he hhe, fun hw => h4 hw he hhe⟩)
  have hpins : (H.edges.map (fun he => (H.edgeWeight he, H.pins he))).map (fun he => he.2) =
      H.edge_pins := by
    rw [List.map_map]
    exact map_getD_range [] H.edge_pins
  have hws : (H.edges.map (fun he => (H.edgeWeight he, H.pins he))).map (fun he => he.1) =
      H.edges.map H.edgeWeight := by
    rw [List.map_map]; rfl
  unfold writeHypergraphFile readHypergraphFile
  simp only [readHGRHeader_written]
  have hnl : (if type.hasNodeWeights = true then
      H.nodes.map (fun hn => [H.nodeWeight hn]) else []).length =
      if type.hasNodeWeights = true then H.initialNumNodes else 0 := by
    split
    · rw [List.length_map]; unfold Hypergraph.nodes; rw [List.length_range]
    · rfl
  rw [if_pos (by rw [List.length_append, hlen, hnl])]
  rw [List.take_left' hlen, List.drop_left' hlen, hlines, hedges]
  cases hn : type.hasNodeWeights with
  | true =>
    simp only [if_true]
    rw [hnodes, readNodeWeights_written _ (by
      intro w hw
      obtain ⟨v, hv, rfl⟩ := List.mem_map.mp hw
      exact h3 v hv)]
    simp only [hpins, hws]
  | false =>
    simp only [Bool.false_eq_true, if_false, readNodeWeights, hpins, hws]

/-- The hypergraph built from what has been read back. -/
theorem hypergraphOfContents_written (H : Hypergraph) (type : HypergraphType) :
    hypergraphOfContents
        { num_hypernodes := H.initialNumNodes
          num_hyperedges := H.initialNumEdges
          index_vector := indexVector 0 H.edge_pins
          edge_vector := H.edge_pins.flatten
          hyperedge_weights :=
            if type.hasEdgeWeights then some (H.edges.map H.edgeWeight) else none
          hypernode_weights :=
            if type.hasNodeWeights then some (H.nodes.map H.nodeWeight) else none } =
      { k := 2
        edge_pins := H.edge_pins
        edge_weights :=
          if type.hasEdgeWeights then H.edges.map H.edgeWeight
          else List.replicate H.initialNumEdges 1
        node_weights :=
          if type.hasNodeWeights then H.nodes.map H.nodeWeight
          else List.replicate H.initialNumNodes 1
        part := List.replicate H.initialNumNodes kInvalidPartition } := by
  unfold hypergraphOfContents constructHypergraph
  dsimp only
  have hs := slices_indexVector H.edge_pins []
  simp only [List.nil_append, List.length_nil] at hs
  congr 1
  · cases type.hasEdgeWeights <;> rfl
  · cases type.hasNodeWeights <;> rfl

theorem sameHypergraph_written (H : Hypergraph) (type : HypergraphType)
    (h : IsOfType H type) :
    sameHypergraph H
      { k := 2
        edge_pins := H.edge_pins
        edge_weights :=
          if type.hasEdgeWeights then H.edges.map H.edgeWeight
          else List.replicate H.initialNumEdges 1
        node_weights :=
          if type.hasNodeWeights then H.nodes.map H.nodeWeight
          else List.replicate H.initialNumNodes 1
        part := List.replicate H.initialNumNodes kInvalidPartition } = true := by
  obtain ⟨_, _, _, h4, h5⟩ := h
  unfold sameHypergraph
  simp only [Bool.and_eq_true, decide_eq_true_eq, List.all_eq_true]
  refine ⟨⟨⟨⟨?_, rfl⟩, fun _ _ => rfl⟩, ?_⟩, ?_⟩
  · show H.part.length = (List.replicate H.initialNumNodes kInvalidPartition).length
    rw [List.length_replicate]; rfl
  · intro he hhe
    have hlt : he < H.initialNumEdges := List.mem_range.mp hhe
    show H.edgeWeight he = (if type.hasEdgeWeights then H.edges.map H.edgeWeight
      else List.replicate H.initialNumEdges 1).getD he 0
    cases hw : type.hasEdgeWeights with
    | true =>
      simp only [if_true]
      unfold Hypergraph.edges
      rw [getD_map_range _ _ _ _ hlt]
    | false =>
      simp only [Bool.false_eq_true, if_false]
      rw [getD_replicate_of_lt _ _ _ _ hlt]
      exact h4 hw he hhe
  · intro hn hhn
    have hlt : hn < H.initialNumNodes := List.mem_range.mp hhn
    show H.nodeWeight hn = (if type.hasNodeWeights then H.nodes.map H.nodeWeight
      else List.replicate H.initialNumNodes 1).getD hn 0
    cases hw : type.hasNodeWeights with
    | true =>
      simp only [if_true]
      unfold Hypergraph.nodes
      rw [getD_map_range _ _ _ _ hlt]
    | false =>
      simp only [Bool.false_eq_true, if_false]
      rw [getD_replicate_of_lt _ _ _ _ hlt]
      exact h5 hw hn hhn

/-- The round trip through the `.hgr` format. -/
theorem hgr_round_trip (H : Hypergraph) (type : HypergraphType) (h : IsOfType H type) :
    ∃ d, readHypergraphFile (writeHypergraphFile H type) = some d ∧
      d.num_hypernodes = H.initialNumNodes ∧ d.num_hyperedges = H.initialNumEdges ∧
      (hypergraphOfContents d).edge_pins = H.edge_pins ∧
      sameHypergraph H (hypergraphOfContents d) = true ∧
      (H.k = 2 → (∀ hn ∈ H.nodes, H.partID hn = kInvalidPartition) →
        verifyEquivalenceWithPartitionInfo H (hypergraphOfContents d) = true) := by
  refine ⟨_, read_written H type h, rfl, rfl, ?_, ?_, ?_⟩
  · rw [hypergraphOfContents_written]
  · rw [hypergraphOfContents_written]
    exact sameHypergraph_written H type h
  · intro hk hp
    rw [hypergraphOfContents_written]
    unfold verifyEquivalenceWithPartitionInfo
    rw [sameHypergraph_written H type h]
    simp only [Bool.true_and, Bool.and_eq_true, decide_eq_true_eq, List.all_eq_true]
    refine ⟨hk, ?_⟩
    intro hn hhn
    have hlt : hn < H.initialNumNodes := List.mem_range.mp hhn
    rw [hp hn hhn]
    show kInvalidPartition =
      (List.replicate H.initialNumNodes kInvalidPartition).getD hn kInvalidPartition
    rw [getD_replicate_of_lt _ _ _ _ hlt]


/-! ### The scratch vectors of `computeMaxGain` -/

/-- The scratch vector `_tmp_connectivity_decrease` when `computeMaxGain` returns: the entry
of the source part holds the number of cut hyperedges at `hn` in which `hn` is the only pin
of its part, every other entry is 0. -/
theorem computeMaxGain_tmp_connectivity_decrease (r : MaxGainNodeKWayFMRefiner) (hn : Nat)
    (hl1 : r.hg.k ≤ r.tmp_gains.length) (hl2 : r.hg.k ≤ r.tmp_connectivity_decrease.length)
    (hz : ∀ x ∈ r.tmp_connectivity_decrease, x = 0) (p : Int) :
    getAt (computeMaxGain r hn).2.tmp_connectivity_decrease p =
      if p = r.hg.partID hn then connectivityDecrease r.hg hn (r.hg.partID hn) else 0 := by
  unfold computeMaxGain
  dsimp only
  obtain ⟨_, _, _, A4, A5, _, A7⟩ := scanEdge_foldl r.hg (r.hg.partID hn)
    (r.hg.incidentEdges hn)
    { internal_weight := 0, tmp_gains := r.tmp_gains,
      tmp_connectivity_decrease := r.tmp_connectivity_decrease, tmp_target_parts := [] } hl1 hl2
  simp only [List.not_mem_nil, false_or] at A4
  have A5' : List.Nodup _ := (A5 List.Pairwise.nil).imp (fun h => ne_of_lt h)
  obtain ⟨_, _, _, _, P5, _⟩ := pickTarget_foldl r.hg r.config hn (r.hg.partID hn)
    ((r.hg.incidentEdges hn).foldl (scanEdge r.hg (r.hg.partID hn))
      { internal_weight := 0, tmp_gains := r.tmp_gains,
        tmp_connectivity_decrease := r.tmp_connectivity_decrease,
        tmp_target_parts := [] }).internal_weight
    (getAt (setAt ((r.hg.incidentEdges hn).foldl (scanEdge r.hg (r.hg.partID hn))
        { internal_weight := 0, tmp_gains := r.tmp_gains,
          tmp_connectivity_decrease := r.tmp_connectivity_decrease,
          tmp_target_parts := [] }).tmp_gains (r.hg.partID hn) 0))
    (getAt ((r.hg.incidentEdges hn).foldl (scanEdge r.hg (r.hg.partID hn))
        { internal_weight := 0, tmp_gains := r.tmp_gains,
          tmp_connectivity_decrease := r.tmp_connectivity_decrease,
          tmp_target_parts := [] }).tmp_connectivity_decrease)
    (((r.hg.incidentEdges hn).foldl (scanEdge r.hg (r.hg.partID hn))
      { internal_weight := 0, tmp_gains := r.tmp_gains,
        tmp_connectivity_decrease := r.tmp_connectivity_decrease,
        tmp_target_parts := [] }).tmp_target_parts.erase (r.hg.partID hn))
    { max_gain_part := kInvalidPartition, max_gain := gainMin, max_connectivity_decrease := 0,
      tmp_gains := setAt ((r.hg.incidentEdges hn).foldl (scanEdge r.hg (r.hg.partID hn))
        { internal_weight := 0, tmp_gains := r.tmp_gains,
          tmp_connectivity_decrease := r.tmp_connectivity_decrease,
          tmp_target_parts := [] }).tmp_gains (r.hg.partID hn) 0,
      tmp_connectivity_decrease := ((r.hg.incidentEdges hn).foldl
        (scanEdge r.hg (r.hg.partID hn))
        { internal_weight := 0, tmp_gains := r.tmp_gains,
          tmp_connectivity_decrease := r.tmp_connectivity_decrease,
          tmp_target_parts := [] }).tmp_connectivity_decrease }
    (A5'.erase _) (fun t _ => ⟨rfl, rfl⟩)
  have hcd : ∀ u : Int,
      getAt r.tmp_connectivity_decrease u +
        ((r.hg.incidentEdges hn).map (fun e => if r.hg.connectivity e ≠ 1 ∧
          u ∈ r.hg.connectivitySet e ∧ r.hg.pinCountInPart e (r.hg.partID hn) = 1
          then (1 : Int) else 0)).sum = connectivityDecrease r.hg hn u := by
    intro u
    rw [getAt_of_all_zero _ hz, zero_add, sum_map_ite_one_eq_length]
    unfold connectivityDecrease
    congr 2
    apply List.filter_congr
    intro e _
    by_cases hue : u ∈ r.hg.connectivitySet e
    · have : 0 < r.hg.connectivity e := List.length_pos_of_mem hue
      have hiff : r.hg.connectivity e ≠ 1 ↔ 1 < r.hg.connectivity e := by omega
      simp [hue, hiff]
    · simp [hue]
  rw [P5 p]
  by_cases hps : p = r.hg.partID hn
  · rw [if_pos hps, if_neg (by
      rw [hps]
      intro hmem
      exact ((A5'.mem_erase_iff).mp hmem).1 rfl)]
    show getAt _ p = _
    rw [A7 p, hps]
    exact hcd _
  · rw [if_neg hps]
    split
    · rfl
    · rename_i hp
      show getAt _ p = 0
      rw [A7 p, getAt_of_all_zero _ hz, zero_add]
      have hnot : p ∉ ((r.hg.incidentEdges hn).foldl (scanEdge r.hg (r.hg.partID hn))
          { internal_weight := 0, tmp_gains := r.tmp_gains,
            tmp_connectivity_decrease := r.tmp_connectivity_decrease,
            tmp_target_parts := [] }).tmp_target_parts := by
        intro hmem
        exact hp (A5'.mem_erase_iff.mpr ⟨hps, hmem⟩)
      rw [A4 p] at hnot
      have : ∀ e ∈ r.hg.incidentEdges hn,
          (if r.hg.connectivity e ≠ 1 ∧ p ∈ r.hg.connectivitySet e ∧
            r.hg.pinCountInPart e (r.hg.partID hn) = 1 then (1 : Int) else 0) = 0 := by
        intro e he
        rw [if_neg]
        intro hc
        exact hnot ⟨e, he, hc.1, hc.2.1⟩
      rw [List.map_congr_left this]
      simp

/-! ### Stopping policies, continued -/

/-- The divisor of `nGPRandomWalkStopsSearch::searchShouldStop` is -1/2 for equal cuts and
at least 3/2 otherwise. -/
theorem ngpDenominator_values (best_cut cut : Int) :
    ngpDenominator best_cut cut ≠ 0 ∧
    (best_cut = cut → ngpDenominator best_cut cut = -1 / 2) ∧
    (best_cut ≠ cut → 3 / 2 ≤ ngpDenominator best_cut cut) := by
  have hsq : ngpDenominator best_cut cut = 2 * (((best_cut - cut) ^ 2 : Int) : ℚ) - 1 / 2 := by
    unfold ngpDenominator; push_cast; ring
  have heq : best_cut = cut → ngpDenominator best_cut cut = -1 / 2 := by
    intro h
    rw [hsq, h]
    simp
    norm_num
  have hne : best_cut ≠ cut → 3 / 2 ≤ ngpDenominator best_cut cut := by
    intro h
    rw [hsq]
    have h1 : (1 : Int) ≤ (best_cut - cut) ^ 2 := by
      have : best_cut - cut ≠ 0 := sub_ne_zero.mpr h
      have := sq_pos_of_ne_zero this
      omega
    have h2 : ((1 : Int) : ℚ) ≤ (((best_cut - cut) ^ 2 : Int) : ℚ) := by exact_mod_cast h1
    push_cast at h2 ⊢
    linarith
  refine ⟨?_, heq, hne⟩
  by_cases h : best_cut = cut
  · rw [heq h]; norm_num
  · have := hne h
    intro h0
    rw [h0] at this
    norm_num at this

/-- After `resetStatistics` the policy `RandomWalkModelStopsSearch` answers as a newly
constructed one. -/
theorem randomWalk_reset_fresh (p0 : RandomWalkModelStopsSearch) (gs : List Int) (a : Int)
    (config : Configuration) (beta : ℚ) (best_cut cut : Int) :
    (gs.foldl RandomWalkModelStopsSearch.updateStatistics
        p0.resetStatistics).searchShouldStop a config beta best_cut cut =
      (gs.foldl RandomWalkModelStopsSearch.updateStatistics
        ({} : RandomWalkModelStopsSearch)).searchShouldStop a config beta best_cut cut := by
  obtain ⟨a1, _, a3, a4, _⟩ := randomWalk_foldl p0 gs
  obtain ⟨b1, _, b3, b4, _⟩ := randomWalk_foldl ({} : RandomWalkModelStopsSearch) gs
  have hfresh : ({} : RandomWalkModelStopsSearch).resetStatistics =
      ({} : RandomWalkModelStopsSearch) := rfl
  rw [hfresh] at b1 b3 b4
  unfold RandomWalkModelStopsSearch.searchShouldStop
  rw [a1, a3, a4, b1, b3, b4]

/-! ### What happens inside `refineImpl` -/

/-- An invariant of the passes of a loop holds at every event inside the loop. -/
theorem loopTrace_good {α β : Type} (Inv : MaxGainNodeKWayFMRefiner → Prop) (Good : β → Prop)
    (step : MaxGainNodeKWayFMRefiner → α → MaxGainNodeKWayFMRefiner)
    (leaf : MaxGainNodeKWayFMRefiner → α → List β)
    (hstep : ∀ r a, Inv r → Inv (step r a))
    (hleaf : ∀ r a, Inv r → ∀ x ∈ leaf r a, Good x) :
    ∀ (as : List α) (r : MaxGainNodeKWayFMRefiner), Inv r →
      (∀ x ∈ loopTrace step leaf as r, Good x) ∧ Inv (as.foldl step r) := by
  intro as
  induction as with
  | nil =>
    intro r h
    exact ⟨fun x hx => absurd hx (List.not_mem_nil _), h⟩
  | cons a as ih =>
    intro r h
    obtain ⟨i1, i2⟩ := ih (step r a) (hstep r a h)
    refine ⟨?_, i2⟩
    intro x hx
    rcases List.mem_append.mp hx with h1 | h1
    · exact hleaf r a h x h1
    · exact i1 x h1

theorem updatePinsTrace_good {β : Type} (Good : β → Prop)
    (leaf : MaxGainNodeKWayFMRefiner → HypernodeID → List β)
    (hleaf : ∀ r p, PinInv r → ∀ x ∈ leaf r p, Good x)
    (r : MaxGainNodeKWayFMRefiner) (he : Nat) (h : PinInv r) :
    (∀ x ∈ updatePinsTrace leaf r he, Good x) ∧ PinInv (updatePins r he) :=
  loopTrace_good PinInv Good updatePin leaf (fun r0 p h0 => (updatePin_effect r0 p h0).1) hleaf
    (r.hg.pins he) r h

theorem updateNeighboursEdgeTrace_good {β : Type} (Good : β → Prop)
    (leaf : MaxGainNodeKWayFMRefiner → HypernodeID → List β)
    (hleaf : ∀ r p, PinInv r → ∀ x ∈ leaf r p, Good x) (f t : Int)
    (r : MaxGainNodeKWayFMRefiner) (he : Nat) (h : PinInv r) :
    (∀ x ∈ updateNeighboursEdgeTrace leaf f t r he, Good x) ∧
      PinInv (updateNeighboursEdge f t r he) := by
  obtain ⟨c1, c2, c3, c4⟩ := updateNeighboursEdge_cases f t r he
  have hnil : ∀ x ∈ ([] : List β), Good x := fun x hx => absurd hx (List.not_mem_nil _)
  have hif : (∀ x ∈ (if looseUpdateNeeded r he f t then updatePinsTrace leaf r he else []),
      Good x) ∧ PinInv (if looseUpdateNeeded r he f t then updatePins r he else r) := by
    split
    · exact updatePinsTrace_good Good leaf hleaf r he h
    · exact ⟨hnil, h⟩
  unfold updateNeighboursEdgeTrace
  by_cases h1 : r.locked_hes.getD he (-1) = lockedSentinel
  · rw [c1 h1, if_neg (not_not.mpr h1)]
    exact ⟨hnil, h⟩
  · rw [if_pos h1]
    by_cases h2 : r.locked_hes.getD he (-1) = t
    · rw [c2 h1 h2, if_pos h2]
      exact hif
    · rw [if_neg h2]
      by_cases h3 : r.locked_hes.getD he (-1) = -1
      · rw [c3 h1 h2 h3, if_pos h3]
        exact updatePinsTrace_good Good leaf hleaf
          { r with locked_hes := r.locked_hes.set he t,
                   current_locked_hes := he :: r.current_locked_hes } he h
      · rw [c4 h1 h2 h3, if_neg h3]
        exact ⟨hif.1, hif.2⟩

theorem updateNeighboursTrace_good {β : Type} (Good : β → Prop)
    (leaf : MaxGainNodeKWayFMRefiner → HypernodeID → List β)
    (hleaf : ∀ r p, PinInv r → ∀ x ∈ leaf r p, Good x) (f t : Int)
    (r : MaxGainNodeKWayFMRefiner) (hn : Nat)
    (h : PinInv { r with just_updated := List.replicate r.just_updated.length false }) :
    ∀ x ∈ updateNeighboursTrace leaf r hn f t, Good x :=
  (loopTrace_good PinInv Good (updateNeighboursEdge f t) (updateNeighboursEdgeTrace leaf f t)
    (fun r0 e h0 => (updateNeighboursEdgeTrace_good Good leaf hleaf f t r0 e h0).2)
    (fun r0 e h0 => (updateNeighboursEdgeTrace_good Good leaf hleaf f t r0 e h0).1)
    (r.hg.incidentEdges hn) _ h).1

theorem searchBodyTrace_good {σ β : Type} (Good : β → Prop)
    (leaf : MaxGainNodeKWayFMRefiner → HypernodeID → List β)
    (hleaf : ∀ r p, PinInv r → ∀ x ∈ leaf r p, Good x)
    (s : Search σ) (hinv : UpdateInv s.r) (hne : s.r.pq ≠ []) :
    ∀ x ∈ searchBodyTrace leaf s, Good x := by
  obtain ⟨hgood, hunm⟩ := pop_facts s.r hinv.queue hne
  obtain ⟨hqr, hids⟩ := queueGood_remove s.r s.r.pq.max hinv.queue
  obtain ⟨g0, g1, g2, g3, _⟩ := hgood
  unfold searchBodyTrace moveHypernode
  dsimp only
  split
  · intro x hx
    exact absurd hx (List.not_mem_nil _)
  · have hstart := (edgeInv_after_move
      { s.r with pq := KWayRefinementPQ.remove s.r.pq s.r.pq.max } s.r.pq.max
      (s.r.pq.data s.r.pq.max) hqr hinv.locks g0 hunm hids ⟨g1, g2⟩ g3).1
    simp only [if_true]
    exact updateNeighboursTrace_good Good leaf hleaf _ _ _ _ hstart

theorem searchLoopTrace_good {σ β : Type} (P : StoppingPolicy σ) (rnd : Randomize)
    (Good : β → Prop) (leaf : MaxGainNodeKWayFMRefiner → HypernodeID → List β)
    (hleaf : ∀ r p, PinInv r → ∀ x ∈ leaf r p, Good x) :
    ∀ (fuel : Nat) (s : Search σ), UpdateInv s.r →
      ∀ x ∈ searchLoopTrace P rnd leaf fuel s, Good x := by
  intro fuel
  induction fuel with
  | zero =>
    intro s _ x hx
    exact absurd hx (List.not_mem_nil _)
  | succ fuel ih =>
    intro s hinv x hx
    unfold searchLoopTrace at hx
    by_cases hd : searchDone P s = true
    · rw [if_pos hd] at hx
      exact absurd hx (List.not_mem_nil _)
    · rw [if_neg hd] at hx
      have hne := pq_ne_nil_of_not_done P s (Bool.eq_false_iff.mpr hd)
      rcases List.mem_append.mp hx with h1 | h1
      · exact searchBodyTrace_good Good leaf hleaf s hinv hne x h1
      · cases hb : searchBody P rnd s with
        | none =>
          rw [hb] at h1
          exact absurd h1 (List.not_mem_nil _)
        | some s1 =>
          rw [hb] at h1
          exact ih s1 (updateInv_step P rnd s s1 hinv hne hb) x h1

/-- An invariant-style fact about the refiner states in which `activate` and `updatePin` are
called holds at every such call made during `refineImpl`. -/
theorem refineImplTrace_good {σ β : Type} (P : StoppingPolicy σ) (rnd : Randomize)
    (Good : β → Prop) (leafA leafU : MaxGainNodeKWayFMRefiner → HypernodeID → List β)
    (hleafA : ∀ r p, PinInv r → ∀ x ∈ leafA r p, Good x)
    (hleafU : ∀ r p, PinInv r → ∀ x ∈ leafU r p, Good x)
    (fuel : Nat) (r : MaxGainNodeKWayFMRefiner) (policy : σ) (ns : List Nat) (n : Nat)
    (c : Int) (hr : Ready r) :
    ∀ x ∈ refineImplTrace P rnd leafA leafU fuel r policy ns n c, Good x := by
  intro x hx
  unfold refineImplTrace at hx
  rcases List.mem_append.mp hx with h1 | h1
  · obtain ⟨w1, w2, w3, w4, _⟩ := hr
    have hq0 : QueueGood
        (resetLockedHes { r with pq := r.pq.clear,
                                 marked := List.replicate r.marked.length false }) := by
      refine ⟨⟨w1, w2, w3, w4, ?_, ?_, ?_⟩, ?_⟩
      · exact List.nodup_nil
      · intro e he; cases he
      · intro e he; cases he
      · intro e he; cases he
    have hm0 : ∀ i, (resetLockedHes
        { r with pq := r.pq.clear,
                 marked := List.replicate r.marked.length false }).marked.getD i false =
        false := fun i => getD_replicate_false _ _
    exact (loopTrace_good
      (fun r0 => QueueGood r0 ∧ ∀ i, r0.marked.getD i false = false) Good activate leafA
      (fun r0 p h0 => ⟨activate_queueGood r0 p h0.1 h0.2, by
        intro i
        rw [(sameFrame_activate r0 p).1.2.2.1]
        exact h0.2 i⟩)
      (fun r0 p h0 => hleafA r0 p h0.1.1) _ _ ⟨hq0, hm0⟩).1 x h1
  · exact searchLoopTrace_good P rnd Good leafU hleafU fuel _
      (updateInv_start P rnd r policy ns n c hr) x h1

/-- At every call of `computeMaxGain` made during `refineImpl` the scratch vector `_tmp_gains`
is all zero and the argument is a border node. -/
theorem computeMaxGainCalls_good {σ : Type} (P : StoppingPolicy σ) (rnd : Randomize)
    (fuel : Nat) (r : MaxGainNodeKWayFMRefiner) (policy : σ) (ns : List Nat) (n : Nat)
    (c : Int) (hr : Ready r) :
    ∀ x ∈ computeMaxGainCalls P rnd fuel r policy ns n c,
      (∀ g ∈ x.1.tmp_gains, g = 0) ∧ isBorderNode x.1.hg x.2 = true := by
  have hA : ∀ (r0 : MaxGainNodeKWayFMRefiner) (p : Nat), PinInv r0 →
      ∀ x ∈ activateCalls r0 p, (∀ g ∈ x.1.tmp_gains, g = 0) ∧ isBorderNode x.1.hg x.2 = true := by
    intro r0 p h0 x hx
    unfold activateCalls at hx
    split at hx
    · rename_i hb
      rw [List.mem_singleton.mp hx]
      exact ⟨h0.2.2.2.1, hb⟩
    · exact absurd hx (List.not_mem_nil _)
  have hU : ∀ (r0 : MaxGainNodeKWayFMRefiner) (p : Nat), PinInv r0 →
      ∀ x ∈ updatePinCalls r0 p, (∀ g ∈ x.1.tmp_gains, g = 0) ∧ isBorderNode x.1.hg x.2 = true := by
    intro r0 p h0 x hx
    unfold updatePinCalls at hx
    split at hx
    · split at hx
      · rename_i hb
        split at hx
        · rw [List.mem_singleton.mp hx]
          exact ⟨h0.2.2.2.1, hb⟩
        · exact absurd hx (List.not_mem_nil _)
      · exact absurd hx (List.not_mem_nil _)
    · split at hx
      · exact hA r0 p h0 x hx
      · exact absurd hx (List.not_mem_nil _)
  exact refineImplTrace_good P rnd _ activateCalls updatePinCalls hA hU fuel r policy ns n c hr

/-- In every refiner state in which `activate` or `updatePin` is called during `refineImpl`
no hypernode of the queue is marked. -/
theorem pinUpdateStates_unmarked {σ : Type} (P : StoppingPolicy σ) (rnd : Randomize)
    (fuel : Nat) (r : MaxGainNodeKWayFMRefiner) (policy : σ) (ns : List Nat) (n : Nat)
    (c : Int) (hr : Ready r) :
    ∀ x ∈ pinUpdateStates P rnd fuel r policy ns n c,
      ∀ p, x.marked.getD p false = true → x.pq.contains p = false := by
  have hL : ∀ (r0 : MaxGainNodeKWayFMRefiner) (p : Nat), PinInv r0 →
      ∀ x ∈ [r0], ∀ q, x.marked.getD q false = true → x.pq.contains q = false := by
    intro r0 _ h0 x hx q hq
    rw [List.mem_singleton.mp hx]
    cases hc : r0.pq.contains q with
    | false => rfl
    | true =>
      obtain ⟨e, he, hid⟩ := (contains_iff _ _).mp hc
      have := h0.2.2.2.2.2.1 e he
      rw [List.mem_singleton.mp hx] at hq
      rw [hid, hq] at this
      exact absurd this (by decide)
  exact refineImplTrace_good P rnd _ (fun r0 _ => [r0]) (fun r0 _ => [r0]) hL hL fuel r policy
    ns n c hr

/-! ### The main loop of `refineImpl` for any `best_cut` -/

theorem getD_set_true_of_true (l : List Bool) (u i : Nat) (h : l.getD i false = true) :
    (l.set u true).getD i false = true := by
  by_cases hiu : i = u
  · have hlt : u < l.length := by
      by_contra hge
      rw [hiu, List.getD_eq_getElem?_getD, List.getElem?_eq_none (not_lt.mp hge)] at h
      exact Bool.false_ne_true h
    rw [hiu]
    exact getD_set_bool_eq _ _ _ _ hlt
  · rw [getD_set_bool_ne _ _ _ _ _ hiu]; exact h

theorem loopInv_start {σ : Type} (P : StoppingPolicy σ) (rnd : Randomize)
    (Q : Hypergraph → Prop) (r : MaxGainNodeKWayFMRefiner) (policy : σ) (ns : List Nat)
    (n : Nat) (c : Int) (hr : Ready r) (hQ : Q r.hg) :
    LoopInv Q r.hg r.config (refineStart P rnd r policy ns n c) ∧
    (refineStart P rnd r policy ns n c).r.marked.length = r.hg.part.length := by
  have hupd := updateInv_start P rnd r policy ns n c hr
  obtain ⟨w1, w2, w3, w4, w5, w6, w7, w8, w9⟩ := hr
  obtain ⟨a1, a2, a3, a4, _⟩ := sameFrame_foldl_activate
    ((rnd.shuffleVector ns n).take n)
    (resetLockedHes { r with pq := r.pq.clear, marked := List.replicate r.marked.length false })
  change (List.foldl activate _ _).hg = r.hg at a1
  change (List.foldl activate _ _).config = r.config at a2
  change (List.foldl activate _ _).marked = List.replicate r.marked.length false at a3
  change (List.foldl activate _ _).performed_moves = r.performed_moves at a4
  have hs : (refineStart P rnd r policy ns n c).r =
      List.foldl activate (resetLockedHes
        { r with pq := r.pq.clear, marked := List.replicate r.marked.length false })
        ((rnd.shuffleVector ns n).take n) := rfl
  have hnm : (refineStart P rnd r policy ns n c).num_moves = 0 := rfl
  have hst : (refineStart P rnd r policy ns n c).step = 0 := rfl
  have hmc : (refineStart P rnd r policy ns n c).min_cut_index = -1 := rfl
  constructor
  · exact
      { upd := hupd
        config_eq := by rw [hs, a2]
        moves_length := by rw [hs, a4, a1]; exact w6
        measure := by rw [hnm, Nat.zero_add]; exact List.count_le_length _ _
        steps := by rw [hst, Nat.zero_add]; exact List.count_le_length _ _
        log := by rw [hnm, List.take_zero]; trivial
        current := by rw [hnm, List.take_zero, hs, a1]; rfl
        index_lower := by rw [hmc]
        index_upper := by rw [hmc, hnm]; decide
        log_marked := by
          intro m hm
          rw [hnm, List.take_zero] at hm
          exact absurd hm (List.not_mem_nil _)
        log_nodup := by rw [hnm, List.take_zero]; exact List.nodup_nil
        prefixes := by
          intro i _
          rw [hnm, List.take_zero, List.take_nil]
          exact hQ }
  · rw [hs, a3, List.length_replicate]; exact w5

/-- An iteration of the main loop in which `moveHypernode` refuses the move. -/
theorem loopInv_refused {σ : Type} (Q : Hypergraph → Prop) (hg0 : Hypergraph)
    (config : Configuration) (s : Search σ) (hinv : LoopInv Q hg0 config s)
    (hne : s.r.pq ≠ [])
    (hupd : UpdateInv
      { s.r with pq := s.r.pq.deleteMax, marked := s.r.marked.set s.r.pq.max true }) :
    LoopInv Q hg0 config
      { s with
        r := { s.r with pq := s.r.pq.deleteMax, marked := s.r.marked.set s.r.pq.max true }
        step := s.step + 1 } ∧
    (s.r.marked.set s.r.pq.max true).count false < s.r.marked.count false := by
  obtain ⟨hgood, hunm⟩ := pop_facts s.r hinv.upd.queue hne
  have hlt : s.r.pq.max < s.r.marked.length := by
    rw [hinv.upd.marked_length]; exact hgood.1
  have hcount := count_false_set_true s.r.marked s.r.pq.max hlt hunm
  have hmeas := hinv.measure
  have hsteps := hinv.steps
  refine ⟨?_, by omega⟩
  exact
    { upd := hupd
      config_eq := hinv.config_eq
      moves_length := hinv.moves_length
      measure := by
        show s.num_moves + (s.r.marked.set s.r.pq.max true).count false ≤
          (s.r.marked.set s.r.pq.max true).length
        rw [List.length_set]; omega
      steps := by
        show s.step + 1 + (s.r.marked.set s.r.pq.max true).count false ≤
          (s.r.marked.set s.r.pq.max true).length
        rw [List.length_set]; omega
      log := hinv.log
      current := hinv.current
      index_lower := hinv.index_lower
      index_upper := hinv.index_upper
      log_marked := by
        intro m hm
        exact getD_set_true_of_true _ _ _ (hinv.log_marked m hm)
      log_nodup := hinv.log_nodup
      prefixes := hinv.prefixes }

/-- An iteration of the main loop in which the move of `u` to `d` is performed. -/
theorem loopInv_moved {σ : Type} (Q : Hypergraph → Prop) (hg0 : Hypergraph)
    (config : Configuration) (hQ : MoveKeeps config Q) (s : Search σ)
    (hinv : LoopInv Q hg0 config s) (u : Nat) (d key : Int)
    (hgood : GoodEntry s.r.hg { id := u, key := key, data := d })
    (hunm : s.r.marked.getD u false = false)
    (hacc : ¬ (s.r.hg.partWeight d + s.r.hg.nodeWeight u ≥ s.r.config.max_part_weight ∨
      (s.r.hg.partSize (s.r.hg.partID u) : Int) - 1 = 0))
    (r3 : MaxGainNodeKWayFMRefiner)
    (hr3 : updateNeighbours
      { s.r with
        pq := KWayRefinementPQ.remove s.r.pq u
        marked := s.r.marked.set u true
        hg := s.r.hg.changeNodePart u (s.r.hg.partID u) d } u (s.r.hg.partID u) d = r3)
    (pol1 : σ) (bc1 cut1 : Int) (imp : Bool) :
    s.num_moves < r3.performed_moves.length ∧
    LoopInv Q hg0 config
      { r := { r3 with
          performed_moves := r3.performed_moves.set s.num_moves
            { hn := u, from_part := s.r.hg.partID u, to_part := d } }
        policy := pol1
        best_cut := bc1
        cut := cut1
        min_cut_index := if imp then (s.num_moves : Int) else s.min_cut_index
        step := s.step + 1
        num_moves := s.num_moves + 1 } ∧
    r3.marked.count false < s.r.marked.count false := by
  have hupd := updateInv_moved s.r hinv.upd u d key hgood hunm r3 hr3
    (r3.performed_moves.set s.num_moves
      { hn := u, from_part := s.r.hg.partID u, to_part := d })
  obtain ⟨g0, g1, g2, g3, _, _, _⟩ := hgood
  change u < s.r.hg.part.length at g0
  change 0 ≤ d at g1
  change d < (s.r.hg.k : Int) at g2
  change d ≠ s.r.hg.partID u at g3
  obtain ⟨hqr, hids⟩ := queueGood_remove s.r u hinv.upd.queue
  have hwf : s.r.hg.WellFormed := hinv.upd.queue.1.1
  have hlt : u < s.r.marked.length := by rw [hinv.upd.marked_length]; exact g0
  have hcount := count_false_set_true s.r.marked u hlt hunm
  have hmeas := hinv.measure
  have hsteps := hinv.steps
  have hd2 : d ≠ lockedSentinel := ne_of_lt (lt_trans g2 hinv.upd.parts_fit)
  obtain ⟨_, _, a3, a4, a5, _⟩ := refiner_after_move
    { s.r with pq := KWayRefinementPQ.remove s.r.pq u } u d hqr hinv.upd.locks g0 hlt hunm hids
    hinv.upd.locked_length ⟨g1, g2⟩ hd2 g3
  have a2 := (sameFrame_updateNeighbours
    { s.r with
      pq := KWayRefinementPQ.remove s.r.pq u
      marked := s.r.marked.set u true
      hg := s.r.hg.changeNodePart u (s.r.hg.partID u) d } u (s.r.hg.partID u) d).2.1
  rw [hr3] at a2 a3 a4 a5
  change r3.config = s.r.config at a2
  change r3.performed_moves = s.r.performed_moves at a5
  change r3.marked = s.r.marked.set u true at a4
  change r3.hg = s.r.hg.changeNodePart u (s.r.hg.partID u) d at a3
  have hnlt : s.num_moves < s.r.performed_moves.length := by
    rw [hinv.moves_length, ← hinv.upd.marked_length]; omega
  have htake : (s.r.performed_moves.set s.num_moves
      { hn := u, from_part := s.r.hg.partID u, to_part := d }).take (s.num_moves + 1) =
      s.r.performed_moves.take s.num_moves ++
        [{ hn := u, from_part := s.r.hg.partID u, to_part := d }] :=
    take_set_succ _ _ _ hnlt
  have hloglen : (s.r.performed_moves.take s.num_moves).length = s.num_moves := by
    rw [List.length_take]; omega
  have hcur : s.r.hg.changeNodePart u (s.r.hg.partID u) d =
      applyMoves hg0 (s.r.performed_moves.take s.num_moves ++
        [{ hn := u, from_part := s.r.hg.partID u, to_part := d }]) := by
    rw [applyMoves_append, ← hinv.current]; rfl
  have hil := hinv.index_lower
  have hiu := hinv.index_upper
  have hQ0 : Q s.r.hg := by
    have := hinv.prefixes s.num_moves (le_refl _)
    rw [List.take_of_length_le (by rw [hloglen]), ← hinv.current] at this
    exact this
  have hacc' : ¬ (s.r.hg.partWeight d + s.r.hg.nodeWeight u ≥ config.max_part_weight ∨
      (s.r.hg.partSize (s.r.hg.partID u) : Int) - 1 = 0) := by
    rw [← hinv.config_eq]; exact hacc
  refine ⟨by rw [a5]; exact hnlt, ?_, by rw [a4]; omega⟩
  exact
    { upd := hupd.2
      config_eq := by
        show r3.config = config
        rw [a2]; exact hinv.config_eq
      moves_length := by
        show (r3.performed_moves.set _ _).length = r3.hg.part.length
        rw [a5, a3]
        simp only [List.length_set, Hypergraph.changeNodePart]
        exact hinv.moves_length
      measure := by
        show s.num_moves + 1 + r3.marked.count false ≤ r3.marked.length
        rw [a4, List.length_set]
        omega
      steps := by
        show s.step + 1 + r3.marked.count false ≤ r3.marked.length
        rw [a4, List.length_set]
        omega
      log := by
        show IsMoveLog hg0 ((r3.performed_moves.set _ _).take (s.num_moves + 1))
        rw [a5, htake]
        apply isMoveLog_append _ _ _ hinv.log
        rw [← hinv.current]
      current := by
        show r3.hg = applyMoves hg0 ((r3.performed_moves.set _ _).take (s.num_moves + 1))
        rw [a5, htake, a3]
        exact hcur
      index_lower := by
        show -1 ≤ (if imp = true then (s.num_moves : Int) else s.min_cut_index)
        cases imp
        · simp only [Bool.false_eq_true, if_false]; exact hil
        · simp only [if_true]; omega
      index_upper := by
        show (if imp = true then (s.num_moves : Int) else s.min_cut_index) <
          ((s.num_moves + 1 : Nat) : Int)
        cases imp
        · simp only [Bool.false_eq_true, if_false]; omega
        · simp only [if_true]; omega
      log_marked := by
        show ∀ m ∈ (r3.performed_moves.set _ _).take (s.num_moves + 1),
          r3.marked.getD m.hn false = true
        rw [a5, htake, a4]
        intro m hm
        rcases List.mem_append.mp hm with h | h
        · exact getD_set_true_of_true _ _ _ (hinv.log_marked m h)
        · rw [List.mem_singleton.mp h]
          exact getD_set_bool_eq _ _ _ _ hlt
      log_nodup := by
        show (((r3.performed_moves.set _ _).take (s.num_moves + 1)).map (fun m => m.hn)).Nodup
        rw [a5, htake, List.map_append, List.nodup_append]
        refine ⟨hinv.log_nodup, List.nodup_singleton _, ?_⟩
        intro x hx hx2
        obtain ⟨m, hm, rfl⟩ := List.mem_map.mp hx
        have hmu : m.hn = u := by
          simpa using hx2
        have := hinv.log_marked m hm
        rw [hmu, hunm] at this
        exact Bool.false_ne_true this
      prefixes := by
        intro i hi
        show Q (applyMoves hg0 (((r3.performed_moves.set _ _).take (s.num_moves + 1)).take i))
        have hi' : i ≤ s.num_moves + 1 := hi
        rw [a5, htake]
        by_cases hi2 : i ≤ s.num_moves
        · rw [take_append_singleton_of_le _ _ _ (by rw [hloglen]; exact hi2)]
          exact hinv.prefixes i hi2
        · rw [List.take_of_length_le (by simp [hloglen]; omega), ← hcur]
          exact hQ s.r.hg u d hwf g0 g1 g2 g3 hacc' hQ0 }

/-- One iteration of the main loop, for any `best_cut`: the body returns, the invariant is
kept, the hypernode taken from the queue was not marked and is marked afterwards and out of
the queue, and the iteration counter has grown by one. -/
theorem loopInv_step {σ : Type} (P : StoppingPolicy σ) (rnd : Randomize)
    (Q : Hypergraph → Prop) (hg0 : Hypergraph) (config : Configuration)
    (hQ : MoveKeeps config Q) (s : Search σ) (hinv : LoopInv Q hg0 config s)
    (hne : s.r.pq ≠ []) :
    ∃ s1, searchBody P rnd s = some s1 ∧ LoopInv Q hg0 config s1 ∧
      s1.r.marked.count false < s.r.marked.count false ∧
      s.r.marked.getD s.r.pq.max false = false ∧
      s1.r.marked = s.r.marked.set s.r.pq.max true ∧
      s1.r.pq.contains s.r.pq.max = false ∧ s1.step = s.step + 1 := by
  obtain ⟨p1, p2⟩ := pop_facts s.r hinv.upd.queue hne
  have hlt : s.r.pq.max < s.r.marked.length := by
    rw [hinv.upd.marked_length]; exact p1.1
  have hout : ∀ s1 : Search σ, UpdateInv s1.r →
      s1.r.marked = s.r.marked.set s.r.pq.max true →
      s1.r.pq.contains s.r.pq.max = false := by
    intro s1 hu hm
    cases hc : s1.r.pq.contains s.r.pq.max with
    | false => rfl
    | true =>
      obtain ⟨e, he, hid⟩ := (contains_iff _ _).mp hc
      have := hu.queue.1.2.2.2.2.2.1 e he
      rw [hid, hm, getD_set_bool_eq _ _ _ _ hlt] at this
      exact absurd this (by decide)
  by_cases hc : s.r.hg.partWeight (s.r.pq.data s.r.pq.max) + s.r.hg.nodeWeight s.r.pq.max ≥
        s.r.config.max_part_weight ∨
      (s.r.hg.partSize (s.r.hg.partID s.r.pq.max) : Int) - 1 = 0
  · have hb := searchBody_refused P rnd s hc
    have hupd := updateInv_step P rnd s _ hinv.upd hne hb
    obtain ⟨h1, h2⟩ := loopInv_refused Q hg0 config s hinv hne hupd
    exact ⟨_, hb, h1, h2, p2, rfl, hout _ hupd rfl, rfl⟩
  · obtain ⟨h1, h2, h3⟩ := loopInv_moved Q hg0 config hQ s hinv s.r.pq.max
      (s.r.pq.data s.r.pq.max) s.r.pq.maxKey p1 p2 hc _ rfl
      (if (decide (s.cut - s.r.pq.maxKey < s.best_cut) ||
            (decide (s.cut - s.r.pq.maxKey = s.best_cut) && rnd.flipCoin s.step)) &&
            decide (s.cut - s.r.pq.maxKey < s.best_cut)
        then P.resetStatistics (P.updateStatistics s.policy s.r.pq.maxKey)
        else P.updateStatistics s.policy s.r.pq.maxKey)
      (if (decide (s.cut - s.r.pq.maxKey < s.best_cut) ||
            (decide (s.cut - s.r.pq.maxKey = s.best_cut) && rnd.flipCoin s.step))
        then s.cut - s.r.pq.maxKey else s.best_cut)
      (s.cut - s.r.pq.maxKey)
      (decide (s.cut - s.r.pq.maxKey < s.best_cut) ||
            (decide (s.cut - s.r.pq.maxKey = s.best_cut) && rnd.flipCoin s.step))
    have hm := (sameFrame_updateNeighbours
      { s.r with
        pq := KWayRefinementPQ.remove s.r.pq s.r.pq.max
        marked := s.r.marked.set s.r.pq.max true
        hg := s.r.hg.changeNodePart s.r.pq.max (s.r.hg.partID s.r.pq.max)
          (s.r.pq.data s.r.pq.max) } s.r.pq.max (s.r.hg.partID s.r.pq.max)
      (s.r.pq.data s.r.pq.max)).2.2.1
    rw [searchBody_moved P rnd s hc]
    have h1' : s.num_moves < (updateNeighbours
          { s.r with
            pq := s.r.pq.deleteMax
            marked := s.r.marked.set s.r.pq.max true
            hg := s.r.hg.changeNodePart s.r.pq.max (s.r.hg.partID s.r.pq.max)
              (s.r.pq.data s.r.pq.max) }
          s.r.pq.max (s.r.hg.partID s.r.pq.max) (s.r.pq.data s.r.pq.max)).performed_moves.length :=
      h1
    rw [if_pos h1']
    exact ⟨_, rfl, h2, h3, p2, hm, hout _ h2.upd hm, rfl⟩

/-- The main loop returns when the fuel covers the unmarked hypernodes, for any `best_cut`;
it keeps the invariant and ends in a state in which the loop condition fails. -/
theorem loopInv_loop {σ : Type} (P : StoppingPolicy σ) (rnd : Randomize)
    (Q : Hypergraph → Prop) (hg0 : Hypergraph) (config : Configuration)
    (hQ : MoveKeeps config Q) :
    ∀ (fuel : Nat) (s : Search σ), LoopInv Q hg0 config s → s.r.marked.count false ≤ fuel →
      ∃ s1, searchLoop P rnd fuel s = some s1 ∧ LoopInv Q hg0 config s1 ∧
        searchDone P s1 = true := by
  intro fuel
  induction fuel with
  | zero =>
    intro s hinv hf
    have hemp : s.r.pq = [] := by
      by_contra hne
      obtain ⟨s1, _, _, hlt, _⟩ := loopInv_step P rnd Q hg0 config hQ s hinv hne
      omega
    have hd : searchDone P s = true := by
      unfold searchDone
      rw [hemp]
      rfl
    refine ⟨s, ?_, hinv, hd⟩
    unfold searchLoop
    rw [if_pos hd]
  | succ fuel ih =>
    intro s hinv hf
    by_cases hd : searchDone P s = true
    · refine ⟨s, ?_, hinv, hd⟩
      unfold searchLoop
      rw [if_pos hd]
    · have hne := pq_ne_nil_of_not_done P s (Bool.eq_false_iff.mpr hd)
      obtain ⟨s1, hb, hi1, hlt, _⟩ := loopInv_step P rnd Q hg0 config hQ s hinv hne
      obtain ⟨s2, hs2, hi2, hd2⟩ := ih s1 hi1 (by omega)
      refine ⟨s2, ?_, hi2, hd2⟩
      unfold searchLoop
      rw [if_neg hd, hb]
      exact hs2

/-- The run of `refineImpl` for any `best_cut`, with enough fuel for the hypernodes: the
main loop ends, `refineImpl` returns the refiner with the hypergraph rolled back to the
state after the move `min_cut_index`, and a property that the performed moves keep holds
for the result and after every move. -/
theorem loopInv_refineImpl {σ : Type} (P : StoppingPolicy σ) (rnd : Randomize)
    (Q : Hypergraph → Prop) (fuel : Nat) (r : MaxGainNodeKWayFMRefiner) (policy : σ)
    (ns : List Nat) (n : Nat) (c : Int) (hr : Ready r) (hQ0 : Q r.hg)
    (hQ : MoveKeeps r.config Q) (hf : r.hg.part.length ≤ fuel) :
    ∃ (s : Search σ) (res : RefineResult σ),
      searchLoop P rnd fuel (refineStart P rnd r policy ns n c) = some s ∧
      LoopInv Q r.hg r.config s ∧ searchDone P s = true ∧
      s.r.marked.length = r.hg.part.length ∧
      refineImpl P rnd fuel r policy ns n c = some res ∧
      res.r = { s.r with
                hg := applyMoves r.hg
                  ((s.r.performed_moves.take s.num_moves).take (s.min_cut_index + 1).toNat) } ∧
      Q res.r.hg := by
  obtain ⟨hi0, hl0⟩ := loopInv_start P rnd Q r policy ns n c hr hQ0
  obtain ⟨s, hs, hinv, hd⟩ := loopInv_loop P rnd Q r.hg r.config hQ fuel _ hi0 (by
    have := List.count_le_length false (refineStart P rnd r policy ns n c).r.marked
    omega)
  have hpl : s.r.hg.part.length = r.hg.part.length := by
    rw [hinv.current, length_part_applyMoves]
  have hml : s.r.marked.length = r.hg.part.length := by
    rw [hinv.upd.marked_length, hpl]
  have hnm : s.num_moves ≤ s.r.performed_moves.length := by
    have := hinv.measure
    rw [hinv.moves_length, ← hinv.upd.marked_length]; omega
  have hnf : s.num_moves ≤ fuel := by
    rw [hinv.moves_length, hpl] at hnm; omega
  have hil := hinv.index_lower
  have hiu := hinv.index_upper
  have hll : (s.r.performed_moves.take s.num_moves).length = s.num_moves := by
    rw [List.length_take]; omega
  have hrb := rollback_take r.hg (s.r.performed_moves.take s.num_moves) hinv.log
    (s.min_cut_index + 1).toNat (s.num_moves - (s.min_cut_index + 1).toNat) fuel s.r
    (by omega) (by rw [hll]; omega) (by rw [hll])
    (by
      have : (s.min_cut_index + 1).toNat + (s.num_moves - (s.min_cut_index + 1).toNat) =
        s.num_moves := by omega
      rw [this, List.take_of_length_le (by rw [hll])]
      exact hinv.current)
  have e1 : ((((s.min_cut_index + 1).toNat + (s.num_moves - (s.min_cut_index + 1).toNat) :
      Nat) : Int) - 1) = (s.num_moves : Int) - 1 := by omega
  have e2 : (((s.min_cut_index + 1).toNat : Int) - 1) = s.min_cut_index := by omega
  rw [e1, e2] at hrb
  refine ⟨s, { improved := decide (s.best_cut < c), best_cut := s.best_cut,
               r := { s.r with
                      hg := applyMoves r.hg
                        ((s.r.performed_moves.take s.num_moves).take
                          (s.min_cut_index + 1).toNat) },
               policy := s.policy }, hs, hinv, hd, hml, ?_, rfl, ?_⟩
  · unfold refineImpl
    dsimp only
    rw [hs]
    dsimp only
    rw [hrb]
  · exact hinv.prefixes _ (by omega)

/-! ### Block weights and block sizes under a move -/

theorem sum_map_change (l : List Nat) (hnd : l.Nodup) (v : Nat) (hv : v ∈ l) (f g : Nat → Int)
    (h : ∀ x, x ≠ v → g x = f x) : (l.map g).sum = (l.map f).sum + (g v - f v) := by
  induction l with
  | nil => exact absurd hv (List.not_mem_nil _)
  | cons a l ih =>
    rw [List.nodup_cons] at hnd
    simp only [List.map_cons, List.sum_cons]
    by_cases hav : a = v
    · have hvl : v ∉ l := hav ▸ hnd.1
      have : l.map g = l.map f := by
        apply List.map_congr_left
        intro x hx
        exact h x (fun hxv => hvl (hxv ▸ hx))
      rw [this, hav]; ring
    · have hvl : v ∈ l := by
        rcases List.mem_cons.mp hv with h1 | h1
        · exact absurd h1.symm hav
        · exact h1
      rw [ih hnd.2 hvl, h a hav]; ring

theorem partWeight_eq_sum (hg : Hypergraph) (p : Int) :
    hg.partWeight p =
      ((List.range hg.part.length).map
        (fun v => if hg.partID v = p then hg.nodeWeight v else 0)).sum := by
  unfold Hypergraph.partWeight Hypergraph.nodes Hypergraph.initialNumNodes
  rw [sum_map_ite_eq_sum_filter]

theorem partSize_eq_sum (hg : Hypergraph) (p : Int) :
    (hg.partSize p : Int) =
      ((List.range hg.part.length).map
        (fun v => if hg.partID v = p then (1 : Int) else 0)).sum := by
  unfold Hypergraph.partSize Hypergraph.nodes Hypergraph.initialNumNodes
  rw [sum_map_ite_one_eq_length, List.countP_eq_length_filter]

/-- The weight of a block after a move. -/
theorem partWeight_changeNodePart (hg : Hypergraph) (v : Nat) (f d : Int)
    (hv : v < hg.part.length) (p : Int) :
    (hg.changeNodePart v f d).partWeight p =
      hg.partWeight p + ((if d = p then hg.nodeWeight v else 0) -
        (if hg.partID v = p then hg.nodeWeight v else 0)) := by
  rw [partWeight_eq_sum, partWeight_eq_sum]
  have hlen : (hg.changeNodePart v f d).part.length = hg.part.length := by
    unfold Hypergraph.changeNodePart; simp
  rw [hlen]
  have := sum_map_change (List.range hg.part.length) (List.nodup_range _) v
    (List.mem_range.mpr hv)
    (fun x => if hg.partID x = p then hg.nodeWeight x else 0)
    (fun x => if (hg.changeNodePart v f d).partID x = p then
      (hg.changeNodePart v f d).nodeWeight x else 0)
    (by
      intro x hx
      show (if (hg.changeNodePart v f d).partID x = p then hg.nodeWeight x else 0) =
        if hg.partID x = p then hg.nodeWeight x else 0
      rw [partID_changeNodePart]
      simp only [hx, false_and, if_false])
  rw [this]
  show _ + ((if (hg.changeNodePart v f d).partID v = p then hg.nodeWeight v else 0) -
    (if hg.partID v = p then hg.nodeWeight v else 0)) = _
  rw [partID_changeNodePart]
  simp only [hv, and_self, if_true]

/-- The size of a block after a move. -/
theorem partSize_changeNodePart (hg : Hypergraph) (v : Nat) (f d : Int)
    (hv : v < hg.part.length) (p : Int) :
    ((hg.changeNodePart v f d).partSize p : Int) =
      (hg.partSize p : Int) + ((if d = p then 1 else 0) -
        (if hg.partID v = p then 1 else 0)) := by
  rw [partSize_eq_sum, partSize_eq_sum]
  have hlen : (hg.changeNodePart v f d).part.length = hg.part.length := by
    unfold Hypergraph.changeNodePart; simp
  rw [hlen]
  have := sum_map_change (List.range hg.part.length) (List.nodup_range _) v
    (List.mem_range.mpr hv)
    (fun x => if hg.partID x = p then (1 : Int) else 0)
    (fun x => if (hg.changeNodePart v f d).partID x = p then (1 : Int) else 0)
    (by
      intro x hx
      show (if (hg.changeNodePart v f d).partID x = p then (1 : Int) else 0) =
        if hg.partID x = p then 1 else 0
      rw [partID_changeNodePart]
      simp only [hx, false_and, if_false])
  rw [this]
  show _ + ((if (hg.changeNodePart v f d).partID v = p then (1 : Int) else 0) -
    (if hg.partID v = p then 1 else 0)) = _
  rw [partID_changeNodePart]
  simp only [hv, and_self, if_true]

theorem partSize_pos_of_mem (hg : Hypergraph) (v : Nat) (hv : v < hg.part.length) :
    0 < hg.partSize (hg.partID v) := by
  unfold Hypergraph.partSize
  rw [List.countP_pos_iff]
  exact ⟨v, List.mem_range.mpr hv, by simp⟩

/-- The moves that `moveHypernode` performs keep every block below `max_part_weight`. -/
theorem moveKeeps_balanced (config : Configuration) : MoveKeeps config (Balanced config) := by
  intro hg v d _ hv _ _ hdf hacc ⟨hw, hb⟩
  rw [not_or] at hacc
  have hk : (hg.changeNodePart v (hg.partID v) d).k = hg.k := rfl
  refine ⟨?_, ?_⟩
  · intro x hx
    have hlen : (hg.changeNodePart v (hg.partID v) d).part.length = hg.part.length := by
      unfold Hypergraph.changeNodePart; simp
    rw [hlen] at hx
    exact hw x hx
  · intro p hp0 hp1
    rw [hk] at hp1
    rw [partWeight_changeNodePart hg v _ d hv p]
    have hwv := hw v hv
    have hbp := hb p hp0 hp1
    by_cases h1 : d = p
    · rw [if_pos h1, if_neg (fun h => hdf (h1.trans h.symm))]
      have := hacc.1
      rw [h1] at this
      linarith
    · rw [if_neg h1]
      split
      · linarith
      · linarith

/-- The moves that `moveHypernode` performs leave no block empty. -/
theorem moveKeeps_noEmptyPart (config : Configuration) : MoveKeeps config NoEmptyPart := by
  intro hg v d _ hv _ _ hdf hacc hq
  rw [not_or] at hacc
  intro p hp0 hp1
  have hk : (hg.changeNodePart v (hg.partID v) d).k = hg.k := rfl
  rw [hk] at hp1
  have hsz := partSize_changeNodePart hg v (hg.partID v) d hv p
  have hpos := hq p hp0 hp1
  have hsrc := partSize_pos_of_mem hg v hv
  have h2 := hacc.2
  by_cases h1 : d = p
  · rw [if_pos h1, if_neg (fun h => hdf (h1.trans h.symm))] at hsz
    omega
  · rw [if_neg h1] at hsz
    by_cases h3 : hg.partID v = p
    · rw [if_pos h3] at hsz
      rw [h3] at h2 hsrc
      omega
    · rw [if_neg h3] at hsz
      omega

theorem moveKeeps_true (config : Configuration) : MoveKeeps config (fun _ => True) := by
  intro _ _ _ _ _ _ _ _ _ _
  trivial

/-- The loop invariant holds at the head of every iteration of the main loop. -/
theorem loopInv_of_inSearch {σ : Type} (P : StoppingPolicy σ) (rnd : Randomize)
    (s : Search σ) (h : InSearch P rnd s) :
    ∃ (hg0 : Hypergraph) (config : Configuration), LoopInv (fun _ => True) hg0 config s := by
  induction h with
  | start r policy ns n c hr =>
    exact ⟨r.hg, r.config, (loopInv_start P rnd (fun _ => True) r policy ns n c hr trivial).1⟩
  | body s s1 _ hnd hb ih =>
    obtain ⟨hg0, config, hinv⟩ := ih
    obtain ⟨s2, hb2, hinv2, _⟩ := loopInv_step P rnd (fun _ => True) hg0 config
      (moveKeeps_true config) s hinv (pq_ne_nil_of_not_done P s hnd)
    rw [hb] at hb2
    rw [Option.some.inj hb2]
    exact ⟨hg0, config, hinv2⟩

/-- Termination of the main loop of `refineImpl`. -/
theorem searchLoop_terminates {σ : Type} (P : StoppingPolicy σ) (rnd : Randomize)
    (fuel : Nat) (r : MaxGainNodeKWayFMRefiner) (policy : σ) (ns : List Nat) (n : Nat)
    (c : Int) (hr : Ready r) (hf : r.hg.part.length ≤ fuel) :
    ∃ s : Search σ,
      searchLoop P rnd fuel (refineStart P rnd r policy ns n c) = some s ∧
      searchDone P s = true ∧ s.step ≤ r.hg.part.length := by
  obtain ⟨s, _, hs, hinv, hd, hml, _⟩ := loopInv_refineImpl P rnd (fun _ => True) fuel r policy
    ns n c hr trivial (moveKeeps_true _) hf
  refine ⟨s, hs, hd, ?_⟩
  have := hinv.steps
  omega

/-- What one iteration of the main loop of `refineImpl` does to the marks and the queue. -/
theorem searchBody_marks {σ : Type} (P : StoppingPolicy σ) (rnd : Randomize) (s : Search σ)
    (h : InSearch P rnd s) (hnd : searchDone P s = false) :
    ∃ s1, searchBody P rnd s = some s1 ∧
      s.r.pq.contains s.r.pq.max = true ∧
      s.r.marked.getD s.r.pq.max false = false ∧
      s1.r.marked = s.r.marked.set s.r.pq.max true ∧
      s1.r.marked.getD s.r.pq.max false = true ∧
      s1.r.pq.contains s.r.pq.max = false ∧
      (∀ p, s1.r.marked.getD p false = true → s1.r.pq.contains p = false) ∧
      s1.r.marked.count false < s.r.marked.count false ∧
      s1.step = s.step + 1 := by
  obtain ⟨hg0, config, hinv⟩ := loopInv_of_inSearch P rnd s h
  have hne := pq_ne_nil_of_not_done P s hnd
  obtain ⟨s1, hb, hinv1, h1, h2, h3, h4, h5⟩ := loopInv_step P rnd (fun _ => True) hg0 config
    (moveKeeps_true config) s hinv hne
  obtain ⟨p1, _⟩ := pop_facts s.r hinv.upd.queue hne
  have hlt : s.r.pq.max < s.r.marked.length := by
    rw [hinv.upd.marked_length]; exact p1.1
  obtain ⟨mx, hmx, hmem⟩ := maxEntry_mem s.r.pq hne
  have hmax : s.r.pq.max = mx.id := by
    unfold KWayRefinementPQ.max; rw [hmx]
  refine ⟨s1, hb, ?_, h2, h3, ?_, h4, ?_, h1, h5⟩
  · exact (contains_iff _ _).mpr ⟨mx, hmem, hmax.symm⟩
  · rw [h3]; exact getD_set_bool_eq _ _ _ _ hlt
  · intro p hp
    cases hc : s1.r.pq.contains p with
    | false => rfl
    | true =>
      obtain ⟨e, he, hid⟩ := (contains_iff _ _).mp hc
      have := hinv1.upd.queue.1.2.2.2.2.2.1 e he
      rw [hid, hp] at this
      exact absurd this (by decide)

/-- At the head of every iteration of the main loop no hypernode of the queue is marked, no
hypernode occurs twice in the move log, and the log fits the reserved storage. -/
theorem inSearch_moves {σ : Type} (P : StoppingPolicy σ) (rnd : Randomize) (s : Search σ)
    (h : InSearch P rnd s) :
    (∀ p, s.r.marked.getD p false = true → s.r.pq.contains p = false) ∧
    ((s.r.performed_moves.take s.num_moves).map (fun m => m.hn)).Nodup ∧
    (∀ m ∈ s.r.performed_moves.take s.num_moves, s.r.marked.getD m.hn false = true) ∧
    s.num_moves ≤ s.r.hg.initialNumNodes ∧
    s.r.performed_moves.length = s.r.hg.initialNumNodes := by
  obtain ⟨hg0, config, hinv⟩ := loopInv_of_inSearch P rnd s h
  refine ⟨?_, hinv.log_nodup, hinv.log_marked, ?_, hinv.moves_length⟩
  · intro p hp
    cases hc : s.r.pq.contains p with
    | false => rfl
    | true =>
      obtain ⟨e, he, hid⟩ := (contains_iff _ _).mp hc
      have := hinv.upd.queue.1.2.2.2.2.2.1 e he
      rw [hid, hp] at this
      exact absurd this (by decide)
  · have := hinv.measure
    have := hinv.upd.marked_length
    show s.num_moves ≤ s.r.hg.part.length
    omega


/-! ### The histograms of the analyzer -/

open HypergraphAnalyzer

/-- The entries of the map after `++m[key]`, for a map in the order of its keys. -/
theorem mem_increment :
    ∀ (m : CountMap), m.Pairwise (fun a b => a.1 < b.1) → ∀ (key d c : Nat),
      ((d, c) ∈ increment m key ↔
        (d ≠ key ∧ (d, c) ∈ m) ∨
        (d = key ∧ ((∃ c0, (key, c0) ∈ m ∧ c = (c0 + 1) % 4294967296) ∨
          ((∀ c0, (key, c0) ∉ m) ∧ c = 1)))) := by
  intro m
  induction m with
  | nil =>
    intro _ key d c
    simp only [increment, List.mem_singleton, Prod.mk.injEq, List.not_mem_nil, and_false,
      false_and, exists_false, not_false_eq_true, implies_true, true_and, false_or]
  | cons x m ih =>
    intro hs key d c
    obtain ⟨k, c1⟩ := x
    rw [List.pairwise_cons] at hs
    obtain ⟨hhead, hs2⟩ := hs
    have hih := ih hs2 key d c
    unfold increment
    by_cases h1 : key < k
    · rw [if_pos h1]
      have hnot : ∀ c0, (key, c0) ∉ (k, c1) :: m := by
        intro c0 hmem
        rcases List.mem_cons.mp hmem with h | h
        · have : key = k := (Prod.mk.inj h).1
          omega
        · have := hhead _ h
          simp only at this
          omega
      constructor
      · intro hmem
        rcases List.mem_cons.mp hmem with h | h
        · obtain ⟨e1, e2⟩ := Prod.mk.inj h
          right
          exact ⟨e1, Or.inr ⟨hnot, e2⟩⟩
        · left
          refine ⟨?_, h⟩
          intro hd
          rw [hd] at h
          exact hnot c h
      · rintro (⟨_, h⟩ | ⟨hd, ⟨c0, h, _⟩ | ⟨_, hc⟩⟩)
        · exact List.mem_cons_of_mem _ h
        · exact absurd h (hnot c0)
        · rw [hd, hc]; exact List.mem_cons_self _ _
    · rw [if_neg h1]
      by_cases h2 : key = k
      · rw [if_pos h2]
        have huniq : ∀ c0, (key, c0) ∈ (k, c1) :: m → c0 = c1 := by
          intro c0 hmem
          rcases List.mem_cons.mp hmem with h | h
          · exact (Prod.mk.inj h).2
          · have := hhead _ h
            simp only at this
            omega
        constructor
        · intro hmem
          rcases List.mem_cons.mp hmem with h | h
          · obtain ⟨e1, e2⟩ := Prod.mk.inj h
            right
            refine ⟨e1.trans h2.symm, Or.inl ⟨c1, ?_, e2⟩⟩
            rw [h2]; exact List.mem_cons_self _ _
          · left
            refine ⟨?_, List.mem_cons_of_mem _ h⟩
            intro hd
            have := hhead _ h
            simp only at this
            omega
        · rintro (⟨hd, h⟩ | ⟨hd, ⟨c0, h, hc⟩ | ⟨hno, _⟩⟩)
          · rcases List.mem_cons.mp h with h3 | h3
            · exact absurd ((Prod.mk.inj h3).1.trans h2.symm) hd
            · exact List.mem_cons_of_mem _ h3
          · rw [huniq c0 h] at hc
            rw [hd, hc, h2]
            exact List.mem_cons_self _ _
          · exact absurd (h2 ▸ List.mem_cons_self _ _) (hno c1)
      · rw [if_neg h2]
        rw [List.mem_cons, hih]
        constructor
        · rintro (h | ⟨hd, h⟩ | ⟨hd, ⟨c0, h, hc⟩ | ⟨hno, hc⟩⟩)
          · left
            obtain ⟨e1, _⟩ := Prod.mk.inj h
            exact ⟨fun hd => h2 (hd.symm.trans e1), by rw [h]; exact List.mem_cons_self _ _⟩
          · exact Or.inl ⟨hd, List.mem_cons_of_mem _ h⟩
          · exact Or.inr ⟨hd, Or.inl ⟨c0, List.mem_cons_of_mem _ h, hc⟩⟩
          · right
            refine ⟨hd, Or.inr ⟨?_, hc⟩⟩
            intro c0 hmem
            rcases List.mem_cons.mp hmem with h | h
            · exact h2 (Prod.mk.inj h).1
            · exact hno c0 h
        · rintro (⟨hd, h⟩ | ⟨hd, ⟨c0, h, hc⟩ | ⟨hno, hc⟩⟩)
          · rcases List.mem_cons.mp h with h3 | h3
            · exact Or.inl h3
            · exact Or.inr (Or.inl ⟨hd, h3⟩)
          · rcases List.mem_cons.mp h with h3 | h3
            · exact absurd (Prod.mk.inj h3).1 h2
            · exact Or.inr (Or.inr ⟨hd, Or.inl ⟨c0, h3, hc⟩⟩)
          · exact Or.inr (Or.inr ⟨hd, Or.inr ⟨fun c0 h => hno c0 (List.mem_cons_of_mem _ h), hc⟩⟩)

/-- The statement `++m[key]` keeps the map in the order of its keys. -/
theorem increment_sorted :
    ∀ (m : CountMap), m.Pairwise (fun a b => a.1 < b.1) → ∀ (key : Nat),
      (increment m key).Pairwise (fun a b => a.1 < b.1) := by
  intro m
  induction m with
  | nil =>
    intro _ key
    unfold increment
    exact List.pairwise_singleton _ _
  | cons x m ih =>
    intro hs key
    obtain ⟨k, c1⟩ := x
    have hs0 := hs
    rw [List.pairwise_cons] at hs
    obtain ⟨hhead, hs2⟩ := hs
    unfold increment
    by_cases h1 : key < k
    · rw [if_pos h1]
      rw [List.pairwise_cons]
      refine ⟨?_, hs0⟩
      intro b hb
      rcases List.mem_cons.mp hb with h | h
      · rw [h]; exact h1
      · have := hhead _ h
        simp only at this ⊢
        omega
    · rw [if_neg h1]
      by_cases h2 : key = k
      · rw [if_pos h2, List.pairwise_cons]
        exact ⟨hhead, hs2⟩
      · rw [if_neg h2, List.pairwise_cons]
        refine ⟨?_, ih hs2 key⟩
        intro b hb
        obtain ⟨d, c⟩ := b
        rcases (mem_increment m hs2 key d c).mp hb with ⟨_, h⟩ | ⟨hd, _⟩
        · exact hhead _ h
        · simp only
          omega

/-- The statement `++m[key]` adds one to the sum of the counters, as long as no counter
wraps. -/
theorem increment_sum :
    ∀ (m : CountMap), (∀ x ∈ m, x.2 + 1 < 4294967296) → ∀ (key : Nat),
      ((increment m key).map Prod.snd).sum = (m.map Prod.snd).sum + 1 := by
  intro m
  induction m with
  | nil =>
    intro _ key
    simp [increment]
  | cons x m ih =>
    intro hb key
    obtain ⟨k, c1⟩ := x
    have hc1 : c1 + 1 < 4294967296 := hb (k, c1) (List.mem_cons_self _ _)
    have hrest := ih (fun x hx => hb x (List.mem_cons_of_mem _ hx)) key
    unfold increment
    by_cases h1 : key < k
    · rw [if_pos h1]
      simp only [List.map_cons, List.sum_cons]
      omega
    · rw [if_neg h1]
      by_cases h2 : key = k
      · rw [if_pos h2]
        simp only [List.map_cons, List.sum_cons]
        rw [Nat.mod_eq_of_lt hc1]
        omega
      · rw [if_neg h2]
        simp only [List.map_cons, List.sum_cons]
        rw [hrest]
        omega

/-- One statement `++m[key]` on a map that counts the values of `l` gives the map that counts
the values of `l ++ [key]`. -/
theorem increment_counts (m : CountMap) (l : List Nat) (key : Nat)
    (hs : m.Pairwise (fun a b => a.1 < b.1))
    (hm : ∀ d c, (d, c) ∈ m ↔ (c = l.count d ∧ 0 < c))
    (hsum : (m.map Prod.snd).sum = l.length)
    (hlen : l.length + 1 < 4294967296) :
    (increment m key).Pairwise (fun a b => a.1 < b.1) ∧
    (∀ d c, (d, c) ∈ increment m key ↔ (c = (l ++ [key]).count d ∧ 0 < c)) ∧
    ((increment m key).map Prod.snd).sum = (l ++ [key]).length := by
  have hle : ∀ d, l.count d ≤ l.length := fun d => List.count_le_length d l
  refine ⟨increment_sorted m hs key, ?_, ?_⟩
  · intro d c
    rw [mem_increment m hs key d c, List.count_append]
    by_cases hd : d = key
    · subst hd
      have h1 : [d].count d = 1 := by simp
      rw [h1]
      constructor
      · rintro (⟨hne, _⟩ | ⟨_, ⟨c0, h, hc⟩ | ⟨_, hc⟩⟩)
        · exact absurd rfl hne
        · obtain ⟨e1, e2⟩ := (hm d c0).mp h
          have := hle d
          rw [Nat.mod_eq_of_lt (by omega)] at hc
          omega
        · rename_i hno
          have h0 : l.count d = 0 := by
            by_contra hpos
            exact hno (l.count d) ((hm d (l.count d)).mpr ⟨rfl, Nat.pos_of_ne_zero hpos⟩)
          omega
      · rintro ⟨hc, _⟩
        right
        refine ⟨rfl, ?_⟩
        by_cases hpos : 0 < l.count d
        · left
          refine ⟨l.count d, (hm d (l.count d)).mpr ⟨rfl, hpos⟩, ?_⟩
          have := hle d
          rw [Nat.mod_eq_of_lt (by omega)]
          exact hc
        · right
          refine ⟨?_, by omega⟩
          intro c0 h
          obtain ⟨e1, e2⟩ := (hm d c0).mp h
          omega
    · have h1 : [key].count d = 0 := by
        rw [List.count_eq_zero]
        intro h
        exact hd (List.mem_singleton.mp h)
      rw [h1, Nat.add_zero, ← hm d c]
      constructor
      · rintro (⟨_, h⟩ | ⟨h, _⟩)
        · exact h
        · exact absurd h hd
      · intro h
        exact Or.inl ⟨hd, h⟩
  · rw [increment_sum m ?_ key, hsum, List.length_append, List.length_singleton]
    intro x hx
    obtain ⟨d, c⟩ := x
    obtain ⟨e1, _⟩ := (hm d c).mp hx
    have := hle d
    simp only
    omega

/-- The loop of statements `++m[key]` over the values `ks`, from a map that counts the values
of `l`, gives the map that counts the values of `l ++ ks`. -/
theorem foldl_increment_counts :
    ∀ (ks : List Nat) (m : CountMap) (l : List Nat),
      m.Pairwise (fun a b => a.1 < b.1) →
      (∀ d c, (d, c) ∈ m ↔ (c = l.count d ∧ 0 < c)) →
      (m.map Prod.snd).sum = l.length →
      (l ++ ks).length < 4294967296 →
      (ks.foldl increment m).Pairwise (fun a b => a.1 < b.1) ∧
      (∀ d c, (d, c) ∈ ks.foldl increment m ↔ (c = (l ++ ks).count d ∧ 0 < c)) ∧
      ((ks.foldl increment m).map Prod.snd).sum = (l ++ ks).length := by
  intro ks
  induction ks with
  | nil =>
    intro m l hs hm hsum _
    rw [List.append_nil]
    exact ⟨hs, hm, hsum⟩
  | cons key ks ih =>
    intro m l hs hm hsum hlen
    have hlen2 : l.length + 1 < 4294967296 := by
      rw [List.length_append, List.length_cons] at hlen
      omega
    obtain ⟨a1, a2, a3⟩ := increment_counts m l key hs hm hsum hlen2
    have hassoc : l ++ key :: ks = (l ++ [key]) ++ ks := by simp
    rw [hassoc] at hlen ⊢
    exact ih (increment m key) (l ++ [key]) a1 a2 a3 hlen

/-- The histogram of a list of fewer than `2^32` values: the rows are in strictly increasing
order of the value, there is a row for exactly the values that occur, the count of a row is
the number of occurrences of its value, and the counts add up to the number of values. -/
theorem histogram_spec (values : List Nat) (hlen : values.length < 4294967296) :
    (histogram values).Pairwise (fun a b => a.1 < b.1) ∧
    (∀ d, (∃ c, (d, c) ∈ histogram values) ↔ d ∈ values) ∧
    (∀ d c, (d, c) ∈ histogram values → c = values.count d) ∧
    ((histogram values).map Prod.snd).sum = values.length := by
  have h := foldl_increment_counts values [] [] List.Pairwise.nil
    (by intro d c; simp) rfl (by simpa using hlen)
  rw [List.nil_append] at h
  obtain ⟨a1, a2, a3⟩ := h
  refine ⟨a1, ?_, ?_, a3⟩
  · intro d
    constructor
    · rintro ⟨c, hc⟩
      obtain ⟨e1, e2⟩ := (a2 d c).mp hc
      rw [e1] at e2
      exact List.count_pos_iff.mp e2
    · intro hd
      exact ⟨values.count d, (a2 d _).mpr ⟨rfl, List.count_pos_iff.mpr hd⟩⟩
  · intro d c hc
    exact ((a2 d c).mp hc).1

/-- The map `node_degrees` is the histogram of the degrees of the hypernodes. -/
theorem node_degrees_eq (hg : Hypergraph) :
    node_degrees hg = histogram (hg.nodes.map hg.nodeDegree) := by
  unfold node_degrees histogram
  rw [List.foldl_map]

/-- The map `edge_sizes` is the histogram of the sizes of the hyperedges. -/
theorem edge_sizes_eq (hg : Hypergraph) :
    edge_sizes hg = histogram (hg.edges.map hg.edgeSize) := by
  unfold edge_sizes histogram
  rw [List.foldl_map]

/-- The number of occurrences of a value among the images of a list. -/
theorem count_map_eq_filter_length {α : Type} (f : α → Nat) (l : List α) (d : Nat) :
    (l.map f).count d = (l.filter (fun v => decide (f v = d))).length := by
  induction l with
  | nil => rfl
  | cons a l ih =>
    rw [List.map_cons, List.count_cons, ih, List.filter_cons]
    by_cases h : f a = d
    · simp [h]
    · simp [h]

/-- Both histograms of the analyzer, for a hypergraph whose numbers of hypernodes and of
hyperedges fit the 32-bit counters. -/
theorem analyzer_histograms (hg : Hypergraph)
    (hn : hg.initialNumNodes < 4294967296) (he : hg.initialNumEdges < 4294967296) :
    ((∀ d, (∃ c, (d, c) ∈ node_degrees hg) ↔ ∃ v ∈ hg.nodes, hg.nodeDegree v = d) ∧
     (∀ d c, (d, c) ∈ node_degrees hg →
        c = (hg.nodes.filter (fun v => decide (hg.nodeDegree v = d))).length) ∧
     (node_degrees hg).Pairwise (fun a b => a.1 < b.1) ∧
     ((node_degrees hg).map Prod.snd).sum = hg.initialNumNodes) ∧
    ((∀ d, (∃ c, (d, c) ∈ edge_sizes hg) ↔ ∃ e ∈ hg.edges, hg.edgeSize e = d) ∧
     (∀ d c, (d, c) ∈ edge_sizes hg →
        c = (hg.edges.filter (fun e => decide (hg.edgeSize e = d))).length) ∧
     (edge_sizes hg).Pairwise (fun a b => a.1 < b.1) ∧
     ((edge_sizes hg).map Prod.snd).sum = hg.initialNumEdges) := by
  have ln : (hg.nodes.map hg.nodeDegree).length = hg.initialNumNodes := by
    simp [Hypergraph.nodes]
  have le : (hg.edges.map hg.edgeSize).length = hg.initialNumEdges := by
    simp [Hypergraph.edges]
  obtain ⟨a1, a2, a3, a4⟩ := histogram_spec (hg.nodes.map hg.nodeDegree) (by rw [ln]; exact hn)
  obtain ⟨b1, b2, b3, b4⟩ := histogram_spec (hg.edges.map hg.edgeSize) (by rw [le]; exact he)
  rw [← node_degrees_eq] at a1 a2 a3 a4
  rw [← edge_sizes_eq] at b1 b2 b3 b4
  refine ⟨⟨?_, ?_, a1, a4.trans ln⟩, ⟨?_, ?_, b1, b4.trans le⟩⟩
  · intro d
    rw [a2 d, List.mem_map]
  · intro d c h
    rw [a3 d c h, count_map_eq_filter_length]
  · intro d
    rw [b2 d, List.mem_map]
  · intro d c h
    rw [b3 d c h, count_map_eq_filter_length]


/-! ### The queue of the bisection growth -/

/-- The run of `bisectionPartitionImpl` on `pairsHg` ends after four iterations, with the
hypernodes 0, 1 and 2 in part 0. -/
theorem bisection_pairs_run :
    (bisectionPartitionImpl fmGrowingPolicies pairsConfig 4 pairsHg).map
      (fun st => (st.hg.part, st.bq, st.hn, st.calls)) =
      some ([0, 0, 0, 1, 1, 1], [(3, 1)], 3, 1) := by
  decide

/-- The executions of `bq.deleteMax()` at the top of the loop body in the run of
`bisectionPartitionImpl` on `pairsHg`. -/
theorem bisection_pairs_deleteMaxStates :
    deleteMaxStates fmGrowingPolicies pairsConfig 4 (bisectionStart fmGrowingPolicies pairsHg) =
      [([(0, -1)], 0), ([(1, 1)], 1), ([], 2)] := by
  decide

/-- An iteration of the do-while loop of `bisectionPartitionImpl` that takes its hypernode
from `getUnassignedNode(1)` leaves the queue empty: the hypernode is not pushed. -/
theorem bisectionBody_replacement_not_pushed (P : GrowingPolicies) (config : Configuration)
    (st : Bisection) (h : (bisectionBody P config st).2.calls = st.calls + 1) :
    BucketQueue.empty (bisectionBody P config st).2.bq = true ∧
    (bisectionBody P config st).2.hn = P.getUnassignedNode st.calls st.hg 1 := by
  unfold bisectionBody at h ⊢
  generalize bisectionSelect P st = sel at h ⊢
  simp only at h ⊢
  by_cases hf : (sel.1.empty && decide (st.hg.partID sel.2 ≠ 1)) = true
  · rw [if_pos hf]
    rw [Bool.and_eq_true] at hf
    exact ⟨hf.1, rfl⟩
  · rw [if_neg hf] at h
    omega


/-! ### Queue members of the round-robin growth are unassigned -/

/-- The loop over the pins of one hyperedge in `rerateNeighbours` leaves the queue of part 0
empty, for a target part other than 0. -/
theorem rerate_inner_queue_zero (cg : Hypergraph → HypernodeID → PartitionID → Gain)
    (hg : Hypergraph) (i : Int) (hi : i ≠ 0) (ws : List Nat) :
    ∀ b : List BucketQueue, b.getD 0 [] = [] →
      (ws.foldl (fun b1 w =>
        if hg.partID w = 0 then processNodeForBucketPQ_vector cg hg b1 w i else b1) b).getD
          0 [] = [] := by
  induction ws with
  | nil => intro b hb; exact hb
  | cons w ws ih =>
    intro b hb
    rw [List.foldl_cons]
    apply ih
    by_cases hw : hg.partID w = 0
    · rw [if_pos hw]
      rw [(processNodeForBucketPQ_vector_getD cg hg b w i
        (by rw [hw]; exact fun h => hi h.symm)).2 0, hb]
      by_cases hl : 0 < b.length
      · rw [if_pos hl]
        have hc : ¬ (BucketQueue.contains [] w = true) := by
          intro h
          cases h
        rw [if_neg hc, if_neg (by intro h; exact hi (by exact_mod_cast h.symm))]
      · rw [if_neg hl]
    · rw [if_neg hw]
      exact hb

/-- The function `rerateNeighbours` leaves the queue of part 0 empty, for a target part other
than 0. -/
theorem rerateNeighbours_queue_zero (P : GrowingPolicies) (hg : Hypergraph) (hn i : Nat)
    (hi : i ≠ 0) :
    ∀ b : List BucketQueue, b.getD 0 [] = [] →
      (rerateNeighbours P 0 hg b hn i).getD 0 [] = [] := by
  unfold rerateNeighbours
  generalize hg.incidentEdges hn = es
  induction es with
  | nil => intro b hb; exact hb
  | cons e es ih =>
    intro b hb
    rw [List.foldl_cons]
    apply ih
    exact rerate_inner_queue_zero P.calculateGain hg (i : Int) (by exact_mod_cast hi)
      (hg.pins e) b hb

/-- After `rerateNeighbours` for a target part other than 0, the queues hold hypernodes of
part 0 only, when they did before. -/
theorem rerateNeighbours_members (P : GrowingPolicies) (hg : Hypergraph) (hn i : Nat)
    (hi : i ≠ 0) :
    ∀ b : List BucketQueue,
      (∀ (p : Nat) (e : HypernodeID × Gain), e ∈ b.getD p [] → hg.partID e.1 = 0) →
      ∀ (p : Nat) (e : HypernodeID × Gain), e ∈ (rerateNeighbours P 0 hg b hn i).getD p [] →
        hg.partID e.1 = 0 := by
  unfold rerateNeighbours
  generalize hg.incidentEdges hn = es
  induction es with
  | nil => intro b hb; exact hb
  | cons x es ih =>
    intro b hb
    rw [List.foldl_cons]
    apply ih
    intro p e he
    exact (rerate_inner_good P.calculateGain hg (i : Int) (by exact_mod_cast hi)
      (fun _ => True) (hg.pins x) b
      (fun p e he => ⟨hb p e he, Or.inr (Or.inr trivial)⟩) p e he).1

/-- The queues after the refill at the start of a step of an enabled part hold hypernodes of
part 0 only, the queue of the part is not empty and the queue of part 0 is. -/
theorem refillQueue_members (P : GrowingPolicies) (st : Growth) (i : Nat)
    (hm : MembersUnassigned st.hg st.bq) (h0 : st.partEnable.getD 0 false = false)
    (hlen : st.bq.length = st.partEnable.length) (hq0 : st.bq.getD 0 [] = [])
    (hen : st.partEnable.getD i false = true)
    (horacle : (st.bq.getD i []).empty = true →
      st.hg.partID (P.getUnassignedNode st.calls st.hg 0) = 0) :
    MembersUnassigned st.hg (refillQueue P 0 st i) ∧
    (refillQueue P 0 st i).length = st.bq.length ∧
    (refillQueue P 0 st i).getD i [] ≠ [] ∧
    (refillQueue P 0 st i).getD 0 [] = [] := by
  have hil : i < st.bq.length := by
    rw [hlen]; exact lt_length_of_getD_bool _ _ hen
  have hi0 : i ≠ 0 := by
    intro h; rw [h, h0] at hen; cases hen
  unfold refillQueue
  by_cases hemp : (st.bq.getD i []).empty = true
  · rw [if_pos hemp]
    dsimp only
    have hq : st.bq.getD i [] = [] := List.isEmpty_iff.mp hemp
    have hu := horacle hemp
    have hproc : processNodeForBucketPQ P.calculateGain st.hg (st.bq.getD i [])
        (P.getUnassignedNode st.calls st.hg 0) (i : Int) =
        [(P.getUnassignedNode st.calls st.hg 0,
          P.calculateGain st.hg (P.getUnassignedNode st.calls st.hg 0) (i : Int))] := by
      unfold processNodeForBucketPQ
      rw [if_pos (by rw [hu]; exact fun h => hi0 (by exact_mod_cast h.symm)), hq]
      rfl
    rw [hproc]
    refine ⟨?_, by rw [List.length_set], ?_, ?_⟩
    · intro p e he
      by_cases hp : p = i
      · rw [hp, getD_set_same _ _ _ _ hil] at he
        rw [List.mem_singleton.mp he]
        exact hu
      · rw [getD_set_other _ _ _ _ _ hp] at he
        exact hm p e he
    · rw [getD_set_same _ _ _ _ hil]
      exact List.cons_ne_nil _ _
    · rw [getD_set_other _ _ _ _ _ (fun h => hi0 h.symm)]
      exact hq0
  · rw [if_neg hemp]
    refine ⟨hm, rfl, ?_, hq0⟩
    intro hq
    apply hemp
    rw [hq]
    rfl

/-- The hypernode popped in the step of an enabled part is in part 0. -/
theorem popped_unassigned (P : GrowingPolicies) (st : Growth) (i : Nat)
    (hm : MembersUnassigned st.hg st.bq) (h0 : st.partEnable.getD 0 false = false)
    (hlen : st.bq.length = st.partEnable.length) (hq0 : st.bq.getD 0 [] = [])
    (hen : st.partEnable.getD i false = true)
    (horacle : (st.bq.getD i []).empty = true →
      st.hg.partID (P.getUnassignedNode st.calls st.hg 0) = 0) :
    st.hg.partID ((refillQueue P 0 st i).getD i []).getMax = 0 := by
  obtain ⟨r2, _, r4, _⟩ := refillQueue_members P st i hm h0 hlen hq0 hen horacle
  exact r2 i _ (bq_getMax_mem _ r4)

/-- A round-robin step keeps the queues to hypernodes of part 0, keeps the queue of part 0
empty, and does not change the part of a hypernode that is in a part other than 0. -/
theorem growStep_members (P : GrowingPolicies) (config : Configuration) (st : Growth) (i : Nat)
    (hm : MembersUnassigned st.hg st.bq) (h0 : st.partEnable.getD 0 false = false)
    (hlen : st.bq.length = st.partEnable.length) (hq0 : st.bq.getD 0 [] = [])
    (horacle : st.partEnable.getD i false = true → (st.bq.getD i []).empty = true →
      st.hg.partID (P.getUnassignedNode st.calls st.hg 0) = 0) :
    MembersUnassigned (growStep P config 0 st i).hg (growStep P config 0 st i).bq ∧
    (growStep P config 0 st i).partEnable.getD 0 false = false ∧
    (growStep P config 0 st i).bq.length = (growStep P config 0 st i).partEnable.length ∧
    (growStep P config 0 st i).bq.getD 0 [] = [] ∧
    (∀ v, st.hg.partID v ≠ 0 → (growStep P config 0 st i).hg.partID v = st.hg.partID v) := by
  unfold growStep
  by_cases hen : st.partEnable.getD i false = true
  · rw [if_pos hen]
    dsimp only
    obtain ⟨r2, r3, r4, r5⟩ := refillQueue_members P st i hm h0 hlen hq0 hen (horacle hen)
    have hil : i < st.bq.length := by
      rw [hlen]; exact lt_length_of_getD_bool _ _ hen
    have hi0 : i ≠ 0 := by
      intro h; rw [h, h0] at hen; cases hen
    have hmax := bq_getMax_mem _ r4
    have hhn : st.hg.partID ((refillQueue P 0 st i).getD i []).getMax = 0 := r2 i _ hmax
    generalize ((refillQueue P 0 st i).getD i []).getMax = hn at hmax hhn ⊢
    unfold assignHypernodeToPartition
    split
    · -- the assignment is performed
      dsimp only
      rw [if_neg (by decide)]
      have hgood : ∀ (p : Nat) (e : HypernodeID × Gain),
          e ∈ (deleteAssignedNodeInBucketPQ
            ((refillQueue P 0 st i).set i ((refillQueue P 0 st i).getD i []).deleteMax)
              hn).getD p [] →
          (st.hg.changeNodePart hn (st.hg.partID hn) (i : Int)).partID e.1 = 0 := by
        intro p e he
        rw [(deleteAssignedNodeInBucketPQ_getD _ _).2 p] at he
        obtain ⟨he1, hne⟩ := (bq_mem_deleteNode _ _ _).mp he
        have he2 : e ∈ (refillQueue P 0 st i).getD p [] := by
          by_cases hp : p = i
          · rw [hp, getD_set_same _ _ _ _ (by rw [r3]; exact hil)] at he1
            unfold BucketQueue.deleteMax at he1
            rw [hp]
            exact ((bq_mem_deleteNode _ _ _).mp he1).1
          · rw [getD_set_other _ _ _ _ _ hp] at he1
            exact he1
        rw [partID_changeNodePart_ne _ _ _ _ _ hne]
        exact r2 p e he2
      have hzero : (deleteAssignedNodeInBucketPQ
            ((refillQueue P 0 st i).set i ((refillQueue P 0 st i).getD i []).deleteMax)
              hn).getD 0 [] = [] := by
        rw [(deleteAssignedNodeInBucketPQ_getD _ _).2 0,
          getD_set_other _ _ _ _ _ (fun h => hi0 h.symm), r5]
        rfl
      refine ⟨?_, h0, ?_, ?_, ?_⟩
      · intro p e he
        exact rerateNeighbours_members P _ hn i hi0 _ hgood p e he
      · show (rerateNeighbours P 0 _ _ hn i).length = st.partEnable.length
        rw [length_rerateNeighbours, (deleteAssignedNodeInBucketPQ_getD _ _).1, List.length_set,
          r3, hlen]
      · exact rerateNeighbours_queue_zero P _ hn i hi0 _ hzero
      · intro v hv
        show (st.hg.changeNodePart hn (st.hg.partID hn) (i : Int)).partID v = st.hg.partID v
        apply partID_changeNodePart_ne
        intro h
        rw [h] at hv
        exact hv hhn
    · -- the part is disabled
      dsimp only
      rw [if_pos (by decide)]
      refine ⟨r2, ?_, ?_, r5, fun _ _ => rfl⟩
      · show (st.partEnable.set i false).getD 0 false = false
        rw [getD_set_other _ _ _ _ _ (fun h => hi0 h.symm)]
        exact h0
      · show (refillQueue P 0 st i).length = (st.partEnable.set i false).length
        rw [r3, hlen, List.length_set]
  · rw [if_neg hen]
    exact ⟨hm, h0, hlen, hq0, fun _ _ => rfl⟩

/-- Before the main loop of `kwayPartitionImpl` the queue of part 0 is empty, when the start
nodes are hypernodes: the start node of part 0 is in part 0 and is not pushed. -/
theorem growStart_queue_zero (P : GrowingPolicies) (config : Configuration) (hg : Hypergraph)
    (hstart : ∀ v ∈ P.calculateStartNodes (growStart P config hg).hg
      config.initial_partitioning.k, v < hg.part.length) :
    (growStart P config hg).bq.getD 0 [] = [] := by
  have hhg : (growStart P config hg).hg =
      { hg with part := List.replicate hg.part.length (0 : Int) } := rfl
  rw [hhg] at hstart
  obtain ⟨_, h2⟩ := foldl_range_set
    (fun (i : Nat) (q : BucketQueue) =>
      processNodeForBucketPQ P.calculateGain
        { hg with part := List.replicate hg.part.length (0 : Int) } q
        ((P.calculateStartNodes { hg with part := List.replicate hg.part.length (0 : Int) }
          config.initial_partitioning.k).getD i 0) (i : Int))
    [] (List.replicate config.initial_partitioning.k ([] : BucketQueue))
    (P.calculateStartNodes { hg with part := List.replicate hg.part.length (0 : Int) }
      config.initial_partitioning.k).length
  have hbq : (growStart P config hg).bq =
      (List.range (P.calculateStartNodes
          { hg with part := List.replicate hg.part.length (0 : Int) }
          config.initial_partitioning.k).length).foldl
        (fun b i => b.set i
          ((fun (i : Nat) (q : BucketQueue) =>
            processNodeForBucketPQ P.calculateGain
              { hg with part := List.replicate hg.part.length (0 : Int) } q
              ((P.calculateStartNodes
                { hg with part := List.replicate hg.part.length (0 : Int) }
                config.initial_partitioning.k).getD i 0) (i : Int)) i (b.getD i [])))
        (List.replicate config.initial_partitioning.k ([] : BucketQueue)) := rfl
  rw [hbq, h2 0]
  split
  · rename_i hp
    rw [getD_replicate_nil]
    unfold processNodeForBucketPQ
    rw [if_neg]
    intro hne
    apply hne
    have := partID_replicate_zero hg
      ((P.calculateStartNodes { hg with part := List.replicate hg.part.length (0 : Int) }
        config.initial_partitioning.k).getD 0 0)
      (by
        apply hstart
        rw [List.getD_eq_getElem _ _ hp.1]
        exact List.getElem_mem _)
    rw [this]
    rfl
  · exact getD_replicate_nil _ _

/-- At the start of every round-robin step of `kwayPartitionImpl` the queues hold hypernodes
of part 0 only, part 0 is disabled, there is a queue per entry of `partEnable`, and the queue
of part 0 is empty. -/
theorem members_of_reachable (P : GrowingPolicies) (config : Configuration) (hg : Hypergraph)
    (hstart : ∀ v ∈ P.calculateStartNodes (growStart P config hg).hg
      config.initial_partitioning.k, v < hg.part.length)
    (st : Growth) (hr : GrowReachable P config hg st) :
    MembersUnassigned st.hg st.bq ∧ st.partEnable.getD 0 false = false ∧
    st.bq.length = st.partEnable.length ∧ st.bq.getD 0 [] = [] := by
  induction hr with
  | start =>
    obtain ⟨_, hm, h0, hlen⟩ := growStart_inv P config hg hstart
    exact ⟨hm, h0, hlen, growStart_queue_zero P config hg hstart⟩
  | step st i _ _ horacle ih =>
    obtain ⟨hm, h0, hlen, hq0⟩ := ih
    obtain ⟨a, b, c, d, _⟩ := growStep_members P config st i hm h0 hlen hq0 horacle
    exact ⟨a, b, c, d⟩

/-- No hypernode is assigned twice by the round-robin growth: in every state at the start of
a round-robin step, every hypernode contained in a queue is in part 0 and the queue of part 0
is empty; in the step of an enabled part the popped hypernode is in part 0; and a step does
not change the part of a hypernode that is in a part other than 0. -/
theorem grow_no_second_assignment (P : GrowingPolicies) (config : Configuration)
    (hg : Hypergraph)
    (hstart : ∀ v ∈ P.calculateStartNodes (growStart P config hg).hg
      config.initial_partitioning.k, v < hg.part.length)
    (st : Growth) (hr : GrowReachable P config hg st) :
    (∀ (p : Nat) (v : HypernodeID), (st.bq.getD p []).contains v = true →
      st.hg.partID v = 0) ∧
    st.bq.getD 0 [] = [] ∧
    (∀ i, st.partEnable.getD i false = true →
      ((st.bq.getD i []).empty = true →
        st.hg.partID (P.getUnassignedNode st.calls st.hg 0) = 0) →
      ((refillQueue P 0 st i).getD i []).empty = false ∧
      st.hg.partID ((refillQueue P 0 st i).getD i []).getMax = 0 ∧
      ∀ v, st.hg.partID v ≠ 0 → (growStep P config 0 st i).hg.partID v = st.hg.partID v) := by
  obtain ⟨hm, h0, hlen, hq0⟩ := members_of_reachable P config hg hstart st hr
  refine ⟨?_, hq0, ?_⟩
  · intro p v hc
    obtain ⟨e, he, hv⟩ := (bq_contains_iff _ _).mp hc
    rw [← hv]
    exact hm p e he
  · intro i hen horacle
    obtain ⟨_, _, r4, _⟩ := refillQueue_members P st i hm h0 hlen hq0 hen horacle
    refine ⟨?_, popped_unassigned P st i hm h0 hlen hq0 hen horacle,
      (growStep_members P config st i hm h0 hlen hq0 (fun _ => horacle)).2.2.2.2⟩
    cases hq : (refillQueue P 0 st i).getD i [] with
    | nil => exact absurd hq r4
    | cons _ _ => rfl
/-! ## The claims -/

/-- C1: FM gain law for `computeMaxGain`: for a border node `hn` of a partitioned hypergraph
all of whose incident hyperedges have at least two pins, if `computeMaxGain(hn)` returns
`(g, t)` then the cut after `changeNodePart(hn, partID(hn), t)` is the cut before minus `g`
(`_tmp_gains` is all zero on entry, as the refiner keeps it). -/
theorem C1_fm_gain_law (r : MaxGainNodeKWayFMRefiner) (hn : HypernodeID)
    (hwf : r.hg.WellFormed) (hl1 : r.hg.k ≤ r.tmp_gains.length)
    (hl2 : r.hg.k ≤ r.tmp_connectivity_decrease.length)
    (hz : ∀ x ∈ r.tmp_gains, x = 0)
    (hb : isBorderNode r.hg hn = true)
    (hsz : ∀ e ∈ r.hg.incidentEdges hn, 2 ≤ r.hg.edgeSize e) :
    hyperedgeCut (r.hg.changeNodePart hn (r.hg.partID hn) (computeMaxGain r hn).1.2) =
      hyperedgeCut r.hg - (computeMaxGain r hn).1.1 := by
  obtain ⟨h1, h2, _, _⟩ := computeMaxGain_char r hn hwf hl1 hl2 hz hb
  rw [mem_candidateParts] at h1
  rw [singlePinWeight_eq_zero r.hg hn hsz, sub_zero] at h2
  rw [hyperedgeCut_changeNodePart r.hg hwf hn _ h1.1 h1.2.1, ← h2]

theorem C1_fm_gain_law_witness :
    (computeMaxGain (init exampleHg { k := 2, max_part_weight := 100 }) 2).1 = (2, 0) ∧
    hyperedgeCut exampleHg = 3 ∧
    hyperedgeCut (exampleHg.changeNodePart 2 1 0) = hyperedgeCut exampleHg - 2 :=
  ⟨by decide, by decide,
    C1_fm_gain_law (init exampleHg { k := 2, max_part_weight := 100 }) 2
      (by decide) (by decide) (by decide) (by decide) (by decide) (by decide)⟩

/-- C2 (amended): for a border node `hn` whose incident hyperedges all have at least two pins,
with `_tmp_gains` all zero on entry, the returned target part is a candidate part (a part
other than the source part in the connectivity set of an incident hyperedge), the returned
gain is `gainTo` of that part, and no candidate part has a larger `gainTo`: the returned gain
is the maximum over the candidate parts and the returned part attains it. -/
theorem C2_max_gain_over_candidates (r : MaxGainNodeKWayFMRefiner) (hn : HypernodeID)
    (hwf : r.hg.WellFormed) (hl1 : r.hg.k ≤ r.tmp_gains.length)
    (hl2 : r.hg.k ≤ r.tmp_connectivity_decrease.length)
    (hz : ∀ x ∈ r.tmp_gains, x = 0)
    (hb : isBorderNode r.hg hn = true)
    (hsz : ∀ e ∈ r.hg.incidentEdges hn, 2 ≤ r.hg.edgeSize e) :
    (computeMaxGain r hn).1.2 ∈ candidateParts r.hg hn ∧
    (computeMaxGain r hn).1.1 = gainTo r.hg hn (computeMaxGain r hn).1.2 ∧
    ∀ t ∈ candidateParts r.hg hn, gainTo r.hg hn t ≤ (computeMaxGain r hn).1.1 := by
  obtain ⟨h1, h2, h3, _⟩ := computeMaxGain_char r hn hwf hl1 hl2 hz hb
  rw [singlePinWeight_eq_zero r.hg hn hsz] at h2 h3
  simp only [sub_zero] at h2 h3
  exact ⟨h1, h2, h3⟩

theorem C2_max_gain_over_candidates_witness :
    candidateParts exampleHg 2 = [0] ∧ gainTo exampleHg 2 0 = 2 ∧
    ((computeMaxGain (init exampleHg { k := 2, max_part_weight := 100 }) 2).1.2
        ∈ candidateParts (init exampleHg { k := 2, max_part_weight := 100 }).hg 2 ∧
      (computeMaxGain (init exampleHg { k := 2, max_part_weight := 100 }) 2).1.1 =
        gainTo (init exampleHg { k := 2, max_part_weight := 100 }).hg 2
          (computeMaxGain (init exampleHg { k := 2, max_part_weight := 100 }) 2).1.2 ∧
      ∀ t ∈ candidateParts (init exampleHg { k := 2, max_part_weight := 100 }).hg 2,
        gainTo (init exampleHg { k := 2, max_part_weight := 100 }).hg 2 t ≤
          (computeMaxGain (init exampleHg { k := 2, max_part_weight := 100 }) 2).1.1) :=
  ⟨by decide, by decide,
    C2_max_gain_over_candidates (init exampleHg { k := 2, max_part_weight := 100 }) 2
      (by decide) (by decide) (by decide) (by decide) (by decide) (by decide)⟩

/-- C2 fails as stated: hypernode 0 of `singlePinHg` is a border node, the scratch arrays are
all zero, its only candidate part is 1 with `gainTo = 1`, and `computeMaxGain` returns the
gain 0, because the single-pin hyperedge only counts for `internal_weight`. -/
theorem C2_counterexample :
    singlePinHg.WellFormed ∧ isBorderNode singlePinHg 0 = true ∧
    (∀ x ∈ (init singlePinHg { k := 2, max_part_weight := 100 }).tmp_gains, x = 0) ∧
    (∀ x ∈ (init singlePinHg { k := 2, max_part_weight := 100 }).tmp_connectivity_decrease,
      x = 0) ∧
    candidateParts singlePinHg 0 = [1] ∧ gainTo singlePinHg 0 1 = 1 ∧
    (computeMaxGain (init singlePinHg { k := 2, max_part_weight := 100 }) 0).1 = (0, 1) := by
  decide

/-- C10 (amended): for a border node `hn`, with `_tmp_gains` all zero on entry as the code
asserts, the returned target part is a candidate part of maximal gain.  Unless the source
part is overweight and some candidate part of maximal gain fits (its weight plus the weight
of `hn` is below `max_part_weight`), the returned target part has, among the candidate parts
of maximal gain, the largest value of the counter `_tmp_connectivity_decrease[t]` that the
selection loop reads, which is the value of the entry when the call is entered plus
`connectivity_decrease(t)`; when the entries of the candidate parts are 0 on entry it has the
largest `connectivity_decrease`.  With an overweight source part the part-weight criterion
is a third, independent alternative of the selection: a target whose gain equals the current
maximum, that fits and is lighter than the current choice replaces it, whatever its
`connectivity_decrease`. -/
theorem C10_tie_break_connectivity_decrease (r : MaxGainNodeKWayFMRefiner)
    (hn : HypernodeID) (hwf : r.hg.WellFormed) (hl1 : r.hg.k ≤ r.tmp_gains.length)
    (hl2 : r.hg.k ≤ r.tmp_connectivity_decrease.length)
    (hz : ∀ x ∈ r.tmp_gains, x = 0)
    (hb : isBorderNode r.hg hn = true) :
    (computeMaxGain r hn).1.2 ∈ candidateParts r.hg hn ∧
    (∀ t ∈ candidateParts r.hg hn,
      gainTo r.hg hn t ≤ gainTo r.hg hn (computeMaxGain r hn).1.2) ∧
    ((r.hg.partWeight (r.hg.partID hn) < r.config.max_part_weight ∨
        ∀ t ∈ candidateParts r.hg hn,
          gainTo r.hg hn t = gainTo r.hg hn (computeMaxGain r hn).1.2 →
          r.config.max_part_weight ≤ r.hg.partWeight t + r.hg.nodeWeight hn) →
      (∀ t ∈ candidateParts r.hg hn,
        gainTo r.hg hn t = gainTo r.hg hn (computeMaxGain r hn).1.2 →
          getAt r.tmp_connectivity_decrease t + connectivityDecrease r.hg hn t ≤
            getAt r.tmp_connectivity_decrease (computeMaxGain r hn).1.2 +
              connectivityDecrease r.hg hn (computeMaxGain r hn).1.2) ∧
      ((∀ u ∈ candidateParts r.hg hn, getAt r.tmp_connectivity_decrease u = 0) →
        ∀ t ∈ candidateParts r.hg hn,
          gainTo r.hg hn t = gainTo r.hg hn (computeMaxGain r hn).1.2 →
            connectivityDecrease r.hg hn t ≤
              connectivityDecrease r.hg hn (computeMaxGain r hn).1.2)) ∧
    (∀ (b : GainPick) (internal_weight : HyperedgeWeight) (t : PartitionID),
      getAt b.tmp_gains t - internal_weight = b.max_gain →
      r.config.max_part_weight ≤ r.hg.partWeight (r.hg.partID hn) →
      r.hg.partWeight t + r.hg.nodeWeight hn < r.config.max_part_weight →
      r.hg.partWeight t + r.hg.nodeWeight hn <
        r.hg.partWeight b.max_gain_part + r.hg.nodeWeight hn →
      (pickTarget r.hg r.config hn (r.hg.partID hn) internal_weight b t).max_gain_part = t) := by
  obtain ⟨h1, h2, h3, h4⟩ := computeMaxGain_char r hn hwf hl1 hl2 hz hb
  have hgen : (r.hg.partWeight (r.hg.partID hn) < r.config.max_part_weight ∨
        ∀ t ∈ candidateParts r.hg hn,
          gainTo r.hg hn t = gainTo r.hg hn (computeMaxGain r hn).1.2 →
          r.config.max_part_weight ≤ r.hg.partWeight t + r.hg.nodeWeight hn) →
      ∀ t ∈ candidateParts r.hg hn,
        gainTo r.hg hn t = gainTo r.hg hn (computeMaxGain r hn).1.2 →
          getAt r.tmp_connectivity_decrease t + connectivityDecrease r.hg hn t ≤
            getAt r.tmp_connectivity_decrease (computeMaxGain r hn).1.2 +
              connectivityDecrease r.hg hn (computeMaxGain r hn).1.2 := by
    intro hw t ht hge
    exact h4 (hw.imp id (fun h u hu hue => h u hu (by rw [h2] at hue; linarith))) t ht
      (by rw [h2, hge])
  refine ⟨h1, ?_, ?_, ?_⟩
  · intro t ht
    have := h3 t ht
    rw [h2] at this
    linarith
  · intro hw
    refine ⟨hgen hw, ?_⟩
    intro hzero t ht hge
    have := hgen hw t ht hge
    rw [hzero t ht, hzero _ h1] at this
    linarith
  · intro b iw t e1 e2 e3 e4
    exact (pickTarget_third_alternative r.hg r.config hn (r.hg.partID hn) iw b t e1 e2 e3 e4).1

/-- Witness of C10 in a state that an earlier call has left: after `computeMaxGain(1)` on
`staleTieHg` the entry of part 0 in `_tmp_connectivity_decrease` is 1, and the call for
hypernode 0 returns the part 0, whose counter reads 1 + 1, the same as the counter 0 + 2 of
part 2. -/
theorem C10_tie_break_connectivity_decrease_witness :
    (computeMaxGain (init staleTieHg { k := 3, max_part_weight := 20 })
      1).2.tmp_connectivity_decrease = [1, 0, 0] ∧
    (computeMaxGain
      (computeMaxGain (init staleTieHg { k := 3, max_part_weight := 20 }) 1).2 0).1 = (2, 0) ∧
    (computeMaxGain
      (computeMaxGain (init staleTieHg { k := 3, max_part_weight := 20 }) 1).2 0).1.2 ∈
        candidateParts
          (computeMaxGain (init staleTieHg { k := 3, max_part_weight := 20 }) 1).2.hg 0 :=
  ⟨by decide, by decide,
    (C10_tie_break_connectivity_decrease
      (computeMaxGain (init staleTieHg { k := 3, max_part_weight := 20 }) 1).2 0
      (by decide) (by decide) (by decide) (by decide) (by decide)).1⟩

/-- C10 fails as stated, in two ways.  For hypernode 0 of `tieHg` with `max_part_weight = 5`
(the source part weighs 11) and all-zero scratch arrays, the candidate parts 1 and 2 both
have the maximal gain 2, part 1 has `connectivity_decrease` 2 and part 2 only 1, and
`computeMaxGain` returns part 2: the part-weight criterion replaced part 1 although the two
parts do not tie on `connectivity_decrease`.  For hypernode 0 of `staleTieHg` with
`max_part_weight = 20` (the source part is not overweight), in the state that the call
`computeMaxGain(1)` on the new refiner has left (`_tmp_gains` all zero,
`_tmp_connectivity_decrease = [1, 0, 0]`), the candidate parts 0 and 2 both have the maximal
gain 2, part 0 has `connectivity_decrease` 1 and part 2 has 2, and `computeMaxGain` returns
part 0. -/
theorem C10_counterexample :
    (tieHg.WellFormed ∧ isBorderNode tieHg 0 = true ∧
      (∀ x ∈ (init tieHg { k := 3, max_part_weight := 5 }).tmp_gains, x = 0) ∧
      (∀ x ∈ (init tieHg { k := 3, max_part_weight := 5 }).tmp_connectivity_decrease, x = 0) ∧
      candidateParts tieHg 0 = [1, 2] ∧
      gainTo tieHg 0 1 = 2 ∧ gainTo tieHg 0 2 = 2 ∧
      connectivityDecrease tieHg 0 1 = 2 ∧ connectivityDecrease tieHg 0 2 = 1 ∧
      (computeMaxGain (init tieHg { k := 3, max_part_weight := 5 }) 0).1 = (2, 2)) ∧
    (staleTieHg.WellFormed ∧ isBorderNode staleTieHg 1 = true ∧
      isBorderNode staleTieHg 0 = true ∧
      (computeMaxGain (init staleTieHg { k := 3, max_part_weight := 20 }) 1).2.hg =
        staleTieHg ∧
      (computeMaxGain (init staleTieHg { k := 3, max_part_weight := 20 }) 1).2.tmp_gains =
        [0, 0, 0] ∧
      (computeMaxGain (init staleTieHg { k := 3, max_part_weight := 20 })
        1).2.tmp_connectivity_decrease = [1, 0, 0] ∧
      staleTieHg.partWeight (staleTieHg.partID 0) < 20 ∧
      candidateParts staleTieHg 0 = [0, 2] ∧
      gainTo staleTieHg 0 0 = 2 ∧ gainTo staleTieHg 0 2 = 2 ∧
      connectivityDecrease staleTieHg 0 0 = 1 ∧ connectivityDecrease staleTieHg 0 2 = 2 ∧
      (computeMaxGain
        (computeMaxGain (init staleTieHg { k := 3, max_part_weight := 20 }) 1).2 0).1 =
          (2, 0)) := by
  decide

/-- C3: rollback restores exactly the best run of moves: for a move log of `num_moves` performed
moves held in `_performed_moves`, and every `min_cut_index` with
`-1 ≤ min_cut_index ≤ num_moves - 1`, `rollback(num_moves - 1, min_cut_index)` terminates
(any fuel of at least `num_moves` suffices) and leaves the hypergraph as it was immediately
after move number `min_cut_index` (as at entry when `min_cut_index = -1`), the rest of
the refiner unchanged. -/
theorem C3_rollback_restores_best_state (hg0 : Hypergraph) (log : List RollbackInfo)
    (r : MaxGainNodeKWayFMRefiner) (min_cut_index : Int) (fuel : Nat)
    (hlog : IsMoveLog hg0 log)
    (hst : r.performed_moves.take log.length = log)
    (hhg : r.hg = applyMoves hg0 log)
    (h1 : -1 ≤ min_cut_index) (h2 : min_cut_index ≤ (log.length : Int) - 1)
    (hf : log.length ≤ fuel) :
    rollback fuel r ((log.length : Int) - 1) min_cut_index =
      some { r with hg := applyMoves hg0 (log.take (min_cut_index + 1).toNat) } := by
  have hn : (min_cut_index + 1).toNat ≤ log.length := by omega
  have key := rollback_take hg0 log hlog (min_cut_index + 1).toNat
    (log.length - (min_cut_index + 1).toNat) fuel r (by omega) (by omega) hst
    (by
      rw [hhg, show (min_cut_index + 1).toNat + (log.length - (min_cut_index + 1).toNat)
        = log.length by omega, List.take_length])
  have e1 : (((min_cut_index + 1).toNat + (log.length - (min_cut_index + 1).toNat) : Nat) : Int)
      - 1 = (log.length : Int) - 1 := by omega
  have e2 : (((min_cut_index + 1).toNat : Nat) : Int) - 1 = min_cut_index := by omega
  rw [e1, e2] at key
  exact key

theorem C3_rollback_restores_best_state_witness :
    rollback 2
        { init exampleHg { k := 2, max_part_weight := 100 } with
          hg := applyMoves exampleHg
            [{ hn := 2, from_part := 1, to_part := 0 }, { hn := 1, from_part := 0, to_part := 1 }]
          performed_moves :=
            [{ hn := 2, from_part := 1, to_part := 0 }, { hn := 1, from_part := 0, to_part := 1 },
              default, default] }
        (((([{ hn := 2, from_part := 1, to_part := 0 },
          { hn := 1, from_part := 0, to_part := 1 }] : List RollbackInfo).length : Nat) : Int) - 1)
        0 =
      some
        { init exampleHg { k := 2, max_part_weight := 100 } with
          hg := applyMoves exampleHg
            (([{ hn := 2, from_part := 1, to_part := 0 },
              { hn := 1, from_part := 0, to_part := 1 }] : List RollbackInfo).take
                ((0 : Int) + 1).toNat)
          performed_moves :=
            [{ hn := 2, from_part := 1, to_part := 0 }, { hn := 1, from_part := 0, to_part := 1 },
              default, default] } :=
  C3_rollback_restores_best_state exampleHg
    [{ hn := 2, from_part := 1, to_part := 0 }, { hn := 1, from_part := 0, to_part := 1 }]
    _ 0 2 ⟨by decide, by decide, trivial⟩ (by decide) rfl (by decide) (by decide) (by decide)

/-- C4, with the precondition that no hyperedge has a single pin: when `refineImpl` is called
in a state `Ready` with `best_cut` equal to `hyperedgeCut` of the hypergraph, it returns
(any fuel of at least the number of hypernodes suffices for both loops); the first
`num_moves` entries of `_performed_moves` at the end of the main loop are the log of the
performed moves and lead from the hypergraph at entry to the one at the end of the loop; the
`best_cut` on return equals `hyperedgeCut` recomputed on the resulting hypergraph, which is
the state after a prefix of the log, and is at most the cut of the entry state and of the
state after every performed move: it is the minimum of the observed cuts. -/
theorem C4_best_cut_is_recomputed_minimum {σ : Type} (P : StoppingPolicy σ) (rnd : Randomize)
    (fuel : Nat) (r : MaxGainNodeKWayFMRefiner) (policy : σ)
    (refinement_nodes : List HypernodeID) (num_refinement_nodes : Nat)
    (hr : Ready r) (hns : NoSinglePin r.hg) (hf : r.hg.initialNumNodes ≤ fuel) :
    ∃ s res,
      searchLoop P rnd fuel (refineStart P rnd r policy refinement_nodes num_refinement_nodes
        (hyperedgeCut r.hg)) = some s ∧
      refineImpl P rnd fuel r policy refinement_nodes num_refinement_nodes
        (hyperedgeCut r.hg) = some res ∧
      IsMoveLog r.hg (s.r.performed_moves.take s.num_moves) ∧
      s.r.hg = applyMoves r.hg (s.r.performed_moves.take s.num_moves) ∧
      res.best_cut = hyperedgeCut res.r.hg ∧
      (∃ i, i ≤ s.num_moves ∧
        res.r.hg = applyMoves r.hg ((s.r.performed_moves.take s.num_moves).take i)) ∧
      ∀ i, i ≤ s.num_moves → res.best_cut ≤
        hyperedgeCut (applyMoves r.hg ((s.r.performed_moves.take s.num_moves).take i)) := by
  obtain ⟨s, res, h1, h2, h3, h4, h5, _, _, h8⟩ :=
    refineImpl_cut P rnd fuel r policy refinement_nodes num_refinement_nodes hr hf
  exact ⟨s, res, h1, h2, h3, h4, (h8 hns).1, h5, (h8 hns).2⟩

theorem C4_best_cut_is_recomputed_minimum_witness :
    Ready (init exampleHg { k := 2, max_part_weight := 100 }) ∧
    NoSinglePin (init exampleHg { k := 2, max_part_weight := 100 }).hg ∧
    (init exampleHg { k := 2, max_part_weight := 100 }).hg.initialNumNodes ≤ 10 ∧
    ∃ s res,
      searchLoop neverStop headsOnly 10
        (refineStart neverStop headsOnly (init exampleHg { k := 2, max_part_weight := 100 }) ()
          [0, 1, 2, 3] 4
          (hyperedgeCut (init exampleHg { k := 2, max_part_weight := 100 }).hg)) = some s ∧
      refineImpl neverStop headsOnly 10 (init exampleHg { k := 2, max_part_weight := 100 }) ()
        [0, 1, 2, 3] 4
        (hyperedgeCut (init exampleHg { k := 2, max_part_weight := 100 }).hg) = some res ∧
      IsMoveLog (init exampleHg { k := 2, max_part_weight := 100 }).hg
        (s.r.performed_moves.take s.num_moves) ∧
      s.r.hg = applyMoves (init exampleHg { k := 2, max_part_weight := 100 }).hg
        (s.r.performed_moves.take s.num_moves) ∧
      res.best_cut = hyperedgeCut res.r.hg ∧
      (∃ i, i ≤ s.num_moves ∧
        res.r.hg = applyMoves (init exampleHg { k := 2, max_part_weight := 100 }).hg
          ((s.r.performed_moves.take s.num_moves).take i)) ∧
      ∀ i, i ≤ s.num_moves → res.best_cut ≤
        hyperedgeCut (applyMoves (init exampleHg { k := 2, max_part_weight := 100 }).hg
          ((s.r.performed_moves.take s.num_moves).take i)) :=
  ⟨by decide, by decide, by decide,
    C4_best_cut_is_recomputed_minimum neverStop headsOnly 10
      (init exampleHg { k := 2, max_part_weight := 100 }) () [0, 1, 2, 3] 4
      (by decide) (by decide) (by decide)⟩

/-- C4 as stated fails when a hyperedge has a single pin: on `singlePinHg`, whose cut is 1,
`refineImpl` called with `best_cut = 1` moves hypernode 0 with the computed gain 0 and returns
with `best_cut = 1`, while `hyperedgeCut` recomputed on the resulting hypergraph is 0. -/
theorem C4_counterexample :
    Ready (init singlePinHg { k := 2, max_part_weight := 100 }) ∧
    hyperedgeCut (init singlePinHg { k := 2, max_part_weight := 100 }).hg = 1 ∧
    (refineImpl neverStop headsOnly 10 (init singlePinHg { k := 2, max_part_weight := 100 })
      () [0, 1] 2 1).map (fun res => (res.best_cut, hyperedgeCut res.r.hg, res.r.hg.part)) =
      some (1, 0, [1, 1, 0]) := by
  decide

/-- C5: no regression.  When `refineImpl` is called in a state `Ready` with `best_cut` equal
to `hyperedgeCut` of the hypergraph, then for every stopping policy and every random source
it returns (any fuel of at least the number of hypernodes suffices for both loops), and
both `hyperedgeCut` of the hypergraph on return and the value left in `best_cut` are at most
the cut at entry. -/
theorem C5_no_regression {σ : Type} (P : StoppingPolicy σ) (rnd : Randomize)
    (fuel : Nat) (r : MaxGainNodeKWayFMRefiner) (policy : σ)
    (refinement_nodes : List HypernodeID) (num_refinement_nodes : Nat)
    (hr : Ready r) (hf : r.hg.initialNumNodes ≤ fuel) :
    ∃ res,
      refineImpl P rnd fuel r policy refinement_nodes num_refinement_nodes
        (hyperedgeCut r.hg) = some res ∧
      hyperedgeCut res.r.hg ≤ hyperedgeCut r.hg ∧ res.best_cut ≤ hyperedgeCut r.hg := by
  obtain ⟨s, res, _, h2, _, _, _, h6, h7, _⟩ :=
    refineImpl_cut P rnd fuel r policy refinement_nodes num_refinement_nodes hr hf
  exact ⟨res, h2, le_trans h6 h7, h7⟩

theorem C5_no_regression_witness :
    Ready (init exampleHg { k := 2, max_part_weight := 100 }) ∧
    (init exampleHg { k := 2, max_part_weight := 100 }).hg.initialNumNodes ≤ 10 ∧
    ∃ res,
      refineImpl neverStop headsOnly 10 (init exampleHg { k := 2, max_part_weight := 100 }) ()
        [0, 1, 2, 3] 4
        (hyperedgeCut (init exampleHg { k := 2, max_part_weight := 100 }).hg) = some res ∧
      hyperedgeCut res.r.hg ≤
        hyperedgeCut (init exampleHg { k := 2, max_part_weight := 100 }).hg ∧
      res.best_cut ≤ hyperedgeCut (init exampleHg { k := 2, max_part_weight := 100 }).hg :=
  ⟨by decide, by decide,
    C5_no_regression neverStop headsOnly 10
      (init exampleHg { k := 2, max_part_weight := 100 }) () [0, 1, 2, 3] 4
      (by decide) (by decide)⟩

/-- C6: `moveHypernode(hn, from, to)` returns false exactly when
`partWeight(to) + nodeWeight(hn) ≥ max_part_weight` or `partSize(from) - 1 = 0`, and then the
hypergraph (partition, part weights, part sizes) is unchanged; otherwise it returns true and
the hypergraph is the result of `changeNodePart(hn, from, to)`. -/
theorem C6_moveHypernode_acceptance (r : MaxGainNodeKWayFMRefiner) (hn : HypernodeID)
    (from_part to_part : PartitionID) :
    ((moveHypernode r hn from_part to_part).1 = false ↔
      (r.hg.partWeight to_part + r.hg.nodeWeight hn ≥ r.config.max_part_weight ∨
        (r.hg.partSize from_part : Int) - 1 = 0)) ∧
    ((moveHypernode r hn from_part to_part).1 = false →
      (moveHypernode r hn from_part to_part).2.hg = r.hg ∧
      (∀ p, (moveHypernode r hn from_part to_part).2.hg.partWeight p = r.hg.partWeight p) ∧
      (∀ p, (moveHypernode r hn from_part to_part).2.hg.partSize p = r.hg.partSize p) ∧
      (∀ v, (moveHypernode r hn from_part to_part).2.hg.partID v = r.hg.partID v)) ∧
    ((moveHypernode r hn from_part to_part).1 = true →
      (moveHypernode r hn from_part to_part).2.hg =
        r.hg.changeNodePart hn from_part to_part) := by
  unfold moveHypernode
  dsimp only
  by_cases h : r.hg.partWeight to_part + r.hg.nodeWeight hn ≥ r.config.max_part_weight ∨
      (r.hg.partSize from_part : Int) - 1 = 0
  · rw [if_pos h]
    simp [h]
  · rw [if_neg h]
    simp [h]

/-- C7: `moveHypernode` marks the hypernode in every case: afterwards `_marked[hn]` is true,
whether the move was performed or refused, and the mark of no other hypernode changes. -/
theorem C7_moveHypernode_marks (r : MaxGainNodeKWayFMRefiner) (hn : HypernodeID)
    (from_part to_part : PartitionID) (hlt : hn < r.marked.length) :
    (moveHypernode r hn from_part to_part).2.marked.getD hn false = true ∧
    (∀ v, v ≠ hn →
      (moveHypernode r hn from_part to_part).2.marked.getD v false = r.marked.getD v false) ∧
    (moveHypernode r hn from_part to_part).2.marked = r.marked.set hn true := by
  have hm : (moveHypernode r hn from_part to_part).2.marked = r.marked.set hn true := by
    unfold moveHypernode
    dsimp only
    split <;> rfl
  rw [hm]
  refine ⟨?_, ?_, rfl⟩
  · simp [List.getD_eq_getElem?_getD, List.getElem?_set, hlt]
  · intro v hv
    simp [List.getD_eq_getElem?_getD, List.getElem?_set, Ne.symm hv]

theorem C7_moveHypernode_marks_witness :
    (moveHypernode (init exampleHg { k := 2, max_part_weight := 2 }) 2 1 0).1 = false ∧
    ((moveHypernode (init exampleHg { k := 2, max_part_weight := 2 }) 2 1 0).2.marked.getD 2 false
        = true ∧
      (∀ v, v ≠ 2 →
        (moveHypernode (init exampleHg { k := 2, max_part_weight := 2 }) 2 1 0).2.marked.getD v
            false =
          (init exampleHg { k := 2, max_part_weight := 2 }).marked.getD v false) ∧
      (moveHypernode (init exampleHg { k := 2, max_part_weight := 2 }) 2 1 0).2.marked =
        (init exampleHg { k := 2, max_part_weight := 2 }).marked.set 2 true) :=
  ⟨by decide, C7_moveHypernode_marks (init exampleHg { k := 2, max_part_weight := 2 }) 2 1 0
    (by decide)⟩

/-- C8: hyperedge lock state machine of `updateNeighbours(hn, s, t)` for a part id `t`: every
hyperedge incident to `hn` ends loose towards `t` if it was free or loose towards `t`, and
locked if it was loose towards another part or locked; the lock state of every other
hyperedge is unchanged.  The loop body on a hyperedge `e`, in any refiner state `r0`: if `e`
is free it sets the lock to `t`, pushes `e` on the stack and calls `updatePin` on every pin of
`e`; if `e` is loose towards `t` it calls `updatePin` on the pins exactly when
`moveAffectsGainUpdate` holds and changes nothing else; if `e` is loose towards another part
it sets the lock to locked (after the same conditional update); if `e` is locked it changes
nothing. -/
theorem C8_lock_state_machine (r : MaxGainNodeKWayFMRefiner) (hn : HypernodeID)
    (from_part to_part : PartitionID)
    (hlen : r.locked_hes.length = r.hg.initialNumEdges)
    (ht0 : 0 ≤ to_part) (ht1 : to_part < lockedSentinel) :
    (∀ e ∈ r.hg.incidentEdges hn,
      (r.locked_hes.getD e (-1) = -1 →
        (updateNeighbours r hn from_part to_part).locked_hes.getD e (-1) = to_part) ∧
      (r.locked_hes.getD e (-1) = to_part →
        (updateNeighbours r hn from_part to_part).locked_hes.getD e (-1) = to_part) ∧
      (r.locked_hes.getD e (-1) ≠ -1 → r.locked_hes.getD e (-1) ≠ to_part →
        (updateNeighbours r hn from_part to_part).locked_hes.getD e (-1) = lockedSentinel) ∧
      (r.locked_hes.getD e (-1) = lockedSentinel →
        (updateNeighbours r hn from_part to_part).locked_hes.getD e (-1) = lockedSentinel)) ∧
    (∀ e, e ∉ r.hg.incidentEdges hn →
      (updateNeighbours r hn from_part to_part).locked_hes.getD e (-1) =
        r.locked_hes.getD e (-1)) ∧
    (∀ (r0 : MaxGainNodeKWayFMRefiner) (e : HyperedgeID),
      (r0.locked_hes.getD e (-1) = -1 →
        updateNeighboursEdge from_part to_part r0 e =
          updatePins { r0 with locked_hes := r0.locked_hes.set e to_part,
                               current_locked_hes := e :: r0.current_locked_hes } e) ∧
      (r0.locked_hes.getD e (-1) = to_part →
        updateNeighboursEdge from_part to_part r0 e =
          if moveAffectsGainUpdate ((r0.hg.pinCountInPart e from_part : Int) + 1)
              ((r0.hg.pinCountInPart e to_part : Int) - 1)
              ((r0.hg.pinCountInPart e from_part : Int) + 1 - 1)
            then updatePins r0 e else r0) ∧
      (r0.locked_hes.getD e (-1) ≠ -1 → r0.locked_hes.getD e (-1) ≠ to_part →
        r0.locked_hes.getD e (-1) ≠ lockedSentinel →
        (updateNeighboursEdge from_part to_part r0 e).locked_hes =
          r0.locked_hes.set e lockedSentinel) ∧
      (r0.locked_hes.getD e (-1) = lockedSentinel →
        updateNeighboursEdge from_part to_part r0 e = r0)) ∧
    updateNeighbours r hn from_part to_part =
      (r.hg.incidentEdges hn).foldl (updateNeighboursEdge from_part to_part)
        { r with just_updated := List.replicate r.just_updated.length false } := by
  have hne1 : to_part ≠ -1 := by
    intro h; rw [h] at ht0; exact absurd ht0 (by decide)
  have hne2 : to_part ≠ lockedSentinel := ne_of_lt ht1
  have hs : lockedSentinel ≠ (-1 : Int) := by decide
  obtain ⟨_, _, f3, f4⟩ := updateNeighboursEdge_foldl_locks from_part to_part hne1 hne2
    (r.hg.incidentEdges hn)
    { r with just_updated := List.replicate r.just_updated.length false }
    (by
      intro e he
      show e < r.locked_hes.length
      rw [hlen]
      exact ((mem_incidentEdges _ _ _).mp he).1)
  refine ⟨?_, ?_, ?_, rfl⟩
  · intro e he
    have key : (updateNeighbours r hn from_part to_part).locked_hes.getD e (-1) =
        lockAfterMove to_part (r.locked_hes.getD e (-1)) := f3 e he
    rw [key]
    unfold lockAfterMove
    refine ⟨?_, ?_, ?_, ?_⟩
    · intro h
      rw [h, if_neg (Ne.symm hs), if_neg (Ne.symm hne1), if_pos rfl]
    · intro h
      rw [h, if_neg hne2, if_pos rfl]
    · intro h1 h2
      by_cases h3 : r.locked_hes.getD e (-1) = lockedSentinel
      · rw [if_pos h3]
      · rw [if_neg h3, if_neg h2, if_neg h1]
    · intro h
      rw [if_pos h]
  · intro e he
    exact f4 e he
  · intro r0 e
    obtain ⟨c1, c2, c3, c4⟩ := updateNeighboursEdge_cases from_part to_part r0 e
    refine ⟨?_, ?_, ?_, c1⟩
    · intro h
      exact c3 (by rw [h]; exact Ne.symm hs) (by rw [h]; exact Ne.symm hne1) h
    · intro h
      exact c2 (by rw [h]; exact hne2) h
    · intro h1 h2 h3
      rw [c4 h3 h2 h1]
      have hif : SameFrame r0
          (if looseUpdateNeeded r0 e from_part to_part then updatePins r0 e else r0) := by
        split
        · exact sameFrame_updatePins r0 e
        · exact sameFrame_refl r0
      obtain ⟨_, _, _, _, a5, _⟩ := hif
      show ((if looseUpdateNeeded r0 e from_part to_part then updatePins r0 e
        else r0).locked_hes.set e lockedSentinel) = _
      rw [a5]

theorem C8_lock_state_machine_witness :
    exampleAfterRefine.locked_hes = [-1, 0, 0, 0] ∧
    exampleAfterRefine.hg.incidentEdges 1 = [0, 1] ∧
    (updateNeighbours
      { exampleAfterRefine with hg := exampleAfterRefine.hg.changeNodePart 1 0 1 } 1 0
        1).locked_hes = [1, 2147483647, 0, 0] ∧
    (∀ e, e ∉ exampleAfterRefine.hg.incidentEdges 1 →
      (updateNeighbours
        { exampleAfterRefine with hg := exampleAfterRefine.hg.changeNodePart 1 0 1 } 1 0
          1).locked_hes.getD e (-1) = exampleAfterRefine.locked_hes.getD e (-1)) :=
  ⟨by decide, by decide, by decide,
    (C8_lock_state_machine
      { exampleAfterRefine with hg := exampleAfterRefine.hg.changeNodePart 1 0 1 } 1 0 1
      (by decide) (by decide) (by decide)).2.1⟩

/-- C9: lock reset: in every state reachable by any sequence of `refineImpl` calls on a freshly
constructed refiner, every hyperedge whose lock state is not free is on
`_current_locked_hes`; hence after the reset loop at the start of a `refineImpl` call every
hyperedge is free and the stack is empty, and they still are when the main loop starts. -/
theorem C9_lock_reset (r : MaxGainNodeKWayFMRefiner) (h : Reachable r) :
    (∀ he : HyperedgeID, r.locked_hes.getD he (-1) ≠ -1 → he ∈ r.current_locked_hes) ∧
    (∀ he : HyperedgeID,
      (resetLockedHes { r with pq := r.pq.clear,
                               marked := List.replicate r.marked.length false }).locked_hes.getD
        he (-1) = -1) ∧
    (resetLockedHes { r with pq := r.pq.clear,
                             marked := List.replicate r.marked.length false }).current_locked_hes
      = [] ∧
    (∀ {σ : Type} (P : StoppingPolicy σ) (rnd : Randomize) (policy : σ)
      (refinement_nodes : List HypernodeID) (num_refinement_nodes : Nat)
      (best_cut : HyperedgeWeight),
      (∀ he : HyperedgeID,
        (refineStart P rnd r policy refinement_nodes num_refinement_nodes
          best_cut).r.locked_hes.getD he (-1) = -1) ∧
      (refineStart P rnd r policy refinement_nodes num_refinement_nodes
        best_cut).r.current_locked_hes = []) := by
  have hl := lockedOnStack_of_reachable r h
  refine ⟨hl, ?_, rfl, ?_⟩
  · intro he
    exact resetLockedHes_free _ hl he
  · intro σ P rnd policy ns n bc
    exact refineStart_locks P rnd r policy ns n bc hl

theorem C9_lock_reset_witness :
    exampleAfterRefine.locked_hes = [-1, 0, 0, 0] ∧
    exampleAfterRefine.current_locked_hes = [3, 2, 1] ∧
    (resetLockedHes
      { exampleAfterRefine with
        pq := exampleAfterRefine.pq.clear
        marked := List.replicate exampleAfterRefine.marked.length false }).locked_hes
      = [-1, -1, -1, -1] ∧
    (∀ he : HyperedgeID, exampleAfterRefine.locked_hes.getD he (-1) ≠ -1 →
      he ∈ exampleAfterRefine.current_locked_hes) :=
  ⟨by decide, by decide, by decide,
    (C9_lock_reset exampleAfterRefine reachable_exampleAfterRefine).1⟩


/-- C11: the case analysis of `updatePin(p)`.  (1) `p` in the queue, a border node and not
just-updated: the queue is the one before with key and data slot of `p` set to the pair
returned by `computeMaxGain(p)`, and `p` is flagged just-updated (`p` within the bitset).
(2) `p` in the queue and not a border node: `p` is removed.  (3) `p` not in the queue and not
marked: when `p` is a border node it is inserted with key and data from `computeMaxGain(p)`,
otherwise the queue is unchanged.  (4) In the remaining cases (in the queue, border node,
already just-updated; not in the queue and marked) the queue is unchanged.  In every case
membership, key and data of every other hypernode are unchanged. -/
theorem C11_updatePin_case_analysis (r : MaxGainNodeKWayFMRefiner) (p : HypernodeID) :
    (r.pq.contains p = true → isBorderNode r.hg p = true →
        r.just_updated.getD p false = false →
      (updatePin r p).pq =
        (r.pq.updateKey p (computeMaxGain r p).1.1).setData p (computeMaxGain r p).1.2 ∧
      (updatePin r p).pq.contains p = true ∧
      (updatePin r p).pq.key p = (computeMaxGain r p).1.1 ∧
      (updatePin r p).pq.data p = (computeMaxGain r p).1.2 ∧
      (p < r.just_updated.length → (updatePin r p).just_updated.getD p false = true)) ∧
    (r.pq.contains p = true → isBorderNode r.hg p = false →
      (updatePin r p).pq = r.pq.remove p ∧ (updatePin r p).pq.contains p = false) ∧
    (r.pq.contains p = false → r.marked.getD p false = false →
      (isBorderNode r.hg p = true →
        (updatePin r p).pq =
          r.pq.reInsert p (computeMaxGain r p).1.1 (computeMaxGain r p).1.2 ∧
        (updatePin r p).pq.contains p = true ∧
        (updatePin r p).pq.key p = (computeMaxGain r p).1.1 ∧
        (updatePin r p).pq.data p = (computeMaxGain r p).1.2) ∧
      (isBorderNode r.hg p = false → (updatePin r p).pq = r.pq)) ∧
    (r.pq.contains p = true → isBorderNode r.hg p = true →
        r.just_updated.getD p false = true → (updatePin r p).pq = r.pq) ∧
    (r.pq.contains p = false → r.marked.getD p false = true → (updatePin r p).pq = r.pq) ∧
    (∀ q, q ≠ p →
      (updatePin r p).pq.contains q = r.pq.contains q ∧
      (updatePin r p).pq.key q = r.pq.key q ∧ (updatePin r p).pq.data q = r.pq.data q) := by
  exact updatePin_cases r p

theorem C11_updatePin_case_analysis_witness :
    (activate (init exampleHg { k := 2, max_part_weight := 100 }) 1).pq.contains 1 = true ∧
    isBorderNode (activate (init exampleHg { k := 2, max_part_weight := 100 }) 1).hg 1 = true ∧
    (activate (init exampleHg { k := 2, max_part_weight := 100 }) 1).just_updated.getD 1 false
      = false ∧
    (computeMaxGain (activate (init exampleHg { k := 2, max_part_weight := 100 }) 1) 1).1
      = (0, 1) ∧
    (updatePin (activate (init exampleHg { k := 2, max_part_weight := 100 }) 1) 1).pq.key 1 =
      (computeMaxGain (activate (init exampleHg { k := 2, max_part_weight := 100 }) 1) 1).1.1 :=
  ⟨by decide, by decide, by decide, by decide,
    ((C11_updatePin_case_analysis
      (activate (init exampleHg { k := 2, max_part_weight := 100 }) 1) 1).1
      (by decide) (by decide) (by decide)).2.2.1⟩

/-- C12: `NumberOfFruitlessMovesStopsSearch`.  After `resetStatistics` followed by `n` calls
of `updateStatistics` with any gains, from any state of the policy, `searchShouldStop`
returns true if and only if `n ≥ config.fm_local_search.max_number_of_fruitless_moves`,
whatever its other arguments are.  In `refineImpl` with this policy the counter is 0 at the
start of the main loop, the loop ends exactly when the queue is empty or the counter has
reached the limit, a refused move leaves the counter alone, and a performed move sets it to 0
when it improves the cut (`cut < best_cut`) and adds 1 to it otherwise: the counter is the
number of moves since the last improvement. -/
theorem C12_fruitless_moves_policy :
    (∀ (p0 : NumberOfFruitlessMovesStopsSearch) (gs : List Gain) (a : Int)
        (config : Configuration) (beta : ℚ) (best_cut cut : HyperedgeWeight),
      (gs.foldl NumberOfFruitlessMovesStopsSearch.updateStatistics
          p0.resetStatistics).searchShouldStop a config beta best_cut cut = true ↔
        (gs.length : Int) ≥ config.fm_local_search.max_number_of_fruitless_moves) ∧
    (∀ (rnd : Randomize) (r : MaxGainNodeKWayFMRefiner)
        (p0 : NumberOfFruitlessMovesStopsSearch) (ns : List HypernodeID) (n : Nat)
        (bc : HyperedgeWeight),
      (refineStart fruitlessMovesPolicy rnd r p0 ns n bc).policy.num_moves = 0) ∧
    (∀ (s : Search NumberOfFruitlessMovesStopsSearch),
      searchDone fruitlessMovesPolicy s = true ↔
        (s.r.pq.empty = true ∨
          s.policy.num_moves ≥ s.r.config.fm_local_search.max_number_of_fruitless_moves)) ∧
    (∀ (rnd : Randomize) (s s1 : Search NumberOfFruitlessMovesStopsSearch),
      searchBody fruitlessMovesPolicy rnd s = some s1 →
      (((moveHypernode { s.r with pq := s.r.pq.deleteMax } s.r.pq.max
            (s.r.hg.partID s.r.pq.max) (s.r.pq.data s.r.pq.max)).1 = false →
          s1.policy.num_moves = s.policy.num_moves) ∧
        ((moveHypernode { s.r with pq := s.r.pq.deleteMax } s.r.pq.max
            (s.r.hg.partID s.r.pq.max) (s.r.pq.data s.r.pq.max)).1 = true →
          s1.policy.num_moves =
            if s.cut - s.r.pq.maxKey < s.best_cut then 0 else s.policy.num_moves + 1))) := by
  exact fruitless_spec

/-- C13: `RandomWalkModelStopsSearch`, over exact rational arithmetic.  After
`resetStatistics` (from any state of the policy) followed by `updateStatistics(g_1)`, ...,
`updateStatistics(g_n)`, the member `_expected_gain` is the arithmetic mean `mu` of the gains
and `_expected_variance` is their unbiased sample variance `sigma2` (`gainVariance`: the sum of
`(g_i - mu)^2` over `n - 1` for `n ≥ 2`, and 0 for `n ≤ 1`), and `searchShouldStop` with
`alpha = config.fm_local_search.alpha` and `beta` returns true if and only if
`n * mu^2 > alpha * sigma2 + beta` and `n ≠ 1`. -/
theorem C13_random_walk_model_policy (p0 : RandomWalkModelStopsSearch) (gs : List Gain)
    (a : Int) (config : Configuration) (beta : ℚ) (best_cut cut : HyperedgeWeight) :
    (gs.foldl RandomWalkModelStopsSearch.updateStatistics p0.resetStatistics).expected_gain =
      gainMean gs ∧
    (gs.foldl RandomWalkModelStopsSearch.updateStatistics p0.resetStatistics).expected_variance =
      gainVariance gs ∧
    ((gs.foldl RandomWalkModelStopsSearch.updateStatistics
        p0.resetStatistics).searchShouldStop a config beta best_cut cut = true ↔
      ((gs.length : ℚ) * gainMean gs ^ 2 >
          config.fm_local_search.alpha * gainVariance gs + beta ∧ gs.length ≠ 1)) := by
  exact randomWalk_spec p0 gs a config beta best_cut cut

/-- C15 (refuted): the main loop of `kwayPartitionImpl` does not terminate when all parts are
disabled.  From every state in which `partEnable[i]` is false for every part `i` and
`assigned_nodes_weight` is smaller than `total_graph_weight`, a round of the `for` loop
leaves the state as it is and the `while` condition stays true: the loop does not exit,
whatever the fuel. -/
theorem C15_all_parts_disabled_never_exits (P : GrowingPolicies) (config : Configuration)
    (unassigned_part : PartitionID) (st : Growth)
    (hdis : ∀ i ∈ List.range config.initial_partitioning.k,
      st.partEnable.getD i false = false)
    (hlt : st.assigned_nodes_weight < config.total_graph_weight) (fuel : Nat) :
    growRound P config unassigned_part (List.range config.initial_partitioning.k) st = st ∧
    growLoop P config unassigned_part fuel st = none := by
  exact ⟨growRound_disabled P config unassigned_part st _ hdis,
    growLoop_disabled P config unassigned_part st hdis hlt fuel⟩

theorem C15_all_parts_disabled_never_exits_witness :
    (growRound fmGrowingPolicies heavyConfig 0 (List.range 3)
      (growRound fmGrowingPolicies heavyConfig 0 (List.range 3)
        (growStart fmGrowingPolicies heavyConfig heavyHg))).partEnable = [false, false, false] ∧
    (growRound fmGrowingPolicies heavyConfig 0 (List.range 3)
      (growRound fmGrowingPolicies heavyConfig 0 (List.range 3)
        (growStart fmGrowingPolicies heavyConfig heavyHg))).assigned_nodes_weight = 7 ∧
    heavyConfig.total_graph_weight = 9 ∧
    growLoop fmGrowingPolicies heavyConfig 0 1000
      (growRound fmGrowingPolicies heavyConfig 0 (List.range 3)
        (growRound fmGrowingPolicies heavyConfig 0 (List.range 3)
          (growStart fmGrowingPolicies heavyConfig heavyHg))) = none :=
  ⟨by decide, by decide, by decide,
    (C15_all_parts_disabled_never_exits fmGrowingPolicies heavyConfig 0
      (growRound fmGrowingPolicies heavyConfig 0 (List.range 3)
        (growRound fmGrowingPolicies heavyConfig 0 (List.range 3)
          (growStart fmGrowingPolicies heavyConfig heavyHg)))
      (by decide) (by decide) 1000).2⟩

/-- C16: re-rating with the vector form of `processNodeForBucketPQ(bq, hn, p)`, for a
hypernode `hn` with `partID(hn) != p` and a part `p` that has a queue: afterwards `hn` is
contained in `bq[p]`; for every part `i != p`, `hn` is contained in `bq[i]` exactly when it
was contained before; in every queue `i` that contains `hn` its key is
`calculateGain(hg, hn, i)`; and membership and keys of every other hypernode are unchanged in
every queue. -/
theorem C16_processNodeForBucketPQ_vector
    (calculateGain : Hypergraph → HypernodeID → PartitionID → Gain) (hg : Hypergraph)
    (bq : List BucketQueue) (hn : HypernodeID) (p : Nat)
    (hne : hg.partID hn ≠ (p : Int)) (hp : p < bq.length) :
    ((processNodeForBucketPQ_vector calculateGain hg bq hn (p : Int)).getD p []).contains hn
      = true ∧
    (∀ i, i ≠ p →
      ((processNodeForBucketPQ_vector calculateGain hg bq hn (p : Int)).getD i []).contains hn =
        (bq.getD i []).contains hn) ∧
    (∀ i,
      ((processNodeForBucketPQ_vector calculateGain hg bq hn (p : Int)).getD i []).contains hn
        = true →
      ((processNodeForBucketPQ_vector calculateGain hg bq hn (p : Int)).getD i []).key hn =
        calculateGain hg hn (i : Int)) ∧
    (∀ i v, v ≠ hn →
      ((processNodeForBucketPQ_vector calculateGain hg bq hn (p : Int)).getD i []).contains v =
        (bq.getD i []).contains v ∧
      ((processNodeForBucketPQ_vector calculateGain hg bq hn (p : Int)).getD i []).key v =
        (bq.getD i []).key v) := by
  exact processNodeForBucketPQ_vector_spec calculateGain hg bq hn p hne hp

theorem C16_processNodeForBucketPQ_vector_witness :
    pathHg.partID 3 ≠ ((2 : Nat) : Int) ∧ 2 < [[], [(3, 5)], [(1, 0)]].length ∧
    processNodeForBucketPQ_vector fmGain pathHg [[], [(3, 5)], [(1, 0)]] 3 ((2 : Nat) : Int) =
      [[], [(3, -2)], [(1, 0), (3, -2)]] ∧
    ((processNodeForBucketPQ_vector fmGain pathHg [[], [(3, 5)], [(1, 0)]] 3
      ((2 : Nat) : Int)).getD 2 []).contains 3 = true :=
  ⟨by decide, by decide, by decide,
    (C16_processNodeForBucketPQ_vector fmGain pathHg [[], [(3, 5)], [(1, 0)]] 3 2
      (by decide) (by decide)).1⟩

/-- C17: removal on assignment.  After `bq[i].deleteMax()` and
`deleteAssignedNodeInBucketPQ(bq, hn)` for the popped hypernode `hn = bq[i].getMax()`, `hn`
is contained in no part's queue; `deleteMax` removes the maximum from its queue;
`deleteAssignedNodeInBucketPQ(bq, hn)` leaves no queue that contains `hn`, and membership and
keys of all other hypernodes are unchanged by it. -/
theorem C17_removal_on_assignment :
    (∀ (bq : List BucketQueue) (i j : Nat),
      ((deleteAssignedNodeInBucketPQ (bq.set i ((bq.getD i []).deleteMax))
        (bq.getD i []).getMax).getD j []).contains (bq.getD i []).getMax = false) ∧
    (∀ q : BucketQueue, (q.deleteMax).contains q.getMax = false) ∧
    (∀ (bq : List BucketQueue) (hn : HypernodeID) (j : Nat),
      ((deleteAssignedNodeInBucketPQ bq hn).getD j []).contains hn = false) ∧
    (∀ (bq : List BucketQueue) (hn : HypernodeID) (j : Nat) (v : HypernodeID), v ≠ hn →
      ((deleteAssignedNodeInBucketPQ bq hn).getD j []).contains v =
        (bq.getD j []).contains v ∧
      ((deleteAssignedNodeInBucketPQ bq hn).getD j []).key v = (bq.getD j []).key v) := by
  refine ⟨?_, ?_, ?_, ?_⟩
  · intro bq i j
    exact (deleteAssignedNodeInBucketPQ_spec _ _).1 j
  · intro q
    exact bq_contains_deleteNode_self q q.getMax
  · intro bq hn j
    exact (deleteAssignedNodeInBucketPQ_spec bq hn).1 j
  · intro bq hn j v hv
    exact (deleteAssignedNodeInBucketPQ_spec bq hn).2 j v hv

/-- C20: bucket-queue keys stay current in the greedy round-robin growth.  For a local gain
policy and start nodes that are hypernodes, at the start of every round-robin step of
`kwayPartitionImpl` (in runs in which `getUnassignedNode`, when called, returns a hypernode
of the unassigned part), for every part `p` and every hypernode `v` contained in `bq[p]` the
stored key equals `calculateGain(hg, v, p)` on the current partition, and `v` is unassigned;
with the FM gain policy the key of the popped maximum of an enabled part `i` is the FM gain
and equals the reduction of `hyperedgeCut` caused by its assignment to `i`. -/
theorem C20_bucket_queue_keys_current (P : GrowingPolicies) (config : Configuration)
    (hg : Hypergraph) (hloc : LocalGain P.calculateGain)
    (hstart : ∀ v ∈ P.calculateStartNodes (growStart P config hg).hg
      config.initial_partitioning.k, v < hg.part.length)
    (st : Growth) (hr : GrowReachable P config hg st) :
    (∀ (p : Nat) (v : HypernodeID), (st.bq.getD p []).contains v = true →
      (st.bq.getD p []).key v = P.calculateGain st.hg v (p : Int)) ∧
    (∀ (p : Nat) (e : HypernodeID × Gain), e ∈ st.bq.getD p [] →
      e.2 = P.calculateGain st.hg e.1 (p : Int) ∧ st.hg.partID e.1 = 0) ∧
    (P.calculateGain = fmGain → (growStart P config hg).hg.WellFormed →
      config.initial_partitioning.k ≤ hg.k →
      ∀ i, i < config.initial_partitioning.k → st.partEnable.getD i false = true →
        ((st.bq.getD i []).empty = true →
          st.hg.partID (P.getUnassignedNode st.calls st.hg 0) = 0) →
        ((refillQueue P 0 st i).getD i []).getMaxKey =
          fmGain st.hg ((refillQueue P 0 st i).getD i []).getMax (i : Int) ∧
        ((assignHypernodeToPartition st.hg config
            ((refillQueue P 0 st i).getD i []).getMax (i : Int)).1 = true →
          hyperedgeCut (assignHypernodeToPartition st.hg config
            ((refillQueue P 0 st i).getD i []).getMax (i : Int)).2 =
          hyperedgeCut st.hg - ((refillQueue P 0 st i).getD i []).getMaxKey)) := by
  exact grow_keys_current P config hg hloc hstart st hr

theorem C20_bucket_queue_keys_current_witness :
    (growStep fmGrowingPolicies heavyConfig 0
      (growStart fmGrowingPolicies heavyConfig heavyHg) 1).bq = [[], [(0, 0), (2, 0)], [(2, 0)]] ∧
    (growStep fmGrowingPolicies heavyConfig 0
      (growStart fmGrowingPolicies heavyConfig heavyHg) 1).hg.part = [0, 1, 0] ∧
    ∀ (p : Nat) (v : HypernodeID),
      ((growStep fmGrowingPolicies heavyConfig 0
        (growStart fmGrowingPolicies heavyConfig heavyHg) 1).bq.getD p []).contains v = true →
      ((growStep fmGrowingPolicies heavyConfig 0
        (growStart fmGrowingPolicies heavyConfig heavyHg) 1).bq.getD p []).key v =
        fmGrowingPolicies.calculateGain
          (growStep fmGrowingPolicies heavyConfig 0
            (growStart fmGrowingPolicies heavyConfig heavyHg) 1).hg v (p : Int) :=
  ⟨by decide, by decide,
    (C20_bucket_queue_keys_current fmGrowingPolicies heavyConfig heavyHg localGain_fmGain
      (by decide) _
      (GrowReachable.step _ 1 GrowReachable.start (by decide)
        (fun _ h => absurd h (by decide)))).1⟩

/-- C19: PQ consistency after a gain update (validity of the "Gain update failed" assertion).
For a refiner that is `Ready` when `refineImpl` is called, at the head `s` of every iteration
of the main loop in which the move of `max_gain_node` is performed, when
`updateNeighbours(max_gain_node, from_part, to_part)` has returned the following holds for
every pin `p` of every hyperedge incident to `max_gain_node`: if `p` is no border node it is
not in the queue; if `p` is a border node in the queue its key is `computeMaxGain(p).first`;
and if `p` is a border node that is not in the queue it is marked.  The hyperedges that
`updateNeighbours` skips (locked ones, and loose ones for which `moveAffectsGainUpdate` is
false) are among the hyperedges the statement ranges over, so no skipped update leaves a
stale key. -/
theorem C19_pq_consistent_after_gain_update {σ : Type} (P : StoppingPolicy σ)
    (rnd : Randomize) (s : Search σ) (h : InSearch P rnd s)
    (hnd : searchDone P s = false) (hmv : movePerformed s = true) :
    ∀ e ∈ (afterUpdateNeighbours s).hg.incidentEdges s.r.pq.max,
      ∀ p ∈ (afterUpdateNeighbours s).hg.pins e,
        (isBorderNode (afterUpdateNeighbours s).hg p = false →
          (afterUpdateNeighbours s).pq.contains p = false) ∧
        (isBorderNode (afterUpdateNeighbours s).hg p = true →
          (afterUpdateNeighbours s).pq.contains p = true →
          (afterUpdateNeighbours s).pq.key p = (computeMaxGain (afterUpdateNeighbours s) p).1.1) ∧
        (isBorderNode (afterUpdateNeighbours s).hg p = true →
          (afterUpdateNeighbours s).pq.contains p = false →
          (afterUpdateNeighbours s).marked.getD p false = true) := by
  exact gain_update_in_search P rnd s h hnd hmv

theorem C19_pq_consistent_after_gain_update_witness :
    (refineStart neverStop headsOnly (init exampleHg { k := 2, max_part_weight := 100 }) ()
      [0, 1, 2, 3] 4 3).r.pq.max = 2 ∧
    (afterUpdateNeighbours
      (refineStart neverStop headsOnly (init exampleHg { k := 2, max_part_weight := 100 }) ()
        [0, 1, 2, 3] 4 3)).pq = [{ id := 3, key := 1, data := 0 }] ∧
    ∀ e ∈ (afterUpdateNeighbours
        (refineStart neverStop headsOnly (init exampleHg { k := 2, max_part_weight := 100 }) ()
          [0, 1, 2, 3] 4 3)).hg.incidentEdges 2,
      ∀ p ∈ (afterUpdateNeighbours
          (refineStart neverStop headsOnly (init exampleHg { k := 2, max_part_weight := 100 })
            () [0, 1, 2, 3] 4 3)).hg.pins e,
        (isBorderNode (afterUpdateNeighbours
            (refineStart neverStop headsOnly (init exampleHg { k := 2, max_part_weight := 100 })
              () [0, 1, 2, 3] 4 3)).hg p = false →
          (afterUpdateNeighbours
            (refineStart neverStop headsOnly (init exampleHg { k := 2, max_part_weight := 100 })
              () [0, 1, 2, 3] 4 3)).pq.contains p = false) ∧
        (isBorderNode (afterUpdateNeighbours
            (refineStart neverStop headsOnly (init exampleHg { k := 2, max_part_weight := 100 })
              () [0, 1, 2, 3] 4 3)).hg p = true →
          (afterUpdateNeighbours
            (refineStart neverStop headsOnly (init exampleHg { k := 2, max_part_weight := 100 })
              () [0, 1, 2, 3] 4 3)).pq.contains p = true →
          (afterUpdateNeighbours
            (refineStart neverStop headsOnly (init exampleHg { k := 2, max_part_weight := 100 })
              () [0, 1, 2, 3] 4 3)).pq.key p =
            (computeMaxGain (afterUpdateNeighbours
              (refineStart neverStop headsOnly
                (init exampleHg { k := 2, max_part_weight := 100 }) () [0, 1, 2, 3] 4 3))
              p).1.1) ∧
        (isBorderNode (afterUpdateNeighbours
            (refineStart neverStop headsOnly (init exampleHg { k := 2, max_part_weight := 100 })
              () [0, 1, 2, 3] 4 3)).hg p = true →
          (afterUpdateNeighbours
            (refineStart neverStop headsOnly (init exampleHg { k := 2, max_part_weight := 100 })
              () [0, 1, 2, 3] 4 3)).pq.contains p = false →
          (afterUpdateNeighbours
            (refineStart neverStop headsOnly (init exampleHg { k := 2, max_part_weight := 100 })
              () [0, 1, 2, 3] 4 3)).marked.getD p false = true) :=
  ⟨by decide, by decide,
    C19_pq_consistent_after_gain_update neverStop headsOnly _
      (InSearch.start (init exampleHg { k := 2, max_part_weight := 100 }) () [0, 1, 2, 3] 4 3
        (by decide))
      (by decide) (by decide)⟩

/-- C18 (amended): round trip of the `.hgr` format.  For every hypergraph `H` of each of the
four variants (unweighted, hyperedge-weighted, hypernode-weighted, both: the pins of `H` are
hypernodes, its weights are not negative, and the weights the variant does not carry are 1),
`readHypergraphFile` accepts the file that `writeHypergraphFile` writes for `H`, returns the
numbers of hypernodes and hyperedges of `H`, and the hypergraph constructed from what it
returns has the same hypernodes, hyperedges, pins and weights as `H`; when `H` is not
partitioned and has `k = 2`, as the hypergraphs of the tests `CanBeWrittenToFile`,
`verifyEquivalenceWithPartitionInfo` holds as well. -/
theorem C18_hgr_round_trip (H : Hypergraph) (type : io.HypergraphType)
    (h : io.IsOfType H type) :
    ∃ d, io.readHypergraphFile (io.writeHypergraphFile H type) = some d ∧
      d.num_hypernodes = H.initialNumNodes ∧ d.num_hyperedges = H.initialNumEdges ∧
      (io.hypergraphOfContents d).edge_pins = H.edge_pins ∧
      io.sameHypergraph H (io.hypergraphOfContents d) = true ∧
      (H.k = 2 → (∀ hn ∈ H.nodes, H.partID hn = kInvalidPartition) →
        io.verifyEquivalenceWithPartitionInfo H (io.hypergraphOfContents d) = true) := by
  exact hgr_round_trip H type h

theorem C18_hgr_round_trip_witness :
    io.IsOfType io.weightedHg io.HypergraphType.EdgeAndNodeWeights ∧
    io.writeHypergraphFile io.weightedHg io.HypergraphType.EdgeAndNodeWeights =
      [[4, 7, 11], [2, 1, 3], [3, 1, 2, 4, 5], [8, 4, 5, 7], [7, 3, 6, 7],
       [5], [8], [2], [3], [4], [9], [8]] ∧
    ∃ d, io.readHypergraphFile
        (io.writeHypergraphFile io.weightedHg io.HypergraphType.EdgeAndNodeWeights) = some d ∧
      d.num_hypernodes = io.weightedHg.initialNumNodes ∧
      d.num_hyperedges = io.weightedHg.initialNumEdges ∧
      (io.hypergraphOfContents d).edge_pins = io.weightedHg.edge_pins ∧
      io.sameHypergraph io.weightedHg (io.hypergraphOfContents d) = true ∧
      (io.weightedHg.k = 2 →
        (∀ hn ∈ io.weightedHg.nodes, io.weightedHg.partID hn = kInvalidPartition) →
        io.verifyEquivalenceWithPartitionInfo io.weightedHg (io.hypergraphOfContents d) =
          true) :=
  ⟨by decide, by decide,
    C18_hgr_round_trip io.weightedHg io.HypergraphType.EdgeAndNodeWeights (by decide)⟩

/-- C18 fails as stated for a partitioned hypergraph: the file carries no partition.  The
hyperedge-weighted `exampleHg` has its hypernodes in the parts 0, 0, 1, 1; the hypergraph
constructed from the file written for it has the same hypernodes, hyperedges, pins and
weights, all its hypernodes are unassigned, and `verifyEquivalenceWithPartitionInfo` is
false. -/
theorem C18_counterexample :
    io.IsOfType exampleHg io.HypergraphType.EdgeWeights ∧
    exampleHg.part = [0, 0, 1, 1] ∧
    io.writeHypergraphFile exampleHg io.HypergraphType.EdgeWeights =
      [[4, 4, 1], [1, 1, 2], [1, 2, 3], [1, 3, 4], [2, 1, 3]] ∧
    (io.readHypergraphFile
      (io.writeHypergraphFile exampleHg io.HypergraphType.EdgeWeights)).map
        (fun d => ((io.hypergraphOfContents d).part,
          io.sameHypergraph exampleHg (io.hypergraphOfContents d),
          io.verifyEquivalenceWithPartitionInfo exampleHg (io.hypergraphOfContents d))) =
      some ([-1, -1, -1, -1], true, false) := by
  decide

/-- C21: the gain scratch vector is restored.  If the scratch vectors have an entry per part
and every entry of `_tmp_gains` is 0 when `computeMaxGain(hn)` is entered, then every entry
of `_tmp_gains` is 0 when it returns (for every hypernode `hn`, border node or not); and at
every call of `computeMaxGain` made during `refineImpl`, by `activate` in the loop over the
refinement nodes or by `updatePin` in the main loop, for a refiner in the state in which
`refineImpl` may be called, every entry of `_tmp_gains` is 0 and the argument is a border
node: the assertion "_tmp_gains not initialized correctly" holds at every call. -/
theorem C21_tmp_gains_restored :
    (∀ (r : MaxGainNodeKWayFMRefiner) (hn : HypernodeID),
      r.hg.k ≤ r.tmp_gains.length → r.hg.k ≤ r.tmp_connectivity_decrease.length →
      (∀ x ∈ r.tmp_gains, x = 0) → ∀ x ∈ (computeMaxGain r hn).2.tmp_gains, x = 0) ∧
    (∀ {σ : Type} (P : StoppingPolicy σ) (rnd : Randomize) (fuel : Nat)
      (r : MaxGainNodeKWayFMRefiner) (policy : σ) (refinement_nodes : List HypernodeID)
      (num_refinement_nodes : Nat) (best_cut : HyperedgeWeight), Ready r →
      ∀ x ∈ computeMaxGainCalls P rnd fuel r policy refinement_nodes num_refinement_nodes
          best_cut,
        (∀ g ∈ x.1.tmp_gains, g = 0) ∧ isBorderNode x.1.hg x.2 = true) := by
  refine ⟨fun r hn h1 h2 hz => computeMaxGain_tmp_gains_zero r hn h1 h2 hz, ?_⟩
  intro σ P rnd fuel r policy ns n c hr
  exact computeMaxGainCalls_good P rnd fuel r policy ns n c hr

theorem C21_tmp_gains_restored_witness :
    (init exampleHg { k := 2, max_part_weight := 100 }).tmp_gains = [0, 0] ∧
    (computeMaxGain (init exampleHg { k := 2, max_part_weight := 100 }) 1).1 = (0, 1) ∧
    (∀ x ∈ (computeMaxGain (init exampleHg { k := 2, max_part_weight := 100 }) 1).2.tmp_gains,
      x = 0) ∧
    (computeMaxGainCalls neverStop headsOnly 10
      (init exampleHg { k := 2, max_part_weight := 100 }) () [0, 1, 2, 3] 4 3).map
        (fun x => x.2) = [0, 1, 2, 3] ∧
    ∀ x ∈ computeMaxGainCalls neverStop headsOnly 10
        (init exampleHg { k := 2, max_part_weight := 100 }) () [0, 1, 2, 3] 4 3,
      (∀ g ∈ x.1.tmp_gains, g = 0) ∧ isBorderNode x.1.hg x.2 = true :=
  ⟨by decide, by decide,
    C21_tmp_gains_restored.1 (init exampleHg { k := 2, max_part_weight := 100 }) 1
      (by decide) (by decide) (by decide),
    by decide,
    C21_tmp_gains_restored.2 neverStop headsOnly 10
      (init exampleHg { k := 2, max_part_weight := 100 }) () [0, 1, 2, 3] 4 3 (by decide)⟩

/-- C22: the connectivity scratch vector is not restored at the entry of the source part.
If the scratch vectors have an entry per part and every entry of
`_tmp_connectivity_decrease` is 0 when `computeMaxGain(hn)` is entered, then when it returns
every entry other than that of the source part of `hn` is 0, and the entry of the source part
holds the number of cut hyperedges at `hn` in which `hn` is the only pin of its part
(`_tmp_gains[source_part]` is reset, `_tmp_connectivity_decrease[source_part]` is not).  On
`staleHg` the call for the border node 2 (part 2) leaves `[0, 0, 1]`.  For hypernode 0 the
parts 0 and 2 both have gain 1 and `connectivity_decrease` 1: the call on the fresh refiner
returns the part 0, and the call after the one for hypernode 2, with the same hypergraph and
configuration, reads 2 in the entry of part 2 and returns the part 2. -/
theorem C22_connectivity_scratch_source_entry_stays :
    (∀ (r : MaxGainNodeKWayFMRefiner) (hn : HypernodeID) (p : PartitionID),
      r.hg.k ≤ r.tmp_gains.length → r.hg.k ≤ r.tmp_connectivity_decrease.length →
      (∀ x ∈ r.tmp_connectivity_decrease, x = 0) →
      getAt (computeMaxGain r hn).2.tmp_connectivity_decrease p =
        if p = r.hg.partID hn then connectivityDecrease r.hg hn (r.hg.partID hn) else 0) ∧
    (∀ x ∈ (init staleHg { k := 3, max_part_weight := 100 }).tmp_connectivity_decrease,
      x = 0) ∧
    isBorderNode staleHg 2 = true ∧ isBorderNode staleHg 0 = true ∧
    (computeMaxGain (init staleHg { k := 3, max_part_weight := 100 })
      2).2.tmp_connectivity_decrease = [0, 0, 1] ∧
    (computeMaxGain (init staleHg { k := 3, max_part_weight := 100 })
      2).2.tmp_gains = [0, 0, 0] ∧
    (computeMaxGain (init staleHg { k := 3, max_part_weight := 100 }) 2).2.hg = staleHg ∧
    (computeMaxGain (init staleHg { k := 3, max_part_weight := 100 }) 2).2.config =
      (init staleHg { k := 3, max_part_weight := 100 }).config ∧
    candidateParts staleHg 0 = [0, 2] ∧
    gainTo staleHg 0 0 = 1 ∧ gainTo staleHg 0 2 = 1 ∧
    connectivityDecrease staleHg 0 0 = 1 ∧ connectivityDecrease staleHg 0 2 = 1 ∧
    (computeMaxGain (init staleHg { k := 3, max_part_weight := 100 }) 0).1 = (1, 0) ∧
    (computeMaxGain
      (computeMaxGain (init staleHg { k := 3, max_part_weight := 100 }) 2).2 0).1 = (1, 2) := by
  refine ⟨fun r hn p h1 h2 hz => computeMaxGain_tmp_connectivity_decrease r hn h1 h2 hz p,
    by decide, by decide, by decide, by decide, by decide, by decide, by decide, by decide,
    by decide, by decide, by decide, by decide, by decide, by decide⟩

/-- Witness of C22: for hypernode 2 of `staleHg` the entry of its part 2 holds 1 when
`computeMaxGain` returns. -/
theorem C22_connectivity_scratch_source_entry_stays_witness :
    staleHg.partID 2 = 2 ∧ connectivityDecrease staleHg 2 2 = 1 ∧
    getAt (computeMaxGain (init staleHg { k := 3, max_part_weight := 100 })
      2).2.tmp_connectivity_decrease 2 =
      if (2 : PartitionID) = (init staleHg { k := 3, max_part_weight := 100 }).hg.partID 2 then
        connectivityDecrease (init staleHg { k := 3, max_part_weight := 100 }).hg 2
          ((init staleHg { k := 3, max_part_weight := 100 }).hg.partID 2)
      else 0 :=
  ⟨by decide, by decide,
    C22_connectivity_scratch_source_entry_stays.1
      (init staleHg { k := 3, max_part_weight := 100 }) 2 2 (by decide) (by decide)
      (by decide)⟩

/-- C24: the main loop of `refineImpl` terminates for every stopping policy.  For a refiner
in the state in which `refineImpl` may be called, any stopping policy (also one that never
signals stop), any random source and any `best_cut`, the loop ends after at most as many
iterations as there are hypernodes (`step` counts the iterations), in a state in which the
queue is empty or the policy signals stop; and every iteration that the loop makes takes a
hypernode out of the queue that was not marked and marks it, leaves every other mark as it
was, ends with no marked hypernode in the queue, and lowers the number of unmarked
hypernodes. -/
theorem C24_main_loop_terminates :
    (∀ {σ : Type} (P : StoppingPolicy σ) (rnd : Randomize) (fuel : Nat)
      (r : MaxGainNodeKWayFMRefiner) (policy : σ) (refinement_nodes : List HypernodeID)
      (num_refinement_nodes : Nat) (best_cut : HyperedgeWeight),
      Ready r → r.hg.initialNumNodes ≤ fuel →
      ∃ s : Search σ,
        searchLoop P rnd fuel
          (refineStart P rnd r policy refinement_nodes num_refinement_nodes best_cut) =
          some s ∧
        searchDone P s = true ∧ s.step ≤ r.hg.initialNumNodes) ∧
    (∀ {σ : Type} (P : StoppingPolicy σ) (rnd : Randomize) (s : Search σ),
      InSearch P rnd s → searchDone P s = false →
      ∃ s1, searchBody P rnd s = some s1 ∧
        s.r.pq.contains s.r.pq.max = true ∧
        s.r.marked.getD s.r.pq.max false = false ∧
        s1.r.marked = s.r.marked.set s.r.pq.max true ∧
        s1.r.marked.getD s.r.pq.max false = true ∧
        s1.r.pq.contains s.r.pq.max = false ∧
        (∀ p, s1.r.marked.getD p false = true → s1.r.pq.contains p = false) ∧
        s1.r.marked.count false < s.r.marked.count false ∧
        s1.step = s.step + 1) := by
  constructor
  · intro σ P rnd fuel r policy ns n c hr hf
    exact searchLoop_terminates P rnd fuel r policy ns n c hr hf
  · intro σ P rnd s h hnd
    exact searchBody_marks P rnd s h hnd

theorem C24_main_loop_terminates_witness :
    (∃ s : Search Unit,
      searchLoop neverStop headsOnly 4
        (refineStart neverStop headsOnly (init exampleHg { k := 2, max_part_weight := 100 }) ()
          [0, 1, 2, 3] 4 3) = some s ∧
      searchDone neverStop s = true ∧
      s.step ≤ (init exampleHg { k := 2, max_part_weight := 100 }).hg.initialNumNodes) ∧
    (∃ s1, searchBody neverStop headsOnly
        (refineStart neverStop headsOnly (init exampleHg { k := 2, max_part_weight := 100 }) ()
          [0, 1, 2, 3] 4 3) = some s1 ∧ s1.r.marked = [false, false, true, false]) :=
  ⟨C24_main_loop_terminates.1 neverStop headsOnly 4
      (init exampleHg { k := 2, max_part_weight := 100 }) () [0, 1, 2, 3] 4 3
      (by decide) (by decide),
    by
      obtain ⟨s1, h1, _, _, h4, _⟩ := C24_main_loop_terminates.2 neverStop headsOnly
        (refineStart neverStop headsOnly (init exampleHg { k := 2, max_part_weight := 100 }) ()
          [0, 1, 2, 3] 4 3)
        (InSearch.start (init exampleHg { k := 2, max_part_weight := 100 }) () [0, 1, 2, 3] 4 3
          (by decide))
        (by decide)
      exact ⟨s1, h1, h4.trans (by decide)⟩⟩

/-- C25: each hypernode moves at most once per refinement call.  For a refiner in the state
in which `refineImpl` may be called and any refinement nodes (in the model of the queue
`reInsert` replaces an entry, so the refinement nodes need not be pairwise distinct): in
every refiner state in which `activate` or `updatePin` is called during `refineImpl`, and at
the head of every iteration of the main loop, no marked hypernode is in the queue; and at
the head of every iteration no hypernode occurs twice in the move log, every hypernode of
the log is marked, and `num_moves` is at most the number of hypernodes, which is the
reserved capacity of `_performed_moves`. -/
theorem C25_each_hypernode_moves_once :
    (∀ {σ : Type} (P : StoppingPolicy σ) (rnd : Randomize) (fuel : Nat)
      (r : MaxGainNodeKWayFMRefiner) (policy : σ) (refinement_nodes : List HypernodeID)
      (num_refinement_nodes : Nat) (best_cut : HyperedgeWeight), Ready r →
      ∀ x ∈ pinUpdateStates P rnd fuel r policy refinement_nodes num_refinement_nodes
          best_cut,
        ∀ p, x.marked.getD p false = true → x.pq.contains p = false) ∧
    (∀ {σ : Type} (P : StoppingPolicy σ) (rnd : Randomize) (s : Search σ),
      InSearch P rnd s →
      (∀ p, s.r.marked.getD p false = true → s.r.pq.contains p = false) ∧
      ((s.r.performed_moves.take s.num_moves).map (fun m => m.hn)).Nodup ∧
      (∀ m ∈ s.r.performed_moves.take s.num_moves, s.r.marked.getD m.hn false = true) ∧
      s.num_moves ≤ s.r.hg.initialNumNodes ∧
      s.r.performed_moves.length = s.r.hg.initialNumNodes) := by
  constructor
  · intro σ P rnd fuel r policy ns n c hr
    exact pinUpdateStates_unmarked P rnd fuel r policy ns n c hr
  · intro σ P rnd s h
    exact inSearch_moves P rnd s h

theorem C25_each_hypernode_moves_once_witness :
    (pinUpdateStates neverStop headsOnly 10
      (init exampleHg { k := 2, max_part_weight := 100 }) () [0, 1, 2, 3] 4 3).length = 10 ∧
    (∀ x ∈ pinUpdateStates neverStop headsOnly 10
        (init exampleHg { k := 2, max_part_weight := 100 }) () [0, 1, 2, 3] 4 3,
      ∀ p, x.marked.getD p false = true → x.pq.contains p = false) ∧
    (((refineStart neverStop headsOnly (init exampleHg { k := 2, max_part_weight := 100 }) ()
        [0, 1, 2, 3] 4 3).r.performed_moves.take
      (refineStart neverStop headsOnly (init exampleHg { k := 2, max_part_weight := 100 }) ()
        [0, 1, 2, 3] 4 3).num_moves).map (fun m => m.hn)).Nodup :=
  ⟨by decide,
    C25_each_hypernode_moves_once.1 neverStop headsOnly 10
      (init exampleHg { k := 2, max_part_weight := 100 }) () [0, 1, 2, 3] 4 3 (by decide),
    (C25_each_hypernode_moves_once.2 neverStop headsOnly _
      (InSearch.start (init exampleHg { k := 2, max_part_weight := 100 }) () [0, 1, 2, 3] 4 3
        (by decide))).2.1⟩

/-- C26: refinement preserves balance.  For a refiner in the state in which `refineImpl` may
be called, on a hypergraph without negative hypernode weights: if every block is lighter
than `config.partition.max_part_weight` when `refineImpl` is entered, then `refineImpl`
returns, every block is lighter than `max_part_weight` in the hypergraph it leaves, after
the search and the rollback, and also after every move performed during the search. -/
theorem C26_refinement_preserves_balance {σ : Type} (P : StoppingPolicy σ) (rnd : Randomize)
    (fuel : Nat) (r : MaxGainNodeKWayFMRefiner) (policy : σ)
    (refinement_nodes : List HypernodeID) (num_refinement_nodes : Nat)
    (best_cut : HyperedgeWeight) (hr : Ready r) (hb : Balanced r.config r.hg)
    (hf : r.hg.initialNumNodes ≤ fuel) :
    ∃ (s : Search σ) (res : RefineResult σ),
      searchLoop P rnd fuel
        (refineStart P rnd r policy refinement_nodes num_refinement_nodes best_cut) = some s ∧
      refineImpl P rnd fuel r policy refinement_nodes num_refinement_nodes best_cut =
        some res ∧
      res.r.config = r.config ∧
      (∀ p : PartitionID, 0 ≤ p → p < (res.r.hg.k : Int) →
        res.r.hg.partWeight p < res.r.config.max_part_weight) ∧
      (∀ i, i ≤ s.num_moves →
        ∀ p : PartitionID, 0 ≤ p → p < (r.hg.k : Int) →
          (applyMoves r.hg ((s.r.performed_moves.take s.num_moves).take i)).partWeight p <
            r.config.max_part_weight) := by
  obtain ⟨s, res, h1, hinv, _, _, h5, h6, h7⟩ := loopInv_refineImpl P rnd (Balanced r.config)
    fuel r policy refinement_nodes num_refinement_nodes best_cut hr hb
    (moveKeeps_balanced r.config) hf
  have hcfg : res.r.config = r.config := by
    rw [h6]; exact hinv.config_eq
  refine ⟨s, res, h1, h5, hcfg, ?_, ?_⟩
  · rw [hcfg]; exact h7.2
  · intro i hi p hp0 hp1
    apply (hinv.prefixes i hi).2 p hp0
    rw [k_applyMoves]; exact hp1

theorem C26_refinement_preserves_balance_witness :
    Ready (init exampleHg { k := 2, max_part_weight := 3 }) ∧
    Balanced (init exampleHg { k := 2, max_part_weight := 3 }).config
      (init exampleHg { k := 2, max_part_weight := 3 }).hg ∧
    ∃ (s : Search Unit) (res : RefineResult Unit),
      searchLoop neverStop headsOnly 4
        (refineStart neverStop headsOnly (init exampleHg { k := 2, max_part_weight := 3 }) ()
          [0, 1, 2, 3] 4 3) = some s ∧
      refineImpl neverStop headsOnly 4 (init exampleHg { k := 2, max_part_weight := 3 }) ()
        [0, 1, 2, 3] 4 3 = some res ∧
      res.r.config = (init exampleHg { k := 2, max_part_weight := 3 }).config ∧
      (∀ p : PartitionID, 0 ≤ p → p < (res.r.hg.k : Int) →
        res.r.hg.partWeight p < res.r.config.max_part_weight) ∧
      (∀ i, i ≤ s.num_moves →
        ∀ p : PartitionID, 0 ≤ p →
          p < ((init exampleHg { k := 2, max_part_weight := 3 }).hg.k : Int) →
          (applyMoves (init exampleHg { k := 2, max_part_weight := 3 }).hg
            ((s.r.performed_moves.take s.num_moves).take i)).partWeight p <
            (init exampleHg { k := 2, max_part_weight := 3 }).config.max_part_weight) :=
  ⟨by decide, by decide,
    C26_refinement_preserves_balance neverStop headsOnly 4
      (init exampleHg { k := 2, max_part_weight := 3 }) () [0, 1, 2, 3] 4 3
      (by decide) (by decide) (by decide)⟩

/-- C27: refinement never empties a block.  For a refiner in the state in which `refineImpl`
may be called: if every block contains at least one hypernode when `refineImpl` is entered,
then `refineImpl` returns, every block contains at least one hypernode after every move
performed during the search, and every block contains at least one hypernode in the
hypergraph that `refineImpl` leaves after the rollback. -/
theorem C27_refinement_never_empties_a_block {σ : Type} (P : StoppingPolicy σ)
    (rnd : Randomize) (fuel : Nat) (r : MaxGainNodeKWayFMRefiner) (policy : σ)
    (refinement_nodes : List HypernodeID) (num_refinement_nodes : Nat)
    (best_cut : HyperedgeWeight) (hr : Ready r) (hb : NoEmptyPart r.hg)
    (hf : r.hg.initialNumNodes ≤ fuel) :
    ∃ (s : Search σ) (res : RefineResult σ),
      searchLoop P rnd fuel
        (refineStart P rnd r policy refinement_nodes num_refinement_nodes best_cut) = some s ∧
      refineImpl P rnd fuel r policy refinement_nodes num_refinement_nodes best_cut =
        some res ∧
      (∀ p : PartitionID, 0 ≤ p → p < (res.r.hg.k : Int) → 0 < res.r.hg.partSize p) ∧
      (∀ i, i ≤ s.num_moves →
        ∀ p : PartitionID, 0 ≤ p → p < (r.hg.k : Int) →
          0 < (applyMoves r.hg ((s.r.performed_moves.take s.num_moves).take i)).partSize p) := by
  obtain ⟨s, res, h1, hinv, _, _, h5, _, h7⟩ := loopInv_refineImpl P rnd NoEmptyPart
    fuel r policy refinement_nodes num_refinement_nodes best_cut hr hb
    (moveKeeps_noEmptyPart r.config) hf
  refine ⟨s, res, h1, h5, h7, ?_⟩
  intro i hi p hp0 hp1
  apply hinv.prefixes i hi p hp0
  rw [k_applyMoves]; exact hp1

theorem C27_refinement_never_empties_a_block_witness :
    Ready (init exampleHg { k := 2, max_part_weight := 100 }) ∧
    NoEmptyPart (init exampleHg { k := 2, max_part_weight := 100 }).hg ∧
    ∃ (s : Search Unit) (res : RefineResult Unit),
      searchLoop neverStop headsOnly 4
        (refineStart neverStop headsOnly (init exampleHg { k := 2, max_part_weight := 100 }) ()
          [0, 1, 2, 3] 4 3) = some s ∧
      refineImpl neverStop headsOnly 4 (init exampleHg { k := 2, max_part_weight := 100 }) ()
        [0, 1, 2, 3] 4 3 = some res ∧
      (∀ p : PartitionID, 0 ≤ p → p < (res.r.hg.k : Int) → 0 < res.r.hg.partSize p) ∧
      (∀ i, i ≤ s.num_moves →
        ∀ p : PartitionID, 0 ≤ p →
          p < ((init exampleHg { k := 2, max_part_weight := 100 }).hg.k : Int) →
          0 < (applyMoves (init exampleHg { k := 2, max_part_weight := 100 }).hg
            ((s.r.performed_moves.take s.num_moves).take i)).partSize p) :=
  ⟨by decide, by decide,
    C27_refinement_never_empties_a_block neverStop headsOnly 4
      (init exampleHg { k := 2, max_part_weight := 100 }) () [0, 1, 2, 3] 4 3
      (by decide) (by decide) (by decide)⟩

/-- C28: `resetStatistics` of `RandomWalkModelStopsSearch` is equivalent to a fresh policy.
For every state `p0` of the policy (every history of earlier updates), after
`resetStatistics` every sequence of `updateStatistics` calls leads to a state in which
`searchShouldStop` returns, for all its arguments, what it returns after the same calls on a
newly constructed policy; `searchShouldStop` does not change the state, so this covers the
answers in between.  The members `_Mk`, `_MkMinus1`, `_Sk` and `_SkMinus1`, which
`resetStatistics` does not clear, are written by `updateStatistics` before they are read. -/
theorem C28_reset_is_fresh (p0 : RandomWalkModelStopsSearch) (gs : List Gain) (a : Int)
    (config : Configuration) (beta : ℚ) (best_cut cut : HyperedgeWeight) :
    (gs.foldl RandomWalkModelStopsSearch.updateStatistics
        p0.resetStatistics).searchShouldStop a config beta best_cut cut =
      (gs.foldl RandomWalkModelStopsSearch.updateStatistics
        ({} : RandomWalkModelStopsSearch)).searchShouldStop a config beta best_cut cut := by
  exact randomWalk_reset_fresh p0 gs a config beta best_cut cut

/-- C29: the division in `nGPRandomWalkStopsSearch::searchShouldStop` is always defined.
For all integer values of `best_cut` and `cut` the divisor
`2 * (best_cut - cut)^2 - 1/2` of `searchShouldStop`, in exact arithmetic, is not zero: it is
-1/2 when `best_cut = cut` and at least 3/2 otherwise. -/
theorem C29_ngp_division_defined (p : nGPRandomWalkStopsSearch) (m : Int)
    (config : Configuration) (beta : ℚ) (best_cut cut : HyperedgeWeight) :
    p.searchShouldStop m config beta best_cut cut =
      decide ((m : ℚ) ≥ config.fm_local_search.alpha *
        ((p.sum_gains_squared * (m : ℚ)) / ngpDenominator best_cut cut + beta)) ∧
    ngpDenominator best_cut cut ≠ 0 ∧
    (best_cut = cut → ngpDenominator best_cut cut = -1 / 2) ∧
    (best_cut ≠ cut → 3 / 2 ≤ ngpDenominator best_cut cut) := by
  exact ⟨rfl, ngpDenominator_values best_cut cut⟩

theorem C29_ngp_division_defined_witness :
    ngpDenominator 5 5 = -1 / 2 ∧ 3 / 2 ≤ ngpDenominator 5 4 :=
  ⟨(C29_ngp_division_defined {} 0 { k := 2, max_part_weight := 1 } 0 5 5).2.2.1 rfl,
    (C29_ngp_division_defined {} 0 { k := 2, max_part_weight := 1 } 0 5 4).2.2.2 (by decide)⟩

/-- C23: for every hypergraph (its numbers of hypernodes and of hyperedges are 32-bit values),
the degree histogram built by the analyzer has a row for a value `d` exactly when some
hypernode has degree `d`, the count of that row is the number of hypernodes of degree `d`,
the rows are in strictly increasing order of `d`, and the counts sum to the number of
hypernodes; the same holds for the edge-size histogram with respect to the hyperedges and
their sizes. -/
theorem C23_analyzer_histograms (hg : Hypergraph)
    (hn : hg.initialNumNodes < 4294967296) (he : hg.initialNumEdges < 4294967296) :
    ((∀ d, (∃ c, (d, c) ∈ HypergraphAnalyzer.node_degrees hg) ↔
        ∃ v ∈ hg.nodes, hg.nodeDegree v = d) ∧
     (∀ d c, (d, c) ∈ HypergraphAnalyzer.node_degrees hg →
        c = (hg.nodes.filter (fun v => decide (hg.nodeDegree v = d))).length) ∧
     (HypergraphAnalyzer.node_degrees hg).Pairwise (fun a b => a.1 < b.1) ∧
     ((HypergraphAnalyzer.node_degrees hg).map Prod.snd).sum = hg.initialNumNodes) ∧
    ((∀ d, (∃ c, (d, c) ∈ HypergraphAnalyzer.edge_sizes hg) ↔
        ∃ e ∈ hg.edges, hg.edgeSize e = d) ∧
     (∀ d c, (d, c) ∈ HypergraphAnalyzer.edge_sizes hg →
        c = (hg.edges.filter (fun e => decide (hg.edgeSize e = d))).length) ∧
     (HypergraphAnalyzer.edge_sizes hg).Pairwise (fun a b => a.1 < b.1) ∧
     ((HypergraphAnalyzer.edge_sizes hg).map Prod.snd).sum = hg.initialNumEdges) :=
  analyzer_histograms hg hn he

/-- Witness of C23 on the hypergraph `io.weightedHg`, whose degree histogram is
`1, 2`, `2, 5` and whose edge-size histogram is `2, 1`, `3, 2`, `4, 1`. -/
theorem C23_analyzer_histograms_witness :
    HypergraphAnalyzer.node_degrees io.weightedHg = [(1, 2), (2, 5)] ∧
    HypergraphAnalyzer.edge_sizes io.weightedHg = [(2, 1), (3, 2), (4, 1)] ∧
    ((∀ d, (∃ c, (d, c) ∈ HypergraphAnalyzer.node_degrees io.weightedHg) ↔
        ∃ v ∈ io.weightedHg.nodes, io.weightedHg.nodeDegree v = d) ∧
     (∀ d c, (d, c) ∈ HypergraphAnalyzer.node_degrees io.weightedHg →
        c = (io.weightedHg.nodes.filter
          (fun v => decide (io.weightedHg.nodeDegree v = d))).length) ∧
     (HypergraphAnalyzer.node_degrees io.weightedHg).Pairwise (fun a b => a.1 < b.1) ∧
     ((HypergraphAnalyzer.node_degrees io.weightedHg).map Prod.snd).sum =
        io.weightedHg.initialNumNodes) ∧
    ((∀ d, (∃ c, (d, c) ∈ HypergraphAnalyzer.edge_sizes io.weightedHg) ↔
        ∃ e ∈ io.weightedHg.edges, io.weightedHg.edgeSize e = d) ∧
     (∀ d c, (d, c) ∈ HypergraphAnalyzer.edge_sizes io.weightedHg →
        c = (io.weightedHg.edges.filter
          (fun e => decide (io.weightedHg.edgeSize e = d))).length) ∧
     (HypergraphAnalyzer.edge_sizes io.weightedHg).Pairwise (fun a b => a.1 < b.1) ∧
     ((HypergraphAnalyzer.edge_sizes io.weightedHg).map Prod.snd).sum =
        io.weightedHg.initialNumEdges) :=
  ⟨by decide, by decide, C23_analyzer_histograms io.weightedHg (by decide) (by decide)⟩

/-- C30: the claim says that at every execution of `bq.deleteMax()` at the top of the loop
body of `bisectionPartitionImpl` the queue is non-empty and its maximum is the hypernode
`hn` that was just moved.  On `pairsHg` (three disjoint hyperedges of size two, at most
three hypernodes per part) the run ends after four iterations with the hypernodes 0, 1, 2 in
part 0, and the statement is executed three times: with the queue holding the hypernode 0
just moved, with the queue holding the hypernode 1 just moved, and, after the queue ran
empty and the hypernode 2 was taken from `getUnassignedNode(1)` without being pushed, with
the empty queue. -/
theorem C30_bisection_deleteMax_on_empty_queue :
    (GreedyHypergraphGrowingRoundRobinInitialPartitioner.bisectionPartitionImpl
        fmGrowingPolicies pairsConfig 4 pairsHg).map
      (fun st => (st.hg.part, st.bq, st.hn, st.calls)) =
      some ([0, 0, 0, 1, 1, 1], [(3, 1)], 3, 1) ∧
    GreedyHypergraphGrowingRoundRobinInitialPartitioner.deleteMaxStates
        fmGrowingPolicies pairsConfig 4
        (GreedyHypergraphGrowingRoundRobinInitialPartitioner.bisectionStart
          fmGrowingPolicies pairsHg) =
      [([(0, -1)], 0), ([(1, 1)], 1), ([], 2)] ∧
    ∃ e ∈ GreedyHypergraphGrowingRoundRobinInitialPartitioner.deleteMaxStates
        fmGrowingPolicies pairsConfig 4
        (GreedyHypergraphGrowingRoundRobinInitialPartitioner.bisectionStart
          fmGrowingPolicies pairsHg),
      BucketQueue.empty e.1 = true ∧ e.2 = 2 :=
  ⟨bisection_pairs_run, bisection_pairs_deleteMaxStates,
    ([], 2), by rw [bisection_pairs_deleteMaxStates]; simp, rfl, rfl⟩

/-- C31: no hypernode is assigned twice by the greedy round-robin growth.  For start nodes
that are hypernodes, in every state at the start of a round-robin step of
`kwayPartitionImpl` (in runs in which `getUnassignedNode`, when called, returns a hypernode
of the unassigned part 0), every hypernode contained in a part's queue has `partID` equal to
the unassigned part, and the queue of the unassigned part 0 is empty; in the step of an
enabled part `i` the queue `bq[i]` is not empty at `bq[i].getMax()` and the popped hypernode
is unassigned (the "should be unassigned" assertion holds), and the step leaves every
hypernode that is already assigned in its part. -/
theorem C31_no_hypernode_assigned_twice (P : GrowingPolicies) (config : Configuration)
    (hg : Hypergraph)
    (hstart : ∀ v ∈ P.calculateStartNodes (growStart P config hg).hg
      config.initial_partitioning.k, v < hg.part.length)
    (st : Growth) (hr : GrowReachable P config hg st) :
    (∀ (p : Nat) (v : HypernodeID), (st.bq.getD p []).contains v = true →
      st.hg.partID v = 0) ∧
    st.bq.getD 0 [] = [] ∧
    (∀ i, st.partEnable.getD i false = true →
      ((st.bq.getD i []).empty = true →
        st.hg.partID (P.getUnassignedNode st.calls st.hg 0) = 0) →
      ((refillQueue P 0 st i).getD i []).empty = false ∧
      st.hg.partID ((refillQueue P 0 st i).getD i []).getMax = 0 ∧
      ∀ v, st.hg.partID v ≠ 0 → (growStep P config 0 st i).hg.partID v = st.hg.partID v) :=
  grow_no_second_assignment P config hg hstart st hr

/-- Witness of C31 on `heavyHg` after the step of part 1 from the start state: hypernode 1
is assigned to part 1, the queues of parts 1 and 2 hold the unassigned hypernodes 0 and 2,
and the queue of part 0 is empty. -/
theorem C31_no_hypernode_assigned_twice_witness :
    (growStep fmGrowingPolicies heavyConfig 0
      (growStart fmGrowingPolicies heavyConfig heavyHg) 1).bq = [[], [(0, 0), (2, 0)], [(2, 0)]] ∧
    (growStep fmGrowingPolicies heavyConfig 0
      (growStart fmGrowingPolicies heavyConfig heavyHg) 1).hg.part = [0, 1, 0] ∧
    (∀ (p : Nat) (v : HypernodeID),
      ((growStep fmGrowingPolicies heavyConfig 0
        (growStart fmGrowingPolicies heavyConfig heavyHg) 1).bq.getD p []).contains v = true →
      (growStep fmGrowingPolicies heavyConfig 0
        (growStart fmGrowingPolicies heavyConfig heavyHg) 1).hg.partID v = 0) ∧
    (growStep fmGrowingPolicies heavyConfig 0
      (growStart fmGrowingPolicies heavyConfig heavyHg) 1).bq.getD 0 [] = [] :=
  ⟨by decide, by decide,
    (C31_no_hypernode_assigned_twice fmGrowingPolicies heavyConfig heavyHg (by decide) _
      (GrowReachable.step _ 1 GrowReachable.start (by decide)
        (fun _ h => absurd h (by decide)))).1,
    (C31_no_hypernode_assigned_twice fmGrowingPolicies heavyConfig heavyHg (by decide) _
      (GrowReachable.step _ 1 GrowReachable.start (by decide)
        (fun _ h => absurd h (by decide)))).2.1⟩
end KaHyPar
